import Mathlib

/-!
# txt2las and las2txt: line parsing, quantization, scan statistics, formatting

A shallow embedding of `tools/src/txt2las.cpp` and of the formatter and the
point output loop of `tools/src/las2txt.cpp`.

Conventions of the embedding.

* A C string is the list of its characters before the terminating NUL, so
  `l[0] == 0` is `l = []`.
* A `double` is a value of IEEE 754 binary64 (`F64`): not-a-number, an
  infinity or a finite number, every operation rounding its exact result to
  the nearest binary64 number.  The `float` scratch value of `parse`, which is
  only cast to an integer, is held as the rational number it denotes.
* `int` and `unsigned int` are integers with the 32-bit range made explicit
  (`castInt`, `wrapU32`).
* `sscanf` belongs to the C library, not to this repository.  `parse` takes the
  three conversions it uses (`%lf`, `%f`, `%d`) as a parameter `Scanf`;
  `cScanf` is a concrete instance for plain decimal notation.  In the same way
  the formatter of las2txt takes the conversion `%f` of `sprintf` as a
  parameter, with the concrete instance `cSprintf`.
* The input file is the list of the lines returned by successive `fgets`
  calls; the output of `LASwriter::write_point` is the list of the records it
  was handed.
-/

namespace Las2Txt

/-! ## Numbers -/

/-- Conversion of a fractional value to an integer discards the fractional
part (truncation toward zero). -/
def truncToZero (q : ℚ) : Int := if 0 ≤ q then ⌊q⌋ else ⌈q⌉

/-- Smallest value of a 32-bit `int`. -/
def INT_MIN : Int := -2147483648

/-- Largest value of a 32-bit `int`. -/
def INT_MAX : Int := 2147483647

/-- The integer is representable in a 32-bit signed `int`. -/
def fitsInt (n : Int) : Prop := INT_MIN ≤ n ∧ n ≤ INT_MAX

instance (n : Int) : Decidable (fitsInt n) := by
  unfold fitsInt
  exact inferInstance

/-- Arithmetic of `unsigned int`: reduction modulo `2^32`. -/
def wrapU32 (n : Int) : Nat := (n % 4294967296).toNat

/-- Two-complement reading of an integer as a 32-bit `int`. -/
def wrapInt32 (n : Int) : Int := (n + 2147483648) % 4294967296 - 2147483648

/-- Nearest integer of a rational, a tie going to the even neighbour. -/
def roundHalfEven (q : ℚ) : Int :=
  if q - ⌊q⌋ < 1 / 2 then ⌊q⌋
  else if q - ⌊q⌋ > 1 / 2 then ⌊q⌋ + 1
  else if ⌊q⌋ % 2 = 0 then ⌊q⌋ else ⌊q⌋ + 1

/-! ## The type `double`: IEEE 754 binary64

The program computes with `double`.  A value is not-a-number, an infinity, or
a finite number; every arithmetic operation delivers the exact result rounded
to the nearest number with a 53-bit significand and an exponent in the range of
binary64 (ties to even, gradual underflow, overflow to infinity).  The sign of
a zero is not represented: no comparison and no cast of the program observes
it (the conversion `%f` of las2txt would print it). -/

/-- The power `2^e` for an integer exponent. -/
def pow2 (e : Int) : ℚ :=
  if 0 ≤ e then ((2 ^ e.toNat : Nat) : ℚ) else 1 / ((2 ^ (-e).toNat : Nat) : ℚ)

/-- Number of halvings that bring `n` below 2; `fuel` bounds their number. -/
def log2Fuel : Nat → Nat → Nat
  | 0, _ => 0
  | fuel + 1, n => if n < 2 then 0 else log2Fuel fuel (n / 2) + 1

/-- The greatest `k` with `2^k ≤ n`, for `n > 0`. -/
def natLog2 (n : Nat) : Nat := log2Fuel n n

/-- The binary exponent of a rational other than 0: the greatest `e` with
`2^e ≤ |x|`. -/
def ilog2 (x : ℚ) : Int :=
  if pow2 ((natLog2 x.num.natAbs : Int) - (natLog2 x.den : Int)) ≤ |x|
  then (natLog2 x.num.natAbs : Int) - (natLog2 x.den : Int)
  else (natLog2 x.num.natAbs : Int) - (natLog2 x.den : Int) - 1

/-- The exponent of the unit in the last place of the binary64 numbers around
`x`: 52 below the exponent of `x`, and -1074 in the subnormal range. -/
def quantum (x : ℚ) : Int := max (ilog2 x - 52) (-1074)

/-- Rounding to the nearest multiple of the unit in the last place, a tie
going to the even significand (exponent not bounded above). -/
def roundBinary64 (x : ℚ) : ℚ :=
  if x = 0 then 0 else (roundHalfEven (x / pow2 (quantum x)) : ℚ) * pow2 (quantum x)

/-- A value of type `double`. -/
inductive F64 where
  | nan
  | inf (negative : Bool)
  | fin (value : ℚ)
deriving DecidableEq

/-- The `double` that an exact result is rounded to; a result that rounds to
`2^1024` or beyond in magnitude overflows to an infinity. -/
def F64.ofRat (x : ℚ) : F64 :=
  if pow2 1024 ≤ |roundBinary64 x| then F64.inf (decide (x < 0)) else F64.fin (roundBinary64 x)

/-- The conversion of an `int` to `double`, which is exact. -/
def F64.ofInt (n : Int) : F64 := F64.fin n

/-- The value is a number of binary64: rounding leaves it as it is. -/
def F64.IsDouble : F64 → Prop
  | F64.fin q => F64.ofRat q = F64.fin q
  | _ => True

instance (a : F64) : Decidable a.IsDouble := by
  cases a <;> unfold F64.IsDouble <;> exact inferInstance

/-- Unary minus. -/
def F64.neg : F64 → F64
  | F64.fin a => F64.fin (-a)
  | F64.inf s => F64.inf (!s)
  | F64.nan => F64.nan

/-- Addition of two `double`s. -/
def F64.add : F64 → F64 → F64
  | F64.fin a, F64.fin b => F64.ofRat (a + b)
  | F64.fin _, F64.inf s => F64.inf s
  | F64.inf s, F64.fin _ => F64.inf s
  | F64.inf s, F64.inf t => if s = t then F64.inf s else F64.nan
  | _, _ => F64.nan

/-- Subtraction of two `double`s. -/
def F64.sub (a b : F64) : F64 := F64.add a (F64.neg b)

/-- Multiplication of two `double`s. -/
def F64.mul : F64 → F64 → F64
  | F64.fin a, F64.fin b => F64.ofRat (a * b)
  | F64.fin a, F64.inf s => if a = 0 then F64.nan else F64.inf (s != decide (a < 0))
  | F64.inf s, F64.fin b => if b = 0 then F64.nan else F64.inf (s != decide (b < 0))
  | F64.inf s, F64.inf t => F64.inf (s != t)
  | _, _ => F64.nan

/-- Division of two `double`s; a finite number other than 0 divided by 0 is
the infinity with the sign of the dividend. -/
def F64.div : F64 → F64 → F64
  | F64.fin a, F64.fin b =>
    if b = 0 then (if a = 0 then F64.nan else F64.inf (decide (a < 0))) else F64.ofRat (a / b)
  | F64.fin _, F64.inf _ => F64.fin 0
  | F64.inf s, F64.fin b => F64.inf (s != decide (b < 0))
  | _, _ => F64.nan

/-- The comparison `a < b` of two `double`s; false when one is not-a-number. -/
def F64.lt : F64 → F64 → Bool
  | F64.fin a, F64.fin b => decide (a < b)
  | F64.fin _, F64.inf s => !s
  | F64.inf s, F64.fin _ => s
  | F64.inf s, F64.inf t => s && !t
  | _, _ => false

/-- The comparison `a <= b` of two `double`s; false when one is
not-a-number. -/
def F64.le : F64 → F64 → Bool
  | F64.fin a, F64.fin b => decide (a ≤ b)
  | F64.fin _, F64.inf s => !s
  | F64.inf s, F64.fin _ => s
  | F64.inf s, F64.inf t => s || !t
  | _, _ => false

instance (n : Nat) : OfNat F64 n := ⟨F64.fin n⟩

instance : OfScientific F64 := ⟨fun m s e => F64.ofRat (OfScientific.ofScientific m s e)⟩

instance : Neg F64 := ⟨F64.neg⟩

instance : Add F64 := ⟨F64.add⟩

instance : Sub F64 := ⟨F64.sub⟩

instance : Mul F64 := ⟨F64.mul⟩

instance : Div F64 := ⟨F64.div⟩

instance : LT F64 := ⟨fun a b => F64.lt a b = true⟩

instance : LE F64 := ⟨fun a b => F64.le a b = true⟩

instance (a b : F64) : Decidable (a < b) := by
  show Decidable (F64.lt a b = true)
  exact inferInstance

instance (a b : F64) : Decidable (a ≤ b) := by
  show Decidable (F64.le a b = true)
  exact inferInstance

/-- The cast `(int)d` of a double: truncation toward zero when the truncated
value is representable.  For a value outside the range of `int`, an infinity
or not-a-number the C++ conversion is undefined; the embedding returns
`INT_MIN`, the value the x86 conversion instruction delivers. -/
def castInt : F64 → Int
  | F64.fin q => if fitsInt (truncToZero q) then truncToZero q else INT_MIN
  | _ => INT_MIN

/-- The cast `(int)d` is defined: the value is finite and its integer part is
in the range of `int`. -/
def F64.InIntRange : F64 → Prop
  | F64.fin q => fitsInt (truncToZero q)
  | _ => False

instance (a : F64) : Decidable a.InIntRange := by
  cases a <;> unfold F64.InIntRange <;> exact inferInstance

/-- The value is a finite number. -/
def F64.IsFinite : F64 → Prop
  | F64.fin _ => True
  | _ => False

instance (a : F64) : Decidable a.IsFinite := by
  cases a <;> unfold F64.IsFinite <;> exact inferInstance

/-- The value is a finite number greater than 0. -/
def F64.IsPositive : F64 → Prop
  | F64.fin q => 0 < q
  | _ => False

instance (a : F64) : Decidable a.IsPositive := by
  cases a <;> unfold F64.IsPositive <;> exact inferInstance

/-! ## Quantization (txt2las.cpp 729-740, 901-912, 945-956, 585-604, 985-998) -/

/-- The rule of the record-writing code for one axis:
`if (v > offset) q = (int)(0.5 + (v - offset) / scale);`
`else q = (int)(-0.5 + (v - offset) / scale);` -/
def quantize (v offset scale : F64) : Int :=
  if v > offset then castInt (0.5 + (v - offset) / scale)
  else castInt (-0.5 + (v - offset) / scale)

/-- The `double` that the rule of the record-writing code hands to the cast:
`0.5 + (v - offset) / scale` or `-0.5 + (v - offset) / scale`. -/
def quantizeSum (v offset scale : F64) : F64 :=
  if v > offset then 0.5 + (v - offset) / scale else -0.5 + (v - offset) / scale

/-- The inverse transform `offset + (q * scale)` (lines 602-603, 996-997). -/
def dequantize (q : Int) (offset scale : F64) : F64 := offset + (F64.ofInt q * scale)

/-- The rule of the single-pass bounding box (lines 987-988), which adds `0.5`
whatever the side of the offset the value lies on:
`(int)(0.5 + (v - offset) / scale)`. -/
def quantizeBox (v offset scale : F64) : Int :=
  castInt (0.5 + (v - offset) / scale)

/-- Sign of a rational as an integer. -/
def sgn (x : ℚ) : Int := if 0 < x then 1 else if x < 0 then -1 else 0

/-- Round half away from zero, written after the words of the specification:
`sign(x) * floor(|x| + 1/2)`. -/
def roundHalfAway (x : ℚ) : Int := sgn x * ⌊|x| + 1 / 2⌋

/-- The macro `log_xor`, `(a) !=0==! (b)`, on two comparison results: it parses
as `(a != 0) == (!b)`. -/
def log_xor (a b : Bool) : Bool := (a != false) == (!b)

/-! ## Data -/

/-- A `double[3]`. -/
structure Vec3 where
  c0 : F64
  c1 : F64
  c2 : F64
deriving DecidableEq

/-- An `int[3]`. -/
structure Int3 where
  c0 : Int
  c1 : Int
  c2 : Int
deriving DecidableEq

/-- Component `i` of a `double[3]`. -/
def Vec3.get (v : Vec3) (i : Fin 3) : F64 :=
  match i with
  | 0 => v.c0
  | 1 => v.c1
  | 2 => v.c2

/-- Modelled from the spec: the class `LASpoint`, declared in a header that is
not among the sources.  The members are those `parse` and `main` assign, under
the names used there: three 32-bit quantized coordinates and the fixed-layout
attribute set (intensity, scan angle, return number, number of returns,
classification, user data, point source ID, two flags). -/
structure LASpoint where
  x : Int
  y : Int
  z : Int
  intensity : Nat
  return_number : Nat
  number_of_returns_of_given_pulse : Nat
  scan_direction_flag : Nat
  edge_of_flight_line : Nat
  classification : Nat
  scan_angle_rank : Int
  user_data : Nat
  point_source_ID : Nat
deriving DecidableEq

/-- The variables of `main` that `parse` receives by pointer: `xyz`, `point`,
`gps_time` and `rgb`. -/
structure Vars where
  xyz : Vec3
  point : LASpoint
  gps_time : F64
  rgb0 : Nat
  rgb1 : Nat
  rgb2 : Nat
deriving DecidableEq

/-- Modelled from the spec: the external binary writer (class `LASwriter`, not
among the sources) receives the records one by one in call order.  This is
the content of one call `laswriter->write_point(&point, gps_time, rgb)`. -/
structure Written where
  point : LASpoint
  gps_time : F64
  rgb0 : Nat
  rgb1 : Nat
  rgb2 : Nat
deriving DecidableEq

/-- The three `sscanf` conversions used by `parse`.  Each returns the converted
value when `sscanf` returns 1 and `none` otherwise. -/
structure Scanf where
  lf : List Char → Option F64
  f : List Char → Option ℚ
  d : List Char → Option Int

/-! ## parse (txt2las.cpp 113-268) -/

/-- The loop `while (l[0] && (l[0] == ' ' || l[0] == ',' || l[0] == '\t')) l++;` -/
def skipWhite : List Char → List Char
  | [] => []
  | c :: cs => if c = ' ' ∨ c = ',' ∨ c = '\t' then skipWhite cs else c :: cs

/-- The loop `while (l[0] && l[0] != ' ' && l[0] != ',' && l[0] != '\t') l++;` -/
def advance : List Char → List Char
  | [] => []
  | c :: cs => if c ≠ ' ' ∧ c ≠ ',' ∧ c ≠ '\t' then advance cs else c :: cs

/-- The pattern shared by every branch of `parse` that expects a token:
skip white space, `return false` on an exhausted line, convert (a failed
conversion is `return false`), store, advance to the next white space. -/
def expect {α : Type} (l : List Char) (scan : List Char → Option α)
    (store : α → Vars) : Option (List Char × Vars) :=
  if skipWhite l = [] then none
  else
    match scan (skipWhite l) with
    | none => none
    | some v => some (advance (skipWhite l), store v)

/-- The cast `(unsigned short)temp_f`. -/
def castU16 (q : ℚ) : Nat := (truncToZero q % 65536).toNat

/-- The cast `(char)temp_f` (a signed 8-bit value). -/
def castI8 (q : ℚ) : Int := (truncToZero q + 128) % 256 - 128

/-- One iteration of the `while (p[0])` loop of `parse` for the symbol `p`:
`none` is `return false`, otherwise the advanced line pointer and the updated
variables.  The final `else` only prints an error message. -/
def parseField (sc : Scanf) (p : Char) (l : List Char) (s : Vars) :
    Option (List Char × Vars) :=
  if p = 'x' then expect l sc.lf (fun v => { s with xyz := { s.xyz with c0 := v } })
  else if p = 'y' then expect l sc.lf (fun v => { s with xyz := { s.xyz with c1 := v } })
  else if p = 'z' then expect l sc.lf (fun v => { s with xyz := { s.xyz with c2 := v } })
  else if p = 's' then expect l (fun _ => some ()) (fun _ => s)
  else if p = 'i' then
    expect l sc.f (fun v => { s with point := { s.point with intensity := castU16 v } })
  else if p = 'a' then
    expect l sc.f (fun v => { s with point := { s.point with scan_angle_rank := castI8 v } })
  else if p = 'n' then
    expect l sc.d (fun v => { s with point :=
      { s.point with number_of_returns_of_given_pulse := (v % 8).toNat } })
  else if p = 'r' then
    expect l sc.d (fun v => { s with point := { s.point with return_number := (v % 8).toNat } })
  else if p = 'c' then
    expect l sc.d (fun v => { s with point := { s.point with classification := (v % 256).toNat } })
  else if p = 'u' then
    expect l sc.d (fun v => { s with point := { s.point with user_data := (v % 256).toNat } })
  else if p = 'p' then
    expect l sc.d (fun v => { s with point :=
      { s.point with point_source_ID := (v % 65536).toNat } })
  else if p = 'e' then
    expect l sc.d (fun v => { s with point :=
      { s.point with edge_of_flight_line := if v ≠ 0 then 1 else 0 } })
  else if p = 'd' then
    expect l sc.d (fun v => { s with point :=
      { s.point with scan_direction_flag := if v ≠ 0 then 1 else 0 } })
  else if p = 't' then expect l sc.lf (fun v => { s with gps_time := v })
  else if p = 'R' then expect l sc.d (fun v => { s with rgb0 := (v % 65536).toNat })
  else if p = 'G' then expect l sc.d (fun v => { s with rgb1 := (v % 65536).toNat })
  else if p = 'B' then expect l sc.d (fun v => { s with rgb2 := (v % 65536).toNat })
  else some (l, s)

/-- The function `parse(parse_string, line, xyz, point, gps_time, rgb)`: the
returned flag and the variables as the call leaves them (a failing call keeps
what earlier fields of the line already stored). -/
def parse (sc : Scanf) : List Char → List Char → Vars → Bool × Vars
  | [], _, s => (true, s)
  | p :: ps, l, s =>
    match parseField sc p l s with
    | none => (false, s)
    | some (l1, s1) => parse sc ps l1 s1

/-! ## Variables of `main` and the scan loops -/

/-- The mutable variables of `main` that the scan loops read and write, and
the records handed to the writer so far. -/
structure Main where
  vars : Vars
  xyz_min : Vec3
  xyz_max : Vec3
  number_of_point_records : Nat
  number_of_points_by_return : List Nat
  written : List Written

/-- The state of `main` when a scan starts: `number_of_point_records = 0`,
`number_of_points_by_return = {0,0,0,0,0,0,0,0}`, nothing written.  The
variables `xyz`, `point`, `gps_time`, `rgb` and the bounding box have no
initialiser in `main`; their starting values are the arguments. -/
def Main.start (vars : Vars) (xyz_min xyz_max : Vec3) : Main :=
  { vars := vars, xyz_min := xyz_min, xyz_max := xyz_max,
    number_of_point_records := 0,
    number_of_points_by_return := [0, 0, 0, 0, 0, 0, 0, 0],
    written := [] }

/-- One axis of `VecUpdateMinMax3dv`:
`if (v<min) min=v; else if (v>max) max=v;` returning the new `(min, max)`. -/
def updateMinMax (min max v : F64) : F64 × F64 :=
  if v < min then (v, max) else if v > max then (min, v) else (min, max)

/-- The function `VecUpdateMinMax3dv(min, max, v)` (lines 99-104). -/
def VecUpdateMinMax3dv (min max v : Vec3) : Vec3 × Vec3 :=
  ({ c0 := (updateMinMax min.c0 max.c0 v.c0).1,
     c1 := (updateMinMax min.c1 max.c1 v.c1).1,
     c2 := (updateMinMax min.c2 max.c2 v.c2).1 },
   { c0 := (updateMinMax min.c0 max.c0 v.c0).2,
     c1 := (updateMinMax min.c1 max.c1 v.c1).2,
     c2 := (updateMinMax min.c2 max.c2 v.c2).2 })

/-- The statement `number_of_points_by_return[k]++` on an array of
`unsigned int`. -/
def bump (hist : List Nat) (k : Nat) : List Nat :=
  hist.set k (wrapU32 ((hist.getD k 0 : Nat) + 1))

/-- The block that computes the quantized x, y and z of a record.  It occurs
three times with the same text: second pass (729-740), first record of the
single pass (901-912), later records of the single pass (945-956). -/
def quantizeXYZ (xyz xyz_offset xyz_scale : Vec3) (point : LASpoint) : LASpoint :=
  { point with
    x := if xyz.c0 > xyz_offset.c0 then castInt (0.5 + (xyz.c0 - xyz_offset.c0) / xyz_scale.c0)
         else castInt (-0.5 + (xyz.c0 - xyz_offset.c0) / xyz_scale.c0),
    y := if xyz.c1 > xyz_offset.c1 then castInt (0.5 + (xyz.c1 - xyz_offset.c1) / xyz_scale.c1)
         else castInt (-0.5 + (xyz.c1 - xyz_offset.c1) / xyz_scale.c1),
    z := if xyz.c2 > xyz_offset.c2 then castInt (0.5 + (xyz.c2 - xyz_offset.c2) / xyz_scale.c2)
         else castInt (-0.5 + (xyz.c2 - xyz_offset.c2) / xyz_scale.c2) }

/-- The record passed by `laswriter->write_point(&point, gps_time, rgb)`. -/
def Vars.record (v : Vars) : Written :=
  { point := v.point, gps_time := v.gps_time, rgb0 := v.rgb0, rgb1 := v.rgb1, rgb2 := v.rgb2 }

/-- Body of the loop that looks for the first line of the first pass
(521-539).  The flag is the result of `parse`; `true` leaves the loop. -/
def firstPassHead (sc : Scanf) (parse_less : List Char) (m : Main) (line : List Char) :
    Bool × Main :=
  match parse sc parse_less line m.vars with
  | (true, v) =>
    (true, { m with
      vars := v, xyz_min := v.xyz, xyz_max := v.xyz,
      number_of_point_records := 1,
      number_of_points_by_return := bump m.number_of_points_by_return v.point.return_number })
  | (false, v) => (false, { m with vars := v })

/-- Body of the loop over the remaining lines of the first pass (551-566). -/
def firstPassRest (sc : Scanf) (parse_less : List Char) (m : Main) (line : List Char) :
    Bool × Main :=
  match parse sc parse_less line m.vars with
  | (true, v) =>
    (true, { m with
      vars := v,
      xyz_min := (VecUpdateMinMax3dv m.xyz_min m.xyz_max v.xyz).1,
      xyz_max := (VecUpdateMinMax3dv m.xyz_min m.xyz_max v.xyz).2,
      number_of_point_records := wrapU32 ((m.number_of_point_records : Int) + 1),
      number_of_points_by_return := bump m.number_of_points_by_return v.point.return_number })
  | (false, v) => (false, { m with vars := v })

/-- Body of the second-pass loop (725-748): quantize, write, and decrement the
record counter. -/
def secondPassBody (sc : Scanf) (parse_string : List Char) (xyz_offset xyz_scale : Vec3)
    (m : Main) (line : List Char) : Bool × Main :=
  match parse sc parse_string line m.vars with
  | (true, v) =>
    let w : Vars := { v with point := quantizeXYZ v.xyz xyz_offset xyz_scale v.point }
    (true, { m with
      vars := w,
      written := m.written ++ [w.record],
      number_of_point_records := wrapU32 ((m.number_of_point_records : Int) - 1) })
  | (false, v) => (false, { m with vars := v })

/-- Body of the loop that looks for the first line of the single pass
(889-922). -/
def singlePassHead (sc : Scanf) (parse_string : List Char) (xyz_offset xyz_scale : Vec3)
    (m : Main) (line : List Char) : Bool × Main :=
  match parse sc parse_string line m.vars with
  | (true, v) =>
    let w : Vars := { v with point := quantizeXYZ v.xyz xyz_offset xyz_scale v.point }
    (true, { m with
      vars := w, xyz_min := v.xyz, xyz_max := v.xyz,
      number_of_point_records := 1,
      number_of_points_by_return := bump m.number_of_points_by_return v.point.return_number,
      written := m.written ++ [w.record] })
  | (false, v) => (false, { m with vars := v })

/-- Body of the loop over the remaining lines of the single pass (934-964). -/
def singlePassRest (sc : Scanf) (parse_string : List Char) (xyz_offset xyz_scale : Vec3)
    (m : Main) (line : List Char) : Bool × Main :=
  match parse sc parse_string line m.vars with
  | (true, v) =>
    let w : Vars := { v with point := quantizeXYZ v.xyz xyz_offset xyz_scale v.point }
    (true, { m with
      vars := w,
      xyz_min := (VecUpdateMinMax3dv m.xyz_min m.xyz_max v.xyz).1,
      xyz_max := (VecUpdateMinMax3dv m.xyz_min m.xyz_max v.xyz).2,
      number_of_point_records := wrapU32 ((m.number_of_point_records : Int) + 1),
      number_of_points_by_return := bump m.number_of_points_by_return v.point.return_number,
      written := m.written ++ [w.record] })
  | (false, v) => (false, { m with vars := v })

/-- A loop `while (fgets(...)) { if (parse(...)) { ...; break; } else ... }`:
runs the body line by line until it reports success; returns the state and
the lines not yet read. -/
def untilFirst (body : Main → List Char → Bool × Main) :
    List (List Char) → Main → Main × List (List Char)
  | [], m => (m, [])
  | line :: rest, m =>
    match body m line with
    | (true, m1) => (m1, rest)
    | (false, m1) => untilFirst body rest m1

/-- A loop `while (fgets(...)) { if (parse(...)) ... else ... }` over all the
lines that are left. -/
def forEachLine (body : Main → List Char → Bool × Main) :
    List (List Char) → Main → Main
  | [], m => m
  | line :: rest, m => forEachLine body rest (body m line).2

/-- How a run of `main` ends. -/
inductive Outcome (α : Type) where
  | undefined : Outcome α
  | exit : Outcome α
  | done : α → Outcome α

/-! ## Single pass (output to a file, txt2las.cpp 764-1052) -/

/-- The scan of the single pass: first-line loop, the test
`if (number_of_point_records != 1) exit(1)`, loop over the remaining lines. -/
def singlePassScan (sc : Scanf) (parse_string : List Char) (xyz_offset xyz_scale : Vec3)
    (lines : List (List Char)) (m : Main) : Outcome Main :=
  match untilFirst (singlePassHead sc parse_string xyz_offset xyz_scale) lines m with
  | (m1, rest) =>
    if m1.number_of_point_records ≠ 1 then Outcome.exit
    else Outcome.done (forEachLine (singlePassRest sc parse_string xyz_offset xyz_scale) rest m1)

/-- Quantized bounding box of the single pass (985-989). -/
def singleMinQuant (m : Main) (xyz_offset xyz_scale : Vec3) : Int3 :=
  { c0 := castInt (0.5 + (m.xyz_min.c0 - xyz_offset.c0) / xyz_scale.c0),
    c1 := castInt (0.5 + (m.xyz_min.c1 - xyz_offset.c1) / xyz_scale.c1),
    c2 := castInt (0.5 + (m.xyz_min.c2 - xyz_offset.c2) / xyz_scale.c2) }

/-- Quantized bounding box of the single pass (985-989). -/
def singleMaxQuant (m : Main) (xyz_offset xyz_scale : Vec3) : Int3 :=
  { c0 := castInt (0.5 + (m.xyz_max.c0 - xyz_offset.c0) / xyz_scale.c0),
    c1 := castInt (0.5 + (m.xyz_max.c1 - xyz_offset.c1) / xyz_scale.c1),
    c2 := castInt (0.5 + (m.xyz_max.c2 - xyz_offset.c2) / xyz_scale.c2) }

/-- The loop `x_dequant[i] = xyz_offset[i] + (x_quant[i] * xyz_scale[i])`
(600-604 and 994-998). -/
def dequant3 (q : Int3) (xyz_offset xyz_scale : Vec3) : Vec3 :=
  { c0 := xyz_offset.c0 + (F64.ofInt q.c0 * xyz_scale.c0),
    c1 := xyz_offset.c1 + (F64.ofInt q.c1 * xyz_scale.c1),
    c2 := xyz_offset.c2 + (F64.ofInt q.c2 * xyz_scale.c2) }

/-- What the single pass knows once the scan is over and writes into the file
at offsets 107, 111 and 179: the counters and the dequantized bounding box. -/
structure Patch where
  number_of_point_records : Nat
  number_of_points_by_return : List Nat
  xyz_min_dequant : Vec3
  xyz_max_dequant : Vec3
  written : List Written
deriving DecidableEq

/-- The single pass from the first `fgets` to the values of the header patch. -/
def singlePass (sc : Scanf) (parse_string : List Char) (xyz_offset xyz_scale : Vec3)
    (lines : List (List Char)) (m : Main) : Outcome Patch :=
  match singlePassScan sc parse_string xyz_offset xyz_scale lines m with
  | Outcome.undefined => Outcome.undefined
  | Outcome.exit => Outcome.exit
  | Outcome.done m1 =>
    Outcome.done
      { number_of_point_records := m1.number_of_point_records,
        number_of_points_by_return := m1.number_of_points_by_return,
        xyz_min_dequant := dequant3 (singleMinQuant m1 xyz_offset xyz_scale) xyz_offset xyz_scale,
        xyz_max_dequant := dequant3 (singleMaxQuant m1 xyz_offset xyz_scale) xyz_offset xyz_scale,
        written := m1.written }

/-! ## Two passes (output to a pipe, txt2las.cpp 466-763) -/

/-- The first loop of the construction of `parse_less` (498-504): every symbol
other than `x`, `y`, `z`, `r` becomes `s`. -/
def lessSymbol (c : Char) : Char :=
  if c ≠ 'x' ∧ c ≠ 'y' ∧ c ≠ 'z' ∧ c ≠ 'r' then 's' else c

/-- The loop `do { parse_less[i] = '\0'; i--; } while (parse_less[i] == 's');`
(505-509) entered with index `i`: the resulting string, or `none` when the
loop condition reads `parse_less[-1]`. -/
def trimLess (buf : List Char) : Nat → Option (List Char)
  | 0 => none
  | j + 1 => if buf.get? j = some 's' then trimLess buf j else some (buf.take (j + 1))

/-- The reduced parse string `parse_less` built from `parse_string` (497-509). -/
def parseLess (parse_string : List Char) : Option (List Char) :=
  trimLess (parse_string.map lessSymbol) parse_string.length

/-- Modelled from the spec: the class `LASheader`, declared in a header that is
not among the sources.  The members are those `main` fills from the scan and
the parse string, under the names used there. -/
structure LASheader where
  point_data_format : Nat
  point_data_record_length : Nat
  number_of_point_records : Nat
  x_scale_factor : F64
  y_scale_factor : F64
  z_scale_factor : F64
  x_offset : F64
  y_offset : F64
  z_offset : F64
  min_x : F64
  min_y : F64
  min_z : F64
  max_x : F64
  max_y : F64
  max_z : F64
  number_of_points_by_return : List Nat
deriving DecidableEq

/-- The selection of the point format (638-663 and 828-853); `strstr` of a
one-character string is membership. -/
def pointDataFormat (parse_string : List Char) : Nat × Nat :=
  if 't' ∈ parse_string then
    if 'R' ∈ parse_string ∨ 'G' ∈ parse_string ∨ 'B' ∈ parse_string then (3, 34) else (1, 28)
  else
    if 'R' ∈ parse_string ∨ 'G' ∈ parse_string ∨ 'B' ∈ parse_string then (2, 26) else (0, 20)

/-- Quantized minimum of the two-pass bounding box (585-595). -/
def twoMinQuant (m : Main) (xyz_offset xyz_scale : Vec3) : Int3 :=
  { c0 := if m.xyz_min.c0 > xyz_offset.c0
          then castInt (0.5 + (m.xyz_min.c0 - xyz_offset.c0) / xyz_scale.c0)
          else castInt (-0.5 + (m.xyz_min.c0 - xyz_offset.c0) / xyz_scale.c0),
    c1 := if m.xyz_min.c1 > xyz_offset.c1
          then castInt (0.5 + (m.xyz_min.c1 - xyz_offset.c1) / xyz_scale.c1)
          else castInt (-0.5 + (m.xyz_min.c1 - xyz_offset.c1) / xyz_scale.c1),
    c2 := if m.xyz_min.c2 > xyz_offset.c2
          then castInt (0.5 + (m.xyz_min.c2 - xyz_offset.c2) / xyz_scale.c2)
          else castInt (-0.5 + (m.xyz_min.c2 - xyz_offset.c2) / xyz_scale.c2) }

/-- Quantized maximum of the two-pass bounding box (585-595). -/
def twoMaxQuant (m : Main) (xyz_offset xyz_scale : Vec3) : Int3 :=
  { c0 := if m.xyz_max.c0 > xyz_offset.c0
          then castInt (0.5 + (m.xyz_max.c0 - xyz_offset.c0) / xyz_scale.c0)
          else castInt (-0.5 + (m.xyz_max.c0 - xyz_offset.c0) / xyz_scale.c0),
    c1 := if m.xyz_max.c1 > xyz_offset.c1
          then castInt (0.5 + (m.xyz_max.c1 - xyz_offset.c1) / xyz_scale.c1)
          else castInt (-0.5 + (m.xyz_max.c1 - xyz_offset.c1) / xyz_scale.c1),
    c2 := if m.xyz_max.c2 > xyz_offset.c2
          then castInt (0.5 + (m.xyz_max.c2 - xyz_offset.c2) / xyz_scale.c2)
          else castInt (-0.5 + (m.xyz_max.c2 - xyz_offset.c2) / xyz_scale.c2) }

/-- The header populated after the first pass (626-683). -/
def twoPassHeader (parse_string : List Char) (xyz_offset xyz_scale : Vec3) (m : Main) :
    LASheader :=
  { point_data_format := (pointDataFormat parse_string).1,
    point_data_record_length := (pointDataFormat parse_string).2,
    number_of_point_records := m.number_of_point_records,
    x_scale_factor := xyz_scale.c0,
    y_scale_factor := xyz_scale.c1,
    z_scale_factor := xyz_scale.c2,
    x_offset := xyz_offset.c0,
    y_offset := xyz_offset.c1,
    z_offset := xyz_offset.c2,
    min_x := (dequant3 (twoMinQuant m xyz_offset xyz_scale) xyz_offset xyz_scale).c0,
    min_y := (dequant3 (twoMinQuant m xyz_offset xyz_scale) xyz_offset xyz_scale).c1,
    min_z := (dequant3 (twoMinQuant m xyz_offset xyz_scale) xyz_offset xyz_scale).c2,
    max_x := (dequant3 (twoMaxQuant m xyz_offset xyz_scale) xyz_offset xyz_scale).c0,
    max_y := (dequant3 (twoMaxQuant m xyz_offset xyz_scale) xyz_offset xyz_scale).c1,
    max_z := (dequant3 (twoMaxQuant m xyz_offset xyz_scale) xyz_offset xyz_scale).c2,
    number_of_points_by_return :=
      [m.number_of_points_by_return.getD 1 0, m.number_of_points_by_return.getD 2 0,
       m.number_of_points_by_return.getD 3 0, m.number_of_points_by_return.getD 4 0,
       m.number_of_points_by_return.getD 5 0] }

/-- The scan of the first pass with the reduced parse string: first-line loop,
the test `if (number_of_point_records != 1) exit(1)`, remaining lines. -/
def firstPassScan (sc : Scanf) (parse_less : List Char) (lines : List (List Char))
    (m : Main) : Outcome Main :=
  match untilFirst (firstPassHead sc parse_less) lines m with
  | (m1, rest) =>
    if m1.number_of_point_records ≠ 1 then Outcome.exit
    else Outcome.done (forEachLine (firstPassRest sc parse_less) rest m1)

/-- What the two-pass run hands over: the header the writer was opened with,
the records written, and whether the warning
`second pass has different number of points` was printed. -/
structure TwoPass where
  header : LASheader
  written : List Written
  mismatch_warning : Bool

/-- The two-pass run: build `parse_less`, first pass, header, second pass over
the same lines with the full parse string, counter test (750-753). -/
def twoPass (sc : Scanf) (parse_string : List Char) (xyz_offset xyz_scale : Vec3)
    (lines : List (List Char)) (m : Main) : Outcome TwoPass :=
  match parseLess parse_string with
  | none => Outcome.undefined
  | some parse_less =>
    match firstPassScan sc parse_less lines m with
    | Outcome.undefined => Outcome.undefined
    | Outcome.exit => Outcome.exit
    | Outcome.done m1 =>
      let m2 := forEachLine (secondPassBody sc parse_string xyz_offset xyz_scale) lines m1
      Outcome.done
        { header := twoPassHeader parse_string xyz_offset xyz_scale m1,
          written := m2.written,
          mismatch_warning := decide (m2.number_of_point_records ≠ 0) }

/-- The point records a run handed to the writer; a run that stops at
`exit(1)` after the first-line loop has written none. -/
def writtenBySingle (o : Outcome Patch) : List Written :=
  match o with
  | Outcome.done p => p.written
  | _ => []

/-- The point records a two-pass run handed to the writer. -/
def writtenByTwo (o : Outcome TwoPass) : List Written :=
  match o with
  | Outcome.done p => p.written
  | _ => []

/-! ## A concrete `sscanf` for plain decimal notation -/

/-- The white space that `sscanf` skips before a numeric conversion. -/
def isspace (c : Char) : Bool :=
  c = ' ' ∨ c = '\t' ∨ c = '\n' ∨ c = Char.ofNat 11 ∨ c = Char.ofNat 12 ∨ c = '\r'

/-- Value of a run of decimal digits. -/
def digitsValue (ds : List Char) : Nat :=
  ds.foldl (fun n c => 10 * n + (c.toNat - 48)) 0

/-- An optional sign: whether it is a minus, and the rest. -/
def scanSign : List Char → Bool × List Char
  | [] => (false, [])
  | c :: cs => if c = '-' then (true, cs) else if c = '+' then (false, cs) else (false, c :: cs)

/-- The conversion `%d`: optional white space, optional sign, at least one
decimal digit; the value is stored in a 32-bit `int`. -/
def scanInt (l : List Char) : Option Int :=
  match scanSign (l.dropWhile isspace) with
  | (neg, r) =>
    if r.takeWhile Char.isDigit = [] then none
    else
      some (wrapInt32 (if neg then -(digitsValue (r.takeWhile Char.isDigit) : Int)
                       else (digitsValue (r.takeWhile Char.isDigit) : Int)))

/-- The fraction part after the integer digits: its digits and the rest. -/
def scanFraction : List Char → List Char × List Char
  | [] => ([], [])
  | c :: cs =>
    if c = '.' then (cs.takeWhile Char.isDigit, cs.dropWhile Char.isDigit) else ([], c :: cs)

/-- The exponent part: `e` or `E`, optional sign, at least one digit;
0 when there is none. -/
def scanExponent : List Char → Int
  | [] => 0
  | c :: cs =>
    if c = 'e' ∨ c = 'E' then
      match scanSign cs with
      | (neg, r) =>
        if neg then -(digitsValue (r.takeWhile Char.isDigit) : Int)
        else (digitsValue (r.takeWhile Char.isDigit) : Int)
    else 0

/-- The number denoted by decimal notation, as the conversions `%lf` and `%f`
read it: optional white space, optional sign, digits with an optional fraction
(at least one digit in all), optional exponent. -/
def scanDouble (l : List Char) : Option ℚ :=
  match scanSign (l.dropWhile isspace) with
  | (neg, r) =>
    match scanFraction (r.dropWhile Char.isDigit) with
    | (frac, r2) =>
      if r.takeWhile Char.isDigit = [] ∧ frac = [] then none
      else
        some ((if neg then -1 else 1) *
          ((digitsValue (r.takeWhile Char.isDigit ++ frac) : ℚ) / (10 : ℚ) ^ frac.length) *
          (10 : ℚ) ^ scanExponent r2)

/-- The characters of `word` stand at the front of the list, in either case. -/
def startsWithWord (word : List Char) (l : List Char) : Bool :=
  (l.take word.length).map Char.toLower == word

/-- The conversion `%lf`: `nan` and `inf` (in either case, after an optional
sign) are not-a-number and an infinity; for decimal notation the `double`
nearest to the number denoted. -/
def scanLf (l : List Char) : Option F64 :=
  match scanSign (l.dropWhile isspace) with
  | (neg, r) =>
    if startsWithWord ['n', 'a', 'n'] r then some F64.nan
    else if startsWithWord ['i', 'n', 'f'] r then some (F64.inf neg)
    else (scanDouble l).map F64.ofRat

/-- The concrete conversions. -/
def cScanf : Scanf := { lf := scanLf, f := scanDouble, d := scanInt }

/-- Number of tokens of a line, after the words of the specification: a token
is a maximal run of characters other than space, comma and tab.  The flag
tells whether the preceding character belongs to a token. -/
def countTokensFrom : Bool → List Char → Nat
  | _, [] => 0
  | inToken, c :: cs =>
    if c = ' ' ∨ c = ',' ∨ c = '\t' then countTokensFrom false cs
    else (if inToken then 0 else 1) + countTokensFrom true cs

/-- Number of tokens of a line. -/
def countTokens (l : List Char) : Nat := countTokensFrom false l

/-- The symbols for which `parse` has a branch. -/
def recognized (c : Char) : Prop :=
  c ∈ ['x', 'y', 'z', 's', 'i', 'a', 'n', 'r', 'c', 'u', 'p', 'e', 'd', 't', 'R', 'G', 'B']

instance (c : Char) : Decidable (recognized c) := by
  unfold recognized
  exact inferInstance

/-! ## Storage locations, for stating what a call of `parse` leaves alone -/

/-- The storage locations behind the pointers passed to `parse`: the three
coordinates, the GPS time, the three colour channels and the members of
`point`. -/
inductive Field where
  | xyz0
  | xyz1
  | xyz2
  | gps_time
  | rgb0
  | rgb1
  | rgb2
  | x
  | y
  | z
  | intensity
  | return_number
  | number_of_returns_of_given_pulse
  | scan_direction_flag
  | edge_of_flight_line
  | classification
  | scan_angle_rank
  | user_data
  | point_source_ID
deriving DecidableEq

/-- The content of a storage location (integers are read as finite
numbers). -/
def Field.read : Field → Vars → F64
  | Field.xyz0, s => s.xyz.c0
  | Field.xyz1, s => s.xyz.c1
  | Field.xyz2, s => s.xyz.c2
  | Field.gps_time, s => s.gps_time
  | Field.rgb0, s => F64.fin s.rgb0
  | Field.rgb1, s => F64.fin s.rgb1
  | Field.rgb2, s => F64.fin s.rgb2
  | Field.x, s => F64.fin s.point.x
  | Field.y, s => F64.fin s.point.y
  | Field.z, s => F64.fin s.point.z
  | Field.intensity, s => F64.fin s.point.intensity
  | Field.return_number, s => F64.fin s.point.return_number
  | Field.number_of_returns_of_given_pulse, s =>
    F64.fin s.point.number_of_returns_of_given_pulse
  | Field.scan_direction_flag, s => F64.fin s.point.scan_direction_flag
  | Field.edge_of_flight_line, s => F64.fin s.point.edge_of_flight_line
  | Field.classification, s => F64.fin s.point.classification
  | Field.scan_angle_rank, s => F64.fin s.point.scan_angle_rank
  | Field.user_data, s => F64.fin s.point.user_data
  | Field.point_source_ID, s => F64.fin s.point.point_source_ID

/-- The location that the branch of `parse` for a symbol assigns; `none` for
`s` and for a symbol without a branch. -/
def target (c : Char) : Option Field :=
  if c = 'x' then some Field.xyz0
  else if c = 'y' then some Field.xyz1
  else if c = 'z' then some Field.xyz2
  else if c = 'i' then some Field.intensity
  else if c = 'a' then some Field.scan_angle_rank
  else if c = 'n' then some Field.number_of_returns_of_given_pulse
  else if c = 'r' then some Field.return_number
  else if c = 'c' then some Field.classification
  else if c = 'u' then some Field.user_data
  else if c = 'p' then some Field.point_source_ID
  else if c = 'e' then some Field.edge_of_flight_line
  else if c = 'd' then some Field.scan_direction_flag
  else if c = 't' then some Field.gps_time
  else if c = 'R' then some Field.rgb0
  else if c = 'G' then some Field.rgb1
  else if c = 'B' then some Field.rgb2
  else none

/-- The location is assigned by some symbol of the parse string. -/
def targeted (g : List Char) (f : Field) : Prop := ∃ c ∈ g, target c = some f

/-- The location is one of `point.x`, `point.y`, `point.z`, which the scan
loops assign after a successful `parse`. -/
def Field.isQuantized : Field → Prop
  | Field.x => True
  | Field.y => True
  | Field.z => True
  | _ => False

/-- The variables agree with `v0` on every location that neither the parse
string nor the quantization block assigns. -/
def Untouched (g : List Char) (v0 s : Vars) : Prop :=
  ∀ f : Field, ¬ targeted g f → ¬ f.isQuantized → f.read s = f.read v0

/-! ## Reference notions for the scan loops -/

/-- The run statistics: record count, bounding box, return histogram. -/
structure Statistics where
  xyz_min : Vec3
  xyz_max : Vec3
  number_of_point_records : Nat
  number_of_points_by_return : List Nat
deriving DecidableEq

/-- The run statistics held in the variables of `main`. -/
def Main.statistics (m : Main) : Statistics :=
  { xyz_min := m.xyz_min, xyz_max := m.xyz_max,
    number_of_point_records := m.number_of_point_records,
    number_of_points_by_return := m.number_of_points_by_return }

/-- The statistics as the first accepted record sets them (526-531, 894-899). -/
def firstStats (st : Statistics) (v : Vars) : Statistics :=
  { xyz_min := v.xyz, xyz_max := v.xyz, number_of_point_records := 1,
    number_of_points_by_return := bump st.number_of_points_by_return v.point.return_number }

/-- The statistics as a later accepted record updates them (556-560, 939-943). -/
def nextStats (st : Statistics) (v : Vars) : Statistics :=
  { xyz_min := (VecUpdateMinMax3dv st.xyz_min st.xyz_max v.xyz).1,
    xyz_max := (VecUpdateMinMax3dv st.xyz_min st.xyz_max v.xyz).2,
    number_of_point_records := wrapU32 ((st.number_of_point_records : Int) + 1),
    number_of_points_by_return := bump st.number_of_points_by_return v.point.return_number }

/-- The statistics as a record written by the second pass updates them (742). -/
def countDown (st : Statistics) (_v : Vars) : Statistics :=
  { st with number_of_point_records := wrapU32 ((st.number_of_point_records : Int) - 1) }

/-- The lines that parse, in input order.  Whether a line parses does not
depend on the variables handed to `parse` (`parse_flag_eq`). -/
def accepted (sc : Scanf) (g : List Char) (v0 : Vars) (lines : List (List Char)) :
    List (List Char) :=
  lines.filter (fun l => (parse sc g l v0).1)

/-- The record that a line which parses yields when `parse` starts from the
variables `v0`: the parsed variables with the quantized coordinates. -/
def recordOf (sc : Scanf) (g : List Char) (xyz_offset xyz_scale : Vec3) (v0 : Vars)
    (line : List Char) : Written :=
  ({ (parse sc g line v0).2 with
      point := quantizeXYZ (parse sc g line v0).2.xyz xyz_offset xyz_scale
        (parse sc g line v0).2.point } : Vars).record

/-- The value `a` is the exact minimum of the non-empty list `xs`, in the
order of the comparison `<=` of `double`. -/
def IsMinOf (a : F64) (xs : List F64) : Prop := (∀ x ∈ xs, a ≤ x) ∧ a ∈ xs

/-- The value `a` is the exact maximum of the non-empty list `xs`, in the
order of the comparison `<=` of `double`. -/
def IsMaxOf (a : F64) (xs : List F64) : Prop := (∀ x ∈ xs, x ≤ a) ∧ a ∈ xs

/-- The statistics `st` are those of the accepted lines `seen`: the count is
their number, bucket `k` the number of those whose stored return number is
`k` (the counters are `unsigned int`, hence modulo `2^32`), and on every axis
on which no accepted line holds not-a-number the bounding box is the exact
minimum and maximum. -/
def StatsOf (sc : Scanf) (g : List Char) (v0 : Vars) (seen : List (List Char))
    (st : Statistics) : Prop :=
  st.number_of_point_records = seen.length % 4294967296 ∧
  st.number_of_points_by_return.length = 8 ∧
  (∀ k, k < 8 → st.number_of_points_by_return.getD k 0 =
    (seen.filter (fun l => decide ((parse sc g l v0).2.point.return_number = k))).length
      % 4294967296) ∧
  (∀ i : Fin 3, (∀ l ∈ seen, (parse sc g l v0).2.xyz.get i ≠ F64.nan) →
    IsMinOf (st.xyz_min.get i) (seen.map (fun l => (parse sc g l v0).2.xyz.get i)) ∧
    IsMaxOf (st.xyz_max.get i) (seen.map (fun l => (parse sc g l v0).2.xyz.get i)))

/-- What a loop body does on one line, relative to parsing from `v0`: the flag
it reports, and how it updates the statistics (`upd`) and the written records
(`out`) when the line parses; a line that does not parse changes neither. -/
def StepSpec (sc : Scanf) (g : List Char) (v0 : Vars)
    (upd : Statistics → Vars → Statistics) (out : List Char → List Written)
    (body : Main → List Char → Bool × Main) : Prop :=
  ∀ (m : Main) (line : List Char), Untouched g v0 m.vars →
    (body m line).1 = (parse sc g line v0).1 ∧
    Untouched g v0 (body m line).2.vars ∧
    (body m line).2.statistics =
      (if (parse sc g line v0).1 then upd m.statistics (parse sc g line v0).2
       else m.statistics) ∧
    (body m line).2.written =
      m.written ++ (if (parse sc g line v0).1 then out line else [])

/-- The statistics of two states of `main` are the same: record count,
per-axis minimum and maximum, and all histogram buckets. -/
def sameStatistics (a b : Main) : Prop :=
  a.number_of_point_records = b.number_of_point_records ∧
  a.xyz_min = b.xyz_min ∧ a.xyz_max = b.xyz_max ∧
  a.number_of_points_by_return = b.number_of_points_by_return

/-- On each axis the cast of the quantization block is defined: the `double`
it is applied to is finite and its integer part fits a 32-bit signed integer. -/
def fitsXYZ (xyz xyz_offset xyz_scale : Vec3) : Prop :=
  (quantizeSum xyz.c0 xyz_offset.c0 xyz_scale.c0).InIntRange ∧
  (quantizeSum xyz.c1 xyz_offset.c1 xyz_scale.c1).InIntRange ∧
  (quantizeSum xyz.c2 xyz_offset.c2 xyz_scale.c2).InIntRange

instance (xyz xyz_offset xyz_scale : Vec3) : Decidable (fitsXYZ xyz xyz_offset xyz_scale) := by
  unfold fitsXYZ
  exact inferInstance

/-- The integer `q` is the quotient `(v - offset) / scale`, as the program
computes it, rounded half away from zero, or the integer one step further
from zero when the sum of the quotient and `0.5` (or `-0.5`) is rounded to
that integer. -/
def roundedAxis (v offset scale : F64) (q : Int) : Prop :=
  match (v - offset) / scale, quantizeSum v offset scale with
  | F64.fin t, F64.fin s =>
    q = roundHalfAway t ∨
    ((q : ℚ) = s ∧ q = roundHalfAway t + (if v > offset then 1 else -1))
  | _, _ => False

instance (v offset scale : F64) (q : Int) : Decidable (roundedAxis v offset scale q) := by
  unfold roundedAxis
  split <;> exact inferInstance

/-- The point holds on each axis the computed quotient
`(xyz - offset) / scale` rounded half away from zero (`roundedAxis`). -/
def roundedXYZ (xyz xyz_offset xyz_scale : Vec3) (p : LASpoint) : Prop :=
  roundedAxis xyz.c0 xyz_offset.c0 xyz_scale.c0 p.x ∧
  roundedAxis xyz.c1 xyz_offset.c1 xyz_scale.c1 p.y ∧
  roundedAxis xyz.c2 xyz_offset.c2 xyz_scale.c2 p.z

instance (xyz xyz_offset xyz_scale : Vec3) (p : LASpoint) :
    Decidable (roundedXYZ xyz xyz_offset xyz_scale p) := by
  unfold roundedXYZ
  exact inferInstance

/-- The record written for variables `v`: the quantization block, then
`write_point`. -/
def quantizedRecord (v : Vars) (xyz_offset xyz_scale : Vec3) : Written :=
  ({ v with point := quantizeXYZ v.xyz xyz_offset xyz_scale v.point } : Vars).record

/-- The result of a run, if it ran to the end. -/
def Outcome.result {α : Type} : Outcome α → Option α
  | Outcome.done a => some a
  | _ => none

/-- The run stopped at `exit(1)`. -/
def Outcome.exited {α : Type} : Outcome α → Bool
  | Outcome.exit => true
  | _ => false

/-- The lines of the example of the specification. -/
def exampleLines : List (List Char) :=
  ["1.0 2.0 3.0 1".toList, "4.0 5.0 6.0 2".toList, "-1.0 0.0 0.0 1".toList]

/-- All-zero variables, used for concrete evaluations. -/
def Vars.zero : Vars :=
  { xyz := { c0 := 0, c1 := 0, c2 := 0 },
    point := { x := 0, y := 0, z := 0, intensity := 0, return_number := 0,
               number_of_returns_of_given_pulse := 0, scan_direction_flag := 0,
               edge_of_flight_line := 0, classification := 0, scan_angle_rank := 0,
               user_data := 0, point_source_ID := 0 },
    gps_time := 0, rgb0 := 0, rgb1 := 0, rgb2 := 0 }

/-- An all-zero `double[3]`. -/
def Vec3.zero : Vec3 := { c0 := 0, c1 := 0, c2 := 0 }

/-- The symbol-wise splitting of a string literal into lines of characters. -/
def linesOf (ls : List String) : List (List Char) := ls.map String.toList

/-! ## Sign-flip check and single-pass header (txt2las.cpp 606-622, 1000-1016, 816-861) -/

/-- The condition of one sign-flip warning,
`(original > 0) log_xor (dequantized > 0)`. -/
def signFlip (original dequantized : F64) : Bool :=
  log_xor (decide (original > 0)) (decide (dequantized > 0))

/-- The six sign-flip conditions of the two-pass run (610-620), in the order
they are tested: x min, x max, y min, y max, z min, z max. -/
def twoPassSignFlips (m : Main) (xyz_offset xyz_scale : Vec3) : List Bool :=
  [signFlip m.xyz_min.c0 (dequant3 (twoMinQuant m xyz_offset xyz_scale) xyz_offset xyz_scale).c0,
   signFlip m.xyz_max.c0 (dequant3 (twoMaxQuant m xyz_offset xyz_scale) xyz_offset xyz_scale).c0,
   signFlip m.xyz_min.c1 (dequant3 (twoMinQuant m xyz_offset xyz_scale) xyz_offset xyz_scale).c1,
   signFlip m.xyz_max.c1 (dequant3 (twoMaxQuant m xyz_offset xyz_scale) xyz_offset xyz_scale).c1,
   signFlip m.xyz_min.c2 (dequant3 (twoMinQuant m xyz_offset xyz_scale) xyz_offset xyz_scale).c2,
   signFlip m.xyz_max.c2 (dequant3 (twoMaxQuant m xyz_offset xyz_scale) xyz_offset xyz_scale).c2]

/-- The six sign-flip conditions of the single pass (1004-1014), in the order
they are tested. -/
def singlePassSignFlips (m : Main) (xyz_offset xyz_scale : Vec3) : List Bool :=
  [signFlip m.xyz_min.c0 (dequant3 (singleMinQuant m xyz_offset xyz_scale) xyz_offset xyz_scale).c0,
   signFlip m.xyz_max.c0 (dequant3 (singleMaxQuant m xyz_offset xyz_scale) xyz_offset xyz_scale).c0,
   signFlip m.xyz_min.c1 (dequant3 (singleMinQuant m xyz_offset xyz_scale) xyz_offset xyz_scale).c1,
   signFlip m.xyz_max.c1 (dequant3 (singleMaxQuant m xyz_offset xyz_scale) xyz_offset xyz_scale).c1,
   signFlip m.xyz_min.c2 (dequant3 (singleMinQuant m xyz_offset xyz_scale) xyz_offset xyz_scale).c2,
   signFlip m.xyz_max.c2 (dequant3 (singleMaxQuant m xyz_offset xyz_scale) xyz_offset xyz_scale).c2]

/-- The header the single pass opens the writer with (816-861): point format,
record length, scale and offset are assigned; every other member keeps what
the constructor of `LASheader` gave it (`constructed`). -/
def singlePassHeader (parse_string : List Char) (xyz_offset xyz_scale : Vec3)
    (constructed : LASheader) : LASheader :=
  { constructed with
    point_data_format := (pointDataFormat parse_string).1,
    point_data_record_length := (pointDataFormat parse_string).2,
    x_scale_factor := xyz_scale.c0,
    y_scale_factor := xyz_scale.c1,
    z_scale_factor := xyz_scale.c2,
    x_offset := xyz_offset.c0,
    y_offset := xyz_offset.c1,
    z_offset := xyz_offset.c2 }

/-- An all-zero header, used for concrete evaluations. -/
def LASheader.zero : LASheader :=
  { point_data_format := 0, point_data_record_length := 0, number_of_point_records := 0,
    x_scale_factor := 0, y_scale_factor := 0, z_scale_factor := 0,
    x_offset := 0, y_offset := 0, z_offset := 0,
    min_x := 0, min_y := 0, min_z := 0, max_x := 0, max_y := 0, max_z := 0,
    number_of_points_by_return := [0, 0, 0, 0, 0] }

/-! ## Header patch of the single pass (txt2las.cpp 1018-1046) -/

/-- One byte of the output file: a byte of known value, or byte `k` of the
object representation of an `unsigned int` or of a `double` (whose layout in
memory the embedding does not fix). -/
inductive FileByte where
  | raw (b : Nat)
  | ofUInt (value : Nat) (k : Nat)
  | ofDouble (value : F64) (k : Nat)
deriving DecidableEq

/-- The four bytes of an `unsigned int` in memory order. -/
def bytesOfUInt (value : Nat) : List FileByte :=
  [FileByte.ofUInt value 0, FileByte.ofUInt value 1, FileByte.ofUInt value 2,
   FileByte.ofUInt value 3]

/-- The eight bytes of a `double` in memory order. -/
def bytesOfDouble (value : F64) : List FileByte :=
  [FileByte.ofDouble value 0, FileByte.ofDouble value 1, FileByte.ofDouble value 2,
   FileByte.ofDouble value 3, FileByte.ofDouble value 4, FileByte.ofDouble value 5,
   FileByte.ofDouble value 6, FileByte.ofDouble value 7]

/-- The calls `fseek(file_out, pos, SEEK_SET); fwrite(data, ...)` on a file
opened with "rb+": the bytes from `pos` on are overwritten, a file shorter
than `pos` is first filled up with zero bytes, a write past the end extends
the file. -/
def fwriteAt (file : List FileByte) (pos : Nat) (data : List FileByte) : List FileByte :=
  file.take pos ++ List.replicate (pos - file.length) (FileByte.raw 0) ++ data ++
    file.drop (pos + data.length)

/-- The rewriting of the header (1030-1042).  The first `fwrite` takes five
`unsigned int` items from the address of `number_of_point_records`, that is
the four bytes of the counter and the sixteen bytes that lie behind it in
memory (`beyond`); the second writes the histogram buckets 1 to 5 from offset
111; the six `double` writes follow each other from offset 179. -/
def headerPatch (file : List FileByte) (number_of_point_records : Nat)
    (number_of_points_by_return : List Nat) (beyond : List FileByte)
    (xyz_min_dequant xyz_max_dequant : Vec3) : List FileByte :=
  let f1 := fwriteAt file 107 (bytesOfUInt number_of_point_records ++ beyond)
  let f2 := fwriteAt f1 111
    (bytesOfUInt (number_of_points_by_return.getD 1 0) ++
     bytesOfUInt (number_of_points_by_return.getD 2 0) ++
     bytesOfUInt (number_of_points_by_return.getD 3 0) ++
     bytesOfUInt (number_of_points_by_return.getD 4 0) ++
     bytesOfUInt (number_of_points_by_return.getD 5 0))
  let f3 := fwriteAt f2 179 (bytesOfDouble xyz_max_dequant.c0)
  let f4 := fwriteAt f3 187 (bytesOfDouble xyz_min_dequant.c0)
  let f5 := fwriteAt f4 195 (bytesOfDouble xyz_max_dequant.c1)
  let f6 := fwriteAt f5 203 (bytesOfDouble xyz_min_dequant.c1)
  let f7 := fwriteAt f6 211 (bytesOfDouble xyz_max_dequant.c2)
  fwriteAt f7 219 (bytesOfDouble xyz_min_dequant.c2)

/-- The output file after the header patch with the values the single pass
arrived at. -/
def patchFile (file : List FileByte) (p : Patch) (beyond : List FileByte) : List FileByte :=
  headerPatch file p.number_of_point_records p.number_of_points_by_return beyond
    p.xyz_min_dequant p.xyz_max_dequant

/-- The bytes of the file from offset `pos` up to, not including, offset
`pos + n`. -/
def window (file : List FileByte) (pos n : Nat) : List FileByte := (file.drop pos).take n

/-- A file of `n` zero bytes, used for concrete evaluations. -/
def zeroFile (n : Nat) : List FileByte := List.replicate n (FileByte.raw 0)

/-! ## las2txt: number formatting (las2txt.cpp 99-124, 457-512)

`sprintf` and `fprintf` belong to the C library.  The formatter takes the
conversion `%f` as a parameter `sprintf_f`; `cSprintf` is a concrete instance
(six decimals, nearest millionth; `nan` and `inf` for the values that are not
finite).  The destination buffer is taken to be
large enough for what is printed into it (the callers pass `char[256]`). -/

/-- The character `string[i]` of a buffer holding the characters of the list
followed by the terminating NUL. -/
def charAt (string : List Char) (i : Nat) : Char := string.getD i (Char.ofNat 0)

/-- The loop `while (string[len] == '0') len--;` entered at index `len`:
the index it stops at, `none` when it would read `string[-1]`. -/
def backOverZeros (string : List Char) : Nat → Option Nat
  | 0 => if charAt string 0 = '0' then none else some 0
  | len + 1 =>
    if charAt string (len + 1) = '0' then backOverZeros string len else some (len + 1)

/-- The statements
`while (string[len] == '0') len--; if (string[len] != '.') len++;`
that follow each `sprintf`, entered with `len` the index of the last
character printed; `none` when nothing was printed or the loop leaves the
buffer. -/
def stripZeros (string : List Char) : Option Nat :=
  match string.length with
  | 0 => none
  | last + 1 =>
    match backOverZeros string last with
    | none => none
    | some len => some (if charAt string len ≠ '.' then len + 1 else len)

/-- The function `lidardouble2string(char* string, double value)`: the string
left in the buffer and the returned length. -/
def lidardouble2string (sprintf_f : F64 → List Char) (value : F64) : Option (List Char × Nat) :=
  match stripZeros (sprintf_f value) with
  | none => none
  | some len => some ((sprintf_f value).take len, len)

/-- The overload
`lidardouble2string(char* string, double value0, double value1, double value2, bool eol)`:
the second and third value are printed with `" %f"` at the position the
stripping of the previous value left. -/
def lidardouble2string3 (sprintf_f : F64 → List Char) (value0 value1 value2 : F64)
    (eol : Bool) :
    Option (List Char × Nat) :=
  match stripZeros (sprintf_f value0) with
  | none => none
  | some len0 =>
    match stripZeros ((sprintf_f value0).take len0 ++ ' ' :: sprintf_f value1) with
    | none => none
    | some len1 =>
      match stripZeros
        (((sprintf_f value0).take len0 ++ ' ' :: sprintf_f value1).take len1
          ++ ' ' :: sprintf_f value2) with
      | none => none
      | some len2 =>
        if eol then
          some ((((sprintf_f value0).take len0 ++ ' ' :: sprintf_f value1).take len1
            ++ ' ' :: sprintf_f value2).take len2 ++ ['\n'], len2 + 1)
        else
          some ((((sprintf_f value0).take len0 ++ ' ' :: sprintf_f value1).take len1
            ++ ' ' :: sprintf_f value2).take len2, len2)

/-- The decimal digit `d` as a character. -/
def digitChar (d : Nat) : Char := Char.ofNat (48 + d)

/-- The digits of `n`, most significant first, put in front of `acc`; `fuel`
bounds the number of digits. -/
def printDigits : Nat → Nat → List Char → List Char
  | 0, _, acc => acc
  | fuel + 1, n, acc =>
    if n < 10 then digitChar n :: acc
    else printDigits fuel (n / 10) (digitChar (n % 10) :: acc)

/-- Decimal text of a natural number. -/
def printNat (n : Nat) : List Char := printDigits (n + 1) n []

/-- The conversion `%d` of `fprintf`: the decimal text of an `int`. -/
def printInt (n : Int) : List Char :=
  if n < 0 then '-' :: printNat n.natAbs else printNat n.natAbs

/-- Six decimal digits of a number below one million, leading zeros kept. -/
def sixDigits (n : Nat) : List Char :=
  [digitChar (n / 100000 % 10), digitChar (n / 10000 % 10), digitChar (n / 1000 % 10),
   digitChar (n / 100 % 10), digitChar (n / 10 % 10), digitChar (n % 10)]

/-- Fixed notation with six decimals of a number: a minus sign for a negative
number, the integer digits, the decimal point and six decimals, the number
being rounded to the nearest millionth. -/
def fixedSix (value : ℚ) : List Char :=
  (if value < 0 then ['-'] else []) ++
    (printNat ((roundHalfEven (|value| * 1000000)).toNat / 1000000) ++
      '.' :: sixDigits ((roundHalfEven (|value| * 1000000)).toNat % 1000000))

/-- A concrete `sprintf(string, "%f", value)`: fixed notation with six
decimals for a finite value, `inf` or `-inf` for an infinity, `nan` for
not-a-number. -/
def cSprintf : F64 → List Char
  | F64.fin value => fixedSix value
  | F64.inf false => ['i', 'n', 'f']
  | F64.inf true => ['-', 'i', 'n', 'f']
  | F64.nan => ['n', 'a', 'n']

/-- The fraction digits with the trailing zeros removed, after the words of
the specification. -/
def withoutTrailingZeros (frac : List Char) : List Char :=
  frac.rdropWhile (fun c => c = '0')

/-- The canonical text of a fixed-notation rendering `whole.frac`, after the
words of the specification: trailing zeros of the fraction removed, the
decimal point removed with them when no fraction digit is left. -/
def canonicalText (whole frac : List Char) : List Char :=
  if withoutTrailingZeros frac = [] then whole else whole ++ '.' :: withoutTrailingZeros frac

/-- Modelled from the spec: what one call `lasreader->read_point(xyz)` of the
external reader (class `LASreader`, not among the sources) provides to the
output loop: the coordinates `xyz` and the reader members `point`, `gps_time`
and `rgb`. -/
structure ReadPoint where
  xyz : Vec3
  record : Written
deriving DecidableEq

/-- The `switch (parse_string[i])` of the output loop (lines 457-512): the text
printed for the symbol `c` at index `i` of the parse string; `none` when the
formatter is undefined. -/
def printField (sprintf_f : F64 → List Char) (c : Char) (i : Nat) (r : ReadPoint) :
    Option (List Char) :=
  if c = 'x' then (lidardouble2string sprintf_f r.xyz.c0).map Prod.fst
  else if c = 'y' then (lidardouble2string sprintf_f r.xyz.c1).map Prod.fst
  else if c = 'z' then (lidardouble2string sprintf_f r.xyz.c2).map Prod.fst
  else if c = 't' then (lidardouble2string sprintf_f r.record.gps_time).map Prod.fst
  else if c = 'i' then some (printInt r.record.point.intensity)
  else if c = 'a' then some (printInt r.record.point.scan_angle_rank)
  else if c = 'r' then some (printInt r.record.point.return_number)
  else if c = 'c' then some (printInt r.record.point.classification)
  else if c = 'u' then some (printInt r.record.point.user_data)
  else if c = 'n' then some (printInt r.record.point.number_of_returns_of_given_pulse)
  else if c = 'p' then some (printInt r.record.point.point_source_ID)
  else if c = 'e' then some (printInt r.record.point.edge_of_flight_line)
  else if c = 'd' then some (printInt r.record.point.scan_direction_flag)
  else if c = 'R' then some (printInt r.record.rgb0)
  else if c = 'G' then some (printInt r.record.rgb1)
  else if c = 'B' then some (printInt r.record.rgb2)
  else if c = 'M' then some (printInt i)
  else some []

/-- The range of the attribute behind a symbol, after the words of the
specification: intensity, point source ID and colour 0..65535, scan angle
-128..127, return number and number of returns 0..7, classification and user
data 0..255, flags 0..1. -/
def attributeRange (c : Char) : Option (Int × Int) :=
  if c = 'i' ∨ c = 'p' ∨ c = 'R' ∨ c = 'G' ∨ c = 'B' then some (0, 65535)
  else if c = 'a' then some (-128, 127)
  else if c = 'n' ∨ c = 'r' then some (0, 7)
  else if c = 'c' ∨ c = 'u' then some (0, 255)
  else if c = 'e' ∨ c = 'd' then some (0, 1)
  else none

/-- A text of one or more decimal digits. -/
def IsDecimal (l : List Char) : Prop := l ≠ [] ∧ ∀ c ∈ l, ∃ d, d < 10 ∧ c = digitChar d

/-- The round trip of one coordinate through both programs: txt2las quantizes
the coordinate, the reader of las2txt delivers `offset + q * scale`, the
formatter of las2txt prints it; the result is the number the text denotes. -/
def coordinateRoundTrip (sprintf_f : F64 → List Char) (v offset scale : F64) : Option ℚ :=
  match lidardouble2string sprintf_f (dequantize (quantize v offset scale) offset scale) with
  | none => none
  | some (text, _) => scanDouble text

/-! ## Indices touched while `parse_less` is built (txt2las.cpp 505-509) -/

/-- The indices of `parse_less` that the loop
`do { parse_less[i] = '\0'; i--; } while (parse_less[i] == 's');`
touches when entered with index `i`, in the order it touches them: the index
written, then the index the loop condition reads, and again both for every
further round, which is entered while the character read is `s`.  The list
ends with the first index whose character is not `s`, or with -1. -/
def trimTouched (buf : List Char) : Nat → List Int
  | 0 => [0, -1]
  | j + 1 =>
    ((j : Int) + 1) :: (j : Int) ::
      (if buf.get? j = some 's' then trimTouched buf j else [])

/-- The character the reduced parse string holds for a symbol of the parse
string, after the words of the specification: the symbol itself when it is one
of `x`, `y`, `z`, `r`, and `s` otherwise. -/
def reducedSymbol (c : Char) : Char :=
  if c = 'x' ∨ c = 'y' ∨ c = 'z' ∨ c = 'r' then c else 's'

/-! ## las2txt: the output loop (las2txt.cpp 452-524) -/

/-- The loop `while (true) { switch (parse_string[i]) {...} i++;
if (parse_string[i]) fprintf("%c", separator_sign);
else { fprintf("\012"); break; } }` entered at index `i`, `rest` being the
symbols of the parse string from index `i` on: the characters written for one
point.  The result is `none` when the formatter is undefined, and when the
loop is entered at the terminating NUL (empty parse string), where the test
after `i++` reads the character behind the NUL. -/
def printLoop (sprintf_f : F64 → List Char) (separator_sign : Char) (r : ReadPoint) :
    List Char → Nat → Option (List Char)
  | [], _ => none
  | c :: rest, i =>
    match printField sprintf_f c i r with
    | none => none
    | some text =>
      if rest = [] then some (text ++ ['\n'])
      else
        match printLoop sprintf_f separator_sign r rest (i + 1) with
        | none => none
        | some out => some (text ++ separator_sign :: out)

/-- The body of `while (lasreader->read_point(xyz))` for one point: `i = 0`
and the loop over the parse string. -/
def printPoint (sprintf_f : F64 → List Char) (separator_sign : Char) (parse_string : List Char)
    (r : ReadPoint) : Option (List Char) :=
  printLoop sprintf_f separator_sign r parse_string 0

/-- The loop `while (lasreader->read_point(xyz))` over the points the reader
delivers: the characters written to the output file. -/
def printPoints (sprintf_f : F64 → List Char) (separator_sign : Char) (parse_string : List Char) :
    List ReadPoint → Option (List Char)
  | [] => some []
  | r :: rs =>
    match printPoint sprintf_f separator_sign parse_string r,
      printPoints sprintf_f separator_sign parse_string rs with
    | some line, some others => some (line ++ others)
    | _, _ => none

/-- The field texts of one point in the order of the parse string, after the
words of the specification: the text of the symbol at index `i + k` of the
parse string is the text of `rest[k]`; `none` when one of them is undefined. -/
def fieldTexts (sprintf_f : F64 → List Char) (r : ReadPoint) :
    List Char → Nat → Option (List (List Char))
  | [], _ => some []
  | c :: rest, i =>
    match printField sprintf_f c i r, fieldTexts sprintf_f r rest (i + 1) with
    | some text, some texts => some (text :: texts)
    | _, _ => none

/-- The texts joined by the separator character, after the words of the
specification. -/
def joinWith (separator_sign : Char) : List (List Char) → List Char
  | [] => []
  | [text] => text
  | text :: texts => text ++ separator_sign :: joinWith separator_sign texts

/-! ## What a run of txt2las does to its output -/

/-- The output actions of `main` in the order they are performed. -/
inductive Action where
  /-- The call `fopen(file_name_out, "wb")` (line 806): the output file is
  created, or emptied when it exists. -/
  | createFile
  /-- The call `laswriter->open(file, &header, compression)` (lines 706, 866). -/
  | openWriter (header : LASheader)
  /-- The call `laswriter->write_point(&point, gps_time, rgb)`. -/
  | writePoint (record : Written)
  /-- The call `laswriter->close()`. -/
  | closeWriter
  /-- The header patch (lines 1020-1046). -/
  | patchHeader (patch : Patch)
deriving DecidableEq

/-- The output actions of the single pass (output to a file, lines 764-1046)
up to the end of the run or to `exit(1)`.  The header the writer is opened
with holds what the constructor of `LASheader` gave it (`constructed`) apart
from format, scale and offset. -/
def singlePassActions (sc : Scanf) (parse_string : List Char) (xyz_offset xyz_scale : Vec3)
    (constructed : LASheader) (lines : List (List Char)) (m : Main) : List Action :=
  [Action.createFile,
    Action.openWriter (singlePassHeader parse_string xyz_offset xyz_scale constructed)] ++
  (match singlePass sc parse_string xyz_offset xyz_scale lines m with
   | Outcome.done p =>
     p.written.map Action.writePoint ++ [Action.closeWriter, Action.patchHeader p]
   | _ =>
     (untilFirst (singlePassHead sc parse_string xyz_offset xyz_scale) lines m).1.written.map
       Action.writePoint)

/-- The output actions of the two-pass run (output to a pipe, lines 466-763)
up to the end of the run or to `exit(1)`; `none` when building `parse_less`
is undefined. -/
def twoPassActions (sc : Scanf) (parse_string : List Char) (xyz_offset xyz_scale : Vec3)
    (lines : List (List Char)) (m : Main) : Option (List Action) :=
  match parseLess parse_string with
  | none => none
  | some parse_less =>
    match firstPassScan sc parse_less lines m with
    | Outcome.undefined => none
    | Outcome.exit => some []
    | Outcome.done m1 =>
      some (Action.openWriter (twoPassHeader parse_string xyz_offset xyz_scale m1) ::
        ((forEachLine (secondPassBody sc parse_string xyz_offset xyz_scale) lines m1).written.map
          Action.writePoint ++ [Action.closeWriter]))

/-! ## Binary64: exponent, rounding -/


theorem pow2_eq_zpow (e : Int) : pow2 e = (2 : ℚ) ^ e := by
  unfold pow2
  by_cases h : 0 ≤ e
  · rw [if_pos h]
    obtain ⟨n, rfl⟩ := Int.eq_ofNat_of_zero_le h
    simp
  · rw [if_neg h]
    obtain ⟨n, hn⟩ : ∃ n : Nat, e = -(n : Int) := ⟨(-e).toNat, by omega⟩
    subst hn
    simp

theorem pow2_pos (e : Int) : 0 < pow2 e := by
  rw [pow2_eq_zpow]
  positivity

theorem pow2_add (a b : Int) : pow2 (a + b) = pow2 a * pow2 b := by
  rw [pow2_eq_zpow, pow2_eq_zpow, pow2_eq_zpow, zpow_add₀ (by norm_num)]

theorem pow2_le_pow2 {a b : Int} (h : a ≤ b) : pow2 a ≤ pow2 b := by
  rw [pow2_eq_zpow, pow2_eq_zpow]
  exact zpow_le_zpow_right₀ (by norm_num) h

theorem pow2_lt_pow2 {a b : Int} (h : a < b) : pow2 a < pow2 b := by
  rw [pow2_eq_zpow, pow2_eq_zpow]
  exact zpow_lt_zpow_right₀ (by norm_num) h

theorem pow2_lt_pow2_iff {a b : Int} : pow2 a < pow2 b ↔ a < b := by
  constructor
  · intro h
    by_contra hn
    exact absurd (pow2_le_pow2 (not_lt.1 hn)) (not_le.2 h)
  · exact pow2_lt_pow2

/-- A power of two with a natural exponent is an integer. -/
theorem pow2_natCast (n : Nat) : pow2 (n : Int) = (((2 : Int) ^ n : Int) : ℚ) := by
  rw [pow2_eq_zpow]
  simp

theorem pow2_natCast_nat (n : Nat) : pow2 (n : Int) = (((2 : Nat) ^ n : Nat) : ℚ) := by
  rw [pow2_eq_zpow]
  simp

theorem log2Fuel_spec : ∀ (fuel n : Nat), 0 < n → n ≤ fuel →
    2 ^ log2Fuel fuel n ≤ n ∧ n < 2 ^ (log2Fuel fuel n + 1) := by
  intro fuel
  induction fuel with
  | zero => intro n h1 h2; omega
  | succ fuel ih =>
    intro n h1 h2
    unfold log2Fuel
    by_cases h : n < 2
    · rw [if_pos h]
      constructor
      · simp; omega
      · simp; omega
    · rw [if_neg h]
      obtain ⟨a, b⟩ := ih (n / 2) (by omega) (by omega)
      constructor
      · rw [pow_succ]
        omega
      · rw [pow_succ]
        omega

theorem natLog2_spec (n : Nat) (h : 0 < n) :
    2 ^ natLog2 n ≤ n ∧ n < 2 ^ (natLog2 n + 1) :=
  log2Fuel_spec n n h le_rfl

theorem ilog2_spec (x : ℚ) (hx : x ≠ 0) :
    pow2 (ilog2 x) ≤ |x| ∧ |x| < pow2 (ilog2 x + 1) := by
  have hn : 0 < x.num.natAbs := Int.natAbs_pos.2 (Rat.num_ne_zero.2 hx)
  have hd : 0 < x.den := x.den_pos
  obtain ⟨a1, a2⟩ := natLog2_spec _ hn
  obtain ⟨b1, b2⟩ := natLog2_spec _ hd
  have hax : |x| = (x.num.natAbs : ℚ) / (x.den : ℚ) := by
    rw [← Rat.num_div_den x, abs_div, Rat.num_div_den x]
    congr 1
    · rw [Nat.cast_natAbs, Int.cast_abs]
    · exact abs_of_pos (by exact_mod_cast hd)
  have hdq : (0 : ℚ) < (x.den : ℚ) := by exact_mod_cast hd
  have A1 : pow2 (natLog2 x.num.natAbs : Int) ≤ (x.num.natAbs : ℚ) := by
    rw [pow2_natCast_nat]
    exact Nat.cast_le.2 a1
  have A2 : (x.num.natAbs : ℚ) < pow2 ((natLog2 x.num.natAbs : Int) + 1) := by
    have : ((natLog2 x.num.natAbs : Int) + 1) = ((natLog2 x.num.natAbs + 1 : Nat) : Int) := by
      push_cast; ring
    rw [this, pow2_natCast_nat]
    exact Nat.cast_lt.2 a2
  have B1 : pow2 (natLog2 x.den : Int) ≤ (x.den : ℚ) := by
    rw [pow2_natCast_nat]
    exact Nat.cast_le.2 b1
  have B2 : (x.den : ℚ) < pow2 ((natLog2 x.den : Int) + 1) := by
    have : ((natLog2 x.den : Int) + 1) = ((natLog2 x.den + 1 : Nat) : Int) := by
      push_cast; ring
    rw [this, pow2_natCast_nat]
    exact Nat.cast_lt.2 b2
  obtain ⟨a, ha⟩ : ∃ a : Int, a = (natLog2 x.num.natAbs : Int) := ⟨_, rfl⟩
  obtain ⟨b, hb⟩ : ∃ b : Int, b = (natLog2 x.den : Int) := ⟨_, rfl⟩
  rw [← ha] at A1 A2
  rw [← hb] at B1 B2
  have up : |x| < pow2 (a - b + 1) := by
    rw [hax, div_lt_iff₀ hdq]
    have e : pow2 (a - b + 1) * pow2 b = pow2 (a + 1) := by
      rw [← pow2_add]
      congr 1
      ring
    calc (x.num.natAbs : ℚ) < pow2 (a + 1) := A2
      _ = pow2 (a - b + 1) * pow2 b := e.symm
      _ ≤ pow2 (a - b + 1) * (x.den : ℚ) :=
        mul_le_mul_of_nonneg_left B1 (pow2_pos _).le
  have low : pow2 (a - b - 1) < |x| := by
    rw [hax, lt_div_iff₀ hdq]
    have e : pow2 (a - b - 1) * pow2 (b + 1) = pow2 a := by
      rw [← pow2_add]
      congr 1
      ring
    calc pow2 (a - b - 1) * (x.den : ℚ) < pow2 (a - b - 1) * pow2 (b + 1) :=
        mul_lt_mul_of_pos_left B2 (pow2_pos _)
      _ = pow2 a := e
      _ ≤ (x.num.natAbs : ℚ) := A1
  unfold ilog2
  rw [← ha, ← hb]
  by_cases h : pow2 (a - b) ≤ |x|
  · rw [if_pos h]
    exact ⟨h, up⟩
  · rw [if_neg h]
    refine ⟨low.le, ?_⟩
    have : a - b - 1 + 1 = a - b := by ring
    rw [this]
    exact not_le.1 h

theorem ilog2_unique (x : ℚ) (e : Int) (h1 : pow2 e ≤ |x|) (h2 : |x| < pow2 (e + 1)) :
    ilog2 x = e := by
  have hx : x ≠ 0 := by
    intro h
    rw [h, abs_zero] at h1
    exact absurd h1 (not_le.2 (pow2_pos e))
  obtain ⟨s1, s2⟩ := ilog2_spec x hx
  have a : ilog2 x < e + 1 := pow2_lt_pow2_iff.1 (lt_of_le_of_lt s1 h2)
  have b : e < ilog2 x + 1 := pow2_lt_pow2_iff.1 (lt_of_le_of_lt h1 s2)
  omega

theorem ilog2_neg (x : ℚ) : ilog2 (-x) = ilog2 x := by
  unfold ilog2
  rw [Rat.neg_num, Rat.neg_den, Int.natAbs_neg, abs_neg]

theorem quantum_neg (x : ℚ) : quantum (-x) = quantum x := by
  unfold quantum
  rw [ilog2_neg]

theorem ilog2_mono {x y : ℚ} (hx : x ≠ 0) (h : |x| ≤ |y|) : ilog2 x ≤ ilog2 y := by
  have hy : y ≠ 0 := by
    intro e
    rw [e, abs_zero] at h
    exact hx (abs_eq_zero.1 (le_antisymm h (abs_nonneg x)))
  obtain ⟨s1, _⟩ := ilog2_spec x hx
  obtain ⟨_, t2⟩ := ilog2_spec y hy
  have : ilog2 x < ilog2 y + 1 := pow2_lt_pow2_iff.1 (lt_of_le_of_lt (s1.trans h) t2)
  omega

/-! ### Rounding to the nearest integer, ties to even -/

theorem roundHalfEven_error (x : ℚ) : |(roundHalfEven x : ℚ) - x| ≤ 1 / 2 := by
  have h1 := Int.floor_le x
  have h2 := Int.lt_floor_add_one x
  unfold roundHalfEven
  rw [abs_le]
  split_ifs <;> push_cast <;> constructor <;> linarith

theorem roundHalfEven_intCast (k : Int) : roundHalfEven (k : ℚ) = k := by
  unfold roundHalfEven
  rw [Int.floor_intCast, sub_self, if_pos (by norm_num)]

theorem roundHalfEven_nonneg (x : ℚ) (h : 0 ≤ x) : 0 ≤ roundHalfEven x := by
  have h1 : 0 ≤ ⌊x⌋ := Int.floor_nonneg.2 h
  unfold roundHalfEven
  split_ifs <;> omega

theorem roundHalfEven_mono {x y : ℚ} (h : x ≤ y) : roundHalfEven x ≤ roundHalfEven y := by
  have hfl : ⌊x⌋ ≤ ⌊y⌋ := Int.floor_le_floor h
  rcases hfl.lt_or_eq with hlt | heq
  · unfold roundHalfEven
    split_ifs <;> omega
  · have hq : ((⌊x⌋ : Int) : ℚ) = ((⌊y⌋ : Int) : ℚ) := by rw [heq]
    unfold roundHalfEven
    split_ifs <;> first | omega | (exfalso; linarith)

/-- The defining property of rounding to nearest, ties to even. -/
theorem roundHalfEven_spec (x : ℚ) :
    |(roundHalfEven x : ℚ) - x| < 1 / 2 ∨
    (|(roundHalfEven x : ℚ) - x| = 1 / 2 ∧ roundHalfEven x % 2 = 0) := by
  have h1 := Int.floor_le x
  have h2 := Int.lt_floor_add_one x
  unfold roundHalfEven
  split_ifs with a b c
  · left
    rw [abs_lt]
    constructor <;> linarith
  · left
    rw [abs_lt]
    push_cast
    constructor <;> linarith
  · right
    have e : x - ⌊x⌋ = 1 / 2 := le_antisymm (not_lt.1 b) (not_lt.1 a)
    refine ⟨?_, c⟩
    rw [abs_of_nonpos (by linarith)]
    linarith
  · right
    have e : x - ⌊x⌋ = 1 / 2 := le_antisymm (not_lt.1 b) (not_lt.1 a)
    refine ⟨?_, by omega⟩
    push_cast
    rw [abs_of_nonneg (by linarith)]
    linarith

theorem roundHalfEven_unique (x : ℚ) (n : Int)
    (h : |(n : ℚ) - x| < 1 / 2 ∨ (|(n : ℚ) - x| = 1 / 2 ∧ n % 2 = 0)) :
    roundHalfEven x = n := by
  have hs := roundHalfEven_spec x
  obtain ⟨m, hm⟩ : ∃ m, m = roundHalfEven x := ⟨_, rfl⟩
  rw [← hm] at hs ⊢
  have key : ∀ a b : Int, |(a : ℚ) - x| < 1 / 2 → |(b : ℚ) - x| ≤ 1 / 2 → a = b := by
    intro a b ha hb
    rw [abs_lt] at ha
    rw [abs_le] at hb
    have h1 : ((a - b : Int) : ℚ) < 1 := by push_cast; linarith
    have h2 : (-1 : ℚ) < ((a - b : Int) : ℚ) := by push_cast; linarith
    have h3 : a - b < 1 := by exact_mod_cast h1
    have h4 : -1 < a - b := by exact_mod_cast h2
    omega
  rcases hs with hs | ⟨hs, hse⟩
  · rcases h with h | ⟨h, _⟩
    · exact key m n hs h.le
    · exact key m n hs h.le
  · rcases h with h | ⟨h, hne⟩
    · exact (key n m h hs.le).symm
    · have hb1 := abs_le.1 hs.le
      have hb2 := abs_le.1 h.le
      have h1 : ((m - n : Int) : ℚ) ≤ 1 := by push_cast; linarith
      have h2 : (-1 : ℚ) ≤ ((m - n : Int) : ℚ) := by push_cast; linarith
      have h3 : m - n ≤ 1 := by exact_mod_cast h1
      have h4 : -1 ≤ m - n := by exact_mod_cast h2
      omega

theorem roundHalfEven_neg (x : ℚ) : roundHalfEven (-x) = -roundHalfEven x := by
  apply roundHalfEven_unique
  rcases roundHalfEven_spec x with h | ⟨h, he⟩
  · left
    push_cast
    rw [show -(roundHalfEven x : ℚ) - -x = -((roundHalfEven x : ℚ) - x) by ring, abs_neg]
    exact h
  · right
    refine ⟨?_, by omega⟩
    push_cast
    rw [show -(roundHalfEven x : ℚ) - -x = -((roundHalfEven x : ℚ) - x) by ring, abs_neg]
    exact h

/-! ### Rounding to binary64 -/

theorem roundBinary64_neg (x : ℚ) : roundBinary64 (-x) = -roundBinary64 x := by
  unfold roundBinary64
  by_cases h : x = 0
  · simp [h]
  · rw [if_neg h, if_neg (neg_ne_zero.2 h), quantum_neg, neg_div, roundHalfEven_neg]
    push_cast
    ring

theorem roundBinary64_nonneg {x : ℚ} (h : 0 ≤ x) : 0 ≤ roundBinary64 x := by
  unfold roundBinary64
  split_ifs
  · exact le_rfl
  · apply mul_nonneg _ (pow2_pos _).le
    exact_mod_cast roundHalfEven_nonneg _ (div_nonneg h (pow2_pos _).le)

/-- A multiple `m * 2^p` of a power of two rounds to itself at any quantum not
above `p`. -/
theorem roundHalfEven_dyadic (m : Int) (p q : Int) (h : q ≤ p) :
    (roundHalfEven ((m : ℚ) * pow2 p / pow2 q) : ℚ) * pow2 q = (m : ℚ) * pow2 p := by
  obtain ⟨n, hn⟩ : ∃ n : Nat, p - q = (n : Int) := ⟨(p - q).toNat, by omega⟩
  have e : (m : ℚ) * pow2 p / pow2 q = ((m * 2 ^ n : Int) : ℚ) := by
    have : p = q + n := by omega
    rw [this, pow2_add, pow2_natCast]
    have := pow2_pos q
    field_simp
    ring
  rw [e, roundHalfEven_intCast, ← e]
  have := pow2_pos q
  field_simp

theorem quantum_le_of_lt (x : ℚ) (hx : x ≠ 0) (e : Int) (h : |x| < pow2 (e + 1))
    (he : -1074 ≤ e - 52) : quantum x ≤ e - 52 := by
  obtain ⟨s1, _⟩ := ilog2_spec x hx
  have : ilog2 x < e + 1 := pow2_lt_pow2_iff.1 (lt_of_le_of_lt s1 h)
  unfold quantum
  omega

/-- A number `m * 2^p` with `|m| < 2^53` and `p ≥ -1074` is representable. -/
theorem roundBinary64_dyadic (m : Int) (p : Int) (hm : |m| < 2 ^ 53) (hp : -1074 ≤ p) :
    roundBinary64 ((m : ℚ) * pow2 p) = (m : ℚ) * pow2 p := by
  unfold roundBinary64
  by_cases h0 : (m : ℚ) * pow2 p = 0
  · rw [if_pos h0, h0]
  · rw [if_neg h0]
    apply roundHalfEven_dyadic
    apply le_trans (quantum_le_of_lt _ h0 (p + 52) ?_ (by omega)) (by omega)
    rw [abs_mul, abs_of_pos (pow2_pos p)]
    have h53 : pow2 (p + 52 + 1) = pow2 53 * pow2 p := by
      rw [← pow2_add]
      congr 1
      ring
    rw [h53]
    apply mul_lt_mul_of_pos_right _ (pow2_pos p)
    have : pow2 53 = (((2 : Int) ^ 53 : Int) : ℚ) := pow2_natCast 53
    rw [this, ← Int.cast_abs]
    exact_mod_cast hm

theorem roundBinary64_intCast (m : Int) (hm : |m| < 2 ^ 53) :
    roundBinary64 (m : ℚ) = (m : ℚ) := by
  have := roundBinary64_dyadic m 0 hm (by norm_num)
  have e : pow2 0 = 1 := by decide
  rw [e, mul_one] at this
  exact this

theorem roundBinary64_error (x : ℚ) :
    |roundBinary64 x - x| ≤ pow2 (quantum x) / 2 := by
  unfold roundBinary64
  by_cases h : x = 0
  · rw [if_pos h, h]
    simp
    exact (div_pos (pow2_pos _) two_pos).le
  · rw [if_neg h]
    have hp := pow2_pos (quantum x)
    have he := roundHalfEven_error (x / pow2 (quantum x))
    have e : (roundHalfEven (x / pow2 (quantum x)) : ℚ) * pow2 (quantum x) - x
        = ((roundHalfEven (x / pow2 (quantum x)) : ℚ) - x / pow2 (quantum x))
          * pow2 (quantum x) := by
      field_simp
    rw [e, abs_mul, abs_of_pos hp]
    nlinarith

/-- Rounding does not go below the power of two under the number. -/
theorem pow2_le_roundBinary64 {x : ℚ} (hx : 0 < x) (e : Int) (he : quantum x ≤ e)
    (h : pow2 e ≤ x) : pow2 e ≤ roundBinary64 x := by
  unfold roundBinary64
  rw [if_neg hx.ne']
  have hmono := roundHalfEven_mono
    (div_le_div_of_nonneg_right h (pow2_pos (quantum x)).le)
  have hd := roundHalfEven_dyadic 1 e (quantum x) he
  rw [Int.cast_one, one_mul] at hd
  rw [← hd]
  apply mul_le_mul_of_nonneg_right _ (pow2_pos _).le
  exact_mod_cast hmono

theorem roundBinary64_le_pow2 {x : ℚ} (hx : 0 < x) (e : Int) (he : quantum x ≤ e)
    (h : x ≤ pow2 e) : roundBinary64 x ≤ pow2 e := by
  unfold roundBinary64
  rw [if_neg hx.ne']
  have hmono := roundHalfEven_mono
    (div_le_div_of_nonneg_right h (pow2_pos (quantum x)).le)
  have hd := roundHalfEven_dyadic 1 e (quantum x) he
  rw [Int.cast_one, one_mul] at hd
  rw [← hd]
  apply mul_le_mul_of_nonneg_right _ (pow2_pos _).le
  exact_mod_cast hmono

theorem quantum_le_ilog2 (x : ℚ) : quantum x ≤ max (ilog2 x) (-1074) := by
  unfold quantum
  omega

theorem roundBinary64_mono_pos {x y : ℚ} (hx : 0 < x) (h : x ≤ y) :
    roundBinary64 x ≤ roundBinary64 y := by
  have hy : 0 < y := lt_of_lt_of_le hx h
  have hexy : ilog2 x ≤ ilog2 y :=
    ilog2_mono hx.ne' (by rw [abs_of_pos hx, abs_of_pos hy]; exact h)
  have hq : quantum x ≤ quantum y := by
    unfold quantum
    omega
  rcases hq.lt_or_eq with hlt | heq
  · obtain ⟨t1, _⟩ := ilog2_spec y hy.ne'
    obtain ⟨_, s2⟩ := ilog2_spec x hx.ne'
    rw [abs_of_pos hy] at t1
    rw [abs_of_pos hx] at s2
    have hlt2 : ilog2 x < ilog2 y := by
      unfold quantum at hlt
      omega
    have hqy : quantum y ≤ ilog2 y := by
      unfold quantum at hlt ⊢
      omega
    have hxB : x ≤ pow2 (ilog2 y) := s2.le.trans (pow2_le_pow2 (by omega))
    exact (roundBinary64_le_pow2 hx (ilog2 y) (hlt.le.trans hqy) hxB).trans
      (pow2_le_roundBinary64 hy (ilog2 y) hqy t1)
  · unfold roundBinary64
    rw [if_neg hx.ne', if_neg hy.ne', heq]
    apply mul_le_mul_of_nonneg_right _ (pow2_pos _).le
    exact_mod_cast roundHalfEven_mono (div_le_div_of_nonneg_right h (pow2_pos _).le)

theorem roundBinary64_zero : roundBinary64 0 = 0 := by
  unfold roundBinary64
  rw [if_pos rfl]

/-- Rounding to binary64 is monotone. -/
theorem roundBinary64_mono {x y : ℚ} (h : x ≤ y) : roundBinary64 x ≤ roundBinary64 y := by
  rcases lt_trichotomy 0 x with hx | hx | hx
  · exact roundBinary64_mono_pos hx h
  · rw [← hx, roundBinary64_zero]
    exact roundBinary64_nonneg (hx ▸ h)
  · rcases le_or_lt 0 y with hy | hy
    · have h1 : roundBinary64 x ≤ 0 := by
        have := roundBinary64_nonneg (x := -x) (by linarith)
        rw [roundBinary64_neg] at this
        linarith
      exact h1.trans (roundBinary64_nonneg hy)
    · have := roundBinary64_mono_pos (x := -y) (y := -x) (by linarith) (by linarith)
      rw [roundBinary64_neg, roundBinary64_neg] at this
      linarith

/-- The rounding error relative to the result: at most `2^-53` of the result's
magnitude, or `2^-1075` in the subnormal range. -/
theorem roundBinary64_rel_error (x : ℚ) :
    |roundBinary64 x - x| ≤ |roundBinary64 x| / 2 ^ 53 + 1 / 2 ^ 1075 := by
  have he := roundBinary64_error x
  have hrnn : (0 : ℚ) ≤ |roundBinary64 x| / 2 ^ 53 := by positivity
  by_cases hq : quantum x = -1074
  · rw [hq] at he
    have e : pow2 (-1074) / 2 = 1 / 2 ^ 1075 := by
      rw [pow2_eq_zpow]
      norm_num
    rw [e] at he
    linarith
  · by_cases hx : x = 0
    · rw [hx, roundBinary64_zero]
      simp
    have hq2 : quantum x = ilog2 x - 52 := by
      unfold quantum at hq ⊢
      omega
    have hle : quantum x ≤ ilog2 x := by omega
    obtain ⟨s1, _⟩ := ilog2_spec x hx
    have hB : pow2 (ilog2 x) ≤ |roundBinary64 x| := by
      rcases lt_or_gt_of_ne hx with hneg | hpos
      · have := pow2_le_roundBinary64 (x := -x) (by linarith) (ilog2 x)
          (by rw [quantum_neg]; exact hle) (by rw [abs_of_neg hneg] at s1; exact s1)
        rw [roundBinary64_neg] at this
        exact this.trans (neg_le_abs _)
      · have := pow2_le_roundBinary64 hpos (ilog2 x) hle (by rw [abs_of_pos hpos] at s1; exact s1)
        exact this.trans (le_abs_self _)
    have e : pow2 (quantum x) / 2 = pow2 (ilog2 x) / 2 ^ 53 := by
      rw [hq2, show ilog2 x - 52 = ilog2 x + (-52) by ring, pow2_add]
      have : pow2 (-52) = 1 / 2 ^ 52 := by
        rw [pow2_eq_zpow, zpow_neg]
        norm_num
      rw [this]
      ring
    rw [e] at he
    have h53 : pow2 (ilog2 x) / 2 ^ 53 ≤ |roundBinary64 x| / 2 ^ 53 :=
      div_le_div_of_nonneg_right hB (by positivity)
    have : (0 : ℚ) ≤ 1 / 2 ^ 1075 := by positivity
    linarith

/-! ## Arithmetic and comparisons of `double` -/

theorem f64_half : (0.5 : F64) = F64.fin (1 / 2) := by decide!

theorem f64_neg_half : (-0.5 : F64) = F64.fin (-(1 / 2)) := by decide!

theorem f64_zero : (0 : F64) = F64.fin 0 := by decide!

theorem f64_add_fin (a b : ℚ) : F64.fin a + F64.fin b = F64.ofRat (a + b) := rfl

theorem f64_sub_fin (a b : ℚ) : F64.fin a - F64.fin b = F64.ofRat (a - b) := by
  show F64.add (F64.fin a) (F64.neg (F64.fin b)) = _
  simp only [F64.neg, F64.add, sub_eq_add_neg]

theorem f64_mul_fin (a b : ℚ) : F64.fin a * F64.fin b = F64.ofRat (a * b) := rfl

theorem f64_div_fin (a b : ℚ) (hb : b ≠ 0) : F64.fin a / F64.fin b = F64.ofRat (a / b) := by
  show F64.div _ _ = _
  simp only [F64.div, if_neg hb]

theorem f64_lt_fin (a b : ℚ) : F64.fin a < F64.fin b ↔ a < b := by
  show F64.lt _ _ = true ↔ _
  simp only [F64.lt, decide_eq_true_eq]

theorem f64_le_fin (a b : ℚ) : F64.fin a ≤ F64.fin b ↔ a ≤ b := by
  show F64.le _ _ = true ↔ _
  simp only [F64.le, decide_eq_true_eq]

theorem f64_le_refl (a : F64) (h : a ≠ F64.nan) : a ≤ a := by
  show F64.le a a = true
  cases a with
  | nan => exact absurd rfl h
  | inf s => cases s <;> rfl
  | fin q => simp only [F64.le, le_refl, decide_True]

theorem f64_le_trans {a b c : F64} (h1 : a ≤ b) (h2 : b ≤ c) : a ≤ c := by
  have g1 : F64.le a b = true := h1
  have g2 : F64.le b c = true := h2
  show F64.le a c = true
  cases a <;> cases b <;> cases c <;>
    simp only [F64.le, decide_eq_true_eq, Bool.or_eq_true, Bool.not_eq_true',
      Bool.false_eq_true] at g1 g2 ⊢
  all_goals first
    | exact le_trans g1 g2
    | (rcases g1 with g1 | g1 <;> rcases g2 with g2 | g2 <;> simp_all)
    | (subst_vars; simp_all)

theorem f64_le_total (a b : F64) (ha : a ≠ F64.nan) (hb : b ≠ F64.nan) : a ≤ b ∨ b ≤ a := by
  show F64.le a b = true ∨ F64.le b a = true
  cases a with
  | nan => exact absurd rfl ha
  | inf s =>
    cases b with
    | nan => exact absurd rfl hb
    | inf t => cases s <;> cases t <;> simp [F64.le]
    | fin q => cases s <;> simp [F64.le]
  | fin p =>
    cases b with
    | nan => exact absurd rfl hb
    | inf t => cases t <;> simp [F64.le]
    | fin q =>
      simp only [F64.le, decide_eq_true_eq]
      exact le_total p q

theorem f64_lt_iff_not_le (a b : F64) (ha : a ≠ F64.nan) (hb : b ≠ F64.nan) :
    a < b ↔ ¬ b ≤ a := by
  show F64.lt a b = true ↔ ¬ F64.le b a = true
  cases a with
  | nan => exact absurd rfl ha
  | inf s =>
    cases b with
    | nan => exact absurd rfl hb
    | inf t => cases s <;> cases t <;> simp [F64.le, F64.lt]
    | fin q => cases s <;> simp [F64.le, F64.lt]
  | fin p =>
    cases b with
    | nan => exact absurd rfl hb
    | inf t => cases t <;> simp [F64.le, F64.lt]
    | fin q =>
      simp only [F64.le, F64.lt, decide_eq_true_eq, not_le]

theorem f64_le_of_lt {a b : F64} (h : a < b) : a ≤ b := by
  have g : F64.lt a b = true := h
  show F64.le a b = true
  cases a <;> cases b <;> simp only [F64.lt, F64.le, decide_eq_true_eq, Bool.and_eq_true,
    Bool.or_eq_true, Bool.not_eq_true', Bool.false_eq_true] at g ⊢
  all_goals first
    | exact le_of_lt g
    | exact g
    | simp_all

theorem f64_ne_nan_of_le {a b : F64} (h : a ≤ b) : a ≠ F64.nan ∧ b ≠ F64.nan := by
  have g : F64.le a b = true := h
  cases a <;> cases b <;> simp [F64.le] at g ⊢

theorem f64_not_lt_nan (a : F64) : ¬ a < F64.nan ∧ ¬ F64.nan < a := by
  constructor
  · show ¬ F64.lt a F64.nan = true
    cases a <;> simp [F64.lt]
  · show ¬ F64.lt F64.nan a = true
    simp [F64.lt]

theorem ofRat_ne_nan (x : ℚ) : F64.ofRat x ≠ F64.nan := by
  unfold F64.ofRat
  split_ifs <;> simp

theorem ofRat_eq_fin {x r : ℚ} (h : F64.ofRat x = F64.fin r) :
    r = roundBinary64 x ∧ |roundBinary64 x| < pow2 1024 := by
  unfold F64.ofRat at h
  split_ifs at h with g
  exact ⟨(F64.fin.inj h).symm, not_le.1 g⟩

theorem ofRat_of_lt {x : ℚ} (h : |roundBinary64 x| < pow2 1024) :
    F64.ofRat x = F64.fin (roundBinary64 x) := by
  unfold F64.ofRat
  rw [if_neg (not_le.2 h)]

theorem roundBinary64_sign {x : ℚ} (h : x < 0) : roundBinary64 x ≤ 0 := by
  have := roundBinary64_mono h.le
  rw [roundBinary64_zero] at this
  exact this

/-- Rounding to `double` is monotone, overflow included. -/
theorem ofRat_mono {x y : ℚ} (h : x ≤ y) : F64.ofRat x ≤ F64.ofRat y := by
  show F64.le (F64.ofRat x) (F64.ofRat y) = true
  have hm := roundBinary64_mono h
  have hp := pow2_pos 1024
  unfold F64.ofRat
  by_cases hx : pow2 1024 ≤ |roundBinary64 x|
  · rw [if_pos hx]
    by_cases hxn : x < 0
    · by_cases hy : pow2 1024 ≤ |roundBinary64 y|
      · rw [if_pos hy]
        simp [F64.le, hxn]
      · rw [if_neg hy]
        simp [F64.le, hxn]
    · have hx0 : 0 ≤ roundBinary64 x := roundBinary64_nonneg (not_lt.1 hxn)
      rw [abs_of_nonneg hx0] at hx
      have hy1 : pow2 1024 ≤ |roundBinary64 y| := by
        rw [abs_of_nonneg (hx0.trans hm)]
        exact hx.trans hm
      have hyn : ¬ y < 0 := by
        intro hy
        have := roundBinary64_sign hy
        linarith
      rw [if_pos hy1]
      simp [F64.le, hxn, hyn]
  · rw [if_neg hx]
    by_cases hy : pow2 1024 ≤ |roundBinary64 y|
    · rw [if_pos hy]
      by_cases hyn : y < 0
      · exfalso
        have h1 := roundBinary64_sign hyn
        rw [abs_of_nonpos h1] at hy
        have h2 : roundBinary64 x ≤ 0 := hm.trans h1
        rw [abs_of_nonpos h2] at hx
        linarith
      · simp [F64.le, hyn]
    · rw [if_neg hy]
      simp only [F64.le, decide_eq_true_eq]
      exact hm

theorem pow2_1024_gt : (2 : ℚ) ^ 53 * pow2 970 < pow2 1024 := by decide!

/-- A number `m * 2^p` with `|m| < 2^53` and `-1074 ≤ p ≤ 970` is a `double`. -/
theorem ofRat_dyadic (m : Int) (p : Int) (hm : |m| < 2 ^ 53) (hp : -1074 ≤ p)
    (hp2 : p ≤ 970) : F64.ofRat ((m : ℚ) * pow2 p) = F64.fin ((m : ℚ) * pow2 p) := by
  have e := roundBinary64_dyadic m p hm hp
  have hlt : |roundBinary64 ((m : ℚ) * pow2 p)| < pow2 1024 := by
    rw [e, abs_mul, abs_of_pos (pow2_pos p)]
    have h1 : |(m : ℚ)| < 2 ^ 53 := by
      rw [← Int.cast_abs]
      exact_mod_cast hm
    calc |(m : ℚ)| * pow2 p ≤ 2 ^ 53 * pow2 970 :=
          mul_le_mul h1.le (pow2_le_pow2 hp2) (pow2_pos p).le (by norm_num)
      _ < pow2 1024 := pow2_1024_gt
  rw [ofRat_of_lt hlt, e]

theorem ofRat_intCast (m : Int) (hm : |m| < 2 ^ 53) : F64.ofRat (m : ℚ) = F64.fin (m : ℚ) := by
  have := ofRat_dyadic m 0 hm (by norm_num) (by norm_num)
  have e : pow2 0 = 1 := by decide
  rw [e, mul_one] at this
  exact this

/-- A multiple of a quarter below `2^51` in magnitude is a `double`. -/
theorem ofRat_quarters (m : Int) (hm : |m| < 2 ^ 53) :
    F64.ofRat ((m : ℚ) / 4) = F64.fin ((m : ℚ) / 4) := by
  have := ofRat_dyadic m (-2) hm (by norm_num) (by norm_num)
  have e : pow2 (-2) = 1 / 4 := by decide!
  rw [e] at this
  have e2 : (m : ℚ) * (1 / 4) = (m : ℚ) / 4 := by ring
  rw [e2] at this
  exact this

theorem add_fin_eq_fin {a s : ℚ} {y : F64} (h : F64.fin a + y = F64.fin s) :
    ∃ b, y = F64.fin b ∧ F64.ofRat (a + b) = F64.fin s := by
  cases y with
  | nan => exact absurd h (by show F64.add _ _ ≠ _; simp [F64.add])
  | inf t => exact absurd h (by show F64.add _ _ ≠ _; simp [F64.add])
  | fin b => exact ⟨b, rfl, h⟩

theorem sub_fin_eq_fin {o d : ℚ} {x : F64} (h : x - F64.fin o = F64.fin d) :
    ∃ a, x = F64.fin a ∧ F64.ofRat (a - o) = F64.fin d := by
  cases x with
  | nan => exact absurd h (by show F64.sub _ _ ≠ _; simp [F64.sub, F64.add, F64.neg])
  | inf t => exact absurd h (by show F64.sub _ _ ≠ _; simp [F64.sub, F64.add, F64.neg])
  | fin a =>
    rw [f64_sub_fin] at h
    exact ⟨a, rfl, h⟩

theorem div_fin_eq_fin {sc t : ℚ} {x : F64} (hs : sc ≠ 0) (h : x / F64.fin sc = F64.fin t) :
    ∃ d, x = F64.fin d ∧ F64.ofRat (d / sc) = F64.fin t := by
  cases x with
  | nan => exact absurd h (by show F64.div _ _ ≠ _; simp [F64.div])
  | inf s => exact absurd h (by show F64.div _ _ ≠ _; simp [F64.div])
  | fin d =>
    rw [f64_div_fin d sc hs] at h
    exact ⟨d, rfl, h⟩

/-! ## The quantizer in `double` arithmetic -/

theorem roundBinary64_half : roundBinary64 (1 / 2) = 1 / 2 := by decide!

theorem roundBinary64_neg_half : roundBinary64 (-(1 / 2)) = -(1 / 2) := by decide!

theorem truncToZero_mono {x y : ℚ} (h : x ≤ y) : truncToZero x ≤ truncToZero y := by
  unfold truncToZero
  by_cases hx : 0 ≤ x
  · rw [if_pos hx, if_pos (hx.trans h)]
    exact Int.floor_le_floor h
  · rw [if_neg hx]
    by_cases hy : 0 ≤ y
    · rw [if_pos hy]
      have h1 : ⌈x⌉ ≤ 0 := Int.ceil_le.2 (by push_cast; linarith)
      have h2 : 0 ≤ ⌊y⌋ := Int.floor_nonneg.2 hy
      omega
    · rw [if_neg hy]
      exact Int.ceil_le_ceil h

theorem roundHalfAway_of_pos {x : ℚ} (hx : 0 < x) : roundHalfAway x = ⌊x + 1 / 2⌋ := by
  unfold roundHalfAway sgn
  rw [if_pos hx, abs_of_pos hx, one_mul]

theorem roundHalfAway_of_nonpos {x : ℚ} (hx : x ≤ 0) : roundHalfAway x = ⌈x - 1 / 2⌉ := by
  unfold roundHalfAway sgn
  rcases hx.lt_or_eq with h | h
  · rw [if_neg (by linarith), if_pos h, abs_of_neg h]
    have e : x - 1 / 2 = -(-x + 1 / 2) := by ring
    rw [e, Int.ceil_neg]
    ring
  · subst h
    have e : ⌈(0 : ℚ) - 1 / 2⌉ = 0 := by
      rw [Int.ceil_eq_iff]
      norm_num
    rw [e]
    simp

theorem roundHalfAway_of_nonneg {x : ℚ} (hx : 0 ≤ x) : roundHalfAway x = ⌊x + 1 / 2⌋ := by
  rcases hx.lt_or_eq with h | h
  · exact roundHalfAway_of_pos h
  · subst h
    have e : ⌊(0 : ℚ) + 1 / 2⌋ = 0 := by
      rw [Int.floor_eq_iff]
      norm_num
    rw [e]
    simp [roundHalfAway, sgn]

theorem roundHalfAway_error (x : ℚ) : |(roundHalfAway x : ℚ) - x| ≤ 1 / 2 := by
  rw [abs_le]
  rcases lt_or_le 0 x with hx | hx
  · rw [roundHalfAway_of_pos hx]
    have h1 := Int.floor_le (x + 1 / 2)
    have h2 := Int.lt_floor_add_one (x + 1 / 2)
    constructor <;> linarith
  · rw [roundHalfAway_of_nonpos hx]
    have h1 := Int.le_ceil (x - 1 / 2)
    have h2 := Int.ceil_lt_add_one (x - 1 / 2)
    constructor <;> linarith

theorem roundHalfAway_intCast (q : Int) : roundHalfAway (q : ℚ) = q := by
  rcases lt_or_le 0 (q : ℚ) with hx | hx
  · rw [roundHalfAway_of_pos hx, Int.floor_eq_iff]
    constructor <;> norm_num
  · rw [roundHalfAway_of_nonpos hx, Int.ceil_eq_iff]
    constructor <;> norm_num

theorem roundHalfAway_tie_pos (k : Int) (hk : 0 ≤ k) :
    roundHalfAway ((k : ℚ) + 1 / 2) = k + 1 := by
  have hx : (0 : ℚ) < (k : ℚ) + 1 / 2 := by
    have : (0 : ℚ) ≤ (k : ℚ) := by exact_mod_cast hk
    linarith
  rw [roundHalfAway_of_pos hx, Int.floor_eq_iff]
  constructor <;> push_cast <;> linarith

theorem roundHalfAway_tie_neg (k : Int) (hk : 0 ≤ k) :
    roundHalfAway (-((k : ℚ) + 1 / 2)) = -(k + 1) := by
  have hx : -((k : ℚ) + 1 / 2) ≤ 0 := by
    have : (0 : ℚ) ≤ (k : ℚ) := by exact_mod_cast hk
    linarith
  rw [roundHalfAway_of_nonpos hx, Int.ceil_eq_iff]
  constructor <;> push_cast <;> linarith

theorem castInt_of_fits {s : ℚ} (h : fitsInt (truncToZero s)) :
    castInt (F64.fin s) = truncToZero s := by
  simp only [castInt, if_pos h]

theorem quantize_eq_castInt (v offset scale : F64) :
    quantize v offset scale = castInt (quantizeSum v offset scale) := by
  unfold quantize quantizeSum
  split_ifs <;> rfl

theorem inIntRange_fin {a : F64} (h : a.InIntRange) :
    ∃ s, a = F64.fin s ∧ fitsInt (truncToZero s) := by
  cases a with
  | nan => exact absurd h (by simp [F64.InIntRange])
  | inf t => exact absurd h (by simp [F64.InIntRange])
  | fin s => exact ⟨s, rfl, h⟩

/-- The steps of the quantization rule on a value for which the sum handed to
the cast is finite: the value is finite, and so are the difference and the
quotient. -/
theorem quantizeSum_steps (v : F64) (o sc s : ℚ) (hs : 0 < sc)
    (h : quantizeSum v (F64.fin o) (F64.fin sc) = F64.fin s) :
    ∃ x d t : ℚ, v = F64.fin x ∧ F64.ofRat (x - o) = F64.fin d ∧
      F64.ofRat (d / sc) = F64.fin t ∧
      F64.ofRat ((if o < x then 1 / 2 else -(1 / 2)) + t) = F64.fin s := by
  unfold quantizeSum at h
  by_cases hv : v > F64.fin o
  · rw [if_pos hv, f64_half] at h
    obtain ⟨t, ht, hsum⟩ := add_fin_eq_fin h
    obtain ⟨d, hd, hq⟩ := div_fin_eq_fin hs.ne' ht
    obtain ⟨x, hx, hdiff⟩ := sub_fin_eq_fin hd
    subst hx
    have hox : o < x := (f64_lt_fin o x).1 hv
    refine ⟨x, d, t, rfl, hdiff, hq, ?_⟩
    rw [if_pos hox]
    exact hsum
  · rw [if_neg hv, f64_neg_half] at h
    obtain ⟨t, ht, hsum⟩ := add_fin_eq_fin h
    obtain ⟨d, hd, hq⟩ := div_fin_eq_fin hs.ne' ht
    obtain ⟨x, hx, hdiff⟩ := sub_fin_eq_fin hd
    subst hx
    have hox : ¬ o < x := fun hc => hv ((f64_lt_fin o x).2 hc)
    refine ⟨x, d, t, rfl, hdiff, hq, ?_⟩
    rw [if_neg hox]
    exact hsum

/-- The signs along the quantization rule: above the offset the difference and
the quotient are not negative and the sum is at least `1/2`; otherwise they
are not positive and the sum is at most `-1/2`. -/
theorem quantize_signs (x o sc d t s : ℚ) (hs : 0 < sc)
    (hd : F64.ofRat (x - o) = F64.fin d) (ht : F64.ofRat (d / sc) = F64.fin t)
    (hsum : F64.ofRat ((if o < x then 1 / 2 else -(1 / 2)) + t) = F64.fin s) :
    (o < x → 0 ≤ d ∧ 0 ≤ t ∧ 1 / 2 ≤ s) ∧ (¬ o < x → d ≤ 0 ∧ t ≤ 0 ∧ s ≤ -(1 / 2)) := by
  have ed := (ofRat_eq_fin hd).1
  have et := (ofRat_eq_fin ht).1
  have es := (ofRat_eq_fin hsum).1
  constructor
  · intro h
    rw [if_pos h] at es
    have h1 : 0 ≤ d := by
      rw [ed]
      exact roundBinary64_nonneg (by linarith)
    have h2 : 0 ≤ t := by
      rw [et]
      exact roundBinary64_nonneg (div_nonneg h1 hs.le)
    refine ⟨h1, h2, ?_⟩
    have := roundBinary64_mono (show (1 / 2 : ℚ) ≤ 1 / 2 + t by linarith)
    rw [roundBinary64_half] at this
    rw [es]
    exact this
  · intro h
    rw [if_neg h] at es
    have h0 : ∀ y : ℚ, y ≤ 0 → roundBinary64 y ≤ 0 := by
      intro y hy
      have := roundBinary64_mono hy
      rw [roundBinary64_zero] at this
      exact this
    have h1 : d ≤ 0 := by
      rw [ed]
      exact h0 _ (by linarith)
    have h2 : t ≤ 0 := by
      rw [et]
      exact h0 _ (div_nonpos_of_nonpos_of_nonneg h1 hs.le)
    refine ⟨h1, h2, ?_⟩
    have := roundBinary64_mono (show -(1 / 2 : ℚ) + t ≤ -(1 / 2) by linarith)
    rw [roundBinary64_neg_half] at this
    rw [es]
    exact this

theorem roundBinary64_int (n : Int) (h : |n| < 2 ^ 53) : roundBinary64 (n : ℚ) = n :=
  roundBinary64_intCast n h

/-- Rounding stays between the integers around the number. -/
theorem roundBinary64_floor_bounds (y : ℚ) (h : |⌊y⌋| < 2 ^ 52) :
    ((⌊y⌋ : Int) : ℚ) ≤ roundBinary64 y ∧ roundBinary64 y ≤ ((⌊y⌋ + 1 : Int) : ℚ) := by
  have hb := abs_lt.1 h
  have n1 := Int.floor_le y
  have n2 := Int.lt_floor_add_one y
  constructor
  · have := roundBinary64_mono n1
    rw [roundBinary64_int _ (by rw [abs_lt]; constructor <;> omega)] at this
    exact this
  · have h5 : y ≤ ((⌊y⌋ + 1 : Int) : ℚ) := by
      push_cast
      linarith
    have := roundBinary64_mono h5
    rw [roundBinary64_int _ (by rw [abs_lt]; constructor <;> omega)] at this
    exact this

theorem roundBinary64_ceil_bounds (y : ℚ) (h : |⌈y⌉| < 2 ^ 52) :
    ((⌈y⌉ - 1 : Int) : ℚ) ≤ roundBinary64 y ∧ roundBinary64 y ≤ ((⌈y⌉ : Int) : ℚ) := by
  have hb := abs_lt.1 h
  have n1 := Int.le_ceil y
  have n2 := Int.ceil_lt_add_one y
  constructor
  · have h5 : ((⌈y⌉ - 1 : Int) : ℚ) ≤ y := by
      push_cast
      linarith
    have := roundBinary64_mono h5
    rw [roundBinary64_int _ (by rw [abs_lt]; constructor <;> omega)] at this
    exact this
  · have := roundBinary64_mono n1
    rw [roundBinary64_int _ (by rw [abs_lt]; constructor <;> omega)] at this
    exact this

/-- A number that rounds below an integer lies below it. -/
theorem lt_of_roundBinary64_lt (y : ℚ) (n : Int) (hn : |n| < 2 ^ 53)
    (h : roundBinary64 y < n) : y < n := by
  by_contra hc
  have := roundBinary64_mono (not_lt.1 hc)
  rw [roundBinary64_int n hn] at this
  linarith

theorem gt_of_roundBinary64_gt (y : ℚ) (n : Int) (hn : |n| < 2 ^ 53)
    (h : (n : ℚ) < roundBinary64 y) : (n : ℚ) < y := by
  by_contra hc
  have := roundBinary64_mono (not_lt.1 hc)
  rw [roundBinary64_int n hn] at this
  linarith

/-- The integer part of a sum that is at least `1/2` and in the range of
`int`: the floor of the exact sum, or the next integer when the sum is rounded
to it. -/
theorem trunc_of_rounded_pos (y s : ℚ) (es : s = roundBinary64 y) (s0 : 0 ≤ s) (y0 : 0 ≤ y)
    (hfits : fitsInt (truncToZero s)) :
    truncToZero s = ⌊y⌋ ∨ ((truncToZero s : ℚ) = s ∧ truncToZero s = ⌊y⌋ + 1) := by
  have hq2 : truncToZero s = ⌊s⌋ := by
    unfold truncToZero
    rw [if_pos s0]
  unfold fitsInt INT_MIN INT_MAX at hfits
  rw [hq2] at hfits ⊢
  have n0 : 0 ≤ ⌊y⌋ := Int.floor_nonneg.2 y0
  have hslt : s < ((2147483648 : Int) : ℚ) := by
    have h3 : ((⌊s⌋ : Int) : ℚ) ≤ 2147483647 := by exact_mod_cast hfits.2
    have := Int.lt_floor_add_one s
    push_cast
    linarith
  rw [es] at hslt
  have hylt := lt_of_roundBinary64_lt y 2147483648 (by norm_num) hslt
  have nlt : ⌊y⌋ < 2147483648 := by
    have := Int.floor_le y
    have : ((⌊y⌋ : Int) : ℚ) < ((2147483648 : Int) : ℚ) := by linarith
    exact_mod_cast this
  obtain ⟨lo, hi⟩ := roundBinary64_floor_bounds y (by rw [abs_of_nonneg n0]; omega)
  rw [← es] at lo hi
  rcases hi.lt_or_eq with hlt | heq
  · left
    rw [Int.floor_eq_iff]
    constructor
    · exact lo
    · push_cast at hlt
      exact hlt
  · right
    have e4 : ⌊s⌋ = ⌊y⌋ + 1 := by
      rw [heq, Int.floor_intCast]
    rw [e4]
    exact ⟨heq.symm, rfl⟩

theorem trunc_of_rounded_neg (y s : ℚ) (es : s = roundBinary64 y) (s0 : s < 0) (y0 : y ≤ 0)
    (hfits : fitsInt (truncToZero s)) :
    truncToZero s = ⌈y⌉ ∨ ((truncToZero s : ℚ) = s ∧ truncToZero s = ⌈y⌉ - 1) := by
  have hq2 : truncToZero s = ⌈s⌉ := by
    unfold truncToZero
    rw [if_neg (not_le.2 s0)]
  unfold fitsInt INT_MIN INT_MAX at hfits
  rw [hq2] at hfits ⊢
  have n0 : ⌈y⌉ ≤ 0 := Int.ceil_le.2 (by push_cast; exact y0)
  have hsgt : ((-2147483649 : Int) : ℚ) < s := by
    have h3 : (-2147483648 : ℚ) ≤ ((⌈s⌉ : Int) : ℚ) := by exact_mod_cast hfits.1
    have := Int.ceil_lt_add_one s
    push_cast
    linarith
  rw [es] at hsgt
  have hygt := gt_of_roundBinary64_gt y (-2147483649) (by norm_num) hsgt
  have ngt : -2147483649 < ⌈y⌉ := by
    have := Int.le_ceil y
    have : ((-2147483649 : Int) : ℚ) < ((⌈y⌉ : Int) : ℚ) := by linarith
    exact_mod_cast this
  obtain ⟨lo, hi⟩ := roundBinary64_ceil_bounds y (by rw [abs_of_nonpos n0]; omega)
  rw [← es] at lo hi
  rcases lo.lt_or_eq with hlt | heq
  · left
    rw [Int.ceil_eq_iff]
    constructor
    · push_cast at hlt
      exact hlt
    · exact hi
  · right
    have e4 : ⌈s⌉ = ⌈y⌉ - 1 := by
      rw [← heq, Int.ceil_intCast]
    rw [e4]
    exact ⟨heq, rfl⟩

/-- In the range of `int` the quantizer delivers the computed quotient rounded
half away from zero, or the next integer away from zero when the sum is
rounded to it. -/
theorem quantize_roundedAxis (v : F64) (o sc : ℚ) (hs : 0 < sc)
    (hfit : (quantizeSum v (F64.fin o) (F64.fin sc)).InIntRange) :
    roundedAxis v (F64.fin o) (F64.fin sc) (quantize v (F64.fin o) (F64.fin sc)) := by
  obtain ⟨s, hsum, hfits⟩ := inIntRange_fin hfit
  obtain ⟨x, d, t, hx, hd, ht, hs2⟩ := quantizeSum_steps v o sc s hs hsum
  subst hx
  obtain ⟨sp, sn⟩ := quantize_signs x o sc d t s hs hd ht hs2
  have es := (ofRat_eq_fin hs2).1
  have hquot : (F64.fin x - F64.fin o) / F64.fin sc = F64.fin t := by
    rw [f64_sub_fin, hd, f64_div_fin d sc hs.ne', ht]
  have hq : quantize (F64.fin x) (F64.fin o) (F64.fin sc) = truncToZero s := by
    rw [quantize_eq_castInt, hsum, castInt_of_fits hfits]
  unfold roundedAxis
  rw [hquot, hsum, hq]
  simp only
  by_cases hox : o < x
  · obtain ⟨-, t0, s0⟩ := sp hox
    rw [if_pos hox] at es
    rw [if_pos ((f64_lt_fin o x).2 hox), roundHalfAway_of_nonneg t0,
      show t + 1 / 2 = 1 / 2 + t by ring]
    exact trunc_of_rounded_pos (1 / 2 + t) s es (by linarith) (by linarith) hfits
  · obtain ⟨-, t0, s0⟩ := sn hox
    rw [if_neg hox] at es
    rw [if_neg (fun hc => hox ((f64_lt_fin o x).1 hc)), roundHalfAway_of_nonpos t0,
      show t - 1 / 2 = -(1 / 2) + t by ring]
    have := trunc_of_rounded_neg (-(1 / 2) + t) s es (by linarith) (by linarith) hfits
    rcases this with h | ⟨h1, h2⟩
    · exact Or.inl h
    · exact Or.inr ⟨h1, by rw [h2]; ring⟩

theorem f64_between_fin {z : F64} {a b : ℚ} (h1 : F64.fin a ≤ z) (h2 : z ≤ F64.fin b) :
    ∃ s, z = F64.fin s ∧ a ≤ s ∧ s ≤ b := by
  cases z with
  | nan => exact absurd rfl (f64_ne_nan_of_le h1).2
  | inf t =>
    have g1 : F64.le (F64.fin a) (F64.inf t) = true := h1
    have g2 : F64.le (F64.inf t) (F64.fin b) = true := h2
    simp only [F64.le, Bool.not_eq_true'] at g1 g2
    rw [g1] at g2
    cases g2
  | fin s => exact ⟨s, rfl, (f64_le_fin a s).1 h1, (f64_le_fin s b).1 h2⟩

theorem f64_not_lt_of_le {a b : F64} (h : a ≤ b) : ¬ b < a := by
  obtain ⟨ha, hb⟩ := f64_ne_nan_of_le h
  rw [f64_lt_iff_not_le b a hb ha]
  exact fun hc => hc h

theorem f64_le_inf (a : F64) (h : a ≠ F64.nan) : a ≤ F64.inf false := by
  show F64.le a (F64.inf false) = true
  cases a with
  | nan => exact absurd rfl h
  | inf s => cases s <;> rfl
  | fin q => rfl

theorem f64_neg_inf_le (a : F64) (h : a ≠ F64.nan) : F64.inf true ≤ a := by
  show F64.le (F64.inf true) a = true
  cases a with
  | nan => exact absurd rfl h
  | inf s => cases s <;> rfl
  | fin q => rfl

theorem f64_fin_add_ne_nan (c : ℚ) (a : F64) (h : a ≠ F64.nan) : F64.fin c + a ≠ F64.nan := by
  cases a with
  | nan => exact absurd rfl h
  | inf s =>
    show F64.add _ _ ≠ _
    simp [F64.add]
  | fin q =>
    rw [f64_add_fin]
    exact ofRat_ne_nan _

/-- Adding to a finite number is monotone. -/
theorem f64_add_le_add_left (c : ℚ) {a b : F64} (h : a ≤ b) :
    F64.fin c + a ≤ F64.fin c + b := by
  obtain ⟨ha, hb⟩ := f64_ne_nan_of_le h
  cases a with
  | nan => exact absurd rfl ha
  | inf s =>
    cases s with
    | true => exact f64_neg_inf_le _ (f64_fin_add_ne_nan c b hb)
    | false =>
      cases b with
      | nan => exact absurd rfl hb
      | inf t =>
        have g : F64.le (F64.inf false) (F64.inf t) = true := h
        cases t with
        | true => simp [F64.le] at g
        | false => exact f64_le_refl _ (by show F64.add _ _ ≠ _; simp [F64.add])
      | fin q =>
        have g : F64.le (F64.inf false) (F64.fin q) = true := h
        simp [F64.le] at g
  | fin p =>
    cases b with
    | nan => exact absurd rfl hb
    | inf t =>
      have g : F64.le (F64.fin p) (F64.inf t) = true := h
      cases t with
      | true => simp [F64.le] at g
      | false => exact f64_le_inf _ (f64_fin_add_ne_nan c _ ha)
    | fin q =>
      rw [f64_add_fin, f64_add_fin]
      exact ofRat_mono (by have := (f64_le_fin p q).1 h; linarith)

theorem ofRat_zero : F64.ofRat 0 = F64.fin 0 := by decide!

theorem ofInt_mul_fin (q : Int) (sc : ℚ) :
    F64.ofInt q * F64.fin sc = F64.ofRat ((q : ℚ) * sc) := rfl

/-- The quantized value is within `1/2` of the computed quotient, up to the
rounding error of the sum. -/
theorem trunc_near (y t s : ℚ) (h : ℚ) (hy : y = h + t)
    (hh : (h = 1 / 2 ∧ 0 ≤ s) ∨ (h = -(1 / 2) ∧ s < 0)) :
    |(truncToZero s : ℚ) - t| ≤ 1 / 2 + |s - y| := by
  have e1 := le_abs_self (s - y)
  have e2 := neg_abs_le (s - y)
  rw [abs_le]
  rcases hh with ⟨hh, s0⟩ | ⟨hh, s0⟩
  · have hq2 : truncToZero s = ⌊s⌋ := by
      unfold truncToZero
      rw [if_pos s0]
    rw [hq2]
    have n1 := Int.floor_le s
    have n2 := Int.lt_floor_add_one s
    constructor <;> linarith
  · have hq2 : truncToZero s = ⌈s⌉ := by
      unfold truncToZero
      rw [if_neg (not_le.2 s0)]
    rw [hq2]
    have n1 := Int.le_ceil s
    have n2 := Int.ceil_lt_add_one s
    constructor <;> linarith

/-- Quantizing and dequantizing a finite coordinate inside the range of `int`:
the five `double` operations deliver finite results, and the result differs
from the coordinate by at most `scale/2` plus the rounding errors of the five
operations, each of which is at most `2^-53` of the magnitude of its result
plus `2^-1075`. -/
theorem quantize_dequantize_error (v offset scale r : ℚ) (hs : 0 < scale)
    (hfit : (quantizeSum (F64.fin v) (F64.fin offset) (F64.fin scale)).InIntRange)
    (hr : dequantize (quantize (F64.fin v) (F64.fin offset) (F64.fin scale))
      (F64.fin offset) (F64.fin scale) = F64.fin r) :
    ∃ d t s p : ℚ,
      F64.fin v - F64.fin offset = F64.fin d ∧
      F64.fin d / F64.fin scale = F64.fin t ∧
      quantizeSum (F64.fin v) (F64.fin offset) (F64.fin scale) = F64.fin s ∧
      F64.ofInt (quantize (F64.fin v) (F64.fin offset) (F64.fin scale)) * F64.fin scale
        = F64.fin p ∧
      F64.fin offset + F64.fin p = F64.fin r ∧
      |r - v| ≤ scale / 2 +
        (|d - (v - offset)| + scale * |t - d / scale| +
         scale * |s - ((if offset < v then 1 / 2 else -(1 / 2)) + t)| +
         |p - (quantize (F64.fin v) (F64.fin offset) (F64.fin scale) : ℚ) * scale| +
         |r - (offset + p)|) ∧
      |d - (v - offset)| ≤ |d| / 2 ^ 53 + 1 / 2 ^ 1075 ∧
      |t - d / scale| ≤ |t| / 2 ^ 53 + 1 / 2 ^ 1075 ∧
      |s - ((if offset < v then 1 / 2 else -(1 / 2)) + t)| ≤ |s| / 2 ^ 53 + 1 / 2 ^ 1075 ∧
      |p - (quantize (F64.fin v) (F64.fin offset) (F64.fin scale) : ℚ) * scale|
        ≤ |p| / 2 ^ 53 + 1 / 2 ^ 1075 ∧
      |r - (offset + p)| ≤ |r| / 2 ^ 53 + 1 / 2 ^ 1075 ∧
      |(quantize (F64.fin v) (F64.fin offset) (F64.fin scale) : ℚ) - t|
        ≤ 1 / 2 + |s - ((if offset < v then 1 / 2 else -(1 / 2)) + t)| := by
  obtain ⟨s, hsum, hfits⟩ := inIntRange_fin hfit
  obtain ⟨x, d, t, hx, hd, ht, hs2⟩ := quantizeSum_steps _ offset scale s hs hsum
  have hxv : x = v := (F64.fin.inj hx).symm
  subst hxv
  obtain ⟨sp, sn⟩ := quantize_signs x offset scale d t s hs hd ht hs2
  have ed := (ofRat_eq_fin hd).1
  have et := (ofRat_eq_fin ht).1
  have es := (ofRat_eq_fin hs2).1
  have hq : quantize (F64.fin x) (F64.fin offset) (F64.fin scale) = truncToZero s := by
    rw [quantize_eq_castInt, hsum, castInt_of_fits hfits]
  unfold dequantize at hr
  obtain ⟨p, hp, hrp⟩ := add_fin_eq_fin hr
  rw [ofInt_mul_fin] at hp
  have ep := (ofRat_eq_fin hp).1
  have er := (ofRat_eq_fin hrp).1
  have b1 := roundBinary64_rel_error (x - offset)
  have b2 := roundBinary64_rel_error (d / scale)
  have b3 := roundBinary64_rel_error ((if offset < x then 1 / 2 else -(1 / 2)) + t)
  have b4 := roundBinary64_rel_error
    ((quantize (F64.fin x) (F64.fin offset) (F64.fin scale) : ℚ) * scale)
  have b5 := roundBinary64_rel_error (offset + p)
  rw [← ed] at b1
  rw [← et] at b2
  rw [← es] at b3
  rw [← ep] at b4
  rw [← er] at b5
  have near : |(truncToZero s : ℚ) - t| ≤
      1 / 2 + |s - ((if offset < x then 1 / 2 else -(1 / 2)) + t)| := by
    apply trunc_near _ t s (if offset < x then 1 / 2 else -(1 / 2)) rfl
    by_cases hox : offset < x
    · left
      rw [if_pos hox]
      exact ⟨rfl, by linarith [(sp hox).2.2]⟩
    · right
      rw [if_neg hox]
      exact ⟨rfl, by linarith [(sn hox).2.2]⟩
  refine ⟨d, t, s, p, ?_, ?_, hsum, ?_, ?_, ?_, b1, b2, b3, b4, b5, ?_⟩
  · rw [f64_sub_fin, hd]
  · rw [f64_div_fin d scale hs.ne', ht]
  · rw [ofInt_mul_fin, hp]
  · rw [f64_add_fin, hrp]
  · rw [hq]
    obtain ⟨e3, he3⟩ : ∃ e3, e3 = |s - ((if offset < x then 1 / 2 else -(1 / 2)) + t)| :=
      ⟨_, rfl⟩
    rw [← he3] at near ⊢
    obtain ⟨q, hqq⟩ : ∃ q : ℚ, q = (truncToZero s : ℚ) := ⟨_, rfl⟩
    rw [← hqq] at near ⊢
    have key : r - x = scale * (q - t) + scale * (t - d / scale) + (d - (x - offset))
        + (p - q * scale) + (r - (offset + p)) := by
      field_simp
      ring
    have a1 := abs_le.1 near
    have c1 := le_abs_self (t - d / scale)
    have c2 := neg_abs_le (t - d / scale)
    have c3 := le_abs_self (d - (x - offset))
    have c4 := neg_abs_le (d - (x - offset))
    have c5 := le_abs_self (p - q * scale)
    have c6 := neg_abs_le (p - q * scale)
    have c7 := le_abs_self (r - (offset + p))
    have c8 := neg_abs_le (r - (offset + p))
    have m1 : scale * (q - t) ≤ scale * (1 / 2 + e3) := mul_le_mul_of_nonneg_left a1.2 hs.le
    have m2 : scale * (-(1 / 2 + e3)) ≤ scale * (q - t) :=
      mul_le_mul_of_nonneg_left a1.1 hs.le
    have m3 : scale * (t - d / scale) ≤ scale * |t - d / scale| :=
      mul_le_mul_of_nonneg_left c1 hs.le
    have m4 : scale * (-|t - d / scale|) ≤ scale * (t - d / scale) :=
      mul_le_mul_of_nonneg_left c2 hs.le
    rw [abs_le, key]
    constructor <;> linarith
  · rw [hq]
    exact near

/-- The rounding errors of the five operations, summed up in terms of the
magnitudes of coordinate, offset and scale. -/
theorem rounding_errors_closed (v o sc d t s q p r h : ℚ) (hs : 0 < sc) (hh : |h| ≤ 1 / 2)
    (b1 : |d - (v - o)| ≤ |d| / 2 ^ 53 + 1 / 2 ^ 1075)
    (b2 : |t - d / sc| ≤ |t| / 2 ^ 53 + 1 / 2 ^ 1075)
    (b3 : |s - (h + t)| ≤ |s| / 2 ^ 53 + 1 / 2 ^ 1075)
    (bq : |q - t| ≤ 1 / 2 + |s - (h + t)|)
    (b4 : |p - q * sc| ≤ |p| / 2 ^ 53 + 1 / 2 ^ 1075)
    (b5 : |r - (o + p)| ≤ |r| / 2 ^ 53 + 1 / 2 ^ 1075) :
    |d - (v - o)| + sc * |t - d / sc| + sc * |s - (h + t)| + |p - q * sc| + |r - (o + p)|
      ≤ (|v| + |o| + sc) / 2 ^ 50 + (1 + sc) / 2 ^ 1073 := by
  have hv : |v - o| ≤ |v| + |o| := abs_sub v o
  have hD : |d| ≤ |v - o| + |d - (v - o)| := by
    have := abs_add (v - o) (d - (v - o))
    rw [show (v - o) + (d - (v - o)) = d by ring] at this
    exact this
  have hT : |t| ≤ |d / sc| + |t - d / sc| := by
    have := abs_add (d / sc) (t - d / sc)
    rw [show d / sc + (t - d / sc) = t by ring] at this
    exact this
  have hS : |s| ≤ 1 / 2 + |t| + |s - (h + t)| := by
    have := abs_add (h + t) (s - (h + t))
    rw [show (h + t) + (s - (h + t)) = s by ring] at this
    have := abs_add h t
    linarith
  have hQ : |q| ≤ |t| + (1 / 2 + |s - (h + t)|) := by
    have := abs_add t (q - t)
    rw [show t + (q - t) = q by ring] at this
    linarith
  have hP : |p| ≤ |q| * sc + |p - q * sc| := by
    have := abs_add (q * sc) (p - q * sc)
    rw [show q * sc + (p - q * sc) = p by ring, abs_mul, abs_of_pos hs] at this
    exact this
  have hR : |r| ≤ |o| + |p| + |r - (o + p)| := by
    have := abs_add (o + p) (r - (o + p))
    rw [show (o + p) + (r - (o + p)) = r by ring] at this
    have := abs_add o p
    linarith
  have hds : sc * |d / sc| = |d| := by
    rw [abs_div, abs_of_pos hs]
    field_simp
  have mT := mul_le_mul_of_nonneg_left hT hs.le
  have mS := mul_le_mul_of_nonneg_left hS hs.le
  have mQ := mul_le_mul_of_nonneg_left hQ hs.le
  have m2 := mul_le_mul_of_nonneg_left b2 hs.le
  have m3 := mul_le_mul_of_nonneg_left b3 hs.le
  rw [mul_add, hds] at mT
  have n1 := abs_nonneg (d - (v - o))
  have n2 := mul_nonneg hs.le (abs_nonneg (t - d / sc))
  have n3 := mul_nonneg hs.le (abs_nonneg (s - (h + t)))
  have n4 := abs_nonneg (p - q * sc)
  have n5 := abs_nonneg (r - (o + p))
  have n6 := abs_nonneg v
  have n7 := abs_nonneg o
  obtain ⟨e1, he1⟩ : ∃ e1, e1 = |d - (v - o)| := ⟨_, rfl⟩
  obtain ⟨e2, he2⟩ : ∃ e2, e2 = sc * |t - d / sc| := ⟨_, rfl⟩
  obtain ⟨e3, he3⟩ : ∃ e3, e3 = sc * |s - (h + t)| := ⟨_, rfl⟩
  obtain ⟨e4, he4⟩ : ∃ e4, e4 = |p - q * sc| := ⟨_, rfl⟩
  obtain ⟨e5, he5⟩ : ∃ e5, e5 = |r - (o + p)| := ⟨_, rfl⟩
  obtain ⟨T, hTT⟩ : ∃ T, T = sc * |t| := ⟨_, rfl⟩
  obtain ⟨S, hSS⟩ : ∃ S, S = sc * |s| := ⟨_, rfl⟩
  obtain ⟨Q, hQQ⟩ : ∃ Q, Q = |q| * sc := ⟨_, rfl⟩
  have k2 : e2 ≤ T / 2 ^ 53 + sc / 2 ^ 1075 := by
    rw [he2, hTT]
    calc sc * |t - d / sc| ≤ sc * (|t| / 2 ^ 53 + 1 / 2 ^ 1075) := m2
      _ = sc * |t| / 2 ^ 53 + sc / 2 ^ 1075 := by ring
  have k3 : e3 ≤ S / 2 ^ 53 + sc / 2 ^ 1075 := by
    rw [he3, hSS]
    calc sc * |s - (h + t)| ≤ sc * (|s| / 2 ^ 53 + 1 / 2 ^ 1075) := m3
      _ = sc * |s| / 2 ^ 53 + sc / 2 ^ 1075 := by ring
  have kT : T ≤ |d| + e2 := by
    rw [hTT, he2]
    exact mT
  have kS : S ≤ sc / 2 + T + e3 := by
    rw [hSS, hTT, he3]
    calc sc * |s| ≤ sc * (1 / 2 + |t| + |s - (h + t)|) := mS
      _ = sc / 2 + sc * |t| + sc * |s - (h + t)| := by ring
  have kQ : Q ≤ T + sc / 2 + e3 := by
    rw [hQQ, hTT, he3]
    calc |q| * sc = sc * |q| := by ring
      _ ≤ sc * (|t| + (1 / 2 + |s - (h + t)|)) := mQ
      _ = sc * |t| + sc / 2 + sc * |s - (h + t)| := by ring
  rw [← he1, ← he2, ← he3, ← he4, ← he5]
  rw [← he1] at b1 hD n1
  rw [← he2] at n2
  rw [← he3] at n3
  rw [← he4, ← hQQ] at hP
  rw [← he4] at b4 n4
  rw [← he5] at b5 hR n5
  clear he1 he2 he3 he4 he5 hTT hSS hQQ mT mS mQ m2 m3 hT hS hQ hds b2 b3 bq
  generalize |d| = D at *
  generalize |p| = P at *
  generalize |r| = R at *
  generalize |v| = V at *
  generalize |o| = O at *
  generalize |v - o| = A at *
  have c53 : (0 : ℚ) < 1 / 2 ^ 53 := by positivity
  linarith

/-- Quantizing and dequantizing a finite coordinate inside the range of `int`
changes it by at most `scale/2` plus a rounding term that is small against
the magnitudes of coordinate, offset and scale. -/
theorem quantize_dequantize_bound (v offset scale r : ℚ) (hs : 0 < scale)
    (hfit : (quantizeSum (F64.fin v) (F64.fin offset) (F64.fin scale)).InIntRange)
    (hr : dequantize (quantize (F64.fin v) (F64.fin offset) (F64.fin scale))
      (F64.fin offset) (F64.fin scale) = F64.fin r) :
    |r - v| ≤ scale / 2 + (|v| + |offset| + scale) / 2 ^ 50 + (1 + scale) / 2 ^ 1073 := by
  obtain ⟨d, t, s, p, -, -, -, -, -, hq, b1, b2, b3, b4, b5, near⟩ :=
    quantize_dequantize_error v offset scale r hs hfit hr
  have hh : |(if offset < v then (1 : ℚ) / 2 else -(1 / 2))| ≤ 1 / 2 := by
    split_ifs
    · rw [abs_of_pos (by norm_num)]
    · rw [abs_neg, abs_of_pos (by norm_num)]
  have := rounding_errors_closed v offset scale d t s _ p r _ hs hh b1 b2 b3 near b4 b5
  linarith

/-- Quantizing the dequantized value of `q` gives `q` back when the quotient
the quantizer computes is within `1/4` of `q`. -/
theorem requantize_of_close (q : Int) (offset scale t : ℚ) (hs : 0 < scale) (hq : fitsInt q)
    (ht : (dequantize q (F64.fin offset) (F64.fin scale) - F64.fin offset) / F64.fin scale
      = F64.fin t)
    (hclose : |t - q| ≤ 1 / 4) :
    quantize (dequantize q (F64.fin offset) (F64.fin scale)) (F64.fin offset) (F64.fin scale)
      = q := by
  obtain ⟨d, hd, hquot⟩ := div_fin_eq_fin hs.ne' ht
  obtain ⟨r, hr, hdiff⟩ := sub_fin_eq_fin hd
  rw [hr] at ht ⊢
  have ed := (ofRat_eq_fin hdiff).1
  have et := (ofRat_eq_fin hquot).1
  have hc := abs_le.1 hclose
  unfold fitsInt INT_MIN INT_MAX at hq
  have hq53 : ∀ j : Int, -4 ≤ j → j ≤ 4 → |4 * q + j| < 2 ^ 53 := by
    intro j h1 h2
    rw [abs_lt]
    constructor <;> omega
  have q1 := ofRat_quarters (4 * q + 1) (hq53 1 (by norm_num) (by norm_num))
  have q3 := ofRat_quarters (4 * q + 3) (hq53 3 (by norm_num) (by norm_num))
  have qm1 := ofRat_quarters (4 * q - 1) (hq53 (-1) (by norm_num) (by norm_num))
  have qm3 := ofRat_quarters (4 * q - 3) (hq53 (-3) (by norm_num) (by norm_num))
  unfold quantize
  by_cases hv : F64.fin r > F64.fin offset
  · rw [if_pos hv, ht, f64_half, f64_add_fin]
    have hox : offset < r := (f64_lt_fin offset r).1 hv
    have d0 : 0 ≤ d := by
      rw [ed]
      exact roundBinary64_nonneg (by linarith)
    have t0 : 0 ≤ t := by
      rw [et]
      exact roundBinary64_nonneg (div_nonneg d0 hs.le)
    have hlo := ofRat_mono (show ((4 * q + 1 : Int) : ℚ) / 4 ≤ 1 / 2 + t by
      push_cast; linarith)
    have hhi := ofRat_mono (show 1 / 2 + t ≤ ((4 * q + 3 : Int) : ℚ) / 4 by
      push_cast; linarith)
    rw [q1] at hlo
    rw [q3] at hhi
    obtain ⟨s, es, s1, s2⟩ := f64_between_fin hlo hhi
    rw [es]
    push_cast at s1 s2
    have q0 : (0 : ℚ) ≤ (q : ℚ) := by
      have : (-1 : ℚ) < (q : ℚ) := by linarith
      have : -1 < q := by exact_mod_cast this
      exact_mod_cast (show 0 ≤ q by omega)
    have e : truncToZero s = q := by
      unfold truncToZero
      rw [if_pos (by linarith), Int.floor_eq_iff]
      constructor <;> linarith
    simp only [castInt, e]
    rw [if_pos (by unfold fitsInt INT_MIN INT_MAX; exact hq)]
  · rw [if_neg hv, ht, f64_neg_half, f64_add_fin]
    have hox : ¬ offset < r := fun hc2 => hv ((f64_lt_fin offset r).2 hc2)
    clear hv
    have h0 : ∀ y : ℚ, y ≤ 0 → roundBinary64 y ≤ 0 := by
      intro y hy
      have := roundBinary64_mono hy
      rw [roundBinary64_zero] at this
      exact this
    have d0 : d ≤ 0 := by
      rw [ed]
      exact h0 _ (by linarith)
    have t0 : t ≤ 0 := by
      rw [et]
      exact h0 _ (div_nonpos_of_nonpos_of_nonneg d0 hs.le)
    have hlo := ofRat_mono (show ((4 * q - 3 : Int) : ℚ) / 4 ≤ -(1 / 2) + t by
      push_cast; linarith)
    have hhi := ofRat_mono (show -(1 / 2) + t ≤ ((4 * q - 1 : Int) : ℚ) / 4 by
      push_cast; linarith)
    rw [qm3] at hlo
    rw [qm1] at hhi
    obtain ⟨s, es, s1, s2⟩ := f64_between_fin hlo hhi
    rw [es]
    push_cast at s1 s2
    have q0 : (q : ℚ) ≤ 0 := by
      have : (q : ℚ) < 1 := by linarith
      have : q < 1 := by exact_mod_cast this
      exact_mod_cast (show q ≤ 0 by omega)
    have e : truncToZero s = q := by
      unfold truncToZero
      rw [if_neg (by linarith), Int.ceil_eq_iff]
      constructor <;> linarith
    simp only [castInt, e]
    rw [if_pos (by unfold fitsInt INT_MIN INT_MAX; exact hq)]

/-- When the product `q * scale` and the sum `offset + q * scale` are computed
without rounding error, the quantizer recomputes the quotient `q` exactly. -/
theorem requantize_quotient_exact (q : Int) (offset scale : ℚ) (hs : 0 < scale)
    (hq : fitsInt q)
    (hm : F64.ofInt q * F64.fin scale = F64.fin ((q : ℚ) * scale))
    (ha : F64.fin offset + F64.fin ((q : ℚ) * scale) = F64.fin (offset + (q : ℚ) * scale)) :
    (dequantize q (F64.fin offset) (F64.fin scale) - F64.fin offset) / F64.fin scale
      = F64.fin (q : ℚ) := by
  unfold dequantize
  rw [hm, ha, f64_sub_fin]
  have e1 : offset + (q : ℚ) * scale - offset = (q : ℚ) * scale := by ring
  rw [e1, ← ofInt_mul_fin, hm, f64_div_fin _ _ hs.ne']
  have e2 : (q : ℚ) * scale / scale = (q : ℚ) := by field_simp
  rw [e2]
  unfold fitsInt INT_MIN INT_MAX at hq
  exact ofRat_intCast q (by rw [abs_lt]; constructor <;> omega)

/-- The sum handed to the cast grows with the coordinate. -/
theorem quantizeSum_mono (x y o sc dx tx sx dy ty sy : ℚ) (hs : 0 < sc) (h : x ≤ y)
    (hdx : F64.ofRat (x - o) = F64.fin dx) (htx : F64.ofRat (dx / sc) = F64.fin tx)
    (hsx : F64.ofRat ((if o < x then 1 / 2 else -(1 / 2)) + tx) = F64.fin sx)
    (hdy : F64.ofRat (y - o) = F64.fin dy) (hty : F64.ofRat (dy / sc) = F64.fin ty)
    (hsy : F64.ofRat ((if o < y then 1 / 2 else -(1 / 2)) + ty) = F64.fin sy) :
    sx ≤ sy := by
  obtain ⟨xp, xn⟩ := quantize_signs x o sc dx tx sx hs hdx htx hsx
  obtain ⟨yp, yn⟩ := quantize_signs y o sc dy ty sy hs hdy hty hsy
  have hd : dx ≤ dy := by
    rw [(ofRat_eq_fin hdx).1, (ofRat_eq_fin hdy).1]
    exact roundBinary64_mono (by linarith)
  have ht : tx ≤ ty := by
    rw [(ofRat_eq_fin htx).1, (ofRat_eq_fin hty).1]
    exact roundBinary64_mono (div_le_div_of_nonneg_right hd hs.le)
  by_cases hx : o < x
  · have hy : o < y := lt_of_lt_of_le hx h
    rw [if_pos hx] at hsx
    rw [if_pos hy] at hsy
    rw [(ofRat_eq_fin hsx).1, (ofRat_eq_fin hsy).1]
    exact roundBinary64_mono (by linarith)
  · by_cases hy : o < y
    · have a := (xn hx).2.2
      have b := (yp hy).2.2
      linarith
    · rw [if_neg hx] at hsx
      rw [if_neg hy] at hsy
      rw [(ofRat_eq_fin hsx).1, (ofRat_eq_fin hsy).1]
      exact roundBinary64_mono (by linarith)

/-- Inside the range of `int` the quantizer is monotone. -/
theorem quantize_mono (a b : F64) (o sc : ℚ) (hs : 0 < sc)
    (ha : (quantizeSum a (F64.fin o) (F64.fin sc)).InIntRange)
    (hb : (quantizeSum b (F64.fin o) (F64.fin sc)).InIntRange) (h : a ≤ b) :
    quantize a (F64.fin o) (F64.fin sc) ≤ quantize b (F64.fin o) (F64.fin sc) := by
  obtain ⟨sx, hsumx, hfx⟩ := inIntRange_fin ha
  obtain ⟨sy, hsumy, hfy⟩ := inIntRange_fin hb
  obtain ⟨x, dx, tx, hx, hdx, htx, hsx⟩ := quantizeSum_steps a o sc sx hs hsumx
  obtain ⟨y, dy, ty, hy, hdy, hty, hsy⟩ := quantizeSum_steps b o sc sy hs hsumy
  subst hx hy
  rw [quantize_eq_castInt, quantize_eq_castInt, hsumx, hsumy, castInt_of_fits hfx,
    castInt_of_fits hfy]
  exact truncToZero_mono
    (quantizeSum_mono x y o sc dx tx sx dy ty sy hs ((f64_le_fin x y).1 h)
      hdx htx hsx hdy hty hsy)

/-- The dequantized value grows with the quantized coordinate. -/
theorem dequantize_mono (q1 q2 : Int) (o sc : ℚ) (hs : 0 < sc) (h : q1 ≤ q2) :
    dequantize q1 (F64.fin o) (F64.fin sc) ≤ dequantize q2 (F64.fin o) (F64.fin sc) := by
  unfold dequantize
  rw [ofInt_mul_fin, ofInt_mul_fin]
  apply f64_add_le_add_left
  apply ofRat_mono
  have : (q1 : ℚ) ≤ (q2 : ℚ) := by exact_mod_cast h
  exact mul_le_mul_of_nonneg_right this hs.le

/-- A value not above the offset is quantized to an integer that is not
positive. -/
theorem quantize_nonpos (x o sc : ℚ) (hs : 0 < sc) (hx : ¬ o < x) :
    quantize (F64.fin x) (F64.fin o) (F64.fin sc) ≤ 0 := by
  rw [quantize_eq_castInt]
  cases hz : quantizeSum (F64.fin x) (F64.fin o) (F64.fin sc) with
  | nan =>
    simp only [castInt]
    decide
  | inf t =>
    simp only [castInt]
    decide
  | fin s =>
    obtain ⟨x1, d, t, hx1, hd, ht, hs2⟩ := quantizeSum_steps _ o sc s hs hz
    have e : x1 = x := (F64.fin.inj hx1).symm
    subst e
    have hs0 := ((quantize_signs x1 o sc d t s hs hd ht hs2).2 hx).2.2
    simp only [castInt]
    split_ifs
    · unfold truncToZero
      rw [if_neg (by linarith)]
      exact Int.ceil_le.2 (by push_cast; linarith)
    · decide

/-- A value above the offset is quantized to an integer that is not negative
when the cast is defined. -/
theorem quantize_nonneg (x o sc s : ℚ) (hs : 0 < sc) (hx : o < x)
    (hz : quantizeSum (F64.fin x) (F64.fin o) (F64.fin sc) = F64.fin s)
    (hfit : fitsInt (truncToZero s)) :
    quantize (F64.fin x) (F64.fin o) (F64.fin sc) = ⌊s⌋ ∧ 1 / 2 ≤ s := by
  obtain ⟨x1, d, t, hx1, hd, ht, hs2⟩ := quantizeSum_steps _ o sc s hs hz
  have e : x1 = x := (F64.fin.inj hx1).symm
  subst e
  have hs0 := ((quantize_signs x1 o sc d t s hs hd ht hs2).1 hx).2.2
  rw [quantize_eq_castInt, hz, castInt_of_fits hfit]
  unfold truncToZero
  rw [if_pos (by linarith)]
  exact ⟨rfl, hs0⟩

theorem log_xor_eq_xor (a b : Bool) : log_xor a b = xor a b := by
  cases a <;> cases b <;> rfl

/-- The sign-flip condition holds exactly when one of the two values is
greater than 0 and the other is not. -/
theorem signFlip_iff (a b : F64) :
    signFlip a b = true ↔ (0 < a ∧ ¬ 0 < b) ∨ (¬ 0 < a ∧ 0 < b) := by
  unfold signFlip
  rw [log_xor_eq_xor]
  by_cases ha : a > 0 <;> by_cases hb : b > 0 <;> simp [ha, hb]

/-- With offset 0 the dequantized value of an integer that is not positive is
not greater than 0. -/
theorem dequantize_nonpos (q : Int) (sc : ℚ) (hs : 0 < sc) (hq : q ≤ 0) :
    ¬ dequantize q 0 (F64.fin sc) > 0 := by
  rw [f64_zero]
  have h := dequantize_mono q 0 0 sc hs hq
  have e : dequantize 0 (F64.fin 0) (F64.fin sc) = F64.fin 0 := by
    unfold dequantize
    rw [ofInt_mul_fin, Int.cast_zero, zero_mul, ofRat_zero, f64_add_fin, add_zero, ofRat_zero]
  rw [e] at h
  exact f64_not_lt_of_le h

/-- With offset 0 the dequantized value of a positive integer is greater than
0, the scale being a positive `double`. -/
theorem dequantize_pos (q : Int) (sc : ℚ) (hs : 0 < sc) (hd : (F64.fin sc).IsDouble)
    (hq : 1 ≤ q) : dequantize q 0 (F64.fin sc) > 0 := by
  rw [f64_zero]
  have hsc : F64.ofRat sc = F64.fin sc := hd
  have h := dequantize_mono 1 q 0 sc hs hq
  have e : dequantize 1 (F64.fin 0) (F64.fin sc) = F64.fin sc := by
    unfold dequantize
    rw [ofInt_mul_fin, Int.cast_one, one_mul, hsc, f64_add_fin, zero_add, hsc]
  rw [e] at h
  obtain ⟨-, hn⟩ := f64_ne_nan_of_le h
  rw [gt_iff_lt, f64_lt_iff_not_le _ _ (by simp) hn]
  intro hc
  have := (f64_le_fin sc 0).1 (f64_le_trans h hc)
  linarith

theorem roundBinary64_below_half :
    roundBinary64 (1 / 2 - 1 / 2 ^ 53) = 1 / 2 - 1 / 2 ^ 53 ∧
    roundBinary64 (1 - 1 / 2 ^ 53) = 1 - 1 / 2 ^ 53 ∧
    roundBinary64 (1 / 2 - 1 / 2 ^ 54) = 1 / 2 - 1 / 2 ^ 54 ∧
    roundBinary64 (1 - 1 / 2 ^ 54) = 1 := by
  decide!

theorem ofRat_below_half :
    F64.ofRat (1 / 2 - 3 / 2 ^ 55) = F64.fin (1 / 2 - 1 / 2 ^ 53) ∧
    F64.ofRat (1 - 1 / 2 ^ 53) = F64.fin (1 - 1 / 2 ^ 53) ∧
    F64.ofRat (1 / 2) = F64.fin (1 / 2) := by
  decide!

/-- A number above the midpoint of the two `double`s just below `1/2` is
rounded to the upper one of them or higher. -/
theorem roundBinary64_above_mid (x : ℚ) (h : 1 / 2 - 3 / 2 ^ 55 < x) :
    1 / 2 - 1 / 2 ^ 54 ≤ roundBinary64 x := by
  by_cases hb : 1 / 2 - 1 / 2 ^ 54 ≤ x
  · have := roundBinary64_mono hb
    rw [roundBinary64_below_half.2.2.1] at this
    exact this
  · rw [not_le] at hb
    have hx0 : 0 < x := by
      have : (0 : ℚ) < 1 / 2 - 3 / 2 ^ 55 := by norm_num
      linarith
    have e2 : pow2 (-2) = 1 / 4 := by decide!
    have e1 : pow2 (-2 + 1) = 1 / 2 := by decide!
    have e54 : pow2 (-54) = 1 / 2 ^ 54 := by decide!
    have hl : ilog2 x = -2 := by
      apply ilog2_unique
      · rw [abs_of_pos hx0, e2]
        have : (1 / 4 : ℚ) < 1 / 2 - 3 / 2 ^ 55 := by norm_num
        linarith
      · rw [abs_of_pos hx0, e1]
        have : (1 / 2 : ℚ) - 1 / 2 ^ 54 < 1 / 2 := by norm_num
        linarith
    have hq : quantum x = -54 := by
      unfold quantum
      rw [hl]
      decide
    unfold roundBinary64
    rw [if_neg hx0.ne', hq, e54]
    have he := (abs_le.1 (roundHalfEven_error (x / (1 / 2 ^ 54)))).1
    have hy : x / (1 / 2 ^ 54) = x * 2 ^ 54 := by
      rw [div_div_eq_mul_div, div_one]
    rw [hy] at he ⊢
    have hlow : (9007199254740992 - 3 / 2 : ℚ) < x * 2 ^ 54 := by
      have := mul_lt_mul_of_pos_right h (show (0 : ℚ) < 2 ^ 54 by positivity)
      have e : (1 / 2 - 3 / 2 ^ 55 : ℚ) * 2 ^ 54 = 9007199254740992 - 3 / 2 := by norm_num
      rw [e] at this
      exact this
    generalize x * 2 ^ 54 = y at he hlow ⊢
    have h1 : ((9007199254740990 : Int) : ℚ) < (roundHalfEven y : ℚ) := by
      push_cast
      linarith
    have h2 : (9007199254740990 : Int) < roundHalfEven y := by exact_mod_cast h1
    have h3 : (9007199254740991 : Int) ≤ roundHalfEven y := by omega
    have h4 : ((9007199254740991 : Int) : ℚ) ≤ (roundHalfEven y : ℚ) := by
      exact_mod_cast h3
    push_cast at h4
    have h5 := mul_le_mul_of_nonneg_right h4 (show (0 : ℚ) ≤ 1 / 2 ^ 54 by positivity)
    have e5 : (9007199254740991 : ℚ) * (1 / 2 ^ 54) = 1 / 2 - 1 / 2 ^ 54 := by norm_num
    rw [e5] at h5
    exact h5

/-- The sign-flip warning of a bound `v` in a two-pass run with offset 0: never
for `v ≤ 0`; for a `double` `v > 0`, issued when `v/scale` is at most
`1/2 - 3*2^-55`, the midpoint of the two `double`s just below `1/2`, and not
issued when `v/scale` is above it and the cast is defined. -/
theorem signFlip_offset_zero (v scale : ℚ) (hs : 0 < scale) :
    (v ≤ 0 →
      signFlip (F64.fin v) (dequantize (quantize (F64.fin v) 0 (F64.fin scale)) 0 (F64.fin scale))
        = false) ∧
    ((F64.fin v).IsDouble → 0 < v → v / scale ≤ 1 / 2 - 3 / 2 ^ 55 →
      signFlip (F64.fin v) (dequantize (quantize (F64.fin v) 0 (F64.fin scale)) 0 (F64.fin scale))
        = true) ∧
    ((F64.fin v).IsDouble → (F64.fin scale).IsDouble → 1 / 2 - 3 / 2 ^ 55 < v / scale →
      (quantizeSum (F64.fin v) 0 (F64.fin scale)).InIntRange →
      signFlip (F64.fin v) (dequantize (quantize (F64.fin v) 0 (F64.fin scale)) 0 (F64.fin scale))
        = false) := by
  have flip_false : ∀ b : F64, signFlip (F64.fin v) b = false ↔
      ((0 < v ∧ 0 < b) ∨ (¬ 0 < v ∧ ¬ 0 < b)) := by
    intro b
    have h := signFlip_iff (F64.fin v) b
    rw [f64_zero, f64_lt_fin] at h
    rw [f64_zero]
    cases hsf : signFlip (F64.fin v) b
    · rw [hsf] at h
      simp only [Bool.false_eq_true, false_iff, not_or, not_and, not_not, true_iff] at h ⊢
      by_cases hv : 0 < v
      · exact Or.inl ⟨hv, h.1 hv⟩
      · refine Or.inr ⟨hv, fun hb => hv ?_⟩
        by_contra _
        exact absurd hb (fun hb => by
          have := h.2 hv
          exact this hb)
    · rw [hsf] at h
      simp only [true_iff, Bool.true_eq_false, false_iff, not_or, not_and, not_not] at h ⊢
      rcases h with ⟨h1, h2⟩ | ⟨h1, h2⟩
      · exact ⟨fun _ => h2, fun hv => absurd h1 hv⟩
      · exact ⟨fun hv => absurd hv h1, fun _ => h2⟩
  refine ⟨?_, ?_, ?_⟩
  · intro hv
    rw [flip_false]
    right
    refine ⟨not_lt.2 hv, ?_⟩
    have hq := quantize_nonpos v 0 scale hs (not_lt.2 hv)
    rw [← f64_zero] at hq
    have := dequantize_nonpos _ scale hs hq
    rw [gt_iff_lt, f64_zero] at this
    exact this
  · intro hd hv hquot
    have hvd : F64.ofRat v = F64.fin v := hd
    obtain ⟨c1, c2, c5⟩ := ofRat_below_half
    have hq : quantize (F64.fin v) 0 (F64.fin scale) = 0 := by
      rw [f64_zero, quantize_eq_castInt]
      unfold quantizeSum
      rw [if_pos ((f64_lt_fin 0 v).2 hv), f64_sub_fin, sub_zero, hvd,
        f64_div_fin v scale hs.ne', f64_half]
      have t1 := ofRat_mono (show (0 : ℚ) ≤ v / scale from (div_pos hv hs).le)
      have t2 := ofRat_mono hquot
      rw [ofRat_zero] at t1
      rw [c1] at t2
      obtain ⟨t, et, t0, t3⟩ := f64_between_fin t1 t2
      rw [et, f64_add_fin]
      have s1 := ofRat_mono (show (1 / 2 : ℚ) ≤ 1 / 2 + t by linarith)
      have s2 := ofRat_mono (show 1 / 2 + t ≤ 1 - 1 / 2 ^ 53 by linarith)
      rw [c5] at s1
      rw [c2] at s2
      obtain ⟨s, es, s3, s4⟩ := f64_between_fin s1 s2
      rw [es]
      have e : truncToZero s = 0 := by
        unfold truncToZero
        rw [if_pos (by linarith), Int.floor_eq_iff]
        constructor
        · push_cast
          linarith
        · push_cast
          have : (1 : ℚ) - 1 / 2 ^ 53 < 1 := by norm_num
          linarith
      simp only [castInt, e]
      rfl
    rw [hq]
    have e : dequantize 0 (0 : F64) (F64.fin scale) = F64.fin 0 := by
      rw [f64_zero]
      unfold dequantize
      rw [ofInt_mul_fin, Int.cast_zero, zero_mul, ofRat_zero, f64_add_fin, add_zero, ofRat_zero]
    rw [e, signFlip_iff, f64_zero, f64_lt_fin, f64_lt_fin]
    exact Or.inl ⟨hv, lt_irrefl 0⟩
  · intro hd hsd hquot hfit
    have hvd : F64.ofRat v = F64.fin v := hd
    obtain ⟨-, -, c3, c4⟩ := roundBinary64_below_half
    have hv : 0 < v := by
      have h1 : (0 : ℚ) < 1 / 2 - 3 / 2 ^ 55 := by norm_num
      have h2 : 0 < v / scale := lt_trans h1 hquot
      rcases (div_pos_iff.1 h2) with ⟨a, _⟩ | ⟨_, b⟩
      · exact a
      · linarith
    rw [flip_false]
    left
    refine ⟨hv, ?_⟩
    obtain ⟨s, hsum, hfits⟩ := inIntRange_fin hfit
    rw [f64_zero] at hsum ⊢
    obtain ⟨hq, -⟩ := quantize_nonneg v 0 scale s hs hv hsum hfits
    obtain ⟨x1, d, t, hx1, hdd, ht, hs2⟩ := quantizeSum_steps _ 0 scale s hs hsum
    have e : x1 = v := (F64.fin.inj hx1).symm
    subst e
    rw [sub_zero, hvd] at hdd
    have ed : d = x1 := (F64.fin.inj hdd).symm
    subst ed
    rw [if_pos hv] at hs2
    have et := (ofRat_eq_fin ht).1
    have es := (ofRat_eq_fin hs2).1
    have t1 : 1 / 2 - 1 / 2 ^ 54 ≤ t := by
      rw [et]
      exact roundBinary64_above_mid _ hquot
    have s1 : 1 ≤ s := by
      rw [es, ← c4]
      exact roundBinary64_mono (by linarith)
    have q1 : (1 : Int) ≤ ⌊s⌋ := Int.le_floor.2 (by push_cast; exact s1)
    rw [hq, ← f64_zero]
    exact dequantize_pos _ scale hs hsd q1

/-- A result of magnitude at most `2^k`, `k ≤ 1023`, is rounded to a finite
`double` of magnitude at most `2^k`. -/
theorem ofRat_of_abs_le (x : ℚ) (k : Nat) (hk : k ≤ 1023) (h : |x| ≤ 2 ^ k) :
    F64.ofRat x = F64.fin (roundBinary64 x) ∧ |roundBinary64 x| ≤ 2 ^ k := by
  have e : pow2 (k : Int) = (2 : ℚ) ^ k := by
    rw [pow2_eq_zpow]
    norm_cast
  have r1 : roundBinary64 ((2 : ℚ) ^ k) = 2 ^ k := by
    have := roundBinary64_dyadic 1 (k : Int) (by norm_num) (by omega)
    rw [Int.cast_one, one_mul, e] at this
    exact this
  have hb := abs_le.1 h
  have u := roundBinary64_mono hb.2
  have l := roundBinary64_mono hb.1
  rw [r1] at u
  rw [roundBinary64_neg, r1] at l
  have hle : |roundBinary64 x| ≤ 2 ^ k := abs_le.2 ⟨l, u⟩
  refine ⟨ofRat_of_lt (lt_of_le_of_lt hle ?_), hle⟩
  rw [← e]
  exact pow2_lt_pow2 (by omega)

/-- Quantizing the dequantized value of `q` gives `q` back when the offset is
at most `2^50` steps away from 0 and the scale is neither tiny nor huge. -/
theorem requantize_of_magnitude (q : Int) (offset scale : ℚ) (hlo : 1 / 2 ^ 1000 ≤ scale)
    (hhi : scale ≤ 2 ^ 900) (hq : fitsInt q) (ho : |offset| ≤ 2 ^ 50 * scale) :
    quantize (dequantize q (F64.fin offset) (F64.fin scale)) (F64.fin offset) (F64.fin scale)
      = q := by
  have hs : 0 < scale := lt_of_lt_of_le (by positivity) hlo
  have heta : (1 : ℚ) / 2 ^ 1075 ≤ scale / 2 ^ 75 := by
    have := div_le_div_of_nonneg_right hlo (show (0 : ℚ) ≤ 2 ^ 75 by positivity)
    have e : (1 : ℚ) / 2 ^ 1000 / 2 ^ 75 = 1 / 2 ^ 1075 := by
      rw [div_div, ← pow_add]
    rw [e] at this
    exact this
  have hqa : |(q : ℚ)| ≤ 2 ^ 31 := by
    unfold fitsInt INT_MIN INT_MAX at hq
    rw [abs_le]
    constructor
    · have : (-2147483648 : Int) ≤ q := hq.1
      have h2 : ((-2147483648 : Int) : ℚ) ≤ (q : ℚ) := Int.cast_le.2 this
      norm_num at h2 ⊢
      linarith
    · have : q ≤ (2147483647 : Int) := hq.2
      have h2 : (q : ℚ) ≤ ((2147483647 : Int) : ℚ) := Int.cast_le.2 this
      norm_num at h2 ⊢
      linarith
  have hQ : |(q : ℚ) * scale| ≤ 2 ^ 31 * scale := by
    rw [abs_mul, abs_of_pos hs]
    exact mul_le_mul_of_nonneg_right hqa hs.le
  have c1 : (2 : ℚ) ^ 31 * scale ≤ 2 ^ (31 + 900) := by
    rw [pow_add]
    exact mul_le_mul_of_nonneg_left hhi (by positivity)
  have c3 : (2 : ℚ) ^ 52 * scale ≤ 2 ^ (52 + 900) := by
    rw [pow_add]
    exact mul_le_mul_of_nonneg_left hhi (by positivity)
  -- the product
  obtain ⟨fp, -⟩ := ofRat_of_abs_le ((q : ℚ) * scale) (31 + 900) (by norm_num) (le_trans hQ c1)
  have bp := roundBinary64_rel_error ((q : ℚ) * scale)
  obtain ⟨p, hp⟩ : ∃ p, p = roundBinary64 ((q : ℚ) * scale) := ⟨_, rfl⟩
  rw [← hp] at fp bp
  have tP : |p| ≤ |(q : ℚ) * scale| + |p - (q : ℚ) * scale| := by
    have := abs_add ((q : ℚ) * scale) (p - (q : ℚ) * scale)
    rw [show (q : ℚ) * scale + (p - (q : ℚ) * scale) = p by ring] at this
    exact this
  have n53 : (0 : ℚ) < 1 / 2 ^ 53 := by positivity
  have P52 : |p| ≤ 2 ^ 32 * scale := by linarith
  -- the sum
  have tO : |offset + p| ≤ |offset| + |p| := abs_add offset p
  obtain ⟨fr, -⟩ := ofRat_of_abs_le (offset + p) (52 + 900) (by norm_num) (by linarith)
  have br := roundBinary64_rel_error (offset + p)
  obtain ⟨r, hr⟩ : ∃ r, r = roundBinary64 (offset + p) := ⟨_, rfl⟩
  rw [← hr] at fr br
  have tR : |r| ≤ |offset + p| + |r - (offset + p)| := by
    have := abs_add (offset + p) (r - (offset + p))
    rw [show offset + p + (r - (offset + p)) = r by ring] at this
    exact this
  have hdeq : dequantize q (F64.fin offset) (F64.fin scale) = F64.fin r := by
    unfold dequantize
    rw [ofInt_mul_fin, fp, f64_add_fin, fr]
  -- the difference
  have tA : |r - offset| ≤ |p| + |r - (offset + p)| := by
    have := abs_add p (r - (offset + p))
    rw [show p + (r - (offset + p)) = r - offset by ring] at this
    exact this
  obtain ⟨fd, -⟩ := ofRat_of_abs_le (r - offset) (52 + 900) (by norm_num) (by linarith)
  have bd := roundBinary64_rel_error (r - offset)
  obtain ⟨d, hd⟩ : ∃ d, d = roundBinary64 (r - offset) := ⟨_, rfl⟩
  rw [← hd] at fd bd
  have tD : |d| ≤ |r - offset| + |d - (r - offset)| := by
    have := abs_add (r - offset) (d - (r - offset))
    rw [show r - offset + (d - (r - offset)) = d by ring] at this
    exact this
  have D52 : |d| ≤ 2 ^ 33 * scale := by linarith
  -- the quotient
  have hdq : |d / scale| ≤ 2 ^ 33 := by
    rw [abs_div, abs_of_pos hs, div_le_iff₀ hs]
    exact D52
  obtain ⟨ft, -⟩ := ofRat_of_abs_le (d / scale) 33 (by norm_num) hdq
  have bt := roundBinary64_rel_error (d / scale)
  obtain ⟨t, ht⟩ : ∃ t, t = roundBinary64 (d / scale) := ⟨_, rfl⟩
  rw [← ht] at ft bt
  have tT : |t| ≤ |d / scale| + |t - d / scale| := by
    have := abs_add (d / scale) (t - d / scale)
    rw [show d / scale + (t - d / scale) = t by ring] at this
    exact this
  have hquot : (dequantize q (F64.fin offset) (F64.fin scale) - F64.fin offset) / F64.fin scale
      = F64.fin t := by
    rw [hdeq, f64_sub_fin, fd, f64_div_fin d scale hs.ne', ft]
  apply requantize_of_close q offset scale t hs hq hquot
  have key : scale * (t - q) = scale * (t - d / scale) + (d - (r - offset))
      + (r - (offset + p)) + (p - (q : ℚ) * scale) := by
    field_simp
    ring
  have tri : scale * |t - q| ≤ scale * |t - d / scale| + |d - (r - offset)|
      + |r - (offset + p)| + |p - (q : ℚ) * scale| := by
    have e : scale * |t - (q : ℚ)| = |scale * (t - q)| := by
      rw [abs_mul, abs_of_pos hs]
    rw [e, key]
    have a1 := abs_add (scale * (t - d / scale) + (d - (r - offset)) + (r - (offset + p)))
      (p - (q : ℚ) * scale)
    have a2 := abs_add (scale * (t - d / scale) + (d - (r - offset))) (r - (offset + p))
    have a3 := abs_add (scale * (t - d / scale)) (d - (r - offset))
    have a4 : |scale * (t - d / scale)| = scale * |t - d / scale| := by
      rw [abs_mul, abs_of_pos hs]
    linarith
  have mt := mul_le_mul_of_nonneg_left bt hs.le
  have mT := mul_le_mul_of_nonneg_left tT hs.le
  have hds : scale * |d / scale| = |d| := by
    rw [abs_div, abs_of_pos hs]
    field_simp
  rw [mul_add, hds] at mT
  have mt2 : scale * |t - d / scale| ≤ scale * |t| / 2 ^ 53 + scale / 2 ^ 1075 := by
    calc scale * |t - d / scale| ≤ scale * (|t| / 2 ^ 53 + 1 / 2 ^ 1075) := mt
      _ = scale * |t| / 2 ^ 53 + scale / 2 ^ 1075 := by ring
  have n75 : scale / 2 ^ 1075 ≤ scale / 2 ^ 75 := by
    apply div_le_div_of_nonneg_left hs.le (by positivity)
    exact pow_le_pow_right₀ (by norm_num) (by norm_num)
  have fin : scale * |t - (q : ℚ)| ≤ scale * (1 / 4) := by
    generalize scale * |t - d / scale| = Et at *
    generalize scale * |t| = T at *
    generalize |d - (r - offset)| = ed at *
    generalize |r - (offset + p)| = er at *
    generalize |p - (q : ℚ) * scale| = ep at *
    generalize |d| = D at *
    generalize |r| = R at *
    generalize |p| = P at *
    generalize |offset| = O at *
    generalize |r - offset| = A at *
    generalize |offset + p| = B at *
    generalize |(q : ℚ) * scale| = Q at *
    linarith
  exact le_of_mul_le_mul_left fin hs

/-! ## Claims on quantization -/

/-- C1 (as amended): quantization error bound in `double` arithmetic.  For
every scale > 0, offset and finite coordinate `v` for which the cast of the
record-writing rule is defined (the sum handed to it is in the range of a
32-bit signed integer) and `offset + quantize(v)*scale` is finite, the five
operations (difference, quotient, sum, product, sum) deliver finite results
`d`, `t`, `s`, `p`, `r`, and the result `r` differs from `v` by at most
`scale/2` plus the rounding errors of the five operations; each rounding error
is at most `2^-53` of the magnitude of the result of its operation plus
`2^-1075`.  When the five operations are exact the bound is `scale/2`, and in
every case it is at most
`scale/2 + (|v| + |offset| + scale) * 2^-50 + (1 + scale) * 2^-1073`. -/
theorem quantize_error_bound (v offset scale r : ℚ) (hs : 0 < scale)
    (hfit : (quantizeSum (F64.fin v) (F64.fin offset) (F64.fin scale)).InIntRange)
    (hr : dequantize (quantize (F64.fin v) (F64.fin offset) (F64.fin scale))
      (F64.fin offset) (F64.fin scale) = F64.fin r) :
    ∃ d t s p : ℚ,
      F64.fin v - F64.fin offset = F64.fin d ∧
      F64.fin d / F64.fin scale = F64.fin t ∧
      quantizeSum (F64.fin v) (F64.fin offset) (F64.fin scale) = F64.fin s ∧
      F64.ofInt (quantize (F64.fin v) (F64.fin offset) (F64.fin scale)) * F64.fin scale
        = F64.fin p ∧
      F64.fin offset + F64.fin p = F64.fin r ∧
      |r - v| ≤ scale / 2 +
        (|d - (v - offset)| + scale * |t - d / scale| +
         scale * |s - ((if offset < v then 1 / 2 else -(1 / 2)) + t)| +
         |p - (quantize (F64.fin v) (F64.fin offset) (F64.fin scale) : ℚ) * scale| +
         |r - (offset + p)|) ∧
      |d - (v - offset)| ≤ |d| / 2 ^ 53 + 1 / 2 ^ 1075 ∧
      |t - d / scale| ≤ |t| / 2 ^ 53 + 1 / 2 ^ 1075 ∧
      |s - ((if offset < v then 1 / 2 else -(1 / 2)) + t)| ≤ |s| / 2 ^ 53 + 1 / 2 ^ 1075 ∧
      |p - (quantize (F64.fin v) (F64.fin offset) (F64.fin scale) : ℚ) * scale|
        ≤ |p| / 2 ^ 53 + 1 / 2 ^ 1075 ∧
      |r - (offset + p)| ≤ |r| / 2 ^ 53 + 1 / 2 ^ 1075 ∧
      |r - v| ≤ scale / 2 + (|v| + |offset| + scale) / 2 ^ 50 + (1 + scale) / 2 ^ 1073 := by
  obtain ⟨d, t, s, p, e1, e2, e3, e4, e5, hq, b1, b2, b3, b4, b5, -⟩ :=
    quantize_dequantize_error v offset scale r hs hfit hr
  exact ⟨d, t, s, p, e1, e2, e3, e4, e5, hq, b1, b2, b3, b4, b5,
    quantize_dequantize_bound v offset scale r hs hfit hr⟩

/-- Witness of C1 (as amended) at the `double`s nearest to 1.2345 and 0.01,
offset 0: the coordinate is stored as 123 and read back as the `double`
nearest to 1.23, within `scale/2` plus the rounding errors. -/
theorem quantize_error_bound_witness :
    quantize (F64.fin (roundBinary64 (12345 / 10000))) (F64.fin 0)
      (F64.fin (roundBinary64 (1 / 100))) = 123 ∧
    ∃ d t s p : ℚ,
      |roundBinary64 (123 / 100) - roundBinary64 (12345 / 10000)|
        ≤ roundBinary64 (1 / 100) / 2 +
          (|d - (roundBinary64 (12345 / 10000) - 0)| +
           roundBinary64 (1 / 100) * |t - d / roundBinary64 (1 / 100)| +
           roundBinary64 (1 / 100) *
             |s - ((if (0 : ℚ) < roundBinary64 (12345 / 10000) then 1 / 2 else -(1 / 2)) + t)| +
           |p - (quantize (F64.fin (roundBinary64 (12345 / 10000))) (F64.fin 0)
               (F64.fin (roundBinary64 (1 / 100))) : ℚ) * roundBinary64 (1 / 100)| +
           |roundBinary64 (123 / 100) - (0 + p)|) ∧
      |roundBinary64 (123 / 100) - roundBinary64 (12345 / 10000)|
        ≤ roundBinary64 (1 / 100) / 2 +
          (|roundBinary64 (12345 / 10000)| + |(0 : ℚ)| + roundBinary64 (1 / 100)) / 2 ^ 50 +
          (1 + roundBinary64 (1 / 100)) / 2 ^ 1073 := by
  refine ⟨by decide!, ?_⟩
  obtain ⟨d, t, s, p, -, -, -, -, -, h, -, -, -, -, -, h2⟩ :=
    quantize_error_bound (roundBinary64 (12345 / 10000)) 0 (roundBinary64 (1 / 100))
      (roundBinary64 (123 / 100)) (by decide!) (by decide!) (by decide!)
  exact ⟨d, t, s, p, h, h2⟩

/-- Counterexample to C1 as stated: the `double` just below 0.5 at scale 1 and
offset 0.  The sum `0.5 + v` is rounded to 1.0, the coordinate is stored as 1
and read back as 1.0, which is `1/2 + 2^-54` away from it, more than
`scale/2`.  And the `double`s nearest to 1840543321897.45, 0.1 and 1000.3 as
coordinate, offset and scale: the coordinate is stored as 1839991325 and read
back as 1840543322397.6, more than `scale/2 + 0.0001` away from it. -/
theorem quantize_error_counterexample :
    (F64.fin (1 / 2 - 1 / 2 ^ 54)).IsDouble ∧
    (quantizeSum (F64.fin (1 / 2 - 1 / 2 ^ 54)) 0 1).InIntRange ∧
    quantize (F64.fin (1 / 2 - 1 / 2 ^ 54)) 0 1 = 1 ∧
    dequantize (quantize (F64.fin (1 / 2 - 1 / 2 ^ 54)) 0 1) 0 1 = F64.fin 1 ∧
    ¬ |(1 : ℚ) - (1 / 2 - 1 / 2 ^ 54)| ≤ (1 : ℚ) / 2 ∧
    quantize (F64.fin (roundBinary64 (184054332189745 / 100)))
      (F64.fin (roundBinary64 (1 / 10))) (F64.fin (roundBinary64 (10003 / 10))) = 1839991325 ∧
    dequantize 1839991325 (F64.fin (roundBinary64 (1 / 10)))
      (F64.fin (roundBinary64 (10003 / 10))) = F64.fin (3769432724270285 / 2048) ∧
    ¬ |(3769432724270285 / 2048 : ℚ) - roundBinary64 (184054332189745 / 100)|
      ≤ roundBinary64 (10003 / 10) / 2 + 1 / 10000 := by
  decide!

/-- C2 (as amended): for every scale > 0, offset and 32-bit signed integer
`q`, quantizing the dequantized value `offset + q*scale` gives `q` back
whenever the quotient the quantizer recomputes in `double` arithmetic is within
`1/4` of `q`.  This is the case when the product `q*scale` and the sum
`offset + q*scale` are computed without rounding error, and it is the case
whenever the offset is at most `2^50` steps of the scale away from 0 and the
scale lies between `2^-1000` and `2^900`. -/
theorem quantize_dequantize (q : Int) (offset scale : ℚ) (hs : 0 < scale) (hq : fitsInt q) :
    (∀ t : ℚ,
      (dequantize q (F64.fin offset) (F64.fin scale) - F64.fin offset) / F64.fin scale
        = F64.fin t →
      |t - q| ≤ 1 / 4 →
      quantize (dequantize q (F64.fin offset) (F64.fin scale)) (F64.fin offset) (F64.fin scale)
        = q) ∧
    (F64.ofInt q * F64.fin scale = F64.fin ((q : ℚ) * scale) →
      F64.fin offset + F64.fin ((q : ℚ) * scale) = F64.fin (offset + (q : ℚ) * scale) →
      quantize (dequantize q (F64.fin offset) (F64.fin scale)) (F64.fin offset) (F64.fin scale)
        = q) ∧
    (1 / 2 ^ 1000 ≤ scale → scale ≤ 2 ^ 900 → |offset| ≤ 2 ^ 50 * scale →
      quantize (dequantize q (F64.fin offset) (F64.fin scale)) (F64.fin offset) (F64.fin scale)
        = q) := by
  refine ⟨fun t ht hc => requantize_of_close q offset scale t hs hq ht hc, fun hm ha => ?_,
    fun hlo hhi ho => requantize_of_magnitude q offset scale hlo hhi hq ho⟩
  have ht := requantize_quotient_exact q offset scale hs hq hm ha
  exact requantize_of_close q offset scale q hs hq ht (by simp)

/-- Witness of C2 (as amended) at `q = -7`, offset 500000: with the scale
1/128 both operations are exact, and with the `double` nearest to 0.01 the
recomputed quotient is within 1/4 of -7; and at `q = 2147483647`, offset
-3000000 and the `double` nearest to 0.001, where the offset is at most `2^50`
steps away from 0. -/
theorem quantize_dequantize_witness :
    quantize (dequantize (-7) (F64.fin 500000) (F64.fin (1 / 128))) (F64.fin 500000)
      (F64.fin (1 / 128)) = -7 ∧
    quantize (dequantize (-7) (F64.fin 500000) (F64.fin (roundBinary64 (1 / 100))))
      (F64.fin 500000) (F64.fin (roundBinary64 (1 / 100))) = -7 ∧
    quantize (dequantize 2147483647 (F64.fin (-3000000)) (F64.fin (roundBinary64 (1 / 1000))))
      (F64.fin (-3000000)) (F64.fin (roundBinary64 (1 / 1000))) = 2147483647 :=
  ⟨(quantize_dequantize (-7) 500000 (1 / 128) (by norm_num) (by decide)).2.1
      (by decide!) (by decide!),
   (quantize_dequantize (-7) 500000 (roundBinary64 (1 / 100)) (by decide!) (by decide)).1
      (roundBinary64 (roundBinary64
        (roundBinary64 (500000 + roundBinary64 (-7 * roundBinary64 (1 / 100))) - 500000)
          / roundBinary64 (1 / 100)))
      (by decide!) (by decide!),
   (quantize_dequantize 2147483647 (-3000000) (roundBinary64 (1 / 1000)) (by decide!)
      (by decide)).2.2 (by decide!) (by decide!) (by decide!)⟩

/-- Counterexample to C2 as stated: `q = 1` with offset 4000000 and the
`double` nearest to 1e-10 as scale (the offset is more than `2^50` steps away
from 0).  The sum `offset + 1*scale` is rounded back to the offset, and the
quantizer returns 0.  In the same way `q = 1086045985` with offset 10000000
and the `double` nearest to 1e-9 as scale comes back as 1086045984. -/
theorem quantize_dequantize_counterexample :
    F64.ofRat (1 / 10000000000) = F64.fin (roundBinary64 (1 / 10000000000)) ∧
    (0 : ℚ) < roundBinary64 (1 / 10000000000) ∧ fitsInt 1 ∧
    dequantize 1 (F64.fin 4000000) (F64.ofRat (1 / 10000000000)) = F64.fin 4000000 ∧
    quantize (dequantize 1 (F64.fin 4000000) (F64.ofRat (1 / 10000000000)))
      (F64.fin 4000000) (F64.ofRat (1 / 10000000000)) = 0 ∧
    fitsInt 1086045985 ∧
    quantize (dequantize 1086045985 (F64.fin 10000000) (F64.ofRat (1 / 1000000000)))
      (F64.fin 10000000) (F64.ofRat (1 / 1000000000)) = 1086045984 := by
  decide!

/-! ## What `parse` stores and what it leaves alone -/

theorem vars_ext_read {s t : Vars} (h : ∀ f : Field, f.read s = f.read t) : s = t := by
  obtain ⟨⟨a0, a1, a2⟩, ⟨px, py, pz, pi, pr, pn, pd, pe, pc, pa, pu, pp⟩, gt, r0, r1, r2⟩ := s
  obtain ⟨⟨b0, b1, b2⟩, ⟨qx, qy, qz, qi, qr, qn, qd, qe, qc, qa, qu, qp⟩, ht, u0, u1, u2⟩ := t
  have h1 := h Field.xyz0
  have h2 := h Field.xyz1
  have h3 := h Field.xyz2
  have h4 := h Field.gps_time
  have h5 := h Field.rgb0
  have h6 := h Field.rgb1
  have h7 := h Field.rgb2
  have h8 := h Field.x
  have h9 := h Field.y
  have h10 := h Field.z
  have h11 := h Field.intensity
  have h12 := h Field.return_number
  have h13 := h Field.number_of_returns_of_given_pulse
  have h14 := h Field.scan_direction_flag
  have h15 := h Field.edge_of_flight_line
  have h16 := h Field.classification
  have h17 := h Field.scan_angle_rank
  have h18 := h Field.user_data
  have h19 := h Field.point_source_ID
  simp only [Field.read, F64.fin.injEq, Nat.cast_inj, Int.cast_inj] at h1 h2 h3 h4 h5 h6 h7 h8 h9 h10 h11 h12 h13 h14 h15 h16 h17 h18 h19
  subst_vars
  rfl

theorem expect_eq_some {α : Type} (l : List Char) (scan : List Char → Option α)
    (store : α → Vars) (r : List Char × Vars) :
    expect l scan store = some r ↔
      skipWhite l ≠ [] ∧ ∃ v, scan (skipWhite l) = some v ∧
        r = (advance (skipWhite l), store v) := by
  unfold expect
  by_cases h : skipWhite l = []
  · simp [h]
  · rw [if_neg h]
    cases hs : scan (skipWhite l) with
    | none => simp
    | some v =>
      constructor
      · intro e
        exact ⟨h, v, rfl, (Option.some.inj e).symm⟩
      · rintro ⟨_, w, hw, e⟩
        cases hw
        rw [e]

theorem expect_eq_none {α : Type} (l : List Char) (scan : List Char → Option α)
    (store : α → Vars) :
    expect l scan store = none ↔ skipWhite l = [] ∨ scan (skipWhite l) = none := by
  unfold expect
  by_cases h : skipWhite l = []
  · simp [h]
  · rw [if_neg h]
    cases hs : scan (skipWhite l) with
    | none => simp
    | some v => simp [h]

theorem symbol_cases (p : Char) :
    p = 'x' ∨ p = 'y' ∨ p = 'z' ∨ p = 's' ∨ p = 'i' ∨ p = 'a' ∨ p = 'n' ∨ p = 'r' ∨
    p = 'c' ∨ p = 'u' ∨ p = 'p' ∨ p = 'e' ∨ p = 'd' ∨ p = 't' ∨ p = 'R' ∨ p = 'G' ∨
    p = 'B' ∨ ¬ recognized p := by
  unfold recognized
  simp only [List.mem_cons, List.mem_singleton, List.not_mem_nil, or_false]
  tauto

theorem parseField_unrecognized (sc : Scanf) (p : Char) (l : List Char) (s : Vars)
    (h : ¬ recognized p) : parseField sc p l s = some (l, s) := by
  unfold recognized at h
  simp only [List.mem_cons, List.mem_singleton, List.not_mem_nil, or_false, not_or] at h
  obtain ⟨h1, h2, h3, h4, h5, h6, h7, h8, h9, h10, h11, h12, h13, h14, h15, h16, h17⟩ := h
  unfold parseField
  simp only [h1, h2, h3, h4, h5, h6, h7, h8, h9, h10, h11, h12, h13, h14, h15, h16, h17,
    if_false]

theorem target_unrecognized (p : Char) (h : ¬ recognized p) : target p = none := by
  unfold recognized at h
  simp only [List.mem_cons, List.mem_singleton, List.not_mem_nil, or_false, not_or] at h
  obtain ⟨h1, h2, h3, h4, h5, h6, h7, h8, h9, h10, h11, h12, h13, h14, h15, h16, h17⟩ := h
  unfold target
  simp only [h1, h2, h3, h5, h6, h7, h8, h9, h10, h11, h12, h13, h14, h15, h16, h17,
    if_false]

/-- Two runs of the token pattern on the same line whose stores assign the
same location `tg` (or none): both fail, or both succeed with the same line
pointer, equal content of `tg`, and every other location untouched. -/
theorem expect_agree {α : Type} (l : List Char) (scan : List Char → Option α)
    (put : α → Vars → Vars) (tg : Option Field) (s t : Vars)
    (hput : ∀ (v : α) (a b : Vars) (f : Field),
      (tg = some f ∧ f.read (put v a) = f.read (put v b)) ∨
      (tg ≠ some f ∧ f.read (put v a) = f.read a ∧ f.read (put v b) = f.read b)) :
    (expect l scan (fun v => put v s) = none ∧ expect l scan (fun v => put v t) = none) ∨
    ∃ l1 s1 t1, expect l scan (fun v => put v s) = some (l1, s1) ∧
      expect l scan (fun v => put v t) = some (l1, t1) ∧
      ∀ f : Field, (tg = some f ∧ f.read s1 = f.read t1) ∨
        (tg ≠ some f ∧ f.read s1 = f.read s ∧ f.read t1 = f.read t) := by
  by_cases hw : skipWhite l = []
  · left
    exact ⟨(expect_eq_none _ _ _).2 (Or.inl hw), (expect_eq_none _ _ _).2 (Or.inl hw)⟩
  · cases hs : scan (skipWhite l) with
    | none =>
      left
      exact ⟨(expect_eq_none _ _ _).2 (Or.inr hs), (expect_eq_none _ _ _).2 (Or.inr hs)⟩
    | some v =>
      right
      exact ⟨advance (skipWhite l), put v s, put v t,
        (expect_eq_some _ _ _ _).2 ⟨hw, v, hs, rfl⟩,
        (expect_eq_some _ _ _ _).2 ⟨hw, v, hs, rfl⟩, hput v s t⟩

/-- Two calls of one iteration of `parse` on the same symbol and line, from
different variables: both fail or both succeed with the same line pointer; the
location assigned by the symbol then holds the same value in both, and every
other location keeps the value it had. -/
theorem parseField_agree (sc : Scanf) (p : Char) (l : List Char) (s t : Vars) :
    (parseField sc p l s = none ∧ parseField sc p l t = none) ∨
    ∃ l1 s1 t1, parseField sc p l s = some (l1, s1) ∧ parseField sc p l t = some (l1, t1) ∧
      ∀ f : Field, (target p = some f ∧ f.read s1 = f.read t1) ∨
        (target p ≠ some f ∧ f.read s1 = f.read s ∧ f.read t1 = f.read t) := by
  rcases symbol_cases p with h | h | h | h | h | h | h | h | h | h | h | h | h | h | h | h | h | h
  · subst h
    exact expect_agree l sc.lf (fun v a => { a with xyz := { a.xyz with c0 := v } })
      (some Field.xyz0) s t (fun v a b f => by cases f <;> simp [Field.read])
  · subst h
    exact expect_agree l sc.lf (fun v a => { a with xyz := { a.xyz with c1 := v } })
      (some Field.xyz1) s t (fun v a b f => by cases f <;> simp [Field.read])
  · subst h
    exact expect_agree l sc.lf (fun v a => { a with xyz := { a.xyz with c2 := v } })
      (some Field.xyz2) s t (fun v a b f => by cases f <;> simp [Field.read])
  · subst h
    exact expect_agree l (fun _ => some ()) (fun _ a => a)
      none s t (fun v a b f => by cases f <;> simp [Field.read])
  · subst h
    exact expect_agree l sc.f
      (fun v a => { a with point := { a.point with intensity := castU16 v } })
      (some Field.intensity) s t (fun v a b f => by cases f <;> simp [Field.read])
  · subst h
    exact expect_agree l sc.f
      (fun v a => { a with point := { a.point with scan_angle_rank := castI8 v } })
      (some Field.scan_angle_rank) s t (fun v a b f => by cases f <;> simp [Field.read])
  · subst h
    exact expect_agree l sc.d
      (fun v a => { a with point :=
        { a.point with number_of_returns_of_given_pulse := (v % 8).toNat } })
      (some Field.number_of_returns_of_given_pulse) s t
      (fun v a b f => by cases f <;> simp [Field.read])
  · subst h
    exact expect_agree l sc.d
      (fun v a => { a with point := { a.point with return_number := (v % 8).toNat } })
      (some Field.return_number) s t (fun v a b f => by cases f <;> simp [Field.read])
  · subst h
    exact expect_agree l sc.d
      (fun v a => { a with point := { a.point with classification := (v % 256).toNat } })
      (some Field.classification) s t (fun v a b f => by cases f <;> simp [Field.read])
  · subst h
    exact expect_agree l sc.d
      (fun v a => { a with point := { a.point with user_data := (v % 256).toNat } })
      (some Field.user_data) s t (fun v a b f => by cases f <;> simp [Field.read])
  · subst h
    exact expect_agree l sc.d
      (fun v a => { a with point := { a.point with point_source_ID := (v % 65536).toNat } })
      (some Field.point_source_ID) s t (fun v a b f => by cases f <;> simp [Field.read])
  · subst h
    exact expect_agree l sc.d
      (fun v a => { a with point :=
        { a.point with edge_of_flight_line := if v ≠ 0 then 1 else 0 } })
      (some Field.edge_of_flight_line) s t (fun v a b f => by cases f <;> simp [Field.read])
  · subst h
    exact expect_agree l sc.d
      (fun v a => { a with point :=
        { a.point with scan_direction_flag := if v ≠ 0 then 1 else 0 } })
      (some Field.scan_direction_flag) s t (fun v a b f => by cases f <;> simp [Field.read])
  · subst h
    exact expect_agree l sc.lf (fun v a => { a with gps_time := v })
      (some Field.gps_time) s t (fun v a b f => by cases f <;> simp [Field.read])
  · subst h
    exact expect_agree l sc.d (fun v a => { a with rgb0 := (v % 65536).toNat })
      (some Field.rgb0) s t (fun v a b f => by cases f <;> simp [Field.read])
  · subst h
    exact expect_agree l sc.d (fun v a => { a with rgb1 := (v % 65536).toNat })
      (some Field.rgb1) s t (fun v a b f => by cases f <;> simp [Field.read])
  · subst h
    exact expect_agree l sc.d (fun v a => { a with rgb2 := (v % 65536).toNat })
      (some Field.rgb2) s t (fun v a b f => by cases f <;> simp [Field.read])
  · right
    refine ⟨l, s, t, parseField_unrecognized sc p l s h, parseField_unrecognized sc p l t h,
      fun f => Or.inr ⟨?_, rfl, rfl⟩⟩
    rw [target_unrecognized p h]
    simp

theorem parse_cons_none (sc : Scanf) (p : Char) (ps l : List Char) (s : Vars)
    (h : parseField sc p l s = none) : parse sc (p :: ps) l s = (false, s) := by
  simp only [parse, h]

theorem parse_cons_some (sc : Scanf) (p : Char) (ps l : List Char) (s : Vars)
    (l1 : List Char) (s1 : Vars) (h : parseField sc p l s = some (l1, s1)) :
    parse sc (p :: ps) l s = parse sc ps l1 s1 := by
  simp only [parse, h]

/-- Two calls of `parse` on the same parse string and line from variables that
agree on the locations `K`: the flags are equal, the results still agree on
`K`, and after a success they also agree on every location the parse string
assigns. -/
theorem parse_agree (sc : Scanf) (g : List Char) :
    ∀ (l : List Char) (s t : Vars) (K : Field → Prop),
      (∀ f, K f → f.read s = f.read t) →
      (parse sc g l s).1 = (parse sc g l t).1 ∧
      (∀ f, K f → f.read (parse sc g l s).2 = f.read (parse sc g l t).2) ∧
      ((parse sc g l s).1 = true →
        ∀ f, targeted g f → f.read (parse sc g l s).2 = f.read (parse sc g l t).2) := by
  induction g with
  | nil =>
    intro l s t K h
    refine ⟨rfl, h, ?_⟩
    rintro - f ⟨c, hc, -⟩
    simp at hc
  | cons p ps ih =>
    intro l s t K h
    rcases parseField_agree sc p l s t with ⟨hs, ht⟩ | ⟨l1, s1, t1, hs, ht, hf⟩
    · rw [parse_cons_none sc p ps l s hs, parse_cons_none sc p ps l t ht]
      refine ⟨rfl, h, ?_⟩
      intro hfalse
      simp at hfalse
    · rw [parse_cons_some sc p ps l s l1 s1 hs, parse_cons_some sc p ps l t l1 t1 ht]
      have hK : ∀ f, (K f ∨ target p = some f) → f.read s1 = f.read t1 := by
        intro f hk
        rcases hf f with ⟨_, e⟩ | ⟨hne, e1, e2⟩
        · exact e
        · rcases hk with hk | hk
          · rw [e1, e2]
            exact h f hk
          · exact absurd hk hne
      obtain ⟨i1, i2, i3⟩ := ih l1 s1 t1 (fun f => K f ∨ target p = some f) hK
      refine ⟨i1, fun f hk => i2 f (Or.inl hk), ?_⟩
      rintro hok f ⟨c, hc, hfc⟩
      rcases List.mem_cons.1 hc with rfl | hc
      · exact i2 f (Or.inr hfc)
      · exact i3 hok f ⟨c, hc, hfc⟩

/-- A call of `parse` leaves every location alone that no symbol of the parse
string assigns, whether it succeeds or fails. -/
theorem parse_frame (sc : Scanf) (g : List Char) :
    ∀ (l : List Char) (s : Vars) (f : Field), ¬ targeted g f →
      f.read (parse sc g l s).2 = f.read s := by
  induction g with
  | nil =>
    intro l s f _
    rfl
  | cons p ps ih =>
    intro l s f hn
    rcases parseField_agree sc p l s s with ⟨hs, _⟩ | ⟨l1, s1, t1, hs, _, hf⟩
    · rw [parse_cons_none sc p ps l s hs]
    · rw [parse_cons_some sc p ps l s l1 s1 hs]
      have h1 : ¬ targeted ps f := by
        rintro ⟨c, hc, e⟩
        exact hn ⟨c, List.mem_cons_of_mem _ hc, e⟩
      rw [ih l1 s1 f h1]
      rcases hf f with ⟨e, _⟩ | ⟨_, e, _⟩
      · exact absurd ⟨p, List.mem_cons_self _ _, e⟩ hn
      · exact e

/-- Whether a line parses does not depend on the variables `parse` is handed. -/
theorem parse_flag_eq (sc : Scanf) (g l : List Char) (s t : Vars) :
    (parse sc g l s).1 = (parse sc g l t).1 :=
  (parse_agree sc g l s t (fun _ => False) (fun _ h => h.elim)).1

theorem target_not_quantized (c : Char) (f : Field) (h : target c = some f) :
    ¬ f.isQuantized := by
  rcases symbol_cases c with
    rfl | rfl | rfl | rfl | rfl | rfl | rfl | rfl | rfl | rfl | rfl | rfl | rfl | rfl | rfl |
    rfl | rfl | hn
  all_goals first
    | (rw [target_unrecognized c hn] at h
       cases h)
    | (simp only [target] at h
       first
         | (cases h
            simp [Field.isQuantized])
         | (simp at h
            try subst h
            try simp [Field.isQuantized]))

/-- From variables that agree with `v0` where neither `parse` nor the
quantization stores, a line parses exactly when it parses from `v0`, the
agreement persists, and after a success every location other than `point.x`,
`point.y`, `point.z` holds what parsing from `v0` gives. -/
theorem parse_from_untouched (sc : Scanf) (g l : List Char) (v0 s : Vars)
    (h : Untouched g v0 s) :
    (parse sc g l s).1 = (parse sc g l v0).1 ∧
    Untouched g v0 (parse sc g l s).2 ∧
    ((parse sc g l v0).1 = true →
      ∀ f : Field, ¬ f.isQuantized →
        f.read (parse sc g l s).2 = f.read (parse sc g l v0).2) := by
  obtain ⟨h1, h2, h3⟩ :=
    parse_agree sc g l s v0 (fun f => ¬ targeted g f ∧ ¬ f.isQuantized) (fun f hf => h f hf.1 hf.2)
  refine ⟨h1, ?_, ?_⟩
  · intro f hf hq
    rw [parse_frame sc g l s f hf]
    exact h f hf hq
  · intro hok f hq
    by_cases ht : targeted g f
    · exact h3 (h1.trans hok) f ht
    · exact h2 f ⟨ht, hq⟩

/-! ## Tokens consumed by `parse` -/

theorem countTokensFrom_true (l : List Char) :
    countTokensFrom true l = countTokensFrom false (advance l) := by
  induction l with
  | nil => rfl
  | cons c cs ih =>
    by_cases h : c = ' ' ∨ c = ',' ∨ c = '\t'
    · have hn : ¬ (c ≠ ' ' ∧ c ≠ ',' ∧ c ≠ '\t') := by tauto
      simp only [countTokensFrom, advance, if_pos h, if_neg hn]
    · have hn : c ≠ ' ' ∧ c ≠ ',' ∧ c ≠ '\t' := by tauto
      simp only [countTokensFrom, advance, if_neg h, if_pos hn, if_true, zero_add]
      exact ih

theorem countTokens_skipWhite (l : List Char) :
    countTokens (skipWhite l) = countTokens l := by
  unfold countTokens
  induction l with
  | nil => rfl
  | cons c cs ih =>
    by_cases h : c = ' ' ∨ c = ',' ∨ c = '\t'
    · simp only [skipWhite, countTokensFrom, if_pos h]
      exact ih
    · simp only [skipWhite, if_neg h]

theorem skipWhite_head (l : List Char) (c : Char) (cs : List Char)
    (h : skipWhite l = c :: cs) : ¬ (c = ' ' ∨ c = ',' ∨ c = '\t') := by
  induction l with
  | nil => simp [skipWhite] at h
  | cons d ds ih =>
    by_cases hd : d = ' ' ∨ d = ',' ∨ d = '\t'
    · simp only [skipWhite, if_pos hd] at h
      exact ih h
    · simp only [skipWhite, if_neg hd] at h
      cases h
      exact hd

/-- A line that is not exhausted after the white space holds one token more
than what is left after advancing over that token. -/
theorem countTokens_advance (l : List Char) (h : skipWhite l ≠ []) :
    countTokens l = countTokens (advance (skipWhite l)) + 1 := by
  rw [← countTokens_skipWhite l]
  cases hs : skipWhite l with
  | nil => exact absurd hs h
  | cons c cs =>
    have hc := skipWhite_head l c cs hs
    have hn : c ≠ ' ' ∧ c ≠ ',' ∧ c ≠ '\t' := by tauto
    unfold countTokens
    simp only [countTokensFrom, advance, if_neg hc, if_pos hn]
    rw [countTokensFrom_true]
    simp only [Bool.false_eq_true, if_false]
    omega

/-- A successful iteration for a symbol that has a branch consumes exactly one
token. -/
theorem parseField_consumes (sc : Scanf) (p : Char) (l : List Char) (s : Vars)
    (l1 : List Char) (s1 : Vars) (hp : recognized p)
    (h : parseField sc p l s = some (l1, s1)) :
    countTokens l = countTokens l1 + 1 := by
  have key : ∀ {α : Type} (scan : List Char → Option α) (store : α → Vars),
      expect l scan store = some (l1, s1) → countTokens l = countTokens l1 + 1 := by
    intro α scan store he
    obtain ⟨hw, v, _, e⟩ := (expect_eq_some l scan store (l1, s1)).1 he
    have e1 : l1 = advance (skipWhite l) := congrArg Prod.fst e
    rw [e1]
    exact countTokens_advance l hw
  rcases symbol_cases p with
    rfl | rfl | rfl | rfl | rfl | rfl | rfl | rfl | rfl | rfl | rfl | rfl | rfl | rfl | rfl |
    rfl | rfl | hn
  all_goals first
    | exact absurd hp hn
    | exact key (fun _ => some ()) (fun _ => s) h
    | exact key _ _ h

/-- When `parse` succeeds with a parse string of symbols that all have a
branch, the line holds at least as many tokens as the parse string has
symbols. -/
theorem parse_true_tokens (sc : Scanf) (g : List Char) :
    ∀ (l : List Char) (s : Vars), (∀ c ∈ g, recognized c) →
      (parse sc g l s).1 = true → g.length ≤ countTokens l := by
  induction g with
  | nil =>
    intro l s _ _
    exact Nat.zero_le _
  | cons p ps ih =>
    intro l s hg hok
    cases hf : parseField sc p l s with
    | none =>
      rw [parse_cons_none sc p ps l s hf] at hok
      simp at hok
    | some r =>
      obtain ⟨l1, s1⟩ := r
      rw [parse_cons_some sc p ps l s l1 s1 hf] at hok
      have h1 := ih l1 s1 (fun c hc => hg c (List.mem_cons_of_mem _ hc)) hok
      have h2 := parseField_consumes sc p l s l1 s1 (hg p (List.mem_cons_self _ _)) hf
      simp only [List.length_cons]
      omega

/-- C6: for every parse string made of `n` recognized field codes and every
line with fewer than `n` tokens (maximal runs of characters other than space,
comma and tab), `parse` returns false, whatever the conversions do and
whatever the variables hold. -/
theorem parse_rejects_short_line (sc : Scanf) (g l : List Char) (s : Vars)
    (hg : ∀ c ∈ g, recognized c) (hlt : countTokens l < g.length) :
    (parse sc g l s).1 = false := by
  cases h : (parse sc g l s).1 with
  | false => rfl
  | true =>
    have := parse_true_tokens sc g l s hg h
    omega

/-- Witness of C6: the parse string "xyz" rejects the line "1.0 2.0". -/
theorem parse_rejects_short_line_witness :
    (∀ c ∈ "xyz".toList, recognized c) ∧
    countTokens "1.0 2.0".toList < "xyz".toList.length ∧
    (parse cScanf "xyz".toList "1.0 2.0".toList Vars.zero).1 = false :=
  ⟨by decide, by decide,
    parse_rejects_short_line cScanf "xyz".toList "1.0 2.0".toList Vars.zero
      (by decide) (by decide)⟩

/-! ## The loop bodies, line by line -/

theorem quantized_read (v : Vars) (xyz_offset xyz_scale : Vec3) (f : Field)
    (hq : ¬ f.isQuantized) :
    f.read ({ v with point := quantizeXYZ v.xyz xyz_offset xyz_scale v.point } : Vars)
      = f.read v := by
  cases f <;> first | rfl | exact absurd trivial hq

/-- Variables that agree on every location other than `point.x`, `point.y`,
`point.z` give the same record once the coordinates are quantized, and hold
the same coordinates and return number. -/
theorem quantized_eq (a b : Vars) (xyz_offset xyz_scale : Vec3)
    (h : ∀ f : Field, ¬ f.isQuantized → f.read a = f.read b) :
    ({ a with point := quantizeXYZ a.xyz xyz_offset xyz_scale a.point } : Vars)
      = { b with point := quantizeXYZ b.xyz xyz_offset xyz_scale b.point } ∧
    a.xyz = b.xyz ∧ a.point.return_number = b.point.return_number := by
  obtain ⟨⟨a0, a1, a2⟩, ⟨px, py, pz, pi, pr, pn, pd, pe, pc, pa, pu, pp⟩, gt, r0, r1, r2⟩ := a
  obtain ⟨⟨b0, b1, b2⟩, ⟨qx, qy, qz, qi, qr, qn, qd, qe, qc, qa, qu, qp⟩, ht, u0, u1, u2⟩ := b
  have h1 := h Field.xyz0 (by simp [Field.isQuantized])
  have h2 := h Field.xyz1 (by simp [Field.isQuantized])
  have h3 := h Field.xyz2 (by simp [Field.isQuantized])
  have h4 := h Field.gps_time (by simp [Field.isQuantized])
  have h5 := h Field.rgb0 (by simp [Field.isQuantized])
  have h6 := h Field.rgb1 (by simp [Field.isQuantized])
  have h7 := h Field.rgb2 (by simp [Field.isQuantized])
  have h11 := h Field.intensity (by simp [Field.isQuantized])
  have h12 := h Field.return_number (by simp [Field.isQuantized])
  have h13 := h Field.number_of_returns_of_given_pulse (by simp [Field.isQuantized])
  have h14 := h Field.scan_direction_flag (by simp [Field.isQuantized])
  have h15 := h Field.edge_of_flight_line (by simp [Field.isQuantized])
  have h16 := h Field.classification (by simp [Field.isQuantized])
  have h17 := h Field.scan_angle_rank (by simp [Field.isQuantized])
  have h18 := h Field.user_data (by simp [Field.isQuantized])
  have h19 := h Field.point_source_ID (by simp [Field.isQuantized])
  simp only [Field.read, F64.fin.injEq, Nat.cast_inj, Int.cast_inj] at h1 h2 h3 h4 h5 h6 h7 h11 h12 h13 h14 h15 h16 h17 h18 h19
  subst_vars
  exact ⟨rfl, rfl, rfl⟩

/-- C7: a line on which `parse` returns false leaves the run statistics
unchanged in every scan loop (first pass first-line and remaining-lines loops,
second pass, single pass first-line and remaining-lines loops): record count,
per-axis minimum and maximum and all histogram buckets are the same after the
line as before it; no record is written either. -/
theorem failed_line_keeps_statistics (sc : Scanf) (g : List Char)
    (xyz_offset xyz_scale : Vec3) (m : Main) (line : List Char)
    (h : (parse sc g line m.vars).1 = false) :
    sameStatistics (firstPassHead sc g m line).2 m ∧
    sameStatistics (firstPassRest sc g m line).2 m ∧
    sameStatistics (secondPassBody sc g xyz_offset xyz_scale m line).2 m ∧
    sameStatistics (singlePassHead sc g xyz_offset xyz_scale m line).2 m ∧
    sameStatistics (singlePassRest sc g xyz_offset xyz_scale m line).2 m ∧
    (secondPassBody sc g xyz_offset xyz_scale m line).2.written = m.written ∧
    (singlePassHead sc g xyz_offset xyz_scale m line).2.written = m.written ∧
    (singlePassRest sc g xyz_offset xyz_scale m line).2.written = m.written := by
  rcases hp : parse sc g line m.vars with ⟨b, v⟩
  rw [hp] at h
  simp only at h
  subst h
  simp only [firstPassHead, firstPassRest, secondPassBody, singlePassHead, singlePassRest, hp,
    sameStatistics, and_self]

/-- Witness of C7: the line "1.0 2.0" under the parse string "xyz". -/
theorem failed_line_keeps_statistics_witness :
    (parse cScanf "xyz".toList "1.0 2.0".toList (Main.start Vars.zero Vec3.zero Vec3.zero).vars).1
      = false ∧
    sameStatistics
      (singlePassRest cScanf "xyz".toList Vec3.zero ⟨1, 1, 1⟩
        (Main.start Vars.zero Vec3.zero Vec3.zero) "1.0 2.0".toList).2
      (Main.start Vars.zero Vec3.zero Vec3.zero) :=
  ⟨by decide!,
   (failed_line_keeps_statistics cScanf "xyz".toList Vec3.zero ⟨1, 1, 1⟩
      (Main.start Vars.zero Vec3.zero Vec3.zero) "1.0 2.0".toList (by decide!)).2.2.2.2.1⟩

/-- What a call of `parse` inside a scan loop delivers, relative to parsing
the same line from `v0`. -/
theorem parse_in_loop (sc : Scanf) (g line : List Char) (xyz_offset xyz_scale : Vec3)
    (v0 s : Vars) (h : Untouched g v0 s) :
    (parse sc g line s).1 = (parse sc g line v0).1 ∧
    Untouched g v0 (parse sc g line s).2 ∧
    Untouched g v0
      { (parse sc g line s).2 with
        point := quantizeXYZ (parse sc g line s).2.xyz xyz_offset xyz_scale
          (parse sc g line s).2.point } ∧
    ((parse sc g line v0).1 = true →
      ({ (parse sc g line s).2 with
          point := quantizeXYZ (parse sc g line s).2.xyz xyz_offset xyz_scale
            (parse sc g line s).2.point } : Vars).record
        = recordOf sc g xyz_offset xyz_scale v0 line ∧
      (parse sc g line s).2.xyz = (parse sc g line v0).2.xyz ∧
      (parse sc g line s).2.point.return_number
        = (parse sc g line v0).2.point.return_number) := by
  obtain ⟨h1, h2, h3⟩ := parse_from_untouched sc g line v0 s h
  refine ⟨h1, h2, ?_, ?_⟩
  · intro f hf hq
    rw [quantized_read _ xyz_offset xyz_scale f hq]
    exact h2 f hf hq
  · intro hok
    obtain ⟨e1, e2, e3⟩ := quantized_eq _ _ xyz_offset xyz_scale (h3 hok)
    refine ⟨?_, e2, e3⟩
    unfold recordOf
    rw [e1]

theorem firstPassHead_spec (sc : Scanf) (g : List Char) (v0 : Vars) :
    StepSpec sc g v0 firstStats (fun _ => [])
      (firstPassHead sc g) := by
  intro m line hU
  obtain ⟨h1, h2, h3, h4⟩ := parse_in_loop sc g line Vec3.zero Vec3.zero v0 m.vars hU
  rcases hp : parse sc g line m.vars with ⟨b, v⟩
  rw [hp] at h1 h2 h3 h4
  simp only at h1 h2 h3 h4
  cases b with
  | false =>
    simp only [firstPassHead, hp]
    refine ⟨h1, h2, ?_, ?_⟩
    · rw [← h1]
      simp [Main.statistics]
    · rw [← h1]
      simp
  | true =>
    obtain ⟨e1, e2, e3⟩ := h4 h1.symm
    simp only [firstPassHead, hp]
    refine ⟨h1, h2, ?_, ?_⟩
    · rw [← h1]
      simp only [if_true, Main.statistics, firstStats]
      rw [e2, e3]
    · rw [← h1]
      simp only [if_true]
      simp

theorem firstPassRest_spec (sc : Scanf) (g : List Char) (v0 : Vars) :
    StepSpec sc g v0 nextStats (fun _ => [])
      (firstPassRest sc g) := by
  intro m line hU
  obtain ⟨h1, h2, h3, h4⟩ := parse_in_loop sc g line Vec3.zero Vec3.zero v0 m.vars hU
  rcases hp : parse sc g line m.vars with ⟨b, v⟩
  rw [hp] at h1 h2 h3 h4
  simp only at h1 h2 h3 h4
  cases b with
  | false =>
    simp only [firstPassRest, hp]
    refine ⟨h1, h2, ?_, ?_⟩
    · rw [← h1]
      simp [Main.statistics]
    · rw [← h1]
      simp
  | true =>
    obtain ⟨e1, e2, e3⟩ := h4 h1.symm
    simp only [firstPassRest, hp]
    refine ⟨h1, h2, ?_, ?_⟩
    · rw [← h1]
      simp only [if_true, Main.statistics, nextStats]
      rw [e2, e3]
    · rw [← h1]
      simp only [if_true]
      simp

theorem singlePassHead_spec (sc : Scanf) (g : List Char) (xyz_offset xyz_scale : Vec3)
    (v0 : Vars) :
    StepSpec sc g v0 firstStats (fun l => [recordOf sc g xyz_offset xyz_scale v0 l])
      (singlePassHead sc g xyz_offset xyz_scale) := by
  intro m line hU
  obtain ⟨h1, h2, h3, h4⟩ := parse_in_loop sc g line xyz_offset xyz_scale v0 m.vars hU
  rcases hp : parse sc g line m.vars with ⟨b, v⟩
  rw [hp] at h1 h2 h3 h4
  simp only at h1 h2 h3 h4
  cases b with
  | false =>
    simp only [singlePassHead, hp]
    refine ⟨h1, h2, ?_, ?_⟩
    · rw [← h1]
      simp [Main.statistics]
    · rw [← h1]
      simp
  | true =>
    obtain ⟨e1, e2, e3⟩ := h4 h1.symm
    simp only [singlePassHead, hp]
    refine ⟨h1, h3, ?_, ?_⟩
    · rw [← h1]
      simp only [if_true, Main.statistics, firstStats]
      rw [e2, e3]
    · rw [← h1]
      simp only [if_true]
      rw [e1]

theorem singlePassRest_spec (sc : Scanf) (g : List Char) (xyz_offset xyz_scale : Vec3)
    (v0 : Vars) :
    StepSpec sc g v0 nextStats (fun l => [recordOf sc g xyz_offset xyz_scale v0 l])
      (singlePassRest sc g xyz_offset xyz_scale) := by
  intro m line hU
  obtain ⟨h1, h2, h3, h4⟩ := parse_in_loop sc g line xyz_offset xyz_scale v0 m.vars hU
  rcases hp : parse sc g line m.vars with ⟨b, v⟩
  rw [hp] at h1 h2 h3 h4
  simp only at h1 h2 h3 h4
  cases b with
  | false =>
    simp only [singlePassRest, hp]
    refine ⟨h1, h2, ?_, ?_⟩
    · rw [← h1]
      simp [Main.statistics]
    · rw [← h1]
      simp
  | true =>
    obtain ⟨e1, e2, e3⟩ := h4 h1.symm
    simp only [singlePassRest, hp]
    refine ⟨h1, h3, ?_, ?_⟩
    · rw [← h1]
      simp only [if_true, Main.statistics, nextStats]
      rw [e2, e3]
    · rw [← h1]
      simp only [if_true]
      rw [e1]

theorem secondPassBody_spec (sc : Scanf) (g : List Char) (xyz_offset xyz_scale : Vec3)
    (v0 : Vars) :
    StepSpec sc g v0 countDown (fun l => [recordOf sc g xyz_offset xyz_scale v0 l])
      (secondPassBody sc g xyz_offset xyz_scale) := by
  intro m line hU
  obtain ⟨h1, h2, h3, h4⟩ := parse_in_loop sc g line xyz_offset xyz_scale v0 m.vars hU
  rcases hp : parse sc g line m.vars with ⟨b, v⟩
  rw [hp] at h1 h2 h3 h4
  simp only at h1 h2 h3 h4
  cases b with
  | false =>
    simp only [secondPassBody, hp]
    refine ⟨h1, h2, ?_, ?_⟩
    · rw [← h1]
      simp [Main.statistics]
    · rw [← h1]
      simp
  | true =>
    obtain ⟨e1, e2, e3⟩ := h4 h1.symm
    simp only [secondPassBody, hp]
    refine ⟨h1, h3, ?_, ?_⟩
    · rw [← h1]
      simp only [if_true, Main.statistics, countDown]
      try rfl
    · rw [← h1]
      simp only [if_true]
      rw [e1]

/-! ## The loops -/

/-- A loop over all remaining lines: the statistics are folded over the lines
that parse, and one batch of records is written per such line. -/
theorem forEachLine_spec (sc : Scanf) (g : List Char) (v0 : Vars)
    (upd : Statistics → Vars → Statistics) (out : List Char → List Written)
    (body : Main → List Char → Bool × Main) (hB : StepSpec sc g v0 upd out body) :
    ∀ (lines : List (List Char)) (m : Main), Untouched g v0 m.vars →
      Untouched g v0 (forEachLine body lines m).vars ∧
      (forEachLine body lines m).statistics =
        (accepted sc g v0 lines).foldl (fun st l => upd st (parse sc g l v0).2) m.statistics ∧
      (forEachLine body lines m).written =
        m.written ++ (accepted sc g v0 lines).flatMap out := by
  intro lines
  induction lines with
  | nil =>
    intro m hU
    simp [forEachLine, accepted, hU]
  | cons line rest ih =>
    intro m hU
    obtain ⟨-, b2, b3, b4⟩ := hB m line hU
    obtain ⟨i1, i2, i3⟩ := ih (body m line).2 b2
    simp only [forEachLine]
    refine ⟨i1, ?_, ?_⟩
    · rw [i2, b3]
      unfold accepted
      cases hok : (parse sc g line v0).1 <;> simp [List.filter_cons, hok]
    · rw [i3, b4]
      unfold accepted
      cases hok : (parse sc g line v0).1 <;> simp [List.filter_cons, hok]

/-- The loop that stops at the first line that parses: without such a line
nothing changes; otherwise the body has run once on the first such line, and
the lines after it are left to read. -/
theorem untilFirst_spec (sc : Scanf) (g : List Char) (v0 : Vars)
    (upd : Statistics → Vars → Statistics) (out : List Char → List Written)
    (body : Main → List Char → Bool × Main) (hB : StepSpec sc g v0 upd out body) :
    ∀ (lines : List (List Char)) (m : Main), Untouched g v0 m.vars →
      Untouched g v0 (untilFirst body lines m).1.vars ∧
      (accepted sc g v0 lines = [] →
        (untilFirst body lines m).1.statistics = m.statistics ∧
        (untilFirst body lines m).1.written = m.written) ∧
      (∀ a others, accepted sc g v0 lines = a :: others →
        (untilFirst body lines m).1.statistics = upd m.statistics (parse sc g a v0).2 ∧
        (untilFirst body lines m).1.written = m.written ++ out a ∧
        accepted sc g v0 (untilFirst body lines m).2 = others) := by
  intro lines
  induction lines with
  | nil =>
    intro m hU
    simp [untilFirst, accepted, hU]
  | cons line rest ih =>
    intro m hU
    obtain ⟨b1, b2, b3, b4⟩ := hB m line hU
    rcases hb : body m line with ⟨flag, m1⟩
    rw [hb] at b1 b2 b3 b4
    simp only at b1 b2 b3 b4
    cases flag with
    | true =>
      rw [← b1] at b3 b4
      simp only [if_true] at b3 b4
      simp only [untilFirst, hb]
      refine ⟨b2, ?_, ?_⟩
      · intro he
        unfold accepted at he
        simp [List.filter_cons, ← b1] at he
      · intro a others he
        unfold accepted at he
        simp only [List.filter_cons, ← b1, if_true, List.cons.injEq] at he
        obtain ⟨rfl, rfl⟩ := he
        exact ⟨b3, b4, rfl⟩
    | false =>
      rw [← b1] at b3 b4
      simp only [Bool.false_eq_true, if_false, List.append_nil] at b3 b4
      obtain ⟨i1, i2, i3⟩ := ih m1 b2
      simp only [untilFirst, hb]
      have hacc : accepted sc g v0 (line :: rest) = accepted sc g v0 rest := by
        unfold accepted
        simp [List.filter_cons, ← b1]
      rw [hacc]
      refine ⟨i1, ?_, ?_⟩
      · intro he
        obtain ⟨j1, j2⟩ := i2 he
        exact ⟨j1.trans b3, j2.trans b4⟩
      · intro a others he
        obtain ⟨j1, j2, j3⟩ := i3 a others he
        rw [b3] at j1
        rw [b4] at j2
        exact ⟨j1, j2, j3⟩

/-! ## The statistics of the accepted lines -/

theorem bump_length (h : List Nat) (k : Nat) : (bump h k).length = h.length := by
  unfold bump
  rw [List.length_set]

theorem bump_getD (h : List Nat) (k j : Nat) (hj : j < h.length) :
    (bump h k).getD j 0 = if k = j then (h.getD j 0 + 1) % 4294967296 else h.getD j 0 := by
  unfold bump
  rw [List.getD_eq_getElem?_getD, List.getElem?_set]
  by_cases hkj : k = j
  · subst hkj
    rw [if_pos rfl, if_pos hj, if_pos rfl]
    simp only [Option.getD_some, wrapU32]
    omega
  · rw [if_neg hkj, if_neg hkj, List.getD_eq_getElem?_getD]

theorem VecUpdateMinMax3dv_get (mn mx v : Vec3) (i : Fin 3) :
    (VecUpdateMinMax3dv mn mx v).1.get i = (updateMinMax (mn.get i) (mx.get i) (v.get i)).1 ∧
    (VecUpdateMinMax3dv mn mx v).2.get i = (updateMinMax (mn.get i) (mx.get i) (v.get i)).2 := by
  fin_cases i <;> exact ⟨rfl, rfl⟩

theorem isMinOf_ne_nan {a : F64} {xs : List F64} (h : IsMinOf a xs) : a ≠ F64.nan :=
  (f64_ne_nan_of_le (h.1 a h.2)).1

theorem isMaxOf_ne_nan {a : F64} {xs : List F64} (h : IsMaxOf a xs) : a ≠ F64.nan :=
  (f64_ne_nan_of_le (h.1 a h.2)).1

/-- One more value that is a number keeps the minimum exact. -/
theorem isMinOf_snoc {a : F64} {xs : List F64} (h : IsMinOf a xs) (mx v : F64)
    (hv : v ≠ F64.nan) : IsMinOf (updateMinMax a mx v).1 (xs ++ [v]) := by
  have ha := isMinOf_ne_nan h
  obtain ⟨h1, h2⟩ := h
  unfold updateMinMax
  by_cases c1 : v < a
  · rw [if_pos c1]
    constructor
    · intro x hx
      rcases List.mem_append.1 hx with hx | hx
      · exact f64_le_trans (f64_le_of_lt c1) (h1 x hx)
      · rw [List.mem_singleton.1 hx]
        exact f64_le_refl v hv
    · exact List.mem_append_right _ (List.mem_singleton.2 rfl)
  · have hle : a ≤ v := by
      by_contra hc
      exact c1 ((f64_lt_iff_not_le v a hv ha).2 hc)
    have e : (if v > mx then (a, v) else (a, mx)).1 = a := by
      split_ifs <;> rfl
    rw [if_neg c1, e]
    constructor
    · intro x hx
      rcases List.mem_append.1 hx with hx | hx
      · exact h1 x hx
      · rw [List.mem_singleton.1 hx]
        exact hle
    · exact List.mem_append_left _ h2

/-- One more value that is a number keeps the maximum exact. -/
theorem isMaxOf_snoc {a : F64} {xs : List F64} (h : IsMaxOf a xs) (mn v : F64)
    (hmn : mn ≤ a) (hv : v ≠ F64.nan) : IsMaxOf (updateMinMax mn a v).2 (xs ++ [v]) := by
  have ha := isMaxOf_ne_nan h
  obtain ⟨h1, h2⟩ := h
  unfold updateMinMax
  by_cases c1 : v < mn
  · rw [if_pos c1]
    constructor
    · intro x hx
      rcases List.mem_append.1 hx with hx | hx
      · exact h1 x hx
      · rw [List.mem_singleton.1 hx]
        exact f64_le_trans (f64_le_of_lt c1) hmn
    · exact List.mem_append_left _ h2
  · rw [if_neg c1]
    by_cases c2 : v > a
    · rw [if_pos c2]
      constructor
      · intro x hx
        rcases List.mem_append.1 hx with hx | hx
        · exact f64_le_trans (h1 x hx) (f64_le_of_lt c2)
        · rw [List.mem_singleton.1 hx]
          exact f64_le_refl v hv
      · exact List.mem_append_right _ (List.mem_singleton.2 rfl)
    · rw [if_neg c2]
      have hle : v ≤ a := by
        by_contra hc
        exact c2 ((f64_lt_iff_not_le a v ha hv).2 hc)
      constructor
      · intro x hx
        rcases List.mem_append.1 hx with hx | hx
        · exact h1 x hx
        · rw [List.mem_singleton.1 hx]
          exact hle
      · exact List.mem_append_left _ h2

/-- The first accepted record establishes the statistics of a one-line scan. -/
theorem statsOf_first (sc : Scanf) (g : List Char) (v0 : Vars) (st : Statistics)
    (a : List Char) (h0 : st.number_of_points_by_return = [0, 0, 0, 0, 0, 0, 0, 0]) :
    StatsOf sc g v0 [a] (firstStats st (parse sc g a v0).2) := by
  refine ⟨rfl, ?_, ?_, ?_⟩
  · simp only [firstStats, bump_length, h0, List.length_cons, List.length_nil]
  · intro k hk
    simp only [firstStats]
    rw [bump_getD _ _ _ (by rw [h0]; exact hk), h0]
    have hz : ([0, 0, 0, 0, 0, 0, 0, 0] : List Nat).getD k 0 = 0 := by
      interval_cases k <;> rfl
    rw [hz]
    by_cases e : (parse sc g a v0).2.point.return_number = k
    · simp [List.filter_cons, e]
    · simp [List.filter_cons, e]
  · intro i hn
    have hv := hn a (List.mem_singleton.2 rfl)
    simp only [firstStats, List.map_cons, List.map_nil]
    exact ⟨⟨fun x hx => by rw [List.mem_singleton.1 hx]; exact f64_le_refl _ hv,
        List.mem_singleton.2 rfl⟩,
      ⟨fun x hx => by rw [List.mem_singleton.1 hx]; exact f64_le_refl _ hv,
        List.mem_singleton.2 rfl⟩⟩

/-- A later accepted record keeps the statistics exact. -/
theorem statsOf_next (sc : Scanf) (g : List Char) (v0 : Vars) (st : Statistics)
    (seen : List (List Char)) (l : List Char) (h : StatsOf sc g v0 seen st) :
    StatsOf sc g v0 (seen ++ [l]) (nextStats st (parse sc g l v0).2) := by
  obtain ⟨h1, h2, h3, h4⟩ := h
  refine ⟨?_, ?_, ?_, ?_⟩
  · simp only [nextStats, wrapU32, h1, List.length_append, List.length_cons, List.length_nil]
    omega
  · simp only [nextStats, bump_length, h2]
  · intro k hk
    simp only [nextStats]
    rw [bump_getD _ _ _ (by rw [h2]; exact hk), h3 k hk, List.filter_append,
      List.length_append]
    by_cases e : (parse sc g l v0).2.point.return_number = k
    · simp only [e, if_true, List.filter_cons, decide_True, List.filter_nil, List.length_cons,
        List.length_nil]
      omega
    · simp only [e, if_false, List.filter_cons, decide_False, List.filter_nil, List.length_nil,
        Bool.false_eq_true]
      omega
  · intro i hn
    obtain ⟨hmin, hmax⟩ := h4 i (fun l1 hl1 => hn l1 (List.mem_append_left _ hl1))
    have hv := hn l (List.mem_append_right _ (List.mem_singleton.2 rfl))
    have hle : st.xyz_min.get i ≤ st.xyz_max.get i := hmax.1 _ hmin.2
    obtain ⟨g1, g2⟩ := VecUpdateMinMax3dv_get st.xyz_min st.xyz_max (parse sc g l v0).2.xyz i
    simp only [nextStats, List.map_append, List.map_cons, List.map_nil]
    rw [g1, g2]
    exact ⟨isMinOf_snoc hmin _ _ hv, isMaxOf_snoc hmax _ _ hle hv⟩

/-- Folding the update over further accepted lines keeps the statistics
exact. -/
theorem statsOf_fold (sc : Scanf) (g : List Char) (v0 : Vars) :
    ∀ (rest seen : List (List Char)) (st : Statistics), StatsOf sc g v0 seen st →
      StatsOf sc g v0 (seen ++ rest)
        (rest.foldl (fun st l => nextStats st (parse sc g l v0).2) st) := by
  intro rest
  induction rest with
  | nil =>
    intro seen st h
    simpa using h
  | cons l rest ih =>
    intro seen st h
    have := ih (seen ++ [l]) _ (statsOf_next sc g v0 st seen l h)
    simpa using this

/-! ## The scans as a whole -/

theorem flatMap_single {α β : Type} (f : α → β) (l : List α) :
    l.flatMap (fun x => [f x]) = l.map f := by
  induction l with
  | nil => rfl
  | cons a l ih => simp [List.flatMap_cons, ih]

theorem untouched_start (g : List Char) (v0 : Vars) (mn mx : Vec3) :
    Untouched g v0 (Main.start v0 mn mx).vars :=
  fun _ _ _ => rfl

/-- The single-pass scan: it stops at `exit(1)` exactly when no line parses;
otherwise it ends with the statistics of the lines that parse and has written
one record per such line, in input order. -/
theorem singlePassScan_spec (sc : Scanf) (g : List Char) (xyz_offset xyz_scale : Vec3)
    (lines : List (List Char)) (v0 : Vars) (mn mx : Vec3) :
    (accepted sc g v0 lines = [] →
      singlePassScan sc g xyz_offset xyz_scale lines (Main.start v0 mn mx) = Outcome.exit) ∧
    (accepted sc g v0 lines ≠ [] →
      ∃ m, singlePassScan sc g xyz_offset xyz_scale lines (Main.start v0 mn mx)
          = Outcome.done m ∧
        StatsOf sc g v0 (accepted sc g v0 lines) m.statistics ∧
        m.written = (accepted sc g v0 lines).map (recordOf sc g xyz_offset xyz_scale v0) ∧
        Untouched g v0 m.vars) := by
  obtain ⟨u1, u2, u3⟩ := untilFirst_spec sc g v0 firstStats _ _
    (singlePassHead_spec sc g xyz_offset xyz_scale v0) lines (Main.start v0 mn mx)
    (untouched_start g v0 mn mx)
  unfold singlePassScan
  rcases hu : untilFirst (singlePassHead sc g xyz_offset xyz_scale) lines (Main.start v0 mn mx)
    with ⟨m1, rest⟩
  rw [hu] at u1 u2 u3
  simp only at u1 u2 u3
  constructor
  · intro hacc
    have h1 := congrArg Statistics.number_of_point_records (u2 hacc).1
    have h2 : m1.number_of_point_records = 0 := h1
    simp [h2]
  · intro hacc
    cases hl : accepted sc g v0 lines with
    | nil => exact absurd hl hacc
    | cons a others =>
      obtain ⟨j1, j2, j3⟩ := u3 a others hl
      have h1 := congrArg Statistics.number_of_point_records j1
      have h2 : m1.number_of_point_records = 1 := h1
      obtain ⟨f1, f2, f3⟩ := forEachLine_spec sc g v0 nextStats _ _
        (singlePassRest_spec sc g xyz_offset xyz_scale v0) rest m1 u1
      refine ⟨forEachLine (singlePassRest sc g xyz_offset xyz_scale) rest m1, ?_, ?_, ?_, f1⟩
      · simp [h2]
      · rw [f2, j3, j1]
        exact statsOf_fold sc g v0 others [a] _ (statsOf_first sc g v0 _ a rfl)
      · rw [f3, j2, j3, flatMap_single]
        simp [Main.start]

/-- The first-pass scan with a parse string `g`: it stops at `exit(1)` exactly
when no line parses; otherwise it ends with the statistics of the lines that
parse and has written nothing. -/
theorem firstPassScan_spec (sc : Scanf) (g : List Char)
    (lines : List (List Char)) (v0 : Vars) (mn mx : Vec3) :
    (accepted sc g v0 lines = [] →
      firstPassScan sc g lines (Main.start v0 mn mx) = Outcome.exit) ∧
    (accepted sc g v0 lines ≠ [] →
      ∃ m, firstPassScan sc g lines (Main.start v0 mn mx) = Outcome.done m ∧
        StatsOf sc g v0 (accepted sc g v0 lines) m.statistics ∧
        m.written = [] ∧
        Untouched g v0 m.vars) := by
  obtain ⟨u1, u2, u3⟩ := untilFirst_spec sc g v0 firstStats _ _
    (firstPassHead_spec sc g v0) lines (Main.start v0 mn mx)
    (untouched_start g v0 mn mx)
  unfold firstPassScan
  rcases hu : untilFirst (firstPassHead sc g) lines (Main.start v0 mn mx) with ⟨m1, rest⟩
  rw [hu] at u1 u2 u3
  simp only at u1 u2 u3
  constructor
  · intro hacc
    have h1 := congrArg Statistics.number_of_point_records (u2 hacc).1
    have h2 : m1.number_of_point_records = 0 := h1
    simp [h2]
  · intro hacc
    cases hl : accepted sc g v0 lines with
    | nil => exact absurd hl hacc
    | cons a others =>
      obtain ⟨j1, j2, j3⟩ := u3 a others hl
      have h1 := congrArg Statistics.number_of_point_records j1
      have h2 : m1.number_of_point_records = 1 := h1
      obtain ⟨f1, f2, f3⟩ := forEachLine_spec sc g v0 nextStats _ _
        (firstPassRest_spec sc g v0) rest m1 u1
      refine ⟨forEachLine (firstPassRest sc g) rest m1, ?_, ?_, ?_, f1⟩
      · simp [h2]
      · rw [f2, j3, j1]
        exact statsOf_fold sc g v0 others [a] _ (statsOf_first sc g v0 _ a rfl)
      · rw [f3, j2]
        simp [Main.start]

/-! ## Claims on the record-writing code and the scans -/

theorem isPositive_fin {a : F64} (h : a.IsPositive) : ∃ s, a = F64.fin s ∧ 0 < s := by
  cases a with
  | nan => exact absurd h (by simp [F64.IsPositive])
  | inf t => exact absurd h (by simp [F64.IsPositive])
  | fin s => exact ⟨s, rfl, h⟩

theorem isFinite_fin {a : F64} (h : a.IsFinite) : ∃ o, a = F64.fin o := by
  cases a with
  | nan => exact absurd h (by simp [F64.IsFinite])
  | inf t => exact absurd h (by simp [F64.IsFinite])
  | fin o => exact ⟨o, rfl⟩

theorem quantize_rounded_of (v offset scale : F64) (hs : scale.IsPositive)
    (ho : offset.IsFinite) (hfit : (quantizeSum v offset scale).InIntRange) :
    roundedAxis v offset scale (quantize v offset scale) := by
  obtain ⟨s, rfl, hs0⟩ := isPositive_fin hs
  obtain ⟨o, rfl⟩ := isFinite_fin ho
  exact quantize_roundedAxis v o s hs0 hfit

theorem quantizeXYZ_rounded (xyz xyz_offset xyz_scale : Vec3) (p : LASpoint)
    (hs : xyz_scale.c0.IsPositive ∧ xyz_scale.c1.IsPositive ∧ xyz_scale.c2.IsPositive)
    (ho : xyz_offset.c0.IsFinite ∧ xyz_offset.c1.IsFinite ∧ xyz_offset.c2.IsFinite)
    (hfit : fitsXYZ xyz xyz_offset xyz_scale) :
    roundedXYZ xyz xyz_offset xyz_scale (quantizeXYZ xyz xyz_offset xyz_scale p) :=
  ⟨quantize_rounded_of xyz.c0 xyz_offset.c0 xyz_scale.c0 hs.1 ho.1 hfit.1,
   quantize_rounded_of xyz.c1 xyz_offset.c1 xyz_scale.c1 hs.2.1 ho.2.1 hfit.2.1,
   quantize_rounded_of xyz.c2 xyz_offset.c2 xyz_scale.c2 hs.2.2 ho.2.2 hfit.2.2⟩

theorem castInt_intCast (n : Int) (h : fitsInt n) : castInt (F64.fin (n : ℚ)) = n := by
  have e : truncToZero (n : ℚ) = n := by
    unfold truncToZero
    split_ifs
    · exact Int.floor_intCast n
    · exact Int.ceil_intCast n
  simp only [castInt, e, if_pos h]

/-- A computed quotient `k + 1/2` is quantized to `k + 1`, and `-(k + 1/2)` to
`-(k + 1)`. -/
theorem quantize_tie (value offset scale : ℚ) (k : Int) (hs : 0 < scale) (hk : 0 ≤ k) :
    (k + 1 ≤ INT_MAX →
      (F64.fin value - F64.fin offset) / F64.fin scale = F64.fin ((k : ℚ) + 1 / 2) →
      quantize (F64.fin value) (F64.fin offset) (F64.fin scale) = k + 1) ∧
    (INT_MIN ≤ -(k + 1) →
      (F64.fin value - F64.fin offset) / F64.fin scale = F64.fin (-((k : ℚ) + 1 / 2)) →
      quantize (F64.fin value) (F64.fin offset) (F64.fin scale) = -(k + 1)) := by
  have hk0 : (0 : ℚ) ≤ (k : ℚ) := by exact_mod_cast hk
  have h0 : ∀ y : ℚ, y ≤ 0 → roundBinary64 y ≤ 0 := by
    intro y hy
    have := roundBinary64_mono hy
    rw [roundBinary64_zero] at this
    exact this
  constructor
  · intro hmax hquot
    obtain ⟨d, hd, hq⟩ := div_fin_eq_fin hs.ne' hquot
    obtain ⟨x, hx, hdiff⟩ := sub_fin_eq_fin hd
    have e : x = value := (F64.fin.inj hx).symm
    subst e
    have ed := (ofRat_eq_fin hdiff).1
    have et := (ofRat_eq_fin hq).1
    have hox : offset < x := by
      by_contra hc
      have d0 : d ≤ 0 := by
        rw [ed]
        exact h0 _ (by linarith)
      have := h0 _ (div_nonpos_of_nonpos_of_nonneg d0 hs.le)
      rw [← et] at this
      linarith
    unfold quantize
    rw [if_pos ((f64_lt_fin offset x).2 hox), hquot, f64_half, f64_add_fin]
    have e2 : (1 : ℚ) / 2 + ((k : ℚ) + 1 / 2) = ((k + 1 : Int) : ℚ) := by
      push_cast
      ring
    unfold INT_MAX at hmax
    rw [e2, ofRat_intCast _ (by rw [abs_lt]; constructor <;> omega)]
    exact castInt_intCast _ (by unfold fitsInt INT_MIN INT_MAX; constructor <;> omega)
  · intro hmin hquot
    obtain ⟨d, hd, hq⟩ := div_fin_eq_fin hs.ne' hquot
    obtain ⟨x, hx, hdiff⟩ := sub_fin_eq_fin hd
    have e : x = value := (F64.fin.inj hx).symm
    subst e
    have ed := (ofRat_eq_fin hdiff).1
    have et := (ofRat_eq_fin hq).1
    have hox : ¬ offset < x := by
      intro hc
      have d0 : 0 ≤ d := by
        rw [ed]
        exact roundBinary64_nonneg (by linarith)
      have := roundBinary64_nonneg (div_nonneg d0 hs.le)
      rw [← et] at this
      linarith
    unfold quantize
    rw [if_neg (fun hc => hox ((f64_lt_fin offset x).1 hc)), hquot, f64_neg_half, f64_add_fin]
    have e2 : -((1 : ℚ) / 2) + -((k : ℚ) + 1 / 2) = ((-(k + 1) : Int) : ℚ) := by
      push_cast
      ring
    unfold INT_MIN at hmin
    rw [e2, ofRat_intCast _ (by rw [abs_lt]; constructor <;> omega)]
    exact castInt_intCast _ (by unfold fitsInt INT_MIN INT_MAX; constructor <;> omega)

/-- When the sum of the computed quotient and `0.5` (or `-0.5`) is computed
without rounding error, the quantizer rounds the quotient half away from
zero. -/
theorem quantize_exact_sum (value offset scale t s : ℚ) (hs : 0 < scale)
    (hquot : (F64.fin value - F64.fin offset) / F64.fin scale = F64.fin t)
    (hsum : quantizeSum (F64.fin value) (F64.fin offset) (F64.fin scale) = F64.fin s)
    (hfit : fitsInt (truncToZero s))
    (hexact : s = (if offset < value then 1 / 2 else -(1 / 2)) + t) :
    quantize (F64.fin value) (F64.fin offset) (F64.fin scale) = roundHalfAway t := by
  obtain ⟨x, d, t1, hx, hd, ht, hs2⟩ := quantizeSum_steps _ offset scale s hs hsum
  have e : x = value := (F64.fin.inj hx).symm
  subst e
  have et : t1 = t := by
    rw [f64_sub_fin, hd, f64_div_fin d scale hs.ne', ht] at hquot
    exact F64.fin.inj hquot
  subst et
  obtain ⟨sp, sn⟩ := quantize_signs x offset scale d t1 s hs hd ht hs2
  rw [quantize_eq_castInt, hsum, castInt_of_fits hfit]
  by_cases hox : offset < x
  · rw [if_pos hox] at hexact
    obtain ⟨-, t0, s0⟩ := sp hox
    rw [roundHalfAway_of_nonneg t0]
    unfold truncToZero
    rw [if_pos (by linarith), hexact, add_comm]
  · rw [if_neg hox] at hexact
    obtain ⟨-, t0, s0⟩ := sn hox
    rw [roundHalfAway_of_nonpos t0]
    unfold truncToZero
    rw [if_neg (by linarith), hexact]
    congr 1
    ring

/-- C3 (as amended): for a finite scale > 0 and a finite offset on every axis
and coordinates for which the cast is defined (the sum handed to it is in the
range of a 32-bit signed integer), each of the three places that write a
record (second pass, first record of the single pass, later records of the
single pass) hands the writer the same record, whose x, y, z are the quotient
`(value - offset)/scale`, as computed in `double` arithmetic, rounded half
away from zero, or the integer one step further from zero when the sum of the
quotient and `0.5` (or `-0.5`) is rounded to that integer.  A computed quotient
`k + 1/2` gives `k + 1` and `-(k + 1/2)` gives `-(k + 1)` for every integer
`k >= 0` for which that result fits, and whenever the sum is computed without
rounding error the result is the quotient rounded half away from zero. -/
theorem quantizer_rounds_half_away (sc : Scanf) (g : List Char)
    (xyz_offset xyz_scale : Vec3) (m : Main) (line : List Char) (v : Vars)
    (hs : xyz_scale.c0.IsPositive ∧ xyz_scale.c1.IsPositive ∧ xyz_scale.c2.IsPositive)
    (ho : xyz_offset.c0.IsFinite ∧ xyz_offset.c1.IsFinite ∧ xyz_offset.c2.IsFinite)
    (hp : parse sc g line m.vars = (true, v))
    (hfit : fitsXYZ v.xyz xyz_offset xyz_scale) :
    (secondPassBody sc g xyz_offset xyz_scale m line).2.written
      = m.written ++ [quantizedRecord v xyz_offset xyz_scale] ∧
    (singlePassHead sc g xyz_offset xyz_scale m line).2.written
      = m.written ++ [quantizedRecord v xyz_offset xyz_scale] ∧
    (singlePassRest sc g xyz_offset xyz_scale m line).2.written
      = m.written ++ [quantizedRecord v xyz_offset xyz_scale] ∧
    roundedXYZ v.xyz xyz_offset xyz_scale (quantizedRecord v xyz_offset xyz_scale).point ∧
    (∀ (value offset scale : ℚ) (k : Int), 0 < scale → 0 ≤ k → k + 1 ≤ INT_MAX →
      (F64.fin value - F64.fin offset) / F64.fin scale = F64.fin ((k : ℚ) + 1 / 2) →
      quantize (F64.fin value) (F64.fin offset) (F64.fin scale) = k + 1) ∧
    (∀ (value offset scale : ℚ) (k : Int), 0 < scale → 0 ≤ k → INT_MIN ≤ -(k + 1) →
      (F64.fin value - F64.fin offset) / F64.fin scale = F64.fin (-((k : ℚ) + 1 / 2)) →
      quantize (F64.fin value) (F64.fin offset) (F64.fin scale) = -(k + 1)) ∧
    (∀ (value offset scale t s : ℚ), 0 < scale →
      (F64.fin value - F64.fin offset) / F64.fin scale = F64.fin t →
      quantizeSum (F64.fin value) (F64.fin offset) (F64.fin scale) = F64.fin s →
      fitsInt (truncToZero s) →
      s = (if offset < value then 1 / 2 else -(1 / 2)) + t →
      quantize (F64.fin value) (F64.fin offset) (F64.fin scale) = roundHalfAway t) := by
  refine ⟨?_, ?_, ?_, ?_, ?_, ?_, ?_⟩
  · simp only [secondPassBody, hp, quantizedRecord]
  · simp only [singlePassHead, hp, quantizedRecord]
  · simp only [singlePassRest, hp, quantizedRecord]
  · exact quantizeXYZ_rounded v.xyz xyz_offset xyz_scale v.point hs ho hfit
  · intro value offset scale k hsc hk hmax hx
    exact (quantize_tie value offset scale k hsc hk).1 hmax hx
  · intro value offset scale k hsc hk hmin hx
    exact (quantize_tie value offset scale k hsc hk).2 hmin hx
  · intro value offset scale t s hsc hquot hsum hfits hexact
    exact quantize_exact_sum value offset scale t s hsc hquot hsum hfits hexact

/-- Witness of C3: the line "1.5 -2.5 0.4" under "xyz" with scale 1 and
offset 0 is written with the coordinates 2, -3, 0. -/
theorem quantizer_rounds_half_away_witness :
    (singlePassRest cScanf "xyz".toList Vec3.zero ⟨1, 1, 1⟩
        (Main.start Vars.zero Vec3.zero Vec3.zero) "1.5 -2.5 0.4".toList).2.written
      = [quantizedRecord { Vars.zero with xyz := ⟨3 / 2, -5 / 2, 2 / 5⟩ } Vec3.zero ⟨1, 1, 1⟩] ∧
    roundedXYZ ⟨3 / 2, -5 / 2, 2 / 5⟩ Vec3.zero ⟨1, 1, 1⟩
      (quantizedRecord { Vars.zero with xyz := ⟨3 / 2, -5 / 2, 2 / 5⟩ } Vec3.zero ⟨1, 1, 1⟩).point ∧
    (quantizedRecord { Vars.zero with xyz := ⟨3 / 2, -5 / 2, 2 / 5⟩ } Vec3.zero ⟨1, 1, 1⟩).point.x = 2 ∧
    (quantizedRecord { Vars.zero with xyz := ⟨3 / 2, -5 / 2, 2 / 5⟩ } Vec3.zero ⟨1, 1, 1⟩).point.y = -3 ∧
    (quantizedRecord { Vars.zero with xyz := ⟨3 / 2, -5 / 2, 2 / 5⟩ } Vec3.zero ⟨1, 1, 1⟩).point.z = 0 :=
  have h := quantizer_rounds_half_away cScanf "xyz".toList Vec3.zero ⟨1, 1, 1⟩
    (Main.start Vars.zero Vec3.zero Vec3.zero) "1.5 -2.5 0.4".toList
    { Vars.zero with xyz := ⟨3 / 2, -5 / 2, 2 / 5⟩ }
    (by decide!) (by decide!) (by decide!) (by decide!)
  ⟨h.2.2.1, h.2.2.2.1, by decide!, by decide!, by decide!⟩

/-- Counterexample to C3 as stated: with scale 1 and offset 0 the value
2147483647.5 has the quotient `k + 1/2` for `k = 2147483647`, yet the quantizer
(whose result is a 32-bit `int`) does not deliver `k + 1`; and the `double`
just below 0.5, whose quotient rounds half away from zero to 0 and for which
the cast is defined, is quantized to 1, because the sum `0.5 + v` is rounded
to 1.0.  The quotient that is rounded is the computed one: for the `double`s
nearest to 0.145 and 0.01 it is below 14.5 and the quantizer delivers 14, while
the quotient of the numbers 0.145 and 0.01 is 14.5. -/
theorem quantizer_rounding_counterexample :
    (((2147483647 + 1 / 2 : F64) - 0) / 1 = F64.fin (((2147483647 : Int) : ℚ) + 1 / 2)) ∧
    quantize (2147483647 + 1 / 2) 0 1 ≠ 2147483647 + 1 ∧
    (F64.fin (1 / 2 - 1 / 2 ^ 54)).IsDouble ∧
    (F64.fin (1 / 2 - 1 / 2 ^ 54) - 0) / 1 = F64.fin (1 / 2 - 1 / 2 ^ 54) ∧
    (quantizeSum (F64.fin (1 / 2 - 1 / 2 ^ 54)) 0 1).InIntRange ∧
    roundHalfAway (1 / 2 - 1 / 2 ^ 54) = 0 ∧
    quantize (F64.fin (1 / 2 - 1 / 2 ^ 54)) 0 1 = 1 ∧
    (F64.ofRat (145 / 1000) - 0) / F64.ofRat (1 / 100)
      = F64.fin (8162774324609023 / 562949953421312) ∧
    quantize (F64.ofRat (145 / 1000)) 0 (F64.ofRat (1 / 100)) = 14 ∧
    roundHalfAway ((145 / 1000 : ℚ) / (1 / 100)) = 15 := by
  decide!

theorem isMinOf_map {α : Type} (a : F64) (f : α → F64) (xs : List α)
    (h : IsMinOf a (xs.map f)) : (∀ x ∈ xs, a ≤ f x) ∧ ∃ x ∈ xs, a = f x := by
  obtain ⟨h1, h2⟩ := h
  refine ⟨fun x hx => h1 (f x) (List.mem_map.2 ⟨x, hx, rfl⟩), ?_⟩
  obtain ⟨x, hx, e⟩ := List.mem_map.1 h2
  exact ⟨x, hx, e.symm⟩

theorem isMaxOf_map {α : Type} (a : F64) (f : α → F64) (xs : List α)
    (h : IsMaxOf a (xs.map f)) : (∀ x ∈ xs, f x ≤ a) ∧ ∃ x ∈ xs, a = f x := by
  obtain ⟨h1, h2⟩ := h
  refine ⟨fun x hx => h1 (f x) (List.mem_map.2 ⟨x, hx, rfl⟩), ?_⟩
  obtain ⟨x, hx, e⟩ := List.mem_map.1 h2
  exact ⟨x, hx, e.symm⟩

/-- C4 (as amended): for every parse string and every sequence of input lines
of which at least one parses, the single-pass scan ends with: record count =
number of lines that parse modulo `2^32`; on every axis on which no parsed
value is not-a-number, min and max = exact minimum and maximum of the parsed
values in the order of `double` (each axis on its own); histogram bucket `k` =
number of parsed lines whose stored return number is `k`, modulo `2^32`.  With
fewer than `2^32` parsing lines the counts are exact.  The values a line
parses to are those `parse` leaves when started from the initial variables
`v0`. -/
theorem scan_statistics (sc : Scanf) (g : List Char) (xyz_offset xyz_scale : Vec3)
    (lines : List (List Char)) (v0 : Vars) (mn mx : Vec3)
    (h : accepted sc g v0 lines ≠ []) :
    ∃ m, singlePassScan sc g xyz_offset xyz_scale lines (Main.start v0 mn mx)
        = Outcome.done m ∧
      m.number_of_point_records = (accepted sc g v0 lines).length % 4294967296 ∧
      (∀ i : Fin 3,
        (∀ l ∈ accepted sc g v0 lines, (parse sc g l v0).2.xyz.get i ≠ F64.nan) →
        (∀ l ∈ accepted sc g v0 lines, m.xyz_min.get i ≤ (parse sc g l v0).2.xyz.get i) ∧
        (∃ l ∈ accepted sc g v0 lines, m.xyz_min.get i = (parse sc g l v0).2.xyz.get i) ∧
        (∀ l ∈ accepted sc g v0 lines, (parse sc g l v0).2.xyz.get i ≤ m.xyz_max.get i) ∧
        (∃ l ∈ accepted sc g v0 lines, m.xyz_max.get i = (parse sc g l v0).2.xyz.get i)) ∧
      (∀ k, k < 8 → m.number_of_points_by_return.getD k 0 =
        ((accepted sc g v0 lines).filter
          (fun l => decide ((parse sc g l v0).2.point.return_number = k))).length
            % 4294967296) ∧
      ((accepted sc g v0 lines).length < 4294967296 →
        m.number_of_point_records = (accepted sc g v0 lines).length ∧
        ∀ k, k < 8 → m.number_of_points_by_return.getD k 0 =
          ((accepted sc g v0 lines).filter
            (fun l => decide ((parse sc g l v0).2.point.return_number = k))).length) := by
  obtain ⟨m, hm, ⟨s1, _, s3, s4⟩, _, _⟩ :=
    (singlePassScan_spec sc g xyz_offset xyz_scale lines v0 mn mx).2 h
  refine ⟨m, hm, s1, ?_, s3, ?_⟩
  · intro i hn
    obtain ⟨hmin, hmax⟩ := s4 i hn
    obtain ⟨a1, a2⟩ := isMinOf_map _ _ _ hmin
    obtain ⟨b1, b2⟩ := isMaxOf_map _ _ _ hmax
    exact ⟨a1, a2, b1, b2⟩
  · intro hlt
    refine ⟨?_, ?_⟩
    · have := s1
      simp only [Main.statistics] at this
      rw [this]
      exact Nat.mod_eq_of_lt hlt
    · intro k hk
      have := s3 k hk
      simp only [Main.statistics] at this
      rw [this]
      apply Nat.mod_eq_of_lt
      exact lt_of_le_of_lt (List.length_filter_le _ _) hlt

/-- Witness of C4, the example of the specification: the parse string "xyzr"
with the lines "1.0 2.0 3.0 1", "4.0 5.0 6.0 2", "-1.0 0.0 0.0 1" gives min
(-1,0,0), max (4,5,6), bucket[1] = 2, bucket[2] = 1 and count 3. -/
theorem scan_statistics_witness :
    (singlePassScan cScanf "xyzr".toList Vec3.zero ⟨1 / 100, 1 / 100, 1 / 100⟩ exampleLines
        (Main.start Vars.zero Vec3.zero Vec3.zero)).result.map Main.statistics
      = some { xyz_min := ⟨-1, 0, 0⟩, xyz_max := ⟨4, 5, 6⟩, number_of_point_records := 3,
               number_of_points_by_return := [0, 2, 1, 0, 0, 0, 0, 0] } ∧
    ∃ m, singlePassScan cScanf "xyzr".toList Vec3.zero ⟨1 / 100, 1 / 100, 1 / 100⟩ exampleLines
        (Main.start Vars.zero Vec3.zero Vec3.zero) = Outcome.done m ∧
      m.number_of_point_records = 3 ∧
      ∀ l ∈ accepted cScanf "xyzr".toList Vars.zero exampleLines,
        m.xyz_min.get 0 ≤ (parse cScanf "xyzr".toList l Vars.zero).2.xyz.get 0 := by
  refine ⟨by decide!, ?_⟩
  obtain ⟨m, h1, h2, h3, _⟩ := scan_statistics cScanf "xyzr".toList Vec3.zero
    ⟨1 / 100, 1 / 100, 1 / 100⟩ exampleLines Vars.zero Vec3.zero Vec3.zero (by decide!)
  exact ⟨m, h1, h2.trans (by decide!), (h3 0 (by decide!)).1⟩

/-- The scan of `n` copies of a line that parses. -/
theorem scan_replicate (sc : Scanf) (g : List Char) (xyz_offset xyz_scale : Vec3)
    (line : List Char) (v0 : Vars) (mn mx : Vec3) (n : Nat) (hn : 0 < n)
    (hp : (parse sc g line v0).1 = true) :
    (accepted sc g v0 (List.replicate n line)).length = n ∧
    ∃ m, singlePassScan sc g xyz_offset xyz_scale (List.replicate n line)
        (Main.start v0 mn mx) = Outcome.done m ∧
      m.number_of_point_records = n % 4294967296 := by
  have hacc : accepted sc g v0 (List.replicate n line) = List.replicate n line := by
    unfold accepted
    exact List.filter_replicate_of_pos hp
  have hlen : (accepted sc g v0 (List.replicate n line)).length = n := by
    rw [hacc, List.length_replicate]
  have hne : accepted sc g v0 (List.replicate n line) ≠ [] :=
    List.ne_nil_of_length_pos (by rw [hlen]; exact hn)
  obtain ⟨m, hm, ⟨s1, _⟩, _⟩ :=
    (singlePassScan_spec sc g xyz_offset xyz_scale (List.replicate n line) v0 mn mx).2 hne
  refine ⟨hlen, m, hm, ?_⟩
  rw [hlen] at s1
  exact s1

/-- Counterexample to C4 as stated: on an input of `2^32` lines "0 0 0" under
the parse string "xyz" every line parses, yet the record count at the end of
the scan is 0; and on the lines "nan 0 0", "1 2 3", which both parse, the scan
ends with not-a-number as minimum and maximum of x, which is not below or
equal to the value 1 of the second line. -/
theorem scan_count_counterexample :
    ((accepted cScanf "xyz".toList Vars.zero
      (List.replicate 4294967296 "0 0 0".toList)).length = 4294967296 ∧
    ∃ m, singlePassScan cScanf "xyz".toList Vec3.zero ⟨1, 1, 1⟩
        (List.replicate 4294967296 "0 0 0".toList)
        (Main.start Vars.zero Vec3.zero Vec3.zero) = Outcome.done m ∧
      m.number_of_point_records = 0) ∧
    accepted cScanf "xyz".toList Vars.zero (linesOf ["nan 0 0", "1 2 3"])
      = linesOf ["nan 0 0", "1 2 3"] ∧
    (singlePassScan cScanf "xyz".toList Vec3.zero ⟨1, 1, 1⟩ (linesOf ["nan 0 0", "1 2 3"])
      (Main.start Vars.zero Vec3.zero Vec3.zero)).result.map
        (fun m => (m.xyz_min.c0, m.xyz_max.c0)) = some (F64.nan, F64.nan) ∧
    (parse cScanf "xyz".toList "1 2 3".toList Vars.zero).2.xyz.c0 = 1 ∧
    ¬ (F64.nan ≤ (1 : F64)) := by
  refine ⟨?_, by decide!, by decide!, by decide!, by decide⟩
  obtain ⟨h1, m, h2, h3⟩ := scan_replicate cScanf "xyz".toList Vec3.zero ⟨1, 1, 1⟩
    "0 0 0".toList Vars.zero Vec3.zero Vec3.zero 4294967296 (by norm_num) (by decide!)
  exact ⟨h1, m, h2, h3⟩

/-! ## The histogram -/

/-- One iteration of `parse` keeps the return number below 8: the branch for
`r` stores `temp_i & 7`, every other branch leaves the member alone. -/
theorem parseField_return_number (sc : Scanf) (p : Char) (l : List Char) (s : Vars)
    (l1 : List Char) (s1 : Vars) (h : parseField sc p l s = some (l1, s1))
    (hr : s.point.return_number < 8) : s1.point.return_number < 8 := by
  have key : ∀ {α : Type} (scan : List Char → Option α) (store : α → Vars),
      (∀ v, (store v).point.return_number < 8) →
      expect l scan store = some (l1, s1) → s1.point.return_number < 8 := by
    intro α scan store hst he
    obtain ⟨_, v, _, e⟩ := (expect_eq_some l scan store (l1, s1)).1 he
    have e1 : s1 = store v := congrArg Prod.snd e
    rw [e1]
    exact hst v
  rcases symbol_cases p with
    rfl | rfl | rfl | rfl | rfl | rfl | rfl | rfl | rfl | rfl | rfl | rfl | rfl | rfl | rfl |
    rfl | rfl | hn
  all_goals first
    | (rw [parseField_unrecognized sc p l s hn] at h
       cases h
       exact hr)
    | (refine key (fun _ => some ()) (fun _ => s) ?_ h
       intro _
       exact hr)
    | (refine key _ _ ?_ h
       intro v
       first
         | exact hr
         | (show (Int.toNat (v % 8)) < 8
            omega))

theorem parse_return_number (sc : Scanf) (g : List Char) :
    ∀ (l : List Char) (s : Vars), s.point.return_number < 8 →
      (parse sc g l s).2.point.return_number < 8 := by
  induction g with
  | nil =>
    intro l s hr
    exact hr
  | cons p ps ih =>
    intro l s hr
    cases hf : parseField sc p l s with
    | none =>
      rw [parse_cons_none sc p ps l s hf]
      exact hr
    | some r =>
      obtain ⟨l1, s1⟩ := r
      rw [parse_cons_some sc p ps l s l1 s1 hf]
      exact ih l1 s1 (parseField_return_number sc p l s l1 s1 hf hr)

/-- Lines whose value is below 8 are partitioned by the eight values. -/
theorem count_partition {α : Type} (f : α → Nat) (xs : List α) (h : ∀ x ∈ xs, f x < 8) :
    (xs.filter (fun x => decide (f x = 0))).length +
    (xs.filter (fun x => decide (f x = 1))).length +
    (xs.filter (fun x => decide (f x = 2))).length +
    (xs.filter (fun x => decide (f x = 3))).length +
    (xs.filter (fun x => decide (f x = 4))).length +
    (xs.filter (fun x => decide (f x = 5))).length +
    (xs.filter (fun x => decide (f x = 6))).length +
    (xs.filter (fun x => decide (f x = 7))).length = xs.length := by
  induction xs with
  | nil => rfl
  | cons a xs ih =>
    have h1 := ih (fun x hx => h x (List.mem_cons_of_mem _ hx))
    have h2 := h a (List.mem_cons_self _ _)
    simp only [List.filter_cons, List.length_cons]
    interval_cases hfa : f a <;> simp <;> omega

theorem list_of_length_eight (h : List Nat) (hl : h.length = 8) :
    h = [h.getD 0 0, h.getD 1 0, h.getD 2 0, h.getD 3 0, h.getD 4 0, h.getD 5 0,
         h.getD 6 0, h.getD 7 0] := by
  match h, hl with
  | [_, _, _, _, _, _, _, _], _ => rfl

theorem mod_sum_eight (a b c d e f g h : Nat) :
    (a % 4294967296 + b % 4294967296 + c % 4294967296 + d % 4294967296 + e % 4294967296 +
      f % 4294967296 + g % 4294967296 + h % 4294967296) % 4294967296 =
    (a + b + c + d + e + f + g + h) % 4294967296 := by
  have key : ∀ x : Nat, Nat.ModEq 4294967296 (x % 4294967296) x :=
    fun x => Nat.mod_modEq x 4294967296
  exact (((((((key a).add (key b)).add (key c)).add (key d)).add (key e)).add (key f)).add
    (key g)).add (key h)

/-- For statistics of accepted lines whose return numbers are below 8, the
eight buckets add up to the record count in `unsigned int` arithmetic, and
exactly so when fewer than `2^32` lines were accepted. -/
theorem statsOf_sum (sc : Scanf) (g : List Char) (v0 : Vars) (seen : List (List Char))
    (st : Statistics) (h : StatsOf sc g v0 seen st)
    (hr : ∀ l ∈ seen, (parse sc g l v0).2.point.return_number < 8) :
    st.number_of_points_by_return.sum % 4294967296 = st.number_of_point_records ∧
    (seen.length < 4294967296 →
      st.number_of_points_by_return.sum = st.number_of_point_records) := by
  obtain ⟨h1, h2, h3, _⟩ := h
  have hp := count_partition (fun l => (parse sc g l v0).2.point.return_number) seen hr
  beta_reduce at hp
  have e := list_of_length_eight _ h2
  have b0 := h3 0 (by norm_num)
  have b1 := h3 1 (by norm_num)
  have b2 := h3 2 (by norm_num)
  have b3 := h3 3 (by norm_num)
  have b4 := h3 4 (by norm_num)
  have b5 := h3 5 (by norm_num)
  have b6 := h3 6 (by norm_num)
  have b7 := h3 7 (by norm_num)
  have hsum : st.number_of_points_by_return.sum =
      st.number_of_points_by_return.getD 0 0 + st.number_of_points_by_return.getD 1 0 +
      st.number_of_points_by_return.getD 2 0 + st.number_of_points_by_return.getD 3 0 +
      st.number_of_points_by_return.getD 4 0 + st.number_of_points_by_return.getD 5 0 +
      st.number_of_points_by_return.getD 6 0 + st.number_of_points_by_return.getD 7 0 := by
    conv_lhs => rw [e]
    simp only [List.sum_cons, List.sum_nil]
    omega
  rw [hsum, h1, b0, b1, b2, b3, b4, b5, b6, b7]
  constructor
  · rw [← hp]
    exact mod_sum_eight _ _ _ _ _ _ _ _
  · intro hlt
    have c0 := List.length_filter_le
      (fun l => decide ((parse sc g l v0).2.point.return_number = 0)) seen
    have c1 := List.length_filter_le
      (fun l => decide ((parse sc g l v0).2.point.return_number = 1)) seen
    have c2 := List.length_filter_le
      (fun l => decide ((parse sc g l v0).2.point.return_number = 2)) seen
    have c3 := List.length_filter_le
      (fun l => decide ((parse sc g l v0).2.point.return_number = 3)) seen
    have c4 := List.length_filter_le
      (fun l => decide ((parse sc g l v0).2.point.return_number = 4)) seen
    have c5 := List.length_filter_le
      (fun l => decide ((parse sc g l v0).2.point.return_number = 5)) seen
    have c6 := List.length_filter_le
      (fun l => decide ((parse sc g l v0).2.point.return_number = 6)) seen
    have c7 := List.length_filter_le
      (fun l => decide ((parse sc g l v0).2.point.return_number = 7)) seen
    rw [Nat.mod_eq_of_lt (lt_of_le_of_lt c0 hlt), Nat.mod_eq_of_lt (lt_of_le_of_lt c1 hlt),
      Nat.mod_eq_of_lt (lt_of_le_of_lt c2 hlt), Nat.mod_eq_of_lt (lt_of_le_of_lt c3 hlt),
      Nat.mod_eq_of_lt (lt_of_le_of_lt c4 hlt), Nat.mod_eq_of_lt (lt_of_le_of_lt c5 hlt),
      Nat.mod_eq_of_lt (lt_of_le_of_lt c6 hlt), Nat.mod_eq_of_lt (lt_of_le_of_lt c7 hlt)]
    rw [hp]
    exact (Nat.mod_eq_of_lt hlt).symm

theorem accepted_return_number (sc : Scanf) (g : List Char) (v0 : Vars)
    (lines : List (List Char)) (hr : v0.point.return_number < 8) :
    ∀ l ∈ accepted sc g v0 lines, (parse sc g l v0).2.point.return_number < 8 :=
  fun l _ => parse_return_number sc g l v0 hr

/-- C5 (as amended): whenever at least one of the lines read so far has been
accepted, in the first-pass scan and in the single-pass scan alike, the eight
buckets of the return histogram add up to the record count in `unsigned int`
arithmetic (modulo `2^32`), and they add up to it exactly as long as fewer
than `2^32` records have been accepted.  The return number of `point` is a
three-bit member, so its initial value is below 8. -/
theorem histogram_sum (sc : Scanf) (g : List Char) (xyz_offset xyz_scale : Vec3)
    (lines : List (List Char)) (v0 : Vars) (mn mx : Vec3)
    (hr : v0.point.return_number < 8) (h : accepted sc g v0 lines ≠ []) :
    (∃ m, firstPassScan sc g lines (Main.start v0 mn mx) = Outcome.done m ∧
      m.number_of_points_by_return.sum % 4294967296 = m.number_of_point_records ∧
      ((accepted sc g v0 lines).length < 4294967296 →
        m.number_of_points_by_return.sum = m.number_of_point_records)) ∧
    (∃ m, singlePassScan sc g xyz_offset xyz_scale lines (Main.start v0 mn mx)
        = Outcome.done m ∧
      m.number_of_points_by_return.sum % 4294967296 = m.number_of_point_records ∧
      ((accepted sc g v0 lines).length < 4294967296 →
        m.number_of_points_by_return.sum = m.number_of_point_records)) := by
  constructor
  · obtain ⟨m, hm, hs, _⟩ := (firstPassScan_spec sc g lines v0 mn mx).2 h
    obtain ⟨a, b⟩ := statsOf_sum sc g v0 _ _ hs (accepted_return_number sc g v0 lines hr)
    exact ⟨m, hm, a, b⟩
  · obtain ⟨m, hm, hs, _⟩ :=
      (singlePassScan_spec sc g xyz_offset xyz_scale lines v0 mn mx).2 h
    obtain ⟨a, b⟩ := statsOf_sum sc g v0 _ _ hs (accepted_return_number sc g v0 lines hr)
    exact ⟨m, hm, a, b⟩

/-- Witness of C5 on the example lines of the specification. -/
theorem histogram_sum_witness :
    (∃ m, firstPassScan cScanf "xyzr".toList exampleLines
        (Main.start Vars.zero Vec3.zero Vec3.zero) = Outcome.done m ∧
      m.number_of_points_by_return.sum % 4294967296 = m.number_of_point_records ∧
      ((accepted cScanf "xyzr".toList Vars.zero exampleLines).length < 4294967296 →
        m.number_of_points_by_return.sum = m.number_of_point_records)) ∧
    (∃ m, singlePassScan cScanf "xyzr".toList Vec3.zero ⟨1, 1, 1⟩ exampleLines
        (Main.start Vars.zero Vec3.zero Vec3.zero) = Outcome.done m ∧
      m.number_of_points_by_return.sum % 4294967296 = m.number_of_point_records ∧
      ((accepted cScanf "xyzr".toList Vars.zero exampleLines).length < 4294967296 →
        m.number_of_points_by_return.sum = m.number_of_point_records)) :=
  histogram_sum cScanf "xyzr".toList Vec3.zero ⟨1, 1, 1⟩ exampleLines Vars.zero
    Vec3.zero Vec3.zero (by decide) (by decide!)

/-- The scan of one line with return number 1 followed by `n` copies of a line
with return number 2. -/
theorem scan_two_kinds (sc : Scanf) (g : List Char) (xyz_offset xyz_scale : Vec3)
    (a b : List Char) (v0 : Vars) (mn mx : Vec3) (n : Nat)
    (ha : (parse sc g a v0).1 = true) (hb : (parse sc g b v0).1 = true)
    (ra : (parse sc g a v0).2.point.return_number = 1)
    (rb : (parse sc g b v0).2.point.return_number = 2) :
    (accepted sc g v0 (a :: List.replicate n b)).length = n + 1 ∧
    ∃ m, singlePassScan sc g xyz_offset xyz_scale (a :: List.replicate n b)
        (Main.start v0 mn mx) = Outcome.done m ∧
      m.number_of_point_records = (n + 1) % 4294967296 ∧
      m.number_of_points_by_return = [0, 1, n % 4294967296, 0, 0, 0, 0, 0] := by
  have hacc : accepted sc g v0 (a :: List.replicate n b) = a :: List.replicate n b := by
    unfold accepted
    rw [List.filter_cons, if_pos ha,
      @List.filter_replicate_of_pos _ (fun l => (parse sc g l v0).1) n b hb]
  have hne : accepted sc g v0 (a :: List.replicate n b) ≠ [] := by
    rw [hacc]
    exact List.cons_ne_nil _ _
  obtain ⟨m, hm, ⟨s1, s2, s3, _⟩, _⟩ :=
    (singlePassScan_spec sc g xyz_offset xyz_scale (a :: List.replicate n b) v0 mn mx).2 hne
  have hlen : (accepted sc g v0 (a :: List.replicate n b)).length = n + 1 := by
    rw [hacc, List.length_cons, List.length_replicate]
  refine ⟨hlen, m, hm, ?_, ?_⟩
  · rw [hlen] at s1
    exact s1
  · have key : ∀ k, k < 8 → m.number_of_points_by_return.getD k 0 =
        ((if k = 1 then 1 else 0) + (if k = 2 then n else 0)) % 4294967296 := by
      intro k hk
      have := s3 k hk
      simp only [Main.statistics] at this
      rw [this, hacc, List.filter_cons, List.filter_replicate, ra, rb]
      by_cases h1 : k = 1
      · subst h1
        simp
      · by_cases h2 : k = 2
        · subst h2
          simp
        · have e1 : ¬ (1 = k) := fun e => h1 e.symm
          have e2 : ¬ (2 = k) := fun e => h2 e.symm
          simp [h1, h2, e1, e2]
    have e := list_of_length_eight m.number_of_points_by_return s2
    rw [e, key 0 (by norm_num), key 1 (by norm_num), key 2 (by norm_num),
      key 3 (by norm_num), key 4 (by norm_num), key 5 (by norm_num), key 6 (by norm_num),
      key 7 (by norm_num)]
    simp

/-- Counterexample to C5 as stated: after the line "0 0 0 1" and `2^32 - 1`
lines "0 0 0 2" under the parse string "xyzr", all of them accepted, the
buckets add up to 4294967296 while the record count is 0. -/
theorem histogram_sum_counterexample :
    ∃ m, singlePassScan cScanf "xyzr".toList Vec3.zero ⟨1, 1, 1⟩
        ("0 0 0 1".toList :: List.replicate 4294967295 "0 0 0 2".toList)
        (Main.start Vars.zero Vec3.zero Vec3.zero) = Outcome.done m ∧
      m.number_of_points_by_return.sum = 4294967296 ∧
      m.number_of_point_records = 0 := by
  obtain ⟨_, m, h1, h2, h3⟩ := scan_two_kinds cScanf "xyzr".toList Vec3.zero ⟨1, 1, 1⟩
    "0 0 0 1".toList "0 0 0 2".toList Vars.zero Vec3.zero Vec3.zero 4294967295
    (by decide!) (by decide!) (by decide!) (by decide!)
  refine ⟨m, h1, ?_, h2⟩
  rw [h3]
  rfl

/-! ## The records handed to the writer -/

/-- The single pass writes one record per line that parses, in input order,
and each record is the one its line yields from the initial variables. -/
theorem writtenBySingle_eq (sc : Scanf) (g : List Char) (xyz_offset xyz_scale : Vec3)
    (lines : List (List Char)) (v0 : Vars) (mn mx : Vec3) :
    writtenBySingle (singlePass sc g xyz_offset xyz_scale lines (Main.start v0 mn mx))
      = (accepted sc g v0 lines).map (recordOf sc g xyz_offset xyz_scale v0) := by
  obtain ⟨h1, h2⟩ := singlePassScan_spec sc g xyz_offset xyz_scale lines v0 mn mx
  by_cases hacc : accepted sc g v0 lines = []
  · simp only [singlePass, h1 hacc, writtenBySingle, hacc, List.map_nil]
  · obtain ⟨m, hm, _, hw, _⟩ := h2 hacc
    simp only [singlePass, hm, writtenBySingle, hw]

theorem accepted_remove (sc : Scanf) (g : List Char) (v0 : Vars)
    (pre post : List (List Char)) (bad : List Char) (h : (parse sc g bad v0).1 = false) :
    accepted sc g v0 (pre ++ bad :: post) = accepted sc g v0 (pre ++ post) := by
  unfold accepted
  rw [List.filter_append, List.filter_append, List.filter_cons, h]
  simp

/-- C8: for every parse string and every input, the records handed to the
writer by the single pass are, in input order, exactly one record per line
that parses, each being the record its own line yields; deleting any line that
does not parse (whatever it stored before failing) leaves the sequence of
written records unchanged; and the locations named in the parse string hold,
after a successful `parse`, values that do not depend on what the variables
held before the call. -/
theorem emitted_records (sc : Scanf) (g : List Char) (xyz_offset xyz_scale : Vec3)
    (lines : List (List Char)) (v0 : Vars) (mn mx : Vec3) :
    writtenBySingle (singlePass sc g xyz_offset xyz_scale lines (Main.start v0 mn mx))
      = (accepted sc g v0 lines).map (recordOf sc g xyz_offset xyz_scale v0) ∧
    (∀ (pre post : List (List Char)) (bad : List Char),
      lines = pre ++ bad :: post → (parse sc g bad v0).1 = false →
      writtenBySingle (singlePass sc g xyz_offset xyz_scale (pre ++ post) (Main.start v0 mn mx))
        = writtenBySingle (singlePass sc g xyz_offset xyz_scale lines (Main.start v0 mn mx))) ∧
    (∀ (line : List Char) (s t : Vars) (f : Field), targeted g f →
      (parse sc g line s).1 = true →
      f.read (parse sc g line s).2 = f.read (parse sc g line t).2) := by
  refine ⟨writtenBySingle_eq sc g xyz_offset xyz_scale lines v0 mn mx, ?_, ?_⟩
  · intro pre post bad hl hbad
    rw [writtenBySingle_eq, writtenBySingle_eq, hl, accepted_remove sc g v0 pre post bad hbad]
  · intro line s t f hf hok
    exact (parse_agree sc g line s t (fun _ => False) (fun _ h => h.elim)).2.2 hok f hf

/-- Witness of C8: under "xyz" the line "7.0 8.0" fails at the third field
after two coordinates were stored; with or without it two records are
written, with the coordinates of the first and the last line. -/
theorem emitted_records_witness :
    writtenBySingle (singlePass cScanf "xyz".toList Vec3.zero ⟨1, 1, 1⟩
        (linesOf ["1 2 3", "7.0 8.0", "4 5 6"]) (Main.start Vars.zero Vec3.zero Vec3.zero))
      = [quantizedRecord { Vars.zero with xyz := ⟨1, 2, 3⟩ } Vec3.zero ⟨1, 1, 1⟩,
         quantizedRecord { Vars.zero with xyz := ⟨4, 5, 6⟩ } Vec3.zero ⟨1, 1, 1⟩] ∧
    writtenBySingle (singlePass cScanf "xyz".toList Vec3.zero ⟨1, 1, 1⟩
        (linesOf ["1 2 3"] ++ linesOf ["4 5 6"]) (Main.start Vars.zero Vec3.zero Vec3.zero))
      = writtenBySingle (singlePass cScanf "xyz".toList Vec3.zero ⟨1, 1, 1⟩
        (linesOf ["1 2 3", "7.0 8.0", "4 5 6"]) (Main.start Vars.zero Vec3.zero Vec3.zero)) :=
  have h := emitted_records cScanf "xyz".toList Vec3.zero ⟨1, 1, 1⟩
    (linesOf ["1 2 3", "7.0 8.0", "4 5 6"]) Vars.zero Vec3.zero Vec3.zero
  ⟨h.1.trans (by decide!),
   h.2.1 (linesOf ["1 2 3"]) (linesOf ["4 5 6"]) "7.0 8.0".toList rfl (by decide!)⟩

/-! ## Two passes against the single pass -/

theorem trimLess_take (buf : List Char) :
    ∀ (i : Nat) (r : List Char), trimLess buf i = some r → ∃ k, r = buf.take k := by
  intro i
  induction i with
  | zero =>
    intro r h
    simp [trimLess] at h
  | succ j ih =>
    intro r h
    unfold trimLess at h
    by_cases hs : buf.get? j = some 's'
    · rw [if_pos hs] at h
      exact ih r h
    · rw [if_neg hs] at h
      exact ⟨j + 1, (Option.some.inj h).symm⟩

theorem target_lessSymbol (c : Char) (f : Field) (h : target (lessSymbol c) = some f) :
    target c = some f := by
  unfold lessSymbol at h
  by_cases hc : c ≠ 'x' ∧ c ≠ 'y' ∧ c ≠ 'z' ∧ c ≠ 'r'
  · rw [if_pos hc] at h
    simp [target] at h
  · rw [if_neg hc] at h
    exact h

/-- Every location the reduced parse string assigns is assigned by the full
parse string. -/
theorem targeted_parseLess (g pl : List Char) (h : parseLess g = some pl) (f : Field)
    (hf : targeted pl f) : targeted g f := by
  obtain ⟨k, hk⟩ := trimLess_take _ _ _ h
  obtain ⟨c, hc, hcf⟩ := hf
  rw [hk] at hc
  obtain ⟨c1, hc1, e⟩ := List.mem_map.1 (List.mem_of_mem_take hc)
  rw [← e] at hcf
  exact ⟨c1, hc1, target_lessSymbol c1 f hcf⟩

/-- The two-pass run: with a defined reduced parse string it stops at
`exit(1)` exactly when no line parses with the reduced string; otherwise the
second pass writes one record per line that parses with the full string, the
same records as the single pass writes. -/
theorem twoPass_written (sc : Scanf) (g pl : List Char) (xyz_offset xyz_scale : Vec3)
    (lines : List (List Char)) (v0 : Vars) (mn mx : Vec3) (hpl : parseLess g = some pl) :
    (accepted sc pl v0 lines = [] →
      twoPass sc g xyz_offset xyz_scale lines (Main.start v0 mn mx) = Outcome.exit) ∧
    (accepted sc pl v0 lines ≠ [] →
      writtenByTwo (twoPass sc g xyz_offset xyz_scale lines (Main.start v0 mn mx))
        = writtenBySingle
            (singlePass sc g xyz_offset xyz_scale lines (Main.start v0 mn mx))) := by
  obtain ⟨h1, h2⟩ := firstPassScan_spec sc pl lines v0 mn mx
  constructor
  · intro hacc
    simp only [twoPass, hpl, h1 hacc]
  · intro hacc
    obtain ⟨m1, hm, _, hw, hu⟩ := h2 hacc
    have hU : Untouched g v0 m1.vars := by
      intro f hf hq
      exact hu f (fun hp => hf (targeted_parseLess g pl hpl f hp)) hq
    obtain ⟨_, _, f3⟩ := forEachLine_spec sc g v0 countDown _ _
      (secondPassBody_spec sc g xyz_offset xyz_scale v0) lines m1 hU
    rw [writtenBySingle_eq]
    simp only [twoPass, hpl, hm, writtenByTwo, f3, hw, List.nil_append, flatMap_single]

/-- A successful iteration for a symbol that has a branch also succeeds, with
the same line pointer, for the symbol the reduced parse string holds in its
place. -/
theorem parseField_lessSymbol (sc : Scanf) (p : Char) (l : List Char) (s t : Vars)
    (l1 : List Char) (s1 : Vars) (hp : recognized p)
    (h : parseField sc p l s = some (l1, s1)) :
    ∃ t1, parseField sc (lessSymbol p) l t = some (l1, t1) := by
  by_cases hc : p ≠ 'x' ∧ p ≠ 'y' ∧ p ≠ 'z' ∧ p ≠ 'r'
  · have e : lessSymbol p = 's' := by
      unfold lessSymbol
      rw [if_pos hc]
    have key : ∀ {α : Type} (scan : List Char → Option α) (store : α → Vars),
        expect l scan store = some (l1, s1) →
        ∃ t1, parseField sc 's' l t = some (l1, t1) := by
      intro α scan store he
      obtain ⟨hw, v, _, e2⟩ := (expect_eq_some l scan store (l1, s1)).1 he
      have e1 : l1 = advance (skipWhite l) := congrArg Prod.fst e2
      refine ⟨t, ?_⟩
      have : parseField sc 's' l t = expect l (fun _ => some ()) (fun _ => t) := rfl
      rw [this, e1]
      exact (expect_eq_some _ _ _ _).2 ⟨hw, (), rfl, rfl⟩
    rw [e]
    rcases symbol_cases p with
      rfl | rfl | rfl | rfl | rfl | rfl | rfl | rfl | rfl | rfl | rfl | rfl | rfl | rfl | rfl |
      rfl | rfl | hn
    all_goals first
      | exact absurd hp hn
      | exact key (fun _ => some ()) (fun _ => s) h
      | exact key _ _ h
  · have e : lessSymbol p = p := by
      unfold lessSymbol
      rw [if_neg hc]
    rw [e]
    rcases parseField_agree sc p l s t with ⟨hs, _⟩ | ⟨l2, s2, t2, hs, ht, _⟩
    · rw [h] at hs
      cases hs
    · rw [h] at hs
      cases hs
      exact ⟨t2, ht⟩

/-- A line that parses with a parse string of symbols that all have a branch
parses with the symbol-wise reduced string. -/
theorem parse_map_lessSymbol (sc : Scanf) (g : List Char) :
    ∀ (l : List Char) (s t : Vars), (∀ c ∈ g, recognized c) →
      (parse sc g l s).1 = true → (parse sc (g.map lessSymbol) l t).1 = true := by
  induction g with
  | nil =>
    intro l s t _ _
    rfl
  | cons p ps ih =>
    intro l s t hg hok
    cases hf : parseField sc p l s with
    | none =>
      rw [parse_cons_none sc p ps l s hf] at hok
      simp at hok
    | some r =>
      obtain ⟨l1, s1⟩ := r
      rw [parse_cons_some sc p ps l s l1 s1 hf] at hok
      obtain ⟨t1, ht⟩ :=
        parseField_lessSymbol sc p l s t l1 s1 (hg p (List.mem_cons_self _ _)) hf
      rw [List.map_cons, parse_cons_some sc (lessSymbol p) (ps.map lessSymbol) l t l1 t1 ht]
      exact ih l1 s1 t1 (fun c hc => hg c (List.mem_cons_of_mem _ hc)) hok

/-- A line that parses with a parse string parses with every initial segment
of it. -/
theorem parse_take (sc : Scanf) (g : List Char) :
    ∀ (k : Nat) (l : List Char) (s : Vars),
      (parse sc g l s).1 = true → (parse sc (g.take k) l s).1 = true := by
  induction g with
  | nil =>
    intro k l s _
    simp [parse]
  | cons p ps ih =>
    intro k l s hok
    cases k with
    | zero => rfl
    | succ k =>
      cases hf : parseField sc p l s with
      | none =>
        rw [parse_cons_none sc p ps l s hf] at hok
        simp at hok
      | some r =>
        obtain ⟨l1, s1⟩ := r
        rw [parse_cons_some sc p ps l s l1 s1 hf] at hok
        rw [List.take_succ_cons, parse_cons_some sc p (ps.take k) l s l1 s1 hf]
        exact ih k l1 s1 hok

/-- With a parse string of symbols that all have a branch, the first pass
accepts every line the full parse string accepts. -/
theorem accepted_parseLess (sc : Scanf) (g pl : List Char) (v0 : Vars)
    (lines : List (List Char)) (hg : ∀ c ∈ g, recognized c) (hpl : parseLess g = some pl)
    (h : accepted sc pl v0 lines = []) : accepted sc g v0 lines = [] := by
  obtain ⟨k, hk⟩ := trimLess_take _ _ _ hpl
  unfold accepted at h ⊢
  rw [List.filter_eq_nil_iff] at h ⊢
  intro l hl hok
  apply h l hl
  rw [hk]
  exact parse_take sc _ k l v0 (parse_map_lessSymbol sc g l v0 v0 hg hok)

theorem trimLess_some (buf : List Char) :
    ∀ (i : Nat), (∃ j, j < i ∧ buf.get? j ≠ some 's') → ∃ r, trimLess buf i = some r := by
  intro i
  induction i with
  | zero =>
    rintro ⟨j, hj, _⟩
    exact absurd hj (Nat.not_lt_zero _)
  | succ n ih =>
    rintro ⟨j, hj, hne⟩
    unfold trimLess
    by_cases hs : buf.get? n = some 's'
    · rw [if_pos hs]
      apply ih
      refine ⟨j, ?_, hne⟩
      rcases Nat.lt_succ_iff_lt_or_eq.1 hj with h | h
      · exact h
      · subst h
        exact absurd hs hne
    · rw [if_neg hs]
      exact ⟨_, rfl⟩

/-- The reduced parse string is defined when the parse string holds one of
`x`, `y`, `z`, `r`. -/
theorem parseLess_defined (g : List Char)
    (h : ∃ c ∈ g, c = 'x' ∨ c = 'y' ∨ c = 'z' ∨ c = 'r') : ∃ pl, parseLess g = some pl := by
  obtain ⟨c, hc, hx⟩ := h
  obtain ⟨j, hj, hget⟩ := List.getElem_of_mem hc
  unfold parseLess
  apply trimLess_some
  refine ⟨j, hj, ?_⟩
  rw [List.get?_eq_getElem?, List.getElem?_map, List.getElem?_eq_getElem hj, hget]
  simp only [Option.map_some', ne_eq, Option.some.injEq]
  unfold lessSymbol
  rcases hx with rfl | rfl | rfl | rfl <;> decide

/-- For a parse string made of symbols that have a branch, one of them being
`x`, `y`, `z` or `r`, the two-pass run and the single pass hand the same
sequence of records to the writer. -/
theorem two_pass_records_agree (sc : Scanf) (g : List Char) (xyz_offset xyz_scale : Vec3)
    (lines : List (List Char)) (v0 : Vars) (mn mx : Vec3)
    (hg : ∀ c ∈ g, recognized c)
    (hx : ∃ c ∈ g, c = 'x' ∨ c = 'y' ∨ c = 'z' ∨ c = 'r') :
    writtenByTwo (twoPass sc g xyz_offset xyz_scale lines (Main.start v0 mn mx))
      = writtenBySingle
          (singlePass sc g xyz_offset xyz_scale lines (Main.start v0 mn mx)) := by
  obtain ⟨pl, hpl⟩ := parseLess_defined g hx
  obtain ⟨h1, h2⟩ := twoPass_written sc g pl xyz_offset xyz_scale lines v0 mn mx hpl
  by_cases hacc : accepted sc pl v0 lines = []
  · rw [h1 hacc, writtenBySingle_eq,
      accepted_parseLess sc g pl v0 lines hg hpl hacc]
    rfl
  · exact h2 hacc

/-- The parse string "xyzr" on the example lines: both strategies write the
same three records. -/
theorem two_pass_records_agree_example :
    writtenByTwo (twoPass cScanf "xyzr".toList Vec3.zero ⟨1 / 100, 1 / 100, 1 / 100⟩
        exampleLines (Main.start Vars.zero Vec3.zero Vec3.zero))
      = writtenBySingle (singlePass cScanf "xyzr".toList Vec3.zero ⟨1 / 100, 1 / 100, 1 / 100⟩
        exampleLines (Main.start Vars.zero Vec3.zero Vec3.zero)) :=
  two_pass_records_agree cScanf "xyzr".toList Vec3.zero ⟨1 / 100, 1 / 100, 1 / 100⟩
    exampleLines Vars.zero Vec3.zero Vec3.zero (by decide) (by decide)

/-- C9, the code at a failing input: under the parse string "Qxyz" and the one
line "1 2 3" the single pass writes the record (1, 2, 3), while the two-pass
run builds the reduced string "sxyz", finds no line to parse in its first
pass and stops at `exit(1)` having written nothing. -/
theorem two_pass_records_differ :
    parseLess "Qxyz".toList = some "sxyz".toList ∧
    (twoPass cScanf "Qxyz".toList Vec3.zero ⟨1, 1, 1⟩ (linesOf ["1 2 3"])
      (Main.start Vars.zero Vec3.zero Vec3.zero)).exited = true ∧
    writtenByTwo (twoPass cScanf "Qxyz".toList Vec3.zero ⟨1, 1, 1⟩ (linesOf ["1 2 3"])
      (Main.start Vars.zero Vec3.zero Vec3.zero)) = [] ∧
    writtenBySingle (singlePass cScanf "Qxyz".toList Vec3.zero ⟨1, 1, 1⟩ (linesOf ["1 2 3"])
      (Main.start Vars.zero Vec3.zero Vec3.zero))
      = [quantizedRecord { Vars.zero with xyz := ⟨1, 2, 3⟩ } Vec3.zero ⟨1, 1, 1⟩] := by
  decide!

/-- C10, the code at a failing input: on the example of the specification
(parse string "xyzr", scale 0.01, offset 0) the two-pass header holds
`min_x = -1` while the single pass patches `-0.99` into the file, because its
bounding box is quantized with `+0.5` on either side of the offset. -/
theorem bounding_box_differs :
    (twoPass cScanf "xyzr".toList Vec3.zero ⟨1 / 100, 1 / 100, 1 / 100⟩ exampleLines
      (Main.start Vars.zero Vec3.zero Vec3.zero)).result.map (fun r => r.header.min_x)
      = some (-1) ∧
    (singlePass cScanf "xyzr".toList Vec3.zero ⟨1 / 100, 1 / 100, 1 / 100⟩ exampleLines
      (Main.start Vars.zero Vec3.zero Vec3.zero)).result.map (fun p => p.xyz_min_dequant.c0)
      = some (-99 / 100) := by
  decide!

/-- Where the value lies above the offset, or the quotient computed for it
lies between `-1/2 + 2^-53` and 0, adding `0.5` unconditionally (single-pass
bounding box) gives what the record-writing rule gives. -/
theorem quantizeBox_eq_quantize (v offset scale : F64)
    (h : v > offset ∨
      ∃ t : ℚ, (v - offset) / scale = F64.fin t ∧ -(1 / 2) + 1 / 2 ^ 53 ≤ t ∧ t ≤ 0) :
    quantizeBox v offset scale = quantize v offset scale := by
  unfold quantizeBox quantize
  by_cases hv : v > offset
  · rw [if_pos hv]
  · rw [if_neg hv]
    rcases h with h | ⟨t, ht, h1, h2⟩
    · exact absurd h hv
    · rw [ht, f64_neg_half, f64_half, f64_add_fin, f64_add_fin]
      clear hv
      have p1024 : (1 : ℚ) < pow2 1024 := by decide!
      have a1 : 0 ≤ roundBinary64 (1 / 2 + t) :=
        roundBinary64_nonneg (by
          have : (0 : ℚ) < 1 / 2 ^ 53 := by positivity
          linarith)
      have a2 : roundBinary64 (1 / 2 + t) ≤ 1 / 2 := by
        have := roundBinary64_mono (show 1 / 2 + t ≤ 1 / 2 by linarith)
        rw [roundBinary64_half] at this
        exact this
      have b1 : 1 / 2 ^ 53 - 1 ≤ roundBinary64 (-(1 / 2) + t) := by
        have := roundBinary64_mono (show (1 / 2 ^ 53 - 1 : ℚ) ≤ -(1 / 2) + t by linarith)
        have e : roundBinary64 (1 / 2 ^ 53 - 1) = 1 / 2 ^ 53 - 1 := by decide!
        rw [e] at this
        exact this
      have b2 : roundBinary64 (-(1 / 2) + t) ≤ -(1 / 2) := by
        have := roundBinary64_mono (show -(1 / 2) + t ≤ -(1 / 2) by linarith)
        rw [roundBinary64_neg_half] at this
        exact this
      have b3 : (0 : ℚ) < 1 / 2 ^ 53 := by positivity
      rw [ofRat_of_lt (by rw [abs_lt]; constructor <;> linarith),
        ofRat_of_lt (by rw [abs_lt]; constructor <;> linarith)]
      have e1 : truncToZero (roundBinary64 (1 / 2 + t)) = 0 := by
        unfold truncToZero
        rw [if_pos a1, Int.floor_eq_iff]
        constructor
        · push_cast
          linarith
        · push_cast
          linarith
      have e2 : truncToZero (roundBinary64 (-(1 / 2) + t)) = 0 := by
        unfold truncToZero
        rw [if_neg (by linarith), Int.ceil_eq_iff]
        constructor
        · push_cast
          linarith
        · push_cast
          linarith
      simp only [castInt, e1, e2]

/-- From the same accumulated bounds, each of them above its offset or with a
computed quotient between `-1/2 + 2^-53` and 0, the two-pass header and the
single-pass patch hold the same dequantized bounding box. -/
theorem bounding_box_agree (m : Main) (xyz_offset xyz_scale : Vec3)
    (hmin : ∀ i : Fin 3, m.xyz_min.get i > xyz_offset.get i ∨
      ∃ t : ℚ, (m.xyz_min.get i - xyz_offset.get i) / xyz_scale.get i = F64.fin t ∧
        -(1 / 2) + 1 / 2 ^ 53 ≤ t ∧ t ≤ 0)
    (hmax : ∀ i : Fin 3, m.xyz_max.get i > xyz_offset.get i ∨
      ∃ t : ℚ, (m.xyz_max.get i - xyz_offset.get i) / xyz_scale.get i = F64.fin t ∧
        -(1 / 2) + 1 / 2 ^ 53 ≤ t ∧ t ≤ 0) :
    dequant3 (singleMinQuant m xyz_offset xyz_scale) xyz_offset xyz_scale
      = dequant3 (twoMinQuant m xyz_offset xyz_scale) xyz_offset xyz_scale ∧
    dequant3 (singleMaxQuant m xyz_offset xyz_scale) xyz_offset xyz_scale
      = dequant3 (twoMaxQuant m xyz_offset xyz_scale) xyz_offset xyz_scale := by
  have a0 := quantizeBox_eq_quantize _ _ _ (hmin 0)
  have a1 := quantizeBox_eq_quantize _ _ _ (hmin 1)
  have a2 := quantizeBox_eq_quantize _ _ _ (hmin 2)
  have b0 := quantizeBox_eq_quantize _ _ _ (hmax 0)
  have b1 := quantizeBox_eq_quantize _ _ _ (hmax 1)
  have b2 := quantizeBox_eq_quantize _ _ _ (hmax 2)
  simp only [Vec3.get] at a0 a1 a2 b0 b1 b2
  unfold quantizeBox quantize at a0 a1 a2 b0 b1 b2
  constructor
  · unfold singleMinQuant twoMinQuant
    rw [← a0, ← a1, ← a2]
  · unfold singleMaxQuant twoMaxQuant
    rw [← b0, ← b1, ← b2]

/-! ## Sign-flip check, point format, masked attributes -/

/-- C12 (as amended): with offset 0 and scale 1 an original minimum of -0.3
quantizes to 0 and dequantizes to 0.0, in the two-pass and in the single-pass
bounding box alike, and the sign-flip check reports false for the pair
(-0.3, 0.0), since neither value is greater than 0; for an original 0.3, which
also dequantizes to 0.0, it reports true. -/
theorem sign_flip_example :
    quantize (-3 / 10) 0 1 = 0 ∧ quantizeBox (-3 / 10) 0 1 = 0 ∧
    dequantize 0 0 1 = 0 ∧
    signFlip (-3 / 10) (dequantize (quantize (-3 / 10) 0 1) 0 1) = false ∧
    signFlip (3 / 10) (dequantize (quantize (3 / 10) 0 1) 0 1) = true ∧
    (firstPassScan cScanf "xyz".toList (linesOf ["-0.3 0 0"])
      (Main.start Vars.zero Vec3.zero Vec3.zero)).result.map
        (fun m => twoPassSignFlips m Vec3.zero ⟨1, 1, 1⟩)
      = some [false, false, false, false, false, false] ∧
    (singlePassScan cScanf "xyz".toList Vec3.zero ⟨1, 1, 1⟩ (linesOf ["-0.3 0 0"])
      (Main.start Vars.zero Vec3.zero Vec3.zero)).result.map
        (fun m => singlePassSignFlips m Vec3.zero ⟨1, 1, 1⟩)
      = some [false, false, false, false, false, false] := by
  decide!

/-- Counterexample to C12 as stated: for the original -0.3 and its dequantized
value 0.0 (offset 0, scale 1) the sign-flip condition is not true. -/
theorem sign_flip_counterexample :
    dequantize (quantize (-3 / 10) 0 1) 0 1 = 0 ∧
    signFlip (-3 / 10) 0 ≠ true := by
  decide!

/-- C17: for every parse string, in the two-pass header and in the single-pass
header alike, the point-data-format code is (1 if the string contains `t`) +
(2 if it contains any of `R`, `G`, `B`) and the point record length is
20 + 8 (if `t`) + 6 (if any of `R`, `G`, `B`): one of the four pairs (0,20),
(1,28), (2,26), (3,34). -/
theorem point_format_selection (g : List Char) (xyz_offset xyz_scale : Vec3) (m : Main)
    (constructed : LASheader) :
    (twoPassHeader g xyz_offset xyz_scale m).point_data_format
      = (if 't' ∈ g then 1 else 0) + (if 'R' ∈ g ∨ 'G' ∈ g ∨ 'B' ∈ g then 2 else 0) ∧
    (twoPassHeader g xyz_offset xyz_scale m).point_data_record_length
      = 20 + (if 't' ∈ g then 8 else 0) + (if 'R' ∈ g ∨ 'G' ∈ g ∨ 'B' ∈ g then 6 else 0) ∧
    (singlePassHeader g xyz_offset xyz_scale constructed).point_data_format
      = (if 't' ∈ g then 1 else 0) + (if 'R' ∈ g ∨ 'G' ∈ g ∨ 'B' ∈ g then 2 else 0) ∧
    (singlePassHeader g xyz_offset xyz_scale constructed).point_data_record_length
      = 20 + (if 't' ∈ g then 8 else 0) + (if 'R' ∈ g ∨ 'G' ∈ g ∨ 'B' ∈ g then 6 else 0) ∧
    ((twoPassHeader g xyz_offset xyz_scale m).point_data_format,
      (twoPassHeader g xyz_offset xyz_scale m).point_data_record_length)
      ∈ [(0, 20), (1, 28), (2, 26), (3, 34)] ∧
    ((singlePassHeader g xyz_offset xyz_scale constructed).point_data_format,
      (singlePassHeader g xyz_offset xyz_scale constructed).point_data_record_length)
      ∈ [(0, 20), (1, 28), (2, 26), (3, 34)] := by
  simp only [twoPassHeader, singlePassHeader, pointDataFormat]
  by_cases ht : 't' ∈ g <;> by_cases hc : 'R' ∈ g ∨ 'G' ∈ g ∨ 'B' ∈ g <;> simp [ht, hc]

/-- The four layouts of C17 on concrete parse strings. -/
theorem point_format_examples :
    pointDataFormat "xyz".toList = (0, 20) ∧ pointDataFormat "txyz".toList = (1, 28) ∧
    pointDataFormat "xyzG".toList = (2, 26) ∧ pointDataFormat "tsxyzRGB".toList = (3, 34) := by
  decide

/-- A one-symbol parse string whose branch converts with `%d`: the call
succeeds on a line whose first token converts, and hands the variables to the
store of that branch. -/
theorem parse_single (sc : Scanf) (p : Char) (l : List Char) (s s1 : Vars) (l1 : List Char)
    (h : parseField sc p l s = some (l1, s1)) : parse sc [p] l s = (true, s1) := by
  rw [parse_cons_some sc p [] l s l1 s1 h]
  rfl

/-- C19: an out-of-range integer attribute never rejects the line and is
stored masked to the width of the field.  Whenever the first token of the line
converts with `%d` to the integer `v`, `parse` succeeds and stores `v mod 8`
for the return number (`r`) and the number of returns (`n`), `v mod 256` for
the classification (`c`) and the user data (`u`), and `v mod 65536` for the
point source ID (`p`), the residue being the non-negative one. -/
theorem out_of_range_attribute_masked (sc : Scanf) (l : List Char) (s : Vars) (v : Int)
    (hl : skipWhite l ≠ []) (hv : sc.d (skipWhite l) = some v) :
    ((parse sc ['r'] l s).1 = true ∧
      ((parse sc ['r'] l s).2.point.return_number : Int) = v % 8) ∧
    ((parse sc ['n'] l s).1 = true ∧
      ((parse sc ['n'] l s).2.point.number_of_returns_of_given_pulse : Int) = v % 8) ∧
    ((parse sc ['c'] l s).1 = true ∧
      ((parse sc ['c'] l s).2.point.classification : Int) = v % 256) ∧
    ((parse sc ['u'] l s).1 = true ∧
      ((parse sc ['u'] l s).2.point.user_data : Int) = v % 256) ∧
    ((parse sc ['p'] l s).1 = true ∧
      ((parse sc ['p'] l s).2.point.point_source_ID : Int) = v % 65536) := by
  have key : ∀ (p : Char) (store : Int → Vars),
      parseField sc p l s = expect l sc.d store →
      parse sc [p] l s = (true, store v) := by
    intro p store hp
    apply parse_single sc p l s (store v) (advance (skipWhite l))
    rw [hp]
    exact (expect_eq_some _ _ _ _).2 ⟨hl, v, hv, rfl⟩
  refine ⟨?_, ?_, ?_, ?_, ?_⟩
  · rw [key 'r' _ rfl]
    exact ⟨rfl, Int.toNat_of_nonneg (Int.emod_nonneg _ (by norm_num))⟩
  · rw [key 'n' _ rfl]
    exact ⟨rfl, Int.toNat_of_nonneg (Int.emod_nonneg _ (by norm_num))⟩
  · rw [key 'c' _ rfl]
    exact ⟨rfl, Int.toNat_of_nonneg (Int.emod_nonneg _ (by norm_num))⟩
  · rw [key 'u' _ rfl]
    exact ⟨rfl, Int.toNat_of_nonneg (Int.emod_nonneg _ (by norm_num))⟩
  · rw [key 'p' _ rfl]
    exact ⟨rfl, Int.toNat_of_nonneg (Int.emod_nonneg _ (by norm_num))⟩

/-- Witness of C19: the token "-70003" is stored as 5 (return number), 141
(classification) and 61069 (point source ID). -/
theorem out_of_range_attribute_masked_witness :
    (parse cScanf ['r'] "-70003 1".toList Vars.zero).2.point.return_number = 5 ∧
    (parse cScanf ['c'] "-70003 1".toList Vars.zero).2.point.classification = 141 ∧
    (parse cScanf ['p'] "-70003 1".toList Vars.zero).2.point.point_source_ID = 61069 ∧
    ((parse cScanf ['r'] "-70003 1".toList Vars.zero).1 = true ∧
      ((parse cScanf ['r'] "-70003 1".toList Vars.zero).2.point.return_number : Int)
        = (-70003) % 8) :=
  ⟨by decide!, by decide!, by decide!,
   (out_of_range_attribute_masked cScanf "-70003 1".toList Vars.zero (-70003)
      (by decide) (by decide!)).1⟩

/-- C20 (as amended): the two boolean flags are not masked to one bit.
Whenever the first token of the line converts with `%d` to the integer `v`,
`parse` succeeds and the edge-of-flight-line (`e`) and direction-of-scan (`d`)
members hold 1 when `v` is not zero and 0 when it is (`temp_i ? 1 : 0`); this
is `v mod 2` when `v` is 0 or odd, and differs from it for every even `v`
other than 0. -/
theorem flag_stored_as_nonzero (sc : Scanf) (l : List Char) (s : Vars) (v : Int)
    (hl : skipWhite l ≠ []) (hv : sc.d (skipWhite l) = some v) :
    ((parse sc ['e'] l s).1 = true ∧
      (parse sc ['e'] l s).2.point.edge_of_flight_line = if v ≠ 0 then 1 else 0) ∧
    ((parse sc ['d'] l s).1 = true ∧
      (parse sc ['d'] l s).2.point.scan_direction_flag = if v ≠ 0 then 1 else 0) ∧
    ((v = 0 ∨ v % 2 = 1) →
      ((parse sc ['e'] l s).2.point.edge_of_flight_line : Int) = v % 2 ∧
      ((parse sc ['d'] l s).2.point.scan_direction_flag : Int) = v % 2) ∧
    ((v ≠ 0 ∧ v % 2 = 0) →
      ((parse sc ['e'] l s).2.point.edge_of_flight_line : Int) ≠ v % 2 ∧
      ((parse sc ['d'] l s).2.point.scan_direction_flag : Int) ≠ v % 2) := by
  have key : ∀ (p : Char) (store : Int → Vars),
      parseField sc p l s = expect l sc.d store →
      parse sc [p] l s = (true, store v) := by
    intro p store hp
    apply parse_single sc p l s (store v) (advance (skipWhite l))
    rw [hp]
    exact (expect_eq_some _ _ _ _).2 ⟨hl, v, hv, rfl⟩
  rw [key 'e' _ rfl, key 'd' _ rfl]
  refine ⟨⟨rfl, rfl⟩, ⟨rfl, rfl⟩, ?_, ?_⟩
  · rintro (h | h)
    · subst h
      simp
    · have hne : v ≠ 0 := by
        intro e
        rw [e] at h
        simp at h
      simp only [hne, ne_eq, not_false_eq_true, if_true, Nat.cast_one, h, and_self]
  · rintro ⟨hne, h⟩
    simp only [hne, ne_eq, not_false_eq_true, if_true, Nat.cast_one, h]
    constructor <;> norm_num

/-- Witness of C20: the token "2" sets the edge-of-flight-line flag to 1. -/
theorem flag_stored_as_nonzero_witness :
    (parse cScanf ['e'] "2".toList Vars.zero).1 = true ∧
    (parse cScanf ['e'] "2".toList Vars.zero).2.point.edge_of_flight_line
      = if (2 : Int) ≠ 0 then 1 else 0 :=
  (flag_stored_as_nonzero cScanf "2".toList Vars.zero 2 (by decide) (by decide!)).1

/-- Counterexample to C20 as stated: the tokens "2" and "-4" are stored as 1
in the edge-of-flight-line and direction-of-scan flags, while 2 mod 2 and
-4 mod 2 are 0. -/
theorem flag_mask_counterexample :
    (parse cScanf ['e'] "2".toList Vars.zero).1 = true ∧
    (parse cScanf ['e'] "2".toList Vars.zero).2.point.edge_of_flight_line = 1 ∧
    (2 : Int) % 2 = 0 ∧
    (parse cScanf ['d'] "-4".toList Vars.zero).1 = true ∧
    (parse cScanf ['d'] "-4".toList Vars.zero).2.point.scan_direction_flag = 1 ∧
    (-4 : Int) % 2 = 0 := by
  decide!

/-! ## The header patch -/

theorem fwriteAt_getElem? (file : List FileByte) (pos : Nat) (data : List FileByte) (i : Nat) :
    (fwriteAt file pos data)[i]? =
      if i < pos then (if i < file.length then file[i]? else some (FileByte.raw 0))
      else if i < pos + data.length then data[i - pos]?
      else file[i]? := by
  unfold fwriteAt
  have hlen : (List.take pos file ++ List.replicate (pos - file.length) (FileByte.raw 0)).length
      = pos := by
    rw [List.length_append, List.length_take, List.length_replicate]
    omega
  by_cases h1 : i < pos
  · rw [if_pos h1, List.append_assoc, List.getElem?_append_left (by rw [hlen]; exact h1)]
    by_cases h2 : i < file.length
    · rw [if_pos h2, List.getElem?_append_left (by rw [List.length_take]; omega),
        List.getElem?_take_of_lt h1]
    · rw [if_neg h2, List.getElem?_append_right (by rw [List.length_take]; omega),
        List.getElem?_replicate, if_pos (by rw [List.length_take]; omega)]
  · rw [if_neg h1, List.append_assoc, List.getElem?_append_right (by rw [hlen]; omega), hlen]
    by_cases h3 : i < pos + data.length
    · rw [if_pos h3, List.getElem?_append_left (by omega)]
    · rw [if_neg h3, List.getElem?_append_right (by omega), List.getElem?_drop]
      congr 1
      omega

theorem window_getElem? (file : List FileByte) (pos n i : Nat) :
    (window file pos n)[i]? = if i < n then file[pos + i]? else none := by
  unfold window
  rw [List.getElem?_take, List.getElem?_drop]

/-- A window that a write covers, and that no later write touches, holds the
written data. -/
theorem window_fwriteAt (file : List FileByte) (pos : Nat) (data : List FileByte) :
    window (fwriteAt file pos data) pos data.length = data := by
  apply List.ext_getElem?
  intro i
  rw [window_getElem?, fwriteAt_getElem?]
  by_cases h : i < data.length
  · rw [if_pos h, if_neg (by omega), if_pos (by omega)]
    congr 1
    omega
  · rw [if_neg h]
    exact (List.getElem?_eq_none (by omega)).symm

/-- A write leaves alone every window that ends at or before its position and
lies inside the file. -/
theorem window_fwriteAt_before (file : List FileByte) (pos : Nat) (data : List FileByte)
    (q n : Nat) (h : q + n ≤ pos) (hf : q + n ≤ file.length) :
    window (fwriteAt file pos data) q n = window file q n := by
  apply List.ext_getElem?
  intro i
  rw [window_getElem?, window_getElem?, fwriteAt_getElem?]
  by_cases hi : i < n
  · rw [if_pos hi, if_pos hi, if_pos (by omega), if_pos (by omega)]
  · rw [if_neg hi, if_neg hi]

theorem length_fwriteAt (file : List FileByte) (pos : Nat) (data : List FileByte) :
    (fwriteAt file pos data).length = max file.length (pos + data.length) := by
  unfold fwriteAt
  simp only [List.length_append, List.length_take, List.length_replicate, List.length_drop]
  omega

/-- Two writes that follow each other in the file are one write of the joined
data. -/
theorem fwriteAt_adjacent (file : List FileByte) (pos : Nat) (d1 d2 : List FileByte) (q : Nat)
    (hq : q = pos + d1.length) :
    fwriteAt (fwriteAt file pos d1) q d2 = fwriteAt file pos (d1 ++ d2) := by
  subst hq
  apply List.ext_getElem?
  intro i
  rw [fwriteAt_getElem?, fwriteAt_getElem?, fwriteAt_getElem?, length_fwriteAt,
    List.length_append, List.getElem?_append]
  split_ifs <;> first | rfl | (exfalso; omega) | (congr 1; omega)

/-- The part of a window that a write covers in full, read back from the
written data. -/
theorem window_fwriteAt_inside (file : List FileByte) (pos : Nat) (data : List FileByte)
    (off n : Nat) (h : off + n ≤ data.length) :
    window (fwriteAt file pos data) (pos + off) n = window data off n := by
  apply List.ext_getElem?
  intro i
  rw [window_getElem?, window_getElem?, fwriteAt_getElem?]
  by_cases hi : i < n
  · rw [if_pos hi, if_pos hi, if_neg (by omega), if_pos (by omega)]
    congr 1
    omega
  · rw [if_neg hi, if_neg hi]

theorem window_self (data rest : List FileByte) :
    window (data ++ rest) 0 data.length = data := by
  unfold window
  rw [List.drop_zero, List.take_left]

/-- The header patch as three writes: 4 + `beyond` bytes at 107, 20 bytes at
111, 48 bytes at 179. -/
theorem headerPatch_eq (file : List FileByte) (count : Nat) (hist : List Nat)
    (beyond : List FileByte) (mn mx : Vec3) :
    headerPatch file count hist beyond mn mx =
      fwriteAt
        (fwriteAt (fwriteAt file 107 (bytesOfUInt count ++ beyond)) 111
          (bytesOfUInt (hist.getD 1 0) ++ bytesOfUInt (hist.getD 2 0) ++
           bytesOfUInt (hist.getD 3 0) ++ bytesOfUInt (hist.getD 4 0) ++
           bytesOfUInt (hist.getD 5 0)))
        179
        (bytesOfDouble mx.c0 ++ (bytesOfDouble mn.c0 ++ (bytesOfDouble mx.c1 ++
          (bytesOfDouble mn.c1 ++ (bytesOfDouble mx.c2 ++ bytesOfDouble mn.c2))))) := by
  unfold headerPatch
  simp only
  rw [fwriteAt_adjacent _ 179 _ _ 187, fwriteAt_adjacent _ 179 _ _ 195,
    fwriteAt_adjacent _ 179 _ _ 203, fwriteAt_adjacent _ 179 _ _ 211,
    fwriteAt_adjacent _ 179 _ _ 219]
  · simp only [List.append_assoc]
  all_goals simp [bytesOfDouble]

/-- C18: after the header patch of the single pass the output file holds at
byte offset 107 the four bytes of the record count, at offsets 111 to 130 the
five four-byte counts of the histogram buckets 1, 2, 3, 4, 5 in that order
(the buckets 0, 6 and 7 do not enter the file), and at offsets 179 to 226 the
six eight-byte doubles max x, min x, max y, min y, max z, min z in that order;
the two-pass header stores the same five buckets (header bucket `k` is
histogram bucket `k + 1` for `k` from 0 to 4). -/
theorem header_patch_layout (file : List FileByte) (p : Patch) (beyond : List FileByte)
    (parse_string : List Char) (xyz_offset xyz_scale : Vec3) (m : Main)
    (hb : beyond.length = 16) :
    window (patchFile file p beyond) 107 4 = bytesOfUInt p.number_of_point_records ∧
    window (patchFile file p beyond) 111 20
      = bytesOfUInt (p.number_of_points_by_return.getD 1 0) ++
        bytesOfUInt (p.number_of_points_by_return.getD 2 0) ++
        bytesOfUInt (p.number_of_points_by_return.getD 3 0) ++
        bytesOfUInt (p.number_of_points_by_return.getD 4 0) ++
        bytesOfUInt (p.number_of_points_by_return.getD 5 0) ∧
    window (patchFile file p beyond) 179 48
      = bytesOfDouble p.xyz_max_dequant.c0 ++ (bytesOfDouble p.xyz_min_dequant.c0 ++
        (bytesOfDouble p.xyz_max_dequant.c1 ++ (bytesOfDouble p.xyz_min_dequant.c1 ++
        (bytesOfDouble p.xyz_max_dequant.c2 ++ bytesOfDouble p.xyz_min_dequant.c2)))) ∧
    (∀ hist : List Nat,
      (∀ k, 1 ≤ k → k ≤ 5 → hist.getD k 0 = p.number_of_points_by_return.getD k 0) →
      patchFile file { p with number_of_points_by_return := hist } beyond
        = patchFile file p beyond) ∧
    (∀ k, k < 5 →
      (twoPassHeader parse_string xyz_offset xyz_scale m).number_of_points_by_return.getD k 0
        = m.number_of_points_by_return.getD (k + 1) 0) := by
  have l1 : (fwriteAt file 107 (bytesOfUInt p.number_of_point_records ++ beyond)).length
      = max file.length 127 := by
    rw [length_fwriteAt, List.length_append, hb]
    rfl
  refine ⟨?_, ?_, ?_, ?_, ?_⟩
  · unfold patchFile
    rw [headerPatch_eq,
      window_fwriteAt_before _ 179 _ 107 4 (by norm_num)
        (by rw [length_fwriteAt, l1]; omega),
      window_fwriteAt_before _ 111 _ 107 4 (by norm_num) (by rw [l1]; omega)]
    have := window_fwriteAt_inside file 107 (bytesOfUInt p.number_of_point_records ++ beyond)
      0 4 (by rw [List.length_append, hb]; simp [bytesOfUInt])
    rw [Nat.add_zero] at this
    rw [this]
    exact window_self (bytesOfUInt p.number_of_point_records) beyond
  · unfold patchFile
    rw [headerPatch_eq,
      window_fwriteAt_before _ 179 _ 111 20 (by norm_num)
        (by rw [length_fwriteAt, l1]; simp [bytesOfUInt])]
    exact window_fwriteAt _ 111 _
  · unfold patchFile
    rw [headerPatch_eq]
    exact window_fwriteAt _ 179 _
  · intro hist h
    unfold patchFile headerPatch
    simp only
    rw [h 1 (by norm_num) (by norm_num), h 2 (by norm_num) (by norm_num),
      h 3 (by norm_num) (by norm_num), h 4 (by norm_num) (by norm_num),
      h 5 (by norm_num) (by norm_num)]
  · intro k hk
    unfold twoPassHeader
    interval_cases k <;> rfl

/-- Witness of C18: the patch of a file of 227 zero bytes with count 3 and the
histogram of the example. -/
theorem header_patch_layout_witness :
    window (patchFile (zeroFile 227)
        { number_of_point_records := 3,
          number_of_points_by_return := [0, 2, 1, 0, 0, 0, 0, 0],
          xyz_min_dequant := ⟨-1, 0, 0⟩, xyz_max_dequant := ⟨4, 5, 6⟩, written := [] }
        (zeroFile 16)) 107 4 = bytesOfUInt 3 ∧
    window (patchFile (zeroFile 227)
        { number_of_point_records := 3,
          number_of_points_by_return := [0, 2, 1, 0, 0, 0, 0, 0],
          xyz_min_dequant := ⟨-1, 0, 0⟩, xyz_max_dequant := ⟨4, 5, 6⟩, written := [] }
        (zeroFile 16)) 111 20
      = bytesOfUInt 2 ++ bytesOfUInt 1 ++ bytesOfUInt 0 ++ bytesOfUInt 0 ++ bytesOfUInt 0 :=
  have h := header_patch_layout (zeroFile 227)
    { number_of_point_records := 3,
      number_of_points_by_return := [0, 2, 1, 0, 0, 0, 0, 0],
      xyz_min_dequant := ⟨-1, 0, 0⟩, xyz_max_dequant := ⟨4, 5, 6⟩, written := [] }
    (zeroFile 16) "xyzr".toList Vec3.zero ⟨1, 1, 1⟩ (Main.start Vars.zero Vec3.zero Vec3.zero)
    (by decide)
  ⟨h.1, h.2.1⟩

/-! ## las2txt: the formatter strips trailing zeros -/

theorem charAt_append_left (p r : List Char) (i : Nat) (h : i < p.length) :
    charAt (p ++ r) i = charAt p i := by
  unfold charAt
  rw [List.getD_eq_getElem?_getD, List.getD_eq_getElem?_getD, List.getElem?_append_left h]

theorem charAt_append_right (p r : List Char) (i : Nat) :
    charAt (p ++ r) (p.length + i) = charAt r i := by
  unfold charAt
  rw [List.getD_eq_getElem?_getD, List.getD_eq_getElem?_getD,
    List.getElem?_append_right (by omega)]
  congr 2
  omega

theorem backOverZeros_of (s : List Char) (n j : Nat) (hj : j ≤ n) (h1 : charAt s j ≠ '0')
    (h2 : ∀ i, j < i → i ≤ n → charAt s i = '0') : backOverZeros s n = some j := by
  induction n with
  | zero =>
    have : j = 0 := by omega
    subst this
    unfold backOverZeros
    rw [if_neg h1]
  | succ n ih =>
    unfold backOverZeros
    by_cases e : j = n + 1
    · subst e
      rw [if_neg h1]
    · rw [if_pos (h2 (n + 1) (by omega) (by omega))]
      exact ih (by omega) (fun i hi hn => h2 i hi (by omega))

theorem backOverZeros_some (s : List Char) (n j : Nat) (h : backOverZeros s n = some j) :
    j ≤ n ∧ charAt s j ≠ '0' ∧ ∀ i, j < i → i ≤ n → charAt s i = '0' := by
  induction n with
  | zero =>
    unfold backOverZeros at h
    by_cases c : charAt s 0 = '0'
    · rw [if_pos c] at h
      exact absurd h (by simp)
    · rw [if_neg c] at h
      have : j = 0 := by injection h with h; exact h.symm
      subst this
      exact ⟨le_refl _, c, fun i hi hn => by omega⟩
  | succ n ih =>
    unfold backOverZeros at h
    by_cases c : charAt s (n + 1) = '0'
    · rw [if_pos c] at h
      obtain ⟨a, b, d⟩ := ih h
      refine ⟨by omega, b, fun i hi hn => ?_⟩
      by_cases e : i = n + 1
      · rw [e]; exact c
      · exact d i hi (by omega)
    · rw [if_neg c] at h
      have : j = n + 1 := by injection h with h; exact h.symm
      subst this
      exact ⟨le_refl _, c, fun i hi hn => by omega⟩

theorem stripZeros_of (s : List Char) (j : Nat) (hj : j < s.length) (h1 : charAt s j ≠ '0')
    (h2 : ∀ i, j < i → i < s.length → charAt s i = '0') :
    stripZeros s = some (if charAt s j ≠ '.' then j + 1 else j) := by
  obtain ⟨last, hl⟩ : ∃ last, s.length = last + 1 := ⟨s.length - 1, by omega⟩
  unfold stripZeros
  rw [hl]
  simp only
  rw [backOverZeros_of s last j (by omega) h1 (fun i hi hn => h2 i hi (by omega))]

theorem stripZeros_some (s : List Char) (k : Nat) (h : stripZeros s = some k) :
    ∃ j, j < s.length ∧ charAt s j ≠ '0' ∧
      (∀ i, j < i → i < s.length → charAt s i = '0') ∧
      k = if charAt s j ≠ '.' then j + 1 else j := by
  unfold stripZeros at h
  cases hl : s.length with
  | zero =>
    rw [hl] at h
    exact absurd h (by simp)
  | succ last =>
    rw [hl] at h
    simp only at h
    cases hb : backOverZeros s last with
    | none =>
      rw [hb] at h
      exact absurd h (by simp)
    | some j =>
      rw [hb] at h
      obtain ⟨a, b, d⟩ := backOverZeros_some s last j hb
      refine ⟨j, by omega, b, fun i hi hn => d i hi (by omega), ?_⟩
      injection h with h
      exact h.symm

/-- Stripping looks only at the characters of the last `sprintf`: text in
front of them shifts the result. -/
theorem stripZeros_append (p r : List Char) (k : Nat) (h : stripZeros r = some k) :
    stripZeros (p ++ r) = some (p.length + k) ∧ k ≤ r.length := by
  obtain ⟨j, hj, h1, h2, hk⟩ := stripZeros_some r k h
  have e := stripZeros_of (p ++ r) (p.length + j) (by rw [List.length_append]; omega)
    (by rw [charAt_append_right]; exact h1)
    (fun i hi hn => by
      obtain ⟨i', rfl⟩ : ∃ i', i = p.length + i' := ⟨i - p.length, by omega⟩
      rw [charAt_append_right]
      rw [List.length_append] at hn
      exact h2 i' (by omega) (by omega))
  rw [charAt_append_right] at e
  rw [e, hk]
  constructor
  · split_ifs <;> rfl
  · split_ifs <;> omega

theorem stripZeros_take_append (p r : List Char) (k : Nat) (h : stripZeros r = some k) :
    stripZeros (p ++ r) = some (p.length + k) ∧
      (p ++ r).take (p.length + k) = p ++ r.take k ∧ (r.take k).length = k := by
  obtain ⟨a, b⟩ := stripZeros_append p r k h
  refine ⟨a, List.take_append _, ?_⟩
  rw [List.length_take]
  omega

theorem lidardouble2string_some (sprintf_f : F64 → List Char) (value : F64) (s : List Char)
    (len : Nat) :
    lidardouble2string sprintf_f value = some (s, len) ↔
      stripZeros (sprintf_f value) = some len ∧ s = (sprintf_f value).take len := by
  unfold lidardouble2string
  cases h : stripZeros (sprintf_f value) with
  | none => simp
  | some k =>
    simp only [Option.some.injEq, Prod.mk.injEq]
    constructor
    · rintro ⟨a, b⟩
      exact ⟨b, by rw [← b]; exact a.symm⟩
    · rintro ⟨a, b⟩
      exact ⟨by rw [a]; exact b.symm, a⟩

theorem charAt_last (s : List Char) (hs : s ≠ []) : charAt s (s.length - 1) = s.getLast hs := by
  unfold charAt
  rw [List.getLast_eq_getElem, List.getD_eq_getElem?_getD,
    List.getElem?_eq_getElem (by have := List.length_pos.2 hs; omega)]
  rfl

theorem charAt_replicate (z i : Nat) (h : i < z) : charAt (List.replicate z '0') i = '0' := by
  unfold charAt
  rw [List.getD_eq_getElem?_getD, List.getElem?_replicate, if_pos h]
  rfl

/-- Stripping a text that ends in a character other than `0`, followed by any
number of zeros: the zeros go, and the last character goes with them when it
is the decimal point. -/
theorem stripZeros_zeros (s : List Char) (z : Nat) (hs : s ≠ []) (hlast : s.getLast hs ≠ '0') :
    stripZeros (s ++ List.replicate z '0')
      = some (if s.getLast hs ≠ '.' then s.length else s.length - 1) := by
  have hpos := List.length_pos.2 hs
  have e := stripZeros_of (s ++ List.replicate z '0') (s.length - 1)
    (by rw [List.length_append]; omega)
    (by rw [charAt_append_left _ _ _ (by omega), charAt_last s hs]; exact hlast)
    (fun i hi hn => by
      obtain ⟨i', rfl⟩ : ∃ i', i = s.length + i' := ⟨i - s.length, by omega⟩
      rw [List.length_append, List.length_replicate] at hn
      rw [charAt_append_right]
      exact charAt_replicate z i' (by omega))
  rw [charAt_append_left _ _ _ (by omega), charAt_last s hs] at e
  rw [e]
  congr 1
  split_ifs
  · omega
  · rfl

theorem rdropWhile_zeros (frac : List Char) :
    ∃ z, frac = withoutTrailingZeros frac ++ List.replicate z '0' := by
  unfold withoutTrailingZeros
  induction frac using List.reverseRecOn with
  | nil => exact ⟨0, rfl⟩
  | append_singleton l a ih =>
    by_cases h : a = '0'
    · obtain ⟨z, hz⟩ := ih
      refine ⟨z + 1, ?_⟩
      rw [List.rdropWhile_concat_pos _ _ _ (by simpa using h), List.replicate_succ',
        ← List.append_assoc, ← hz, h]
    · refine ⟨0, ?_⟩
      rw [List.rdropWhile_concat_neg _ _ _ (by simpa using h)]
      simp

theorem withoutTrailingZeros_last (frac : List Char) (h : withoutTrailingZeros frac ≠ []) :
    (withoutTrailingZeros frac).getLast h ≠ '0' := by
  have := List.rdropWhile_last_not (fun c => decide (c = '0')) frac h
  simpa using this

theorem withoutTrailingZeros_mem (frac : List Char) (c : Char)
    (h : c ∈ withoutTrailingZeros frac) : c ∈ frac :=
  (List.rdropWhile_prefix (fun c => decide (c = '0')) frac).subset h

/-- The single-value `lidardouble2string` leaves in the buffer the
fixed-notation rendering `whole.frac` that `%f` printed, with all trailing `0`
characters of the fraction removed and the decimal point removed with them
when no fraction digit is left; the characters in front of the decimal point
are all kept; the returned length is the length of that text. -/
theorem lidardouble2string_canonical (sprintf_f : F64 → List Char) (value : F64)
    (whole frac : List Char) (h : sprintf_f value = whole ++ '.' :: frac)
    (hf : '.' ∉ frac) :
    lidardouble2string sprintf_f value
      = some (canonicalText whole frac, (canonicalText whole frac).length) := by
  obtain ⟨z, hz⟩ := rdropWhile_zeros frac
  rw [lidardouble2string_some, h]
  unfold canonicalText
  by_cases ht : withoutTrailingZeros frac = []
  · rw [if_pos ht]
    rw [ht, List.nil_append] at hz
    have e := stripZeros_zeros (whole ++ ['.']) z (by simp) (by simp)
    rw [List.append_assoc, List.singleton_append, ← hz] at e
    rw [e]
    simp
  · rw [if_neg ht]
    have hne : whole ++ '.' :: withoutTrailingZeros frac ≠ [] := by simp
    have hl : (whole ++ '.' :: withoutTrailingZeros frac).getLast hne
        = (withoutTrailingZeros frac).getLast ht := by
      rw [List.getLast_append_of_ne_nil (by simp), List.getLast_cons ht]
    have e := stripZeros_zeros (whole ++ '.' :: withoutTrailingZeros frac) z hne
      (by rw [hl]; exact withoutTrailingZeros_last frac ht)
    rw [List.append_assoc, List.cons_append, ← hz] at e
    have hdot : (whole ++ '.' :: withoutTrailingZeros frac).getLast hne ≠ '.' := by
      rw [hl]
      intro hc
      exact hf (withoutTrailingZeros_mem frac '.' (hc ▸ List.getLast_mem ht))
    rw [if_pos hdot] at e
    rw [e]
    refine ⟨rfl, ?_⟩
    nth_rewrite 3 [hz]
    rw [← List.cons_append, ← List.append_assoc, List.take_left]

/-- C13: the single-value `lidardouble2string` leaves in the buffer the
fixed-notation rendering `whole.frac` that `%f` printed, with all trailing `0`
characters of the fraction removed and the decimal point removed with them
when no fraction digit is left; the characters in front of the decimal point
are all kept; the returned length is the length of that text. -/
theorem single_value_canonical (sprintf_f : F64 → List Char) (value : F64)
    (whole frac : List Char) (h : sprintf_f value = whole ++ '.' :: frac)
    (hf : '.' ∉ frac) :
    lidardouble2string sprintf_f value
      = some (canonicalText whole frac, (canonicalText whole frac).length) :=
  lidardouble2string_canonical sprintf_f value whole frac h hf

/-- Witness of C13: the renderings "1.500000", "2.000000" and "-0.100000" of
1.5, 2.0 and -0.1 become "1.5", "2" and "-0.1". -/
theorem single_value_canonical_witness :
    lidardouble2string cSprintf 1.5 = some ("1.5".toList, 3) ∧
    lidardouble2string cSprintf 2 = some ("2".toList, 1) ∧
    lidardouble2string cSprintf (-0.1) = some ("-0.1".toList, 4) :=
  ⟨single_value_canonical cSprintf 1.5 "1".toList "500000".toList (by decide!) (by decide),
   single_value_canonical cSprintf 2 "2".toList "000000".toList (by decide!) (by decide),
   single_value_canonical cSprintf (-0.1) "-0".toList "100000".toList (by decide!) (by decide)⟩

/-- C14: the three-value `lidardouble2string` writes the text of the first
value, a space, the text of the second value, a space, the text of the third
value, and one line feed when `eol` is set, each text being the one the
single-value `lidardouble2string` produces; the returned length is the length
of what was written. -/
theorem three_values_concatenate (sprintf_f : F64 → List Char) (a b c : F64) (eol : Bool)
    (sa sb sc : List Char) (la lb lc : Nat)
    (ha : lidardouble2string sprintf_f a = some (sa, la))
    (hb : lidardouble2string sprintf_f b = some (sb, lb))
    (hc : lidardouble2string sprintf_f c = some (sc, lc)) :
    lidardouble2string3 sprintf_f a b c eol
      = some (sa ++ [' '] ++ sb ++ [' '] ++ sc ++ (if eol then ['\n'] else []),
          (sa ++ [' '] ++ sb ++ [' '] ++ sc ++ (if eol then ['\n'] else [])).length) := by
  rw [lidardouble2string_some] at ha hb hc
  obtain ⟨ha, ea⟩ := ha
  obtain ⟨hb, eb⟩ := hb
  obtain ⟨hc, ec⟩ := hc
  have la_len : sa.length = la := by
    rw [ea]
    exact (stripZeros_take_append [] _ _ ha).2.2
  have lb_len : sb.length = lb := by
    rw [eb]
    exact (stripZeros_take_append [] _ _ hb).2.2
  have lc_len : sc.length = lc := by
    rw [ec]
    exact (stripZeros_take_append [] _ _ hc).2.2
  obtain ⟨b1, b2, -⟩ := stripZeros_take_append (sa ++ [' ']) _ _ hb
  obtain ⟨c1, c2, -⟩ := stripZeros_take_append (sa ++ [' '] ++ sb ++ [' ']) _ _ hc
  rw [← eb] at b2
  rw [← ec] at c2
  have s1 : sa ++ ' ' :: sprintf_f b = sa ++ [' '] ++ sprintf_f b := by simp
  have s2 : sa ++ [' '] ++ sb ++ ' ' :: sprintf_f c
      = sa ++ [' '] ++ sb ++ [' '] ++ sprintf_f c := by simp
  unfold lidardouble2string3
  rw [ha]
  simp only
  rw [← ea, s1, b1]
  simp only
  rw [b2, s2, c1]
  simp only
  rw [c2]
  cases eol
  · simp only [Bool.false_eq_true, if_false, List.append_nil, List.length_append,
      List.length_singleton, la_len, lb_len, lc_len]
  · simp only [if_true, List.length_append, List.length_singleton, la_len, lb_len, lc_len]

/-- Witness of C14: the values 1.5, 2.0, -0.1 give "1.5 2 -0.1" followed by a
line feed, of length 11. -/
theorem three_values_concatenate_witness :
    lidardouble2string3 cSprintf 1.5 2 (-0.1) true = some ("1.5 2 -0.1\n".toList, 11) :=
  three_values_concatenate cSprintf 1.5 2 (-0.1) true "1.5".toList "2".toList "-0.1".toList
    3 1 4 (by decide!) (by decide!) (by decide!)

/-! ## Decimal text of integers: printing and reading back -/

/-- The characters `0` to `9`. -/
theorem digitChar_facts (d : Nat) (h : d < 10) :
    (digitChar d).toNat - 48 = d ∧ (digitChar d).isDigit = true ∧
      isspace (digitChar d) = false ∧ digitChar d ≠ '-' ∧ digitChar d ≠ '+' ∧
      digitChar d ≠ ' ' ∧ digitChar d ≠ ',' ∧ digitChar d ≠ '\t' ∧ digitChar d ≠ '.' := by
  interval_cases d <;> decide

theorem digitsValue_concat (ds : List Char) (c : Char) :
    digitsValue (ds ++ [c]) = 10 * digitsValue ds + (c.toNat - 48) := by
  unfold digitsValue
  rw [List.foldl_append]
  rfl

theorem printDigits_spec (fuel : Nat) : ∀ (n : Nat) (acc : List Char), n < fuel →
    ∃ ds, printDigits fuel n acc = ds ++ acc ∧ IsDecimal ds ∧ digitsValue ds = n := by
  induction fuel with
  | zero => intro n acc h; omega
  | succ fuel ih =>
    intro n acc h
    unfold printDigits
    by_cases h10 : n < 10
    · rw [if_pos h10]
      refine ⟨[digitChar n], rfl, ⟨by simp, ?_⟩, ?_⟩
      · intro c hc
        exact ⟨n, h10, by simpa using hc⟩
      · have := digitsValue_concat [] (digitChar n)
        rw [List.nil_append] at this
        rw [this, (digitChar_facts n h10).1]
        show 10 * 0 + n = n
        omega
    · rw [if_neg h10]
      obtain ⟨ds, e, ⟨hne, hd⟩, hv⟩ := ih (n / 10) (digitChar (n % 10) :: acc) (by omega)
      refine ⟨ds ++ [digitChar (n % 10)], ?_, ⟨by simp, ?_⟩, ?_⟩
      · rw [e]
        simp
      · intro c hc
        rcases List.mem_append.1 hc with hc | hc
        · exact hd c hc
        · exact ⟨n % 10, Nat.mod_lt _ (by norm_num), by simpa using hc⟩
      · rw [digitsValue_concat, hv, (digitChar_facts (n % 10) (Nat.mod_lt _ (by norm_num))).1]
        omega

theorem printNat_spec (n : Nat) : IsDecimal (printNat n) ∧ digitsValue (printNat n) = n := by
  obtain ⟨ds, e, hd, hv⟩ := printDigits_spec (n + 1) n [] (by omega)
  unfold printNat
  rw [e, List.append_nil]
  exact ⟨hd, hv⟩

theorem isDecimal_head (l : List Char) (h : IsDecimal l) :
    ∃ d cs, d < 10 ∧ l = digitChar d :: cs := by
  obtain ⟨hne, hd⟩ := h
  cases l with
  | nil => exact absurd rfl hne
  | cons c cs =>
    obtain ⟨d, hd10, e⟩ := hd c (List.mem_cons_self _ _)
    exact ⟨d, cs, hd10, by rw [e]⟩

theorem takeWhile_digits (l rest : List Char) (h : ∀ c ∈ l, ∃ d, d < 10 ∧ c = digitChar d)
    (hr : rest.takeWhile Char.isDigit = []) : (l ++ rest).takeWhile Char.isDigit = l := by
  rw [List.takeWhile_append_of_pos, hr, List.append_nil]
  intro c hc
  obtain ⟨d, hd, e⟩ := h c hc
  rw [e]
  exact (digitChar_facts d hd).2.1

theorem dropWhile_digits (l rest : List Char) (h : ∀ c ∈ l, ∃ d, d < 10 ∧ c = digitChar d) :
    (l ++ rest).dropWhile Char.isDigit = rest.dropWhile Char.isDigit := by
  rw [List.dropWhile_append_of_pos]
  intro c hc
  obtain ⟨d, hd, e⟩ := h c hc
  rw [e]
  exact (digitChar_facts d hd).2.1

/-- White space and sign handling in front of a signed decimal text. -/
theorem scanSign_signed (neg : Bool) (whole rest : List Char) (hw : IsDecimal whole) :
    scanSign (((if neg then ['-'] else []) ++ (whole ++ rest)).dropWhile isspace)
        = (neg, whole ++ rest) ∧
      skipWhite ((if neg then ['-'] else []) ++ (whole ++ rest))
        = (if neg then ['-'] else []) ++ (whole ++ rest) ∧
      (if neg then ['-'] else []) ++ (whole ++ rest) ≠ [] := by
  obtain ⟨d, cs, hd, e⟩ := isDecimal_head whole hw
  obtain ⟨-, -, f3, f4, f5, f6, f7, f8, -⟩ := digitChar_facts d hd
  subst e
  cases neg
  · simp only [Bool.false_eq_true, if_false, List.nil_append, List.cons_append]
    refine ⟨?_, ?_, by simp⟩
    · rw [List.dropWhile_cons_of_neg (by rw [f3]; simp)]
      simp only [scanSign, if_neg f4, if_neg f5]
    · unfold skipWhite
      rw [if_neg (by simp [f6, f7, f8])]
  · simp only [if_true, List.singleton_append, List.cons_append]
    refine ⟨?_, ?_, by simp⟩
    · rw [List.dropWhile_cons_of_neg (by decide)]
      simp [scanSign]
    · unfold skipWhite
      rw [if_neg (by decide)]

/-- The conversion `%d` reads a signed decimal text back. -/
theorem scanInt_signed (neg : Bool) (whole : List Char) (hw : IsDecimal whole) :
    scanInt ((if neg then ['-'] else []) ++ whole)
      = some (wrapInt32
          (if neg then -(digitsValue whole : Int) else (digitsValue whole : Int))) := by
  have h := (scanSign_signed neg whole [] hw).1
  rw [List.append_nil] at h
  unfold scanInt
  rw [h]
  simp only
  have t := takeWhile_digits whole [] hw.2 rfl
  rw [List.append_nil] at t
  rw [t, if_neg hw.1]

/-- The conversions `%lf` and `%f` read a signed fixed-notation text back:
`frac` is the fraction behind the decimal point, the point being absent when
there is no fraction digit. -/
theorem scanDouble_signed (neg : Bool) (whole frac : List Char) (hw : IsDecimal whole)
    (hf : ∀ c ∈ frac, ∃ d, d < 10 ∧ c = digitChar d) :
    scanDouble ((if neg then ['-'] else []) ++
        (whole ++ (if frac = [] then [] else '.' :: frac)))
      = some ((if neg then -1 else 1) *
          ((digitsValue (whole ++ frac) : ℚ) / (10 : ℚ) ^ frac.length)) := by
  unfold scanDouble
  rw [(scanSign_signed neg whole _ hw).1]
  simp only
  have ef : scanFraction (if frac = [] then [] else '.' :: frac) = (frac, []) := by
    by_cases h : frac = []
    · rw [if_pos h, h]
      rfl
    · rw [if_neg h]
      have t := takeWhile_digits frac [] hf rfl
      have d := dropWhile_digits frac [] hf
      rw [List.append_nil] at t d
      simp only [scanFraction, if_true, t, d]
      rfl
  have et : (if frac = [] then [] else '.' :: frac).takeWhile Char.isDigit = [] := by
    by_cases h : frac = []
    · rw [if_pos h]
      rfl
    · rw [if_neg h]
      rfl
  have ed : (if frac = [] then [] else '.' :: frac).dropWhile Char.isDigit
      = (if frac = [] then [] else '.' :: frac) := by
    by_cases h : frac = []
    · rw [if_pos h]
      rfl
    · rw [if_neg h]
      rfl
  rw [dropWhile_digits whole _ hw.2, ed, ef]
  simp only
  rw [takeWhile_digits whole _ hw.2 et, if_neg (fun h => hw.1 h.1)]
  simp [scanExponent]

theorem printInt_eq (n : Int) :
    printInt n = (if decide (n < 0) then ['-'] else []) ++ (printNat n.natAbs ++ []) := by
  unfold printInt
  by_cases h : n < 0
  · simp [h]
  · simp [h]

/-- The conversion `%d` reads back what `%d` printed. -/
theorem scanInt_printInt (n : Int) (h : fitsInt n) : scanInt (printInt n) = some n := by
  have e := scanInt_signed (decide (n < 0)) (printNat n.natAbs) (printNat_spec n.natAbs).1
  rw [printInt_eq, List.append_nil, e, (printNat_spec n.natAbs).2]
  unfold fitsInt INT_MIN INT_MAX at h
  unfold wrapInt32
  congr 1
  by_cases hn : n < 0
  · simp only [hn, decide_True, if_true]
    omega
  · simp only [hn, decide_False, Bool.false_eq_true, if_false]
    omega

/-- The conversion `%f` reads back what `%d` printed. -/
theorem scanDouble_printInt (n : Int) : scanDouble (printInt n) = some (n : ℚ) := by
  have e := scanDouble_signed (decide (n < 0)) (printNat n.natAbs) []
    (printNat_spec n.natAbs).1 (by simp)
  rw [if_pos rfl] at e
  rw [printInt_eq, e, List.append_nil, (printNat_spec n.natAbs).2]
  congr 1
  by_cases hn : n < 0
  · simp only [hn, decide_True, if_true, List.length_nil, pow_zero, div_one]
    have : ((n.natAbs : Int) : ℚ) = -(n : ℚ) := by
      rw [← Int.cast_neg]
      congr 1
      omega
    rw [← Int.cast_natCast, this]
    ring
  · simp only [hn, decide_False, Bool.false_eq_true, if_false, List.length_nil, pow_zero,
      div_one, one_mul]
    rw [← Int.cast_natCast]
    congr 1
    omega

theorem skipWhite_printInt (n : Int) :
    skipWhite (printInt n) = printInt n ∧ printInt n ≠ [] := by
  have h := scanSign_signed (decide (n < 0)) (printNat n.natAbs) [] (printNat_spec n.natAbs).1
  rw [← printInt_eq] at h
  exact ⟨h.2.1, h.2.2⟩

theorem truncToZero_intCast (n : Int) : truncToZero (n : ℚ) = n := by
  unfold truncToZero
  split_ifs
  · exact Int.floor_intCast n
  · exact Int.ceil_intCast n

theorem attributeRange_cases (c : Char) (lo hi : Int) (h : attributeRange c = some (lo, hi)) :
    ((c = 'i' ∨ c = 'p' ∨ c = 'R' ∨ c = 'G' ∨ c = 'B') ∧ lo = 0 ∧ hi = 65535) ∨
    (c = 'a' ∧ lo = -128 ∧ hi = 127) ∨
    ((c = 'n' ∨ c = 'r') ∧ lo = 0 ∧ hi = 7) ∨
    ((c = 'c' ∨ c = 'u') ∧ lo = 0 ∧ hi = 255) ∨
    ((c = 'e' ∨ c = 'd') ∧ lo = 0 ∧ hi = 1) := by
  unfold attributeRange at h
  split_ifs at h with h1 h2 h3 h4 h5
  all_goals
    simp only [Option.some.injEq, Prod.mk.injEq] at h
    obtain ⟨rfl, rfl⟩ := h
  · exact Or.inl ⟨h1, rfl, rfl⟩
  · exact Or.inr (Or.inl ⟨h2, rfl, rfl⟩)
  · exact Or.inr (Or.inr (Or.inl ⟨h3, rfl, rfl⟩))
  · exact Or.inr (Or.inr (Or.inr (Or.inl ⟨h4, rfl, rfl⟩)))
  · exact Or.inr (Or.inr (Or.inr (Or.inr ⟨h5, rfl, rfl⟩)))

/-- C16: for each of the attribute symbols i, a, n, r, c, u, p, e, d, R, G, B
and every integer `n` inside the range of that attribute, `parse` of txt2las
accepts the decimal text of `n` and stores `n` in the attribute, and las2txt
prints the attribute of the stored record as the decimal text of `n`. -/
theorem integer_attribute_round_trip (sprintf_f : F64 → List Char) (c : Char) (lo hi n : Int)
    (s : Vars) (i : Nat) (xyz : Vec3)
    (hc : attributeRange c = some (lo, hi)) (hlo : lo ≤ n) (hhi : n ≤ hi) :
    (parse cScanf [c] (printInt n) s).1 = true ∧
    (∃ f, target c = some f ∧
      f.read (parse cScanf [c] (printInt n) s).2 = F64.fin (n : ℚ)) ∧
    printField sprintf_f c i ⟨xyz, (parse cScanf [c] (printInt n) s).2.record⟩
      = some (printInt n) := by
  obtain ⟨h1, h2⟩ := skipWhite_printInt n
  have key : ∀ (p : Char) (store : Int → Vars), fitsInt n →
      parseField cScanf p (printInt n) s = expect (printInt n) scanInt store →
      parse cScanf [p] (printInt n) s = (true, store n) := by
    intro p store hfit hp
    apply parse_single cScanf p (printInt n) s (store n) (advance (skipWhite (printInt n)))
    rw [hp]
    exact (expect_eq_some _ _ _ _).2 ⟨by rw [h1]; exact h2, n,
      by rw [h1]; exact scanInt_printInt n hfit, rfl⟩
  have keyf : ∀ (p : Char) (store : ℚ → Vars),
      parseField cScanf p (printInt n) s = expect (printInt n) scanDouble store →
      parse cScanf [p] (printInt n) s = (true, store (n : ℚ)) := by
    intro p store hp
    apply parse_single cScanf p (printInt n) s (store n) (advance (skipWhite (printInt n)))
    rw [hp]
    exact (expect_eq_some _ _ _ _).2 ⟨by rw [h1]; exact h2, n,
      by rw [h1]; exact scanDouble_printInt n, rfl⟩
  have cast : ∀ k : Nat, (k : Int) = n →
      (F64.fin (k : ℚ) = F64.fin (n : ℚ) ∧ printInt (k : Int) = printInt n) := by
    intro k hk
    exact ⟨congrArg F64.fin (by rw [← hk]; norm_cast), by rw [hk]⟩
  rcases attributeRange_cases c lo hi hc with
    ⟨hs, rfl, rfl⟩ | ⟨hs, rfl, rfl⟩ | ⟨hs, rfl, rfl⟩ | ⟨hs, rfl, rfl⟩ | ⟨hs, rfl, rfl⟩
  · have hfit : fitsInt n := by unfold fitsInt INT_MIN INT_MAX; omega
    have hmod : (((n % 65536).toNat : Nat) : Int) = n := by omega
    have hu : ((castU16 (n : ℚ) : Nat) : Int) = n := by
      unfold castU16
      rw [truncToZero_intCast]
      exact hmod
    rcases hs with rfl | rfl | rfl | rfl | rfl
    · rw [keyf 'i' _ rfl]
      exact ⟨rfl, ⟨Field.intensity, rfl, (cast _ hu).1⟩, congrArg some (cast _ hu).2⟩
    · rw [key 'p' _ hfit rfl]
      exact ⟨rfl, ⟨Field.point_source_ID, rfl, (cast _ hmod).1⟩, congrArg some (cast _ hmod).2⟩
    · rw [key 'R' _ hfit rfl]
      exact ⟨rfl, ⟨Field.rgb0, rfl, (cast _ hmod).1⟩, congrArg some (cast _ hmod).2⟩
    · rw [key 'G' _ hfit rfl]
      exact ⟨rfl, ⟨Field.rgb1, rfl, (cast _ hmod).1⟩, congrArg some (cast _ hmod).2⟩
    · rw [key 'B' _ hfit rfl]
      exact ⟨rfl, ⟨Field.rgb2, rfl, (cast _ hmod).1⟩, congrArg some (cast _ hmod).2⟩
  · subst hs
    have ha : castI8 (n : ℚ) = n := by
      unfold castI8
      rw [truncToZero_intCast]
      omega
    rw [keyf 'a' _ rfl]
    refine ⟨rfl, ⟨Field.scan_angle_rank, rfl, ?_⟩, ?_⟩
    · show F64.fin ((castI8 (n : ℚ) : Int) : ℚ) = F64.fin n
      rw [ha]
    · show some (printInt (castI8 (n : ℚ))) = some (printInt n)
      rw [ha]
  · have hfit : fitsInt n := by unfold fitsInt INT_MIN INT_MAX; omega
    have hmod : (((n % 8).toNat : Nat) : Int) = n := by omega
    rcases hs with rfl | rfl
    · rw [key 'n' _ hfit rfl]
      exact ⟨rfl, ⟨Field.number_of_returns_of_given_pulse, rfl, (cast _ hmod).1⟩,
        congrArg some (cast _ hmod).2⟩
    · rw [key 'r' _ hfit rfl]
      exact ⟨rfl, ⟨Field.return_number, rfl, (cast _ hmod).1⟩, congrArg some (cast _ hmod).2⟩
  · have hfit : fitsInt n := by unfold fitsInt INT_MIN INT_MAX; omega
    have hmod : (((n % 256).toNat : Nat) : Int) = n := by omega
    rcases hs with rfl | rfl
    · rw [key 'c' _ hfit rfl]
      exact ⟨rfl, ⟨Field.classification, rfl, (cast _ hmod).1⟩, congrArg some (cast _ hmod).2⟩
    · rw [key 'u' _ hfit rfl]
      exact ⟨rfl, ⟨Field.user_data, rfl, (cast _ hmod).1⟩, congrArg some (cast _ hmod).2⟩
  · have hfit : fitsInt n := by unfold fitsInt INT_MIN INT_MAX; omega
    have hflag : (((if n ≠ 0 then 1 else 0 : Nat) : Nat) : Int) = n := by
      split_ifs <;> omega
    rcases hs with rfl | rfl
    · rw [key 'e' _ hfit rfl]
      exact ⟨rfl, ⟨Field.edge_of_flight_line, rfl, (cast _ hflag).1⟩,
        congrArg some (cast _ hflag).2⟩
    · rw [key 'd' _ hfit rfl]
      exact ⟨rfl, ⟨Field.scan_direction_flag, rfl, (cast _ hflag).1⟩,
        congrArg some (cast _ hflag).2⟩

/-- Witness of C16: the scan angle -128, whose decimal text is "-128"; the
intensity 65535. -/
theorem integer_attribute_round_trip_witness :
    ((parse cScanf ['a'] (printInt (-128)) Vars.zero).1 = true ∧
      (∃ f, target 'a' = some f ∧
        f.read (parse cScanf ['a'] (printInt (-128)) Vars.zero).2
          = F64.fin ((-128 : Int) : ℚ)) ∧
      printField cSprintf 'a' 0
          ⟨Vec3.zero, (parse cScanf ['a'] (printInt (-128)) Vars.zero).2.record⟩
        = some (printInt (-128))) ∧
    printInt (-128) = "-128".toList ∧
    (parse cScanf ['a'] "-128".toList Vars.zero).2.point.scan_angle_rank = -128 ∧
    (parse cScanf ['i'] "65535".toList Vars.zero).2.point.intensity = 65535 ∧
    printInt 65535 = "65535".toList :=
  ⟨integer_attribute_round_trip cSprintf 'a' (-128) 127 (-128) Vars.zero 0 Vec3.zero
      (by decide) (by decide) (by decide),
   by decide, by decide!, by decide!, by decide⟩

/-! ## Accuracy of the formatter -/

theorem digitsValue_append (a b : List Char) :
    digitsValue (a ++ b) = digitsValue a * 10 ^ b.length + digitsValue b := by
  induction b using List.reverseRecOn with
  | nil => simp [digitsValue]
  | append_singleton l c ih =>
    rw [← List.append_assoc, digitsValue_concat, digitsValue_concat, ih, List.length_append,
      List.length_singleton, pow_succ]
    ring

theorem digitsValue_zeros (z : Nat) : digitsValue (List.replicate z '0') = 0 := by
  induction z with
  | zero => rfl
  | succ z ih =>
    rw [List.replicate_succ', digitsValue_concat, ih]
    rfl

theorem sixDigits_spec (r : Nat) (h : r < 1000000) :
    digitsValue (sixDigits r) = r ∧ (sixDigits r).length = 6 ∧
      ∀ c ∈ sixDigits r, ∃ d, d < 10 ∧ c = digitChar d := by
  have m : ∀ k : Nat, k % 10 < 10 := fun k => Nat.mod_lt _ (by norm_num)
  refine ⟨?_, rfl, ?_⟩
  · unfold sixDigits digitsValue
    simp only [List.foldl_cons, List.foldl_nil]
    rw [(digitChar_facts _ (m (r / 100000))).1, (digitChar_facts _ (m (r / 10000))).1,
      (digitChar_facts _ (m (r / 1000))).1, (digitChar_facts _ (m (r / 100))).1,
      (digitChar_facts _ (m (r / 10))).1, (digitChar_facts _ (m r)).1]
    omega
  · intro c hc
    unfold sixDigits at hc
    simp only [List.mem_cons, List.mem_singleton, List.not_mem_nil, or_false] at hc
    rcases hc with rfl | rfl | rfl | rfl | rfl | rfl
    all_goals exact ⟨_, m _, rfl⟩

/-- The number read from the canonical text of a fixed-notation rendering is
the number the rendering denotes: stripping zeros does not change the value. -/
theorem canonicalText_value (neg : Bool) (whole frac : List Char) (hw : IsDecimal whole)
    (hf : ∀ c ∈ frac, ∃ d, d < 10 ∧ c = digitChar d) :
    scanDouble (canonicalText ((if neg then ['-'] else []) ++ whole) frac)
      = some ((if neg then -1 else 1) *
          ((digitsValue (whole ++ frac) : ℚ) / (10 : ℚ) ^ frac.length)) := by
  obtain ⟨z, hz⟩ := rdropWhile_zeros frac
  have ht : ∀ c ∈ withoutTrailingZeros frac, ∃ d, d < 10 ∧ c = digitChar d :=
    fun c hc => hf c (withoutTrailingZeros_mem frac c hc)
  have e : canonicalText ((if neg then ['-'] else []) ++ whole) frac
      = (if neg then ['-'] else []) ++
        (whole ++ (if withoutTrailingZeros frac = [] then []
          else '.' :: withoutTrailingZeros frac)) := by
    unfold canonicalText
    by_cases h : withoutTrailingZeros frac = []
    · rw [if_pos h, if_pos h, List.append_nil]
    · rw [if_neg h, if_neg h, List.append_assoc]
  rw [e, scanDouble_signed neg whole _ hw ht]
  obtain ⟨t, ht_def⟩ : ∃ t, t = withoutTrailingZeros frac := ⟨_, rfl⟩
  rw [← ht_def] at hz
  rw [← ht_def]
  subst hz
  rw [← List.append_assoc, digitsValue_append (whole ++ t), digitsValue_zeros,
    List.length_append, List.length_replicate, pow_add]
  congr 2
  push_cast
  field_simp
  ring

/-- What the formatter prints for a finite value reads back as the value
rounded to the nearest millionth. -/
theorem formatted_value (d : ℚ) :
    ∃ text len, lidardouble2string cSprintf (F64.fin d) = some (text, len) ∧
      scanDouble text = some ((if d < 0 then -1 else 1) *
        (((roundHalfEven (|d| * 1000000)).toNat : ℚ) / 1000000)) := by
  obtain ⟨m, hm⟩ : ∃ m, m = (roundHalfEven (|d| * 1000000)).toNat := ⟨_, rfl⟩
  have hr : m % 1000000 < 1000000 := Nat.mod_lt _ (by norm_num)
  obtain ⟨s1, s2, s3⟩ := sixDigits_spec (m % 1000000) hr
  obtain ⟨p1, p2⟩ := printNat_spec (m / 1000000)
  have shape : cSprintf (F64.fin d)
      = ((if decide (d < 0) then ['-'] else []) ++ printNat (m / 1000000))
        ++ '.' :: sixDigits (m % 1000000) := by
    show fixedSix d = _
    unfold fixedSix
    rw [← hm, List.append_assoc]
    by_cases h : d < 0
    · simp [h]
    · simp [h]
  have nodot : '.' ∉ sixDigits (m % 1000000) := by
    intro h
    obtain ⟨k, hk, e⟩ := s3 _ h
    exact (digitChar_facts k hk).2.2.2.2.2.2.2.2 e.symm
  refine ⟨_, _, lidardouble2string_canonical cSprintf (F64.fin d) _ _ shape nodot, ?_⟩
  rw [canonicalText_value _ _ _ p1 s3, digitsValue_append, s1, s2, p2, ← hm]
  congr 1
  have hsplit : m / 1000000 * 10 ^ 6 + m % 1000000 = m := by omega
  rw [hsplit]
  by_cases h : d < 0
  · simp [h]
    norm_num
  · simp [h]
    norm_num

/-- The formatter changes a finite value by at most half a millionth, and not
at all when the value has no more than six decimals. -/
theorem formatted_within (d : ℚ) :
    ∃ w, (∃ text len, lidardouble2string cSprintf (F64.fin d) = some (text, len) ∧
        scanDouble text = some w) ∧
      |w - d| ≤ 1 / 2000000 ∧ ((∃ k : Int, d = (k : ℚ) / 1000000) → w = d) := by
  obtain ⟨text, len, h1, h2⟩ := formatted_value d
  refine ⟨_, ⟨text, len, h1, h2⟩, ?_, ?_⟩
  · have hx : (0 : ℚ) ≤ |d| * 1000000 := mul_nonneg (abs_nonneg d) (by norm_num)
    have hn := roundHalfEven_nonneg _ hx
    have he := roundHalfEven_error (|d| * 1000000)
    have hc : (((roundHalfEven (|d| * 1000000)).toNat : ℚ))
        = ((roundHalfEven (|d| * 1000000) : Int) : ℚ) := by
      rw [← Int.cast_natCast, Int.toNat_of_nonneg hn]
    rw [hc]
    rw [abs_le] at he ⊢
    by_cases h : d < 0
    · rw [if_pos h]
      rw [abs_of_neg h] at he ⊢
      constructor <;> linarith
    · rw [if_neg h]
      rw [abs_of_nonneg (not_lt.1 h)] at he ⊢
      constructor <;> linarith
  · rintro ⟨k, hk⟩
    have hx : |d| * 1000000 = ((|k| : Int) : ℚ) := by
      rw [hk, abs_div, Int.cast_abs]
      norm_num
    rw [hx, roundHalfEven_intCast, ← Int.cast_natCast, Int.toNat_of_nonneg (abs_nonneg k),
      Int.cast_abs]
    by_cases h : d < 0
    · rw [if_pos h]
      have hk0 : (k : ℚ) < 0 := by
        rw [hk] at h
        have := (div_neg_iff.1 h)
        rcases this with ⟨_, h2⟩ | ⟨h1, _⟩
        · norm_num at h2
        · exact h1
      rw [abs_of_neg hk0, hk]
      ring
    · rw [if_neg h]
      have hk0 : (0 : ℚ) ≤ (k : ℚ) := by
        rw [hk] at h
        have := not_lt.1 h
        have h3 := (div_nonneg_iff.1 this)
        rcases h3 with ⟨h1, _⟩ | ⟨_, h2⟩
        · exact h1
        · norm_num at h2
      rw [abs_of_nonneg hk0, hk]
      ring

/-- C15 (as amended): coordinate round trip in `double` arithmetic.  For every
scale > 0, offset and finite coordinate `v` for which the cast of the
record-writing rule is defined (the sum handed to it is in the range of a
32-bit signed integer) and `offset + q*scale` is a finite `double` `r`,
quantizing `v` as txt2las does, dequantizing it as `offset + q*scale` and
printing the result with the formatter of las2txt yields a decimal text, and
the number `w` it denotes differs from `v` by at most `scale/2 + 0.0000005`
plus the rounding errors of the five operations (difference, quotient, sum,
product, sum, with the results `d`, `t`, `s`, `p`, `r`); each rounding error is
at most `2^-53` of the magnitude of the result of its operation plus
`2^-1075`.  The term `0.0000005` falls away when `r` has no more than six
decimals.  In every case the difference is at most
`scale/2 + 0.0000005 + (|v| + |offset| + scale) * 2^-50 + (1 + scale) * 2^-1073`. -/
theorem coordinate_round_trip (v offset scale r : ℚ) (hs : 0 < scale)
    (hfit : (quantizeSum (F64.fin v) (F64.fin offset) (F64.fin scale)).InIntRange)
    (hr : dequantize (quantize (F64.fin v) (F64.fin offset) (F64.fin scale))
      (F64.fin offset) (F64.fin scale) = F64.fin r) :
    ∃ w d t s p : ℚ,
      coordinateRoundTrip cSprintf (F64.fin v) (F64.fin offset) (F64.fin scale) = some w ∧
      F64.fin v - F64.fin offset = F64.fin d ∧
      F64.fin d / F64.fin scale = F64.fin t ∧
      quantizeSum (F64.fin v) (F64.fin offset) (F64.fin scale) = F64.fin s ∧
      F64.ofInt (quantize (F64.fin v) (F64.fin offset) (F64.fin scale)) * F64.fin scale
        = F64.fin p ∧
      F64.fin offset + F64.fin p = F64.fin r ∧
      |w - v| ≤ scale / 2 + 1 / 2000000 +
        (|d - (v - offset)| + scale * |t - d / scale| +
         scale * |s - ((if offset < v then 1 / 2 else -(1 / 2)) + t)| +
         |p - (quantize (F64.fin v) (F64.fin offset) (F64.fin scale) : ℚ) * scale| +
         |r - (offset + p)|) ∧
      ((∃ k : Int, r = (k : ℚ) / 1000000) →
        |w - v| ≤ scale / 2 +
          (|d - (v - offset)| + scale * |t - d / scale| +
           scale * |s - ((if offset < v then 1 / 2 else -(1 / 2)) + t)| +
           |p - (quantize (F64.fin v) (F64.fin offset) (F64.fin scale) : ℚ) * scale| +
           |r - (offset + p)|)) ∧
      |d - (v - offset)| ≤ |d| / 2 ^ 53 + 1 / 2 ^ 1075 ∧
      |t - d / scale| ≤ |t| / 2 ^ 53 + 1 / 2 ^ 1075 ∧
      |s - ((if offset < v then 1 / 2 else -(1 / 2)) + t)| ≤ |s| / 2 ^ 53 + 1 / 2 ^ 1075 ∧
      |p - (quantize (F64.fin v) (F64.fin offset) (F64.fin scale) : ℚ) * scale|
        ≤ |p| / 2 ^ 53 + 1 / 2 ^ 1075 ∧
      |r - (offset + p)| ≤ |r| / 2 ^ 53 + 1 / 2 ^ 1075 ∧
      |w - v| ≤ scale / 2 + 1 / 2000000 +
        (|v| + |offset| + scale) / 2 ^ 50 + (1 + scale) / 2 ^ 1073 := by
  obtain ⟨d, t, s, p, e1, e2, e3, e4, e5, hq, b1, b2, b3, b4, b5, -⟩ :=
    quantize_dequantize_error v offset scale r hs hfit hr
  have hc := quantize_dequantize_bound v offset scale r hs hfit hr
  obtain ⟨w, ⟨text, len, h1, h2⟩, h3, h4⟩ := formatted_within r
  have e : w - v = (w - r) + (r - v) := by ring
  have tri := abs_add (w - r) (r - v)
  rw [← e] at tri
  refine ⟨w, d, t, s, p, ?_, e1, e2, e3, e4, e5, ?_, ?_, b1, b2, b3, b4, b5, ?_⟩
  · unfold coordinateRoundTrip
    rw [hr, h1]
    exact h2
  · linarith
  · intro hk
    rw [h4 hk]
    exact hq
  · linarith

/-- Witness of C15 (as amended) at the `double`s nearest to 1.2349 and 0.01,
offset 0: the coordinate is stored as 123, read back as the `double` nearest
to 1.23 and printed as "1.23". -/
theorem coordinate_round_trip_witness :
    coordinateRoundTrip cSprintf (F64.fin (roundBinary64 (12349 / 10000))) (F64.fin 0)
      (F64.fin (roundBinary64 (1 / 100))) = some (123 / 100) ∧
    ∃ w d t s p : ℚ,
      coordinateRoundTrip cSprintf (F64.fin (roundBinary64 (12349 / 10000))) (F64.fin 0)
        (F64.fin (roundBinary64 (1 / 100))) = some w ∧
      |w - roundBinary64 (12349 / 10000)|
        ≤ roundBinary64 (1 / 100) / 2 + 1 / 2000000 +
          (|d - (roundBinary64 (12349 / 10000) - 0)| +
           roundBinary64 (1 / 100) * |t - d / roundBinary64 (1 / 100)| +
           roundBinary64 (1 / 100) *
             |s - ((if (0 : ℚ) < roundBinary64 (12349 / 10000) then 1 / 2 else -(1 / 2)) + t)| +
           |p - (quantize (F64.fin (roundBinary64 (12349 / 10000))) (F64.fin 0)
               (F64.fin (roundBinary64 (1 / 100))) : ℚ) * roundBinary64 (1 / 100)| +
           |roundBinary64 (123 / 100) - (0 + p)|) ∧
      |w - roundBinary64 (12349 / 10000)|
        ≤ roundBinary64 (1 / 100) / 2 + 1 / 2000000 +
          (|roundBinary64 (12349 / 10000)| + |(0 : ℚ)| + roundBinary64 (1 / 100)) / 2 ^ 50 +
          (1 + roundBinary64 (1 / 100)) / 2 ^ 1073 := by
  refine ⟨by decide!, ?_⟩
  obtain ⟨w, d, t, s, p, h0, -, -, -, -, -, h, -, -, -, -, -, -, h2⟩ :=
    coordinate_round_trip (roundBinary64 (12349 / 10000)) 0 (roundBinary64 (1 / 100))
      (roundBinary64 (123 / 100)) (by decide!) (by decide!) (by decide!)
  exact ⟨w, d, t, s, p, h0, h, h2⟩

/-- Counterexample to C15 as stated: with the `double`s nearest to 0.01 as
scale and to 0.0000004 as offset, the `double` nearest to 0.0150003 is stored
as 1, read back as 0.0100004 and printed as "0.01", which is more than
`scale/2` away from the coordinate.  And with the `double`s nearest to
1840543321897.45, 0.1 and 1000.3 as coordinate, offset and scale the text is
"1840543322397.600098", more than `scale/2 + 0.0001` away from the
coordinate. -/
theorem coordinate_round_trip_counterexample :
    (0 : ℚ) < roundBinary64 (1 / 100) ∧
    quantize (F64.fin (roundBinary64 (150003 / 10000000)))
      (F64.fin (roundBinary64 (4 / 10000000))) (F64.fin (roundBinary64 (1 / 100))) = 1 ∧
    (lidardouble2string cSprintf
        (dequantize (quantize (F64.fin (roundBinary64 (150003 / 10000000)))
            (F64.fin (roundBinary64 (4 / 10000000))) (F64.fin (roundBinary64 (1 / 100))))
          (F64.fin (roundBinary64 (4 / 10000000)))
          (F64.fin (roundBinary64 (1 / 100))))).map Prod.fst = some "0.01".toList ∧
    coordinateRoundTrip cSprintf (F64.fin (roundBinary64 (150003 / 10000000)))
      (F64.fin (roundBinary64 (4 / 10000000))) (F64.fin (roundBinary64 (1 / 100)))
      = some (1 / 100) ∧
    ¬ |(1 / 100 : ℚ) - roundBinary64 (150003 / 10000000)| ≤ roundBinary64 (1 / 100) / 2 ∧
    (lidardouble2string cSprintf
        (dequantize (quantize (F64.fin (roundBinary64 (184054332189745 / 100)))
            (F64.fin (roundBinary64 (1 / 10))) (F64.fin (roundBinary64 (10003 / 10))))
          (F64.fin (roundBinary64 (1 / 10)))
          (F64.fin (roundBinary64 (10003 / 10))))).map Prod.fst
      = some "1840543322397.600098".toList ∧
    coordinateRoundTrip cSprintf (F64.fin (roundBinary64 (184054332189745 / 100)))
      (F64.fin (roundBinary64 (1 / 10))) (F64.fin (roundBinary64 (10003 / 10)))
      = some (1840543322397600098 / 1000000) ∧
    ¬ |(1840543322397600098 / 1000000 : ℚ) - roundBinary64 (184054332189745 / 100)|
      ≤ roundBinary64 (10003 / 10) / 2 + 1 / 10000 := by
  refine ⟨by decide!, by decide!, by decide!, by decide!, by decide!, by decide!, by decide!,
    by decide!⟩

/-! ## Header summaries of the two strategies -/

/-- One iteration of `parse` for a symbol that has a branch and for the symbol
the reduced string holds in its place: a location that only symbols kept by
the reduction assign holds the same value after both. -/
theorem parseField_reduced (sc : Scanf) (f : Field)
    (hf : ∀ c, target c = some f → lessSymbol c = c)
    (p : Char) (l : List Char) (s t : Vars) (l1 : List Char) (s1 : Vars) (hp : recognized p)
    (h : parseField sc p l s = some (l1, s1)) (hst : f.read s = f.read t) :
    ∃ t1, parseField sc (lessSymbol p) l t = some (l1, t1) ∧ f.read s1 = f.read t1 := by
  by_cases hc : p ≠ 'x' ∧ p ≠ 'y' ∧ p ≠ 'z' ∧ p ≠ 'r'
  · have e : lessSymbol p = 's' := by
      unfold lessSymbol
      rw [if_pos hc]
    have hnt : target p ≠ some f := by
      intro ht
      have e2 := hf p ht
      rw [e] at e2
      rw [← e2] at ht
      have hnone : target 's' = none := by decide
      rw [hnone] at ht
      cases ht
    have hs1 : f.read s1 = f.read s := by
      rcases parseField_agree sc p l s s with ⟨hs, _⟩ | ⟨l2, s2, t2, hs, _, hall⟩
      · rw [h] at hs
        cases hs
      · rw [h] at hs
        cases hs
        rcases hall f with ⟨ht, _⟩ | ⟨_, e3, _⟩
        · exact absurd ht hnt
        · exact e3
    obtain ⟨t1, ht1⟩ := parseField_lessSymbol sc p l s t l1 s1 hp h
    rw [e] at ht1 ⊢
    have : parseField sc 's' l t = expect l (fun _ => some ()) (fun _ => t) := rfl
    rw [this] at ht1
    obtain ⟨_, v, _, e4⟩ := (expect_eq_some _ _ _ _).1 ht1
    have e5 : t1 = t := congrArg Prod.snd e4
    refine ⟨t1, ?_, ?_⟩
    · rw [this]
      exact ht1
    · rw [hs1, e5]
      exact hst
  · have e : lessSymbol p = p := by
      unfold lessSymbol
      rw [if_neg hc]
    rw [e]
    rcases parseField_agree sc p l s t with ⟨hs, _⟩ | ⟨l2, s2, t2, hs, ht, hall⟩
    · rw [h] at hs
      cases hs
    · rw [h] at hs
      cases hs
      refine ⟨t2, ht, ?_⟩
      rcases hall f with ⟨_, e1⟩ | ⟨_, e1, e2⟩
      · exact e1
      · rw [e1, e2]
        exact hst

/-- A line that parses with the full parse string leaves a location that only
kept symbols assign with the same value as the reduced string cut after `k`
symbols does, when no symbol from index `k` on assigns that location. -/
theorem parse_reduced (sc : Scanf) (f : Field)
    (hf : ∀ c, target c = some f → lessSymbol c = c) (g : List Char) :
    ∀ (k : Nat) (l : List Char) (s t : Vars), (∀ c ∈ g, recognized c) →
      (∀ j, k ≤ j → ∀ c, g.get? j = some c → target c ≠ some f) →
      (parse sc g l s).1 = true → f.read s = f.read t →
      f.read (parse sc ((g.map lessSymbol).take k) l t).2 = f.read (parse sc g l s).2 := by
  induction g with
  | nil =>
    intro k l s t _ _ _ hst
    rw [List.map_nil, List.take_nil]
    exact hst.symm
  | cons p ps ih =>
    intro k l s t hg hk hok hst
    cases k with
    | zero =>
      rw [List.take_zero]
      have hnt : ¬ targeted (p :: ps) f := by
        rintro ⟨c, hc, hcf⟩
        obtain ⟨j, hj⟩ := List.mem_iff_get?.1 hc
        exact hk j (Nat.zero_le _) c hj hcf
      rw [parse_frame sc (p :: ps) l s f hnt]
      exact hst.symm
    | succ k =>
      cases hpf : parseField sc p l s with
      | none =>
        rw [parse_cons_none sc p ps l s hpf] at hok
        cases hok
      | some r =>
        obtain ⟨l1, s1⟩ := r
        obtain ⟨t1, ht1, e1⟩ := parseField_reduced sc f hf p l s t l1 s1
          (hg p (List.mem_cons_self _ _)) hpf hst
        rw [parse_cons_some sc p ps l s l1 s1 hpf] at hok ⊢
        rw [List.map_cons, List.take_succ_cons,
          parse_cons_some sc (lessSymbol p) _ l t l1 t1 ht1]
        exact ih k l1 s1 t1 (fun c hc => hg c (List.mem_cons_of_mem _ hc))
          (fun j hj c hc => hk (j + 1) (by omega) c (by simpa using hc)) hok e1

/-- The trimming loop drops only `s` symbols. -/
theorem trimLess_dropped (buf : List Char) :
    ∀ (i : Nat) (r : List Char), trimLess buf i = some r →
      ∃ k, r = buf.take k ∧ ∀ j, k ≤ j → j < i → buf.get? j = some 's' := by
  intro i
  induction i with
  | zero =>
    intro r h
    simp [trimLess] at h
  | succ n ih =>
    intro r h
    unfold trimLess at h
    by_cases hs : buf.get? n = some 's'
    · rw [if_pos hs] at h
      obtain ⟨k, e, hk⟩ := ih r h
      refine ⟨k, e, fun j h1 h2 => ?_⟩
      by_cases hj : j = n
      · rw [hj]
        exact hs
      · exact hk j h1 (by omega)
    · rw [if_neg hs] at h
      exact ⟨n + 1, (Option.some.inj h).symm, fun j h1 h2 => by omega⟩

/-- A line the full parse string accepts leaves the same return number as the
reduced parse string does. -/
theorem parseLess_return_number (sc : Scanf) (g pl : List Char) (l : List Char) (v0 : Vars)
    (hg : ∀ c ∈ g, recognized c) (hpl : parseLess g = some pl)
    (hok : (parse sc g l v0).1 = true) :
    (parse sc pl l v0).2.point.return_number = (parse sc g l v0).2.point.return_number := by
  obtain ⟨k, e, hk⟩ := trimLess_dropped _ _ _ hpl
  have hf : ∀ c, target c = some Field.return_number → lessSymbol c = c := by
    intro c hc
    rcases symbol_cases c with
      rfl | rfl | rfl | rfl | rfl | rfl | rfl | rfl | rfl | rfl | rfl | rfl | rfl | rfl | rfl |
      rfl | rfl | hn
    all_goals first
      | rfl
      | exact absurd hc (by decide)
      | (rw [target_unrecognized c hn] at hc; cases hc)
  have h := parse_reduced sc Field.return_number hf g k l v0 v0 hg
    (fun j hj c hc ht => by
      have hlt : j < g.length := by
        by_contra hge
        rw [List.get?_eq_none.2 (by omega)] at hc
        cases hc
      have hb := hk j hj hlt
      rw [List.get?_eq_getElem?] at hb hc
      rw [List.getElem?_map, hc] at hb
      have e1 : lessSymbol c = 's' := by simpa using hb
      rw [hf c ht] at e1
      rw [e1] at ht
      exact absurd ht (by decide))
    hok rfl
  rw [← e] at h
  exact Nat.cast_injective (F64.fin.inj h)

/-- The reduced parse string accepts the lines the full parse string accepts,
and no others when every line it accepts is accepted by the full string. -/
theorem accepted_parseLess_eq (sc : Scanf) (g pl : List Char) (v0 : Vars)
    (lines : List (List Char)) (hg : ∀ c ∈ g, recognized c) (hpl : parseLess g = some pl)
    (hsame : ∀ l ∈ lines, (parse sc pl l v0).1 = true → (parse sc g l v0).1 = true) :
    accepted sc pl v0 lines = accepted sc g v0 lines := by
  obtain ⟨k, hk⟩ := trimLess_take _ _ _ hpl
  unfold accepted
  apply List.filter_congr
  intro l hl
  have hback : (parse sc g l v0).1 = true → (parse sc pl l v0).1 = true := by
    intro hok
    rw [hk]
    exact parse_take sc _ k l v0 (parse_map_lessSymbol sc g l v0 v0 hg hok)
  cases h1 : (parse sc pl l v0).1
  · cases h2 : (parse sc g l v0).1
    · rfl
    · rw [hback h2] at h1
      cases h1
  · exact (hsame l hl h1).symm

/-- C11 (as amended): for a parse string of symbols that all have a branch
and whose reduced string `parse_less` is defined, on input lines where every
line the reduced string accepts is also accepted by the full string, the
two-pass strategy and the single-pass strategy both stop at `exit(1)` when no
line parses, and otherwise both finish with the same header record count and
the same per-return counts (the five header entries of the two-pass run are
the buckets 1 to 5 that the single pass patches into the file). -/
theorem header_summaries_agree (sc : Scanf) (g pl : List Char) (xyz_offset xyz_scale : Vec3)
    (lines : List (List Char)) (v0 : Vars) (mn mx : Vec3)
    (hg : ∀ c ∈ g, recognized c) (hpl : parseLess g = some pl)
    (hsame : ∀ l ∈ lines, (parse sc pl l v0).1 = true → (parse sc g l v0).1 = true) :
    (accepted sc g v0 lines = [] →
      twoPass sc g xyz_offset xyz_scale lines (Main.start v0 mn mx) = Outcome.exit ∧
      singlePass sc g xyz_offset xyz_scale lines (Main.start v0 mn mx) = Outcome.exit) ∧
    (accepted sc g v0 lines ≠ [] →
      ∃ t p, twoPass sc g xyz_offset xyz_scale lines (Main.start v0 mn mx) = Outcome.done t ∧
        singlePass sc g xyz_offset xyz_scale lines (Main.start v0 mn mx) = Outcome.done p ∧
        t.header.number_of_point_records = p.number_of_point_records ∧
        t.header.number_of_points_by_return =
          [p.number_of_points_by_return.getD 1 0, p.number_of_points_by_return.getD 2 0,
           p.number_of_points_by_return.getD 3 0, p.number_of_points_by_return.getD 4 0,
           p.number_of_points_by_return.getD 5 0]) := by
  have hacc := accepted_parseLess_eq sc g pl v0 lines hg hpl hsame
  obtain ⟨f1, f2⟩ := firstPassScan_spec sc pl lines v0 mn mx
  obtain ⟨s1, s2⟩ := singlePassScan_spec sc g xyz_offset xyz_scale lines v0 mn mx
  rw [hacc] at f1 f2
  constructor
  · intro h
    constructor
    · simp only [twoPass, hpl, f1 h]
    · simp only [singlePass, s1 h]
  · intro h
    obtain ⟨m1, hm1, ⟨c1, _, b1, _⟩, _, _⟩ := f2 h
    obtain ⟨m, hm, ⟨c2, _, b2, _⟩, _, _⟩ := s2 h
    have hb : ∀ k, k < 8 →
        m1.number_of_points_by_return.getD k 0 = m.number_of_points_by_return.getD k 0 := by
      intro k hk
      have e1 := b1 k hk
      have e2 := b2 k hk
      simp only [Main.statistics] at e1 e2
      rw [e1, e2]
      congr 2
      apply List.filter_congr
      intro l hl
      have hok : (parse sc g l v0).1 = true := by
        unfold accepted at hl
        exact (List.mem_filter.1 hl).2
      rw [parseLess_return_number sc g pl l v0 hg hpl hok]
    have e1 : twoPass sc g xyz_offset xyz_scale lines (Main.start v0 mn mx)
        = Outcome.done
          { header := twoPassHeader g xyz_offset xyz_scale m1,
            written := (forEachLine (secondPassBody sc g xyz_offset xyz_scale) lines m1).written,
            mismatch_warning := decide
              ((forEachLine (secondPassBody sc g xyz_offset xyz_scale) lines m1
                ).number_of_point_records ≠ 0) } := by
      simp only [twoPass, hpl, hm1]
    have e2 : singlePass sc g xyz_offset xyz_scale lines (Main.start v0 mn mx)
        = Outcome.done
          { number_of_point_records := m.number_of_point_records,
            number_of_points_by_return := m.number_of_points_by_return,
            xyz_min_dequant :=
              dequant3 (singleMinQuant m xyz_offset xyz_scale) xyz_offset xyz_scale,
            xyz_max_dequant :=
              dequant3 (singleMaxQuant m xyz_offset xyz_scale) xyz_offset xyz_scale,
            written := m.written } := by
      simp only [singlePass, hm]
    refine ⟨_, _, e1, e2, ?_, ?_⟩
    · simp only [twoPassHeader, Main.statistics] at c1 c2 ⊢
      rw [c1, c2]
    · simp only [twoPassHeader]
      rw [hb 1 (by norm_num), hb 2 (by norm_num), hb 3 (by norm_num), hb 4 (by norm_num),
        hb 5 (by norm_num)]

/-- Witness of C11 (as amended): the example of the specification under the
parse string "xyzr", which is its own reduced string. -/
theorem header_summaries_agree_witness :
    ∃ t p, twoPass cScanf "xyzr".toList Vec3.zero ⟨1 / 100, 1 / 100, 1 / 100⟩ exampleLines
          (Main.start Vars.zero Vec3.zero Vec3.zero) = Outcome.done t ∧
        singlePass cScanf "xyzr".toList Vec3.zero ⟨1 / 100, 1 / 100, 1 / 100⟩ exampleLines
          (Main.start Vars.zero Vec3.zero Vec3.zero) = Outcome.done p ∧
        t.header.number_of_point_records = p.number_of_point_records ∧
        t.header.number_of_points_by_return =
          [p.number_of_points_by_return.getD 1 0, p.number_of_points_by_return.getD 2 0,
           p.number_of_points_by_return.getD 3 0, p.number_of_points_by_return.getD 4 0,
           p.number_of_points_by_return.getD 5 0] :=
  (header_summaries_agree cScanf "xyzr".toList "xyzr".toList Vec3.zero
    ⟨1 / 100, 1 / 100, 1 / 100⟩ exampleLines Vars.zero Vec3.zero Vec3.zero
    (by decide) (by decide) (fun _ _ h => h)).2 (by decide!)

/-- Counterexample to C11 as stated: under the parse string "xyzri" the
reduced string is "xyzr", so the first pass also counts the line
"9 9 9 2 abc", whose intensity does not convert.  The two-pass header holds the
record count 2 and the per-return counts (1, 1, 0, 0, 0); the single pass
patches the record count 1 and the per-return counts (1, 0, 0, 0, 0). -/
theorem header_summaries_counterexample :
    parseLess "xyzri".toList = some "xyzr".toList ∧
    (twoPass cScanf "xyzri".toList Vec3.zero ⟨1, 1, 1⟩
        (linesOf ["1 1 1 1 5", "9 9 9 2 abc"])
        (Main.start Vars.zero Vec3.zero Vec3.zero)).result.map
        (fun t => (t.header.number_of_point_records, t.header.number_of_points_by_return))
      = some (2, [1, 1, 0, 0, 0]) ∧
    (singlePass cScanf "xyzri".toList Vec3.zero ⟨1, 1, 1⟩
        (linesOf ["1 1 1 1 5", "9 9 9 2 abc"])
        (Main.start Vars.zero Vec3.zero Vec3.zero)).result.map
        (fun p => (p.number_of_point_records,
          [p.number_of_points_by_return.getD 1 0, p.number_of_points_by_return.getD 2 0,
           p.number_of_points_by_return.getD 3 0, p.number_of_points_by_return.getD 4 0,
           p.number_of_points_by_return.getD 5 0]))
      = some (1, [1, 0, 0, 0, 0]) := by
  decide!

/-! ## Unknown symbols and skip fields -/

/-- C21: an unrecognized symbol of the parse string is a no-op.  For every
parse string, line and prior variables, `parse` returns the same flag and
leaves the same x, y, z, gps time, colour and attributes as `parse` with the
parse string from which every symbol outside
x, y, z, s, i, a, n, r, c, u, p, e, d, t, R, G, B has been deleted; the
iteration for such a symbol keeps the line pointer and the variables and does
not return false. -/
theorem unrecognized_symbol_is_noop (sc : Scanf) (g l : List Char) (s : Vars) :
    parse sc g l s = parse sc (g.filter (fun c => decide (recognized c))) l s ∧
    ∀ p, ¬ recognized p → parseField sc p l s = some (l, s) := by
  refine ⟨?_, fun p hp => parseField_unrecognized sc p l s hp⟩
  induction g generalizing l s with
  | nil => rfl
  | cons p ps ih =>
    by_cases hp : recognized p
    · rw [List.filter_cons_of_pos (by simpa using hp)]
      cases hf : parseField sc p l s with
      | none =>
        rw [parse_cons_none sc p ps l s hf, parse_cons_none sc p _ l s hf]
      | some r =>
        obtain ⟨l1, s1⟩ := r
        rw [parse_cons_some sc p ps l s l1 s1 hf, parse_cons_some sc p _ l s l1 s1 hf]
        exact ih l1 s1
    · rw [List.filter_cons_of_neg (by simpa using hp),
        parse_cons_some sc p ps l s l s (parseField_unrecognized sc p l s hp)]
      exact ih l s

theorem countTokens_exhausted (l : List Char) (h : skipWhite l = []) : countTokens l = 0 := by
  rw [← countTokens_skipWhite, h]
  rfl

/-- The iteration of `parse` for the symbol `s`: it fails on an exhausted
line and otherwise advances over one token, the variables being kept. -/
theorem parseField_skip (sc : Scanf) (l : List Char) (s : Vars) :
    (skipWhite l = [] ∧ parseField sc 's' l s = none) ∨
    (skipWhite l ≠ [] ∧ parseField sc 's' l s = some (advance (skipWhite l), s)) := by
  have e : parseField sc 's' l s = expect l (fun _ => some ()) (fun _ => s) := rfl
  rw [e]
  by_cases h : skipWhite l = []
  · exact Or.inl ⟨h, (expect_eq_none _ _ _).2 (Or.inl h)⟩
  · exact Or.inr ⟨h, (expect_eq_some _ _ _ _).2 ⟨h, (), rfl, rfl⟩⟩

/-- C24: skip fields consume one token each without looking at it.  For every
`n` (in particular every `n ≥ 1`) `parse` with the parse string made of `n`
symbols `s` returns true on a line exactly when the line holds at least `n`
tokens (maximal runs of characters other than space, comma and tab), whatever
the tokens are and whatever the conversions do, and in either case it leaves
x, y, z, gps time, colour and every attribute as they were. -/
theorem skip_fields_count_tokens (sc : Scanf) (n : Nat) (l : List Char) (s : Vars) :
    ((parse sc (List.replicate n 's') l s).1 = true ↔ n ≤ countTokens l) ∧
    (parse sc (List.replicate n 's') l s).2 = s := by
  induction n generalizing l with
  | zero => exact ⟨⟨fun _ => Nat.zero_le _, fun _ => rfl⟩, rfl⟩
  | succ n ih =>
    rw [List.replicate_succ]
    rcases parseField_skip sc l s with ⟨h, hf⟩ | ⟨h, hf⟩
    · rw [parse_cons_none sc 's' _ l s hf, countTokens_exhausted l h]
      exact ⟨⟨fun hc => (by cases hc), fun hc => (by omega)⟩, rfl⟩
    · rw [parse_cons_some sc 's' _ l s _ s hf, countTokens_advance l h]
      obtain ⟨h1, h2⟩ := ih (advance (skipWhite l))
      refine ⟨⟨fun hc => ?_, fun hc => h1.2 (by omega)⟩, h2⟩
      have := h1.1 hc
      omega

/-- Two skip fields accept a line of two arbitrary tokens and reject a line of
one. -/
theorem skip_fields_example :
    (parse cScanf "ss".toList "abc ,\t%d!".toList Vars.zero).1 = true ∧
    (parse cScanf "ss".toList "  1.5  ".toList Vars.zero).1 = false := by
  decide

/-! ## The reduced parse string -/

theorem reducedSymbol_eq (c : Char) : reducedSymbol c = lessSymbol c := by
  unfold reducedSymbol lessSymbol
  by_cases h : c = 'x' ∨ c = 'y' ∨ c = 'z' ∨ c = 'r'
  · rw [if_pos h, if_neg (by tauto)]
  · rw [if_neg h, if_pos (by tauto)]

/-- The trimming loop stops at the last character that is not `s`. -/
theorem trimLess_stop (buf : List Char) (k : Nat) (hk : buf.get? k ≠ some 's') :
    ∀ (i : Nat), k < i → (∀ j, k < j → j < i → buf.get? j = some 's') →
      trimLess buf i = some (buf.take (k + 1)) := by
  intro i
  induction i with
  | zero =>
    intro h _
    omega
  | succ n ih =>
    intro h hs
    unfold trimLess
    by_cases e : n = k
    · subst e
      rw [if_neg hk]
    · rw [if_pos (hs n (by omega) (by omega))]
      exact ih (by omega) (fun j h1 h2 => hs j h1 (by omega))

/-- C22: for every parse string that holds at least one of `x`, `y`, `z`, `r`,
with `k` the index of the last such symbol, the reduced parse string of the
first pass is defined, has length `k + 1`, and holds at each index `i ≤ k` the
symbol of the parse string when that is one of `x`, `y`, `z`, `r`, and `s`
otherwise. -/
theorem reduced_string_shape (g : List Char) (k : Nat) (c : Char)
    (hk : g.get? k = some c) (hc : c = 'x' ∨ c = 'y' ∨ c = 'z' ∨ c = 'r')
    (hlast : ∀ j d, k < j → g.get? j = some d → ¬ (d = 'x' ∨ d = 'y' ∨ d = 'z' ∨ d = 'r')) :
    ∃ pl, parseLess g = some pl ∧ pl.length = k + 1 ∧
      ∀ i, i ≤ k → pl.get? i = (g.get? i).map reducedSymbol := by
  have hlen : k < g.length := by
    by_contra h
    rw [List.get?_eq_none.2 (by omega)] at hk
    cases hk
  have e : parseLess g = some ((g.map lessSymbol).take (k + 1)) := by
    unfold parseLess
    apply trimLess_stop
    · rw [List.get?_eq_getElem?, List.getElem?_map, ← List.get?_eq_getElem?, hk]
      rw [Option.map_some', ← reducedSymbol_eq]
      unfold reducedSymbol
      rw [if_pos hc]
      rcases hc with rfl | rfl | rfl | rfl <;> decide
    · exact hlen
    · intro j h1 h2
      have hj : g.get? j = some (g.get ⟨j, h2⟩) := List.get?_eq_get h2
      have hn := hlast j _ h1 hj
      rw [List.get?_eq_getElem?, List.getElem?_map, ← List.get?_eq_getElem?, hj,
        Option.map_some', ← reducedSymbol_eq]
      unfold reducedSymbol
      rw [if_neg hn]
  refine ⟨_, e, ?_, ?_⟩
  · rw [List.length_take, List.length_map]
    omega
  · intro i hi
    rw [List.get?_eq_getElem?, List.getElem?_take_of_lt (by omega), List.getElem?_map,
      List.get?_eq_getElem?]
    congr 1
    funext d
    exact (reducedSymbol_eq d).symm

/-- Witness of C22: the parse string "xyzit" with its last kept symbol `z` at
index 2 is reduced to "xyz", and "tixsy" with `y` at index 4 to "ssxsy". -/
theorem reduced_string_shape_witness :
    (∃ pl, parseLess "tixsy".toList = some pl ∧ pl.length = 4 + 1 ∧
      ∀ i, i ≤ 4 → pl.get? i = ("tixsy".toList.get? i).map reducedSymbol) ∧
    parseLess "tixsy".toList = some "ssxsy".toList ∧
    parseLess "xyzit".toList = some "xyz".toList :=
  ⟨reduced_string_shape "tixsy".toList 4 'y' (by decide) (by decide)
      (fun j d h1 h2 => by
        have hj : ¬ j < 5 := by omega
        have : "tixsy".toList.get? j = none := List.get?_eq_none.2 (by simp; omega)
        rw [this] at h2
        cases h2),
   by decide, by decide⟩

theorem trimLess_none_iff (buf : List Char) (i : Nat) :
    trimLess buf i = none ↔ ∀ j, j < i → buf.get? j = some 's' := by
  induction i with
  | zero =>
    constructor
    · intro _ j hj
      omega
    · intro _
      rfl
  | succ n ih =>
    unfold trimLess
    by_cases hs : buf.get? n = some 's'
    · rw [if_pos hs, ih]
      constructor
      · intro h j hj
        by_cases e : j = n
        · rw [e]
          exact hs
        · exact h j (by omega)
      · intro h j hj
        exact h j (by omega)
    · rw [if_neg hs]
      constructor
      · intro h
        cases h
      · intro h
        exact absurd (h n (by omega)) hs

/-- The loop that trims `parse_less` reads index -1 exactly when the reduced
parse string is undefined in the embedding. -/
theorem trimTouched_before_start (buf : List Char) (i : Nat) :
    (-1 : Int) ∈ trimTouched buf i ↔ trimLess buf i = none := by
  induction i with
  | zero =>
    constructor
    · intro _
      rfl
    · intro _
      unfold trimTouched
      simp
  | succ n ih =>
    unfold trimTouched trimLess
    have h1 : (-1 : Int) ≠ (n : Int) + 1 := by omega
    have h2 : (-1 : Int) ≠ (n : Int) := by omega
    by_cases hs : buf.get? n = some 's'
    · rw [if_pos hs, if_pos hs, ← ih]
      simp only [List.mem_cons, h1, h2, false_or]
    · rw [if_neg hs, if_neg hs]
      simp only [List.mem_cons, h1, h2, false_or, List.not_mem_nil]
      constructor
      · intro h
        exact h.elim
      · intro h
        cases h

/-- The reduced parse string is undefined exactly for the parse strings that
hold none of `x`, `y`, `z`, `r`, the empty one included. -/
theorem parseLess_none_iff (g : List Char) :
    parseLess g = none ↔ ∀ c ∈ g, ¬ (c = 'x' ∨ c = 'y' ∨ c = 'z' ∨ c = 'r') := by
  unfold parseLess
  rw [trimLess_none_iff]
  have key : ∀ c : Char, lessSymbol c = 's' ↔ ¬ (c = 'x' ∨ c = 'y' ∨ c = 'z' ∨ c = 'r') := by
    intro c
    rw [← reducedSymbol_eq]
    unfold reducedSymbol
    constructor
    · intro h hc
      rw [if_pos hc] at h
      rw [h] at hc
      revert hc
      decide
    · intro h
      rw [if_neg h]
  constructor
  · intro h c hc
    obtain ⟨j, hj⟩ := List.mem_iff_get?.1 hc
    have hlt : j < g.length := by
      by_contra hge
      rw [List.get?_eq_none.2 (by omega)] at hj
      cases hj
    have := h j hlt
    rw [List.get?_eq_getElem?, List.getElem?_map, ← List.get?_eq_getElem?, hj,
      Option.map_some'] at this
    exact (key c).1 (Option.some.inj this)
  · intro h j hj
    have e : g.get? j = some (g.get ⟨j, hj⟩) := List.get?_eq_get hj
    rw [List.get?_eq_getElem?, List.getElem?_map, ← List.get?_eq_getElem?, e, Option.map_some',
      (key _).2 (h _ (List.get_mem g j hj))]

/-- C23, the code at failing inputs: for the parse strings "t", "si" and the
empty one the loop that trims `parse_less` goes on below index 0: it touches
the indices 1, 0, 0, -1 for "t", the indices 2, 1, 1, 0, 0, -1 for "si" and
0, -1 for the empty string, the last one being the read of `parse_less[-1]` in
the loop condition; the same happens for every parse string without `x`, `y`,
`z`, `r`, while "xyzit" stays inside the copy (5, 4, 4, 3, 3, 2). -/
theorem parse_less_leaves_buffer :
    trimTouched ("t".toList.map lessSymbol) "t".toList.length = [1, 0, 0, -1] ∧
    trimTouched ("si".toList.map lessSymbol) "si".toList.length = [2, 1, 1, 0, 0, -1] ∧
    trimTouched (([] : List Char).map lessSymbol) ([] : List Char).length = [0, -1] ∧
    parseLess "t".toList = none ∧ parseLess "si".toList = none ∧ parseLess [] = none ∧
    trimTouched ("xyzit".toList.map lessSymbol) "xyzit".toList.length = [5, 4, 4, 3, 3, 2] ∧
    (∀ g : List Char, (-1 : Int) ∈ trimTouched (g.map lessSymbol) g.length ↔
      ∀ c ∈ g, ¬ (c = 'x' ∨ c = 'y' ∨ c = 'z' ∨ c = 'r')) := by
  refine ⟨by decide, by decide, by decide, by decide, by decide, by decide, by decide, ?_⟩
  intro g
  rw [trimTouched_before_start, ← parseLess_none_iff]
  rfl

/-! ## las2txt: the output line -/

theorem fieldTexts_cons (sprintf_f : F64 → List Char) (r : ReadPoint) (c : Char)
    (rest : List Char) (i : Nat) (texts : List (List Char)) :
    fieldTexts sprintf_f r (c :: rest) i = some texts ↔
      ∃ text others, printField sprintf_f c i r = some text ∧
        fieldTexts sprintf_f r rest (i + 1) = some others ∧ texts = text :: others := by
  simp only [fieldTexts]
  cases h1 : printField sprintf_f c i r with
  | none => simp
  | some text =>
    cases h2 : fieldTexts sprintf_f r rest (i + 1) with
    | none => simp
    | some others =>
      simp only [Option.some.injEq]
      constructor
      · intro h
        exact ⟨text, others, rfl, rfl, h.symm⟩
      · rintro ⟨t, o, rfl, rfl, e⟩
        exact e.symm

theorem fieldTexts_length (sprintf_f : F64 → List Char) (r : ReadPoint) (g : List Char) :
    ∀ (i : Nat) (texts : List (List Char)), fieldTexts sprintf_f r g i = some texts →
      texts.length = g.length := by
  induction g with
  | nil =>
    intro i texts h
    simp only [fieldTexts, Option.some.injEq] at h
    subst h
    rfl
  | cons c rest ih =>
    intro i texts h
    obtain ⟨text, others, _, h2, rfl⟩ := (fieldTexts_cons sprintf_f r c rest i texts).1 h
    rw [List.length_cons, List.length_cons, ih (i + 1) others h2]

/-- The text at index `k` of the field texts is the text the output switch
prints for the symbol at index `k`, with the loop index at that symbol. -/
theorem fieldTexts_get (sprintf_f : F64 → List Char) (r : ReadPoint) (g : List Char) :
    ∀ (i : Nat) (texts : List (List Char)), fieldTexts sprintf_f r g i = some texts →
      ∀ k c, g.get? k = some c → printField sprintf_f c (i + k) r = texts.get? k := by
  induction g with
  | nil =>
    intro i texts _ k c hk
    cases hk
  | cons d rest ih =>
    intro i texts h k c hk
    obtain ⟨text, others, h1, h2, rfl⟩ := (fieldTexts_cons sprintf_f r d rest i texts).1 h
    cases k with
    | zero =>
      simp only [List.get?_cons_zero, Option.some.injEq] at hk
      subst hk
      exact h1
    | succ k =>
      rw [List.get?_cons_succ] at hk
      rw [List.get?_cons_succ, ← ih (i + 1) others h2 k c hk]
      congr 1
      omega

theorem isSome_ite {α : Type} (p : Prop) [Decidable p] (a b : Option α)
    (ha : a.isSome = true) (hb : b.isSome = true) : (if p then a else b).isSome = true := by
  split_ifs
  · exact ha
  · exact hb

/-- The output switch prints a text for every symbol when the formatter is
defined for every value. -/
theorem printField_defined (sprintf_f : F64 → List Char)
    (hdef : ∀ v, ∃ t, lidardouble2string sprintf_f v = some t) (c : Char) (i : Nat)
    (r : ReadPoint) : (printField sprintf_f c i r).isSome = true := by
  have hm : ∀ v, ((lidardouble2string sprintf_f v).map Prod.fst).isSome = true := by
    intro v
    obtain ⟨t, ht⟩ := hdef v
    rw [ht]
    rfl
  unfold printField
  repeat' apply isSome_ite
  all_goals first
    | exact hm _
    | rfl

/-- The field texts are defined when the formatter is defined for every
value. -/
theorem fieldTexts_defined (sprintf_f : F64 → List Char) (r : ReadPoint)
    (hdef : ∀ v, ∃ t, lidardouble2string sprintf_f v = some t) (g : List Char) :
    ∀ i, ∃ texts, fieldTexts sprintf_f r g i = some texts := by
  induction g with
  | nil => exact fun _ => ⟨[], rfl⟩
  | cons c rest ih =>
    intro i
    obtain ⟨others, ho⟩ := ih (i + 1)
    have hp : ∃ text, printField sprintf_f c i r = some text :=
      Option.isSome_iff_exists.1 (printField_defined sprintf_f hdef c i r)
    obtain ⟨text, ht⟩ := hp
    exact ⟨text :: others, (fieldTexts_cons sprintf_f r c rest i _).2 ⟨text, others, ht, ho, rfl⟩⟩

/-- The output loop writes the field texts joined by the separator and one
line feed. -/
theorem printLoop_eq (sprintf_f : F64 → List Char) (separator_sign : Char) (r : ReadPoint)
    (g : List Char) :
    ∀ (i : Nat), g ≠ [] →
      printLoop sprintf_f separator_sign r g i
        = (fieldTexts sprintf_f r g i).map
            (fun texts => joinWith separator_sign texts ++ ['\n']) := by
  induction g with
  | nil =>
    intro i h
    exact absurd rfl h
  | cons c rest ih =>
    intro i _
    simp only [printLoop, fieldTexts]
    cases h1 : printField sprintf_f c i r with
    | none => rfl
    | some text =>
      simp only
      by_cases hr : rest = []
      · subst hr
        simp [fieldTexts, joinWith]
      · rw [if_neg hr, ih (i + 1) hr]
        cases h2 : fieldTexts sprintf_f r rest (i + 1) with
        | none => rfl
        | some others =>
          have hl := fieldTexts_length sprintf_f r rest (i + 1) others h2
          cases others with
          | nil =>
            rw [List.length_nil] at hl
            exact absurd (List.length_eq_zero.1 hl.symm) hr
          | cons o os =>
            simp [joinWith]

theorem count_joinWith (separator_sign a : Char) (texts : List (List Char))
    (h : ∀ t ∈ texts, a ∉ t) :
    (joinWith separator_sign texts).count a
      = if a = separator_sign then texts.length - 1 else 0 := by
  induction texts with
  | nil => simp [joinWith]
  | cons t ts ih =>
    have h0 : t.count a = 0 := List.count_eq_zero.2 (h t (List.mem_cons_self _ _))
    cases ts with
    | nil => simp [joinWith, h0]
    | cons u us =>
      have ih2 := ih (fun x hx => h x (List.mem_cons_of_mem _ hx))
      simp only [joinWith, List.count_append, List.count_cons, h0, zero_add] at ih2 ⊢
      rw [ih2]
      by_cases e : a = separator_sign
      · subst e
        simp
      · have e2 : ¬ separator_sign = a := fun h => e h.symm
        simp [e, e2]

/-- The concrete formatter is defined for every value. -/
theorem cSprintf_defined (v : F64) : ∃ t, lidardouble2string cSprintf v = some t := by
  cases v with
  | nan => exact ⟨(['n', 'a', 'n'], 3), by decide⟩
  | inf negative =>
    cases negative
    · exact ⟨(['i', 'n', 'f'], 3), by decide⟩
    · exact ⟨(['-', 'i', 'n', 'f'], 4), by decide⟩
  | fin d =>
    obtain ⟨text, len, h, _⟩ := formatted_value d
    exact ⟨(text, len), h⟩

/-- C25: in the binary-to-text direction, for every non-empty parse string of
`n` symbols and every point, the output line is the `n` field texts in the
order of the parse string joined by the separator character and followed by
one line feed (10); text `k` is what the output switch prints for symbol `k`.
When no field text holds the separator or a line feed, the line holds the
separator `n - 1` times and the line feed once.  The line is defined when the
formatter is defined for every value. -/
theorem output_line_format (sprintf_f : F64 → List Char) (separator_sign : Char)
    (g : List Char) (r : ReadPoint) (hg : g ≠ []) :
    printPoint sprintf_f separator_sign g r
      = (fieldTexts sprintf_f r g 0).map
          (fun texts => joinWith separator_sign texts ++ ['\n']) ∧
    ((∀ v, ∃ t, lidardouble2string sprintf_f v = some t) →
      ∃ texts, fieldTexts sprintf_f r g 0 = some texts) ∧
    ∀ texts, fieldTexts sprintf_f r g 0 = some texts →
      texts.length = g.length ∧
      (∀ k c, g.get? k = some c → printField sprintf_f c k r = texts.get? k) ∧
      ((∀ t ∈ texts, separator_sign ∉ t ∧ '\n' ∉ t) → separator_sign ≠ '\n' →
        (joinWith separator_sign texts ++ ['\n']).count separator_sign = g.length - 1 ∧
        (joinWith separator_sign texts ++ ['\n']).count '\n' = 1) := by
  refine ⟨printLoop_eq sprintf_f separator_sign r g 0 hg,
    fun hdef => fieldTexts_defined sprintf_f r hdef g 0, ?_⟩
  intro texts ht
  have hl := fieldTexts_length sprintf_f r g 0 texts ht
  refine ⟨hl, ?_, ?_⟩
  · intro k c hk
    have := fieldTexts_get sprintf_f r g 0 texts ht k c hk
    rw [Nat.zero_add] at this
    exact this
  · intro hno hsep
    have c1 := count_joinWith separator_sign separator_sign texts (fun t h => (hno t h).1)
    have c2 := count_joinWith separator_sign '\n' texts (fun t h => (hno t h).2)
    rw [if_pos rfl] at c1
    rw [if_neg (fun h => hsep h.symm)] at c2
    rw [List.count_append, List.count_append, c1, c2, hl]
    constructor
    · rw [List.count_singleton]
      simp only [beq_iff_eq]
      rw [if_neg (fun h => hsep h.symm)]
      rfl
    · rfl

/-- Witness of C25: the parse string "xyzMi" with a space as separator. -/
theorem output_line_format_witness :
    printPoint cSprintf ' ' "xyzMi".toList ⟨⟨3 / 2, 2, -1 / 10⟩, Vars.zero.record⟩
      = (fieldTexts cSprintf ⟨⟨3 / 2, 2, -1 / 10⟩, Vars.zero.record⟩ "xyzMi".toList 0).map
          (fun texts => joinWith ' ' texts ++ ['\n']) ∧
    printPoint cSprintf ' ' "xyzMi".toList ⟨⟨3 / 2, 2, -1 / 10⟩, Vars.zero.record⟩
      = some "1.5 2 -0.1 3 0\n".toList ∧
    fieldTexts cSprintf ⟨⟨3 / 2, 2, -1 / 10⟩, Vars.zero.record⟩ "xyzMi".toList 0
      = some ["1.5".toList, "2".toList, "-0.1".toList, "3".toList, "0".toList] :=
  ⟨(output_line_format cSprintf ' ' "xyzMi".toList ⟨⟨3 / 2, 2, -1 / 10⟩, Vars.zero.record⟩
      (by decide)).1,
   by decide!, by decide!⟩

/-- The output for a sequence of points is the concatenation of their
lines. -/
theorem printPoints_lines (sprintf_f : F64 → List Char) (separator_sign : Char)
    (g : List Char) (hg : g ≠ []) :
    ∀ (points : List ReadPoint) (out : List Char),
      printPoints sprintf_f separator_sign g points = some out →
      ∃ textss : List (List (List Char)),
        List.Forall₂ (fun r texts => fieldTexts sprintf_f r g 0 = some texts) points textss ∧
        out = (textss.map (fun texts => joinWith separator_sign texts ++ ['\n'])).flatten := by
  intro points
  induction points with
  | nil =>
    intro out h
    simp only [printPoints, Option.some.injEq] at h
    subst h
    exact ⟨[], List.Forall₂.nil, rfl⟩
  | cons r rs ih =>
    intro out h
    simp only [printPoints] at h
    have e := printLoop_eq sprintf_f separator_sign r g 0 hg
    cases h1 : printPoint sprintf_f separator_sign g r with
    | none =>
      rw [h1] at h
      cases h
    | some line =>
      cases h2 : printPoints sprintf_f separator_sign g rs with
      | none =>
        rw [h1, h2] at h
        cases h
      | some others =>
        rw [h1, h2] at h
        simp only [Option.some.injEq] at h
        obtain ⟨textss, f, eo⟩ := ih others h2
        unfold printPoint at h1
        rw [e] at h1
        cases h3 : fieldTexts sprintf_f r g 0 with
        | none =>
          rw [h3] at h1
          cases h1
        | some texts =>
          rw [h3] at h1
          simp only [Option.map_some', Option.some.injEq] at h1
          refine ⟨texts :: textss, List.Forall₂.cons h3 f, ?_⟩
          rw [← h, ← h1, eo]
          rfl

theorem printPoints_defined (sprintf_f : F64 → List Char) (separator_sign : Char)
    (g : List Char) (hg : g ≠ [])
    (hdef : ∀ v, ∃ t, lidardouble2string sprintf_f v = some t) :
    ∀ points : List ReadPoint, ∃ out, printPoints sprintf_f separator_sign g points = some out := by
  intro points
  induction points with
  | nil => exact ⟨[], rfl⟩
  | cons r rs ih =>
    obtain ⟨others, ho⟩ := ih
    obtain ⟨texts, ht⟩ := fieldTexts_defined sprintf_f r hdef g 0
    have e := printLoop_eq sprintf_f separator_sign r g 0 hg
    rw [ht] at e
    refine ⟨(joinWith separator_sign texts ++ ['\n']) ++ others, ?_⟩
    simp only [printPoints]
    unfold printPoint
    rw [e, ho]
    rfl

/-- C26: in the binary-to-text direction, for every parse string and every
index `i` at which it holds `M`, the field written at that position is the
decimal text of `i`, for every point of the input: the output for a sequence
of points is made of one line per point, and text `i` of every line is the
decimal text of `i`, whatever the number of points read before. -/
theorem index_field_is_position (sprintf_f : F64 → List Char) (separator_sign : Char)
    (g : List Char) (i : Nat) (hM : g.get? i = some 'M') :
    (∀ r, printField sprintf_f 'M' i r = some (printInt i)) ∧
    (∀ r texts, fieldTexts sprintf_f r g 0 = some texts → texts.get? i = some (printInt i)) ∧
    (∀ points out, printPoints sprintf_f separator_sign g points = some out →
      ∃ textss : List (List (List Char)), textss.length = points.length ∧
        out = (textss.map (fun texts => joinWith separator_sign texts ++ ['\n'])).flatten ∧
        ∀ texts ∈ textss, texts.get? i = some (printInt i)) ∧
    ((∀ v, ∃ t, lidardouble2string sprintf_f v = some t) →
      ∀ points, ∃ out, printPoints sprintf_f separator_sign g points = some out) := by
  have hg : g ≠ [] := by
    intro h
    rw [h] at hM
    cases hM
  have h1 : ∀ r, printField sprintf_f 'M' i r = some (printInt i) := fun _ => rfl
  have h2 : ∀ r texts, fieldTexts sprintf_f r g 0 = some texts →
      texts.get? i = some (printInt i) := by
    intro r texts ht
    have := fieldTexts_get sprintf_f r g 0 texts ht i 'M' hM
    rw [Nat.zero_add, h1] at this
    exact this.symm
  refine ⟨h1, h2, ?_, fun hdef => printPoints_defined sprintf_f separator_sign g hg hdef⟩
  intro points out ho
  obtain ⟨textss, f, e⟩ := printPoints_lines sprintf_f separator_sign g hg points out ho
  refine ⟨textss, f.length_eq.symm, e, ?_⟩
  intro texts ht
  clear e ho
  induction f with
  | nil => cases ht
  | cons hr _ ih =>
    rcases List.mem_cons.1 ht with rfl | ht
    · exact h2 _ _ hr
    · exact ih ht

/-- Witness of C26: under "xMzM" the symbol `M` at index 3 prints "3" for each
of two points. -/
theorem index_field_is_position_witness :
    (∀ r, printField cSprintf 'M' 3 r = some (printInt 3)) ∧
    printInt 3 = "3".toList ∧
    printPoints cSprintf ',' "xMzM".toList
        [⟨⟨3 / 2, 2, -1 / 10⟩, Vars.zero.record⟩, ⟨⟨7, 8, 9⟩, Vars.zero.record⟩]
      = some "1.5,1,-0.1,3\n7,1,9,3\n".toList :=
  ⟨(index_field_is_position cSprintf ',' "xMzM".toList 3 (by decide)).1, by decide, by decide!⟩

/-! ## Output of a run in which no line parses -/

/-- The single pass on an input without a line that parses: the output file
has been created and the writer opened with the header when the run stops at
`exit(1)`; no record has been written and the header is not patched. -/
theorem singlePassActions_exit (sc : Scanf) (g : List Char) (xyz_offset xyz_scale : Vec3)
    (constructed : LASheader) (lines : List (List Char)) (v0 : Vars) (mn mx : Vec3)
    (h : accepted sc g v0 lines = []) :
    singlePass sc g xyz_offset xyz_scale lines (Main.start v0 mn mx) = Outcome.exit ∧
    singlePassActions sc g xyz_offset xyz_scale constructed lines (Main.start v0 mn mx)
      = [Action.createFile,
         Action.openWriter (singlePassHeader g xyz_offset xyz_scale constructed)] := by
  have hs := (singlePassScan_spec sc g xyz_offset xyz_scale lines v0 mn mx).1 h
  have he : singlePass sc g xyz_offset xyz_scale lines (Main.start v0 mn mx) = Outcome.exit := by
    simp only [singlePass, hs]
  obtain ⟨_, u2, _⟩ := untilFirst_spec sc g v0 firstStats _ _
    (singlePassHead_spec sc g xyz_offset xyz_scale v0) lines (Main.start v0 mn mx)
    (untouched_start g v0 mn mx)
  have hw : (untilFirst (singlePassHead sc g xyz_offset xyz_scale) lines
      (Main.start v0 mn mx)).1.written = [] := (u2 h).2
  refine ⟨he, ?_⟩
  unfold singlePassActions
  rw [he]
  simp only [hw, List.map_nil, List.append_nil]

/-- The two-pass run on an input without a line that parses with the reduced
parse string: it stops at `exit(1)` before the writer is opened. -/
theorem twoPassActions_exit (sc : Scanf) (g pl : List Char) (xyz_offset xyz_scale : Vec3)
    (lines : List (List Char)) (v0 : Vars) (mn mx : Vec3)
    (hpl : parseLess g = some pl) (h : accepted sc pl v0 lines = []) :
    twoPass sc g xyz_offset xyz_scale lines (Main.start v0 mn mx) = Outcome.exit ∧
    twoPassActions sc g xyz_offset xyz_scale lines (Main.start v0 mn mx) = some [] := by
  have hs := (firstPassScan_spec sc pl lines v0 mn mx).1 h
  constructor
  · simp only [twoPass, hpl, hs]
  · simp only [twoPassActions, hpl, hs]

/-- C27 (as amended): when no input line parses, the run stops at `exit(1)`
without a point record and without a header patch.  In the two-pass strategy,
where the lines in question are those the reduced parse string accepts, this
happens before the writer is opened, so nothing at all is output.  In the
single-pass strategy the output file has been created and the writer opened
with the header (format, record length, scale, offset; the other members as
constructed) before the first line is read, and these two actions are the
whole output of the run. -/
theorem no_line_parses (sc : Scanf) (g : List Char) (xyz_offset xyz_scale : Vec3)
    (constructed : LASheader) (lines : List (List Char)) (v0 : Vars) (mn mx : Vec3) :
    (∀ pl, parseLess g = some pl → accepted sc pl v0 lines = [] →
      twoPass sc g xyz_offset xyz_scale lines (Main.start v0 mn mx) = Outcome.exit ∧
      twoPassActions sc g xyz_offset xyz_scale lines (Main.start v0 mn mx) = some []) ∧
    (accepted sc g v0 lines = [] →
      singlePass sc g xyz_offset xyz_scale lines (Main.start v0 mn mx) = Outcome.exit ∧
      singlePassActions sc g xyz_offset xyz_scale constructed lines (Main.start v0 mn mx)
        = [Action.createFile,
           Action.openWriter (singlePassHeader g xyz_offset xyz_scale constructed)]) :=
  ⟨fun pl hpl h => twoPassActions_exit sc g pl xyz_offset xyz_scale lines v0 mn mx hpl h,
   fun h => singlePassActions_exit sc g xyz_offset xyz_scale constructed lines v0 mn mx h⟩

/-- Witness of C27 (as amended): the parse string "xyz" and the two lines
"abc" and "1 2". -/
theorem no_line_parses_witness :
    (twoPass cScanf "xyz".toList Vec3.zero ⟨1, 1, 1⟩ (linesOf ["abc", "1 2"])
        (Main.start Vars.zero Vec3.zero Vec3.zero) = Outcome.exit ∧
      twoPassActions cScanf "xyz".toList Vec3.zero ⟨1, 1, 1⟩ (linesOf ["abc", "1 2"])
        (Main.start Vars.zero Vec3.zero Vec3.zero) = some []) ∧
    (singlePass cScanf "xyz".toList Vec3.zero ⟨1, 1, 1⟩ (linesOf ["abc", "1 2"])
        (Main.start Vars.zero Vec3.zero Vec3.zero) = Outcome.exit ∧
      singlePassActions cScanf "xyz".toList Vec3.zero ⟨1, 1, 1⟩ LASheader.zero
        (linesOf ["abc", "1 2"]) (Main.start Vars.zero Vec3.zero Vec3.zero)
        = [Action.createFile,
           Action.openWriter (singlePassHeader "xyz".toList Vec3.zero ⟨1, 1, 1⟩
             LASheader.zero)]) :=
  ⟨(no_line_parses cScanf "xyz".toList Vec3.zero ⟨1, 1, 1⟩ LASheader.zero
      (linesOf ["abc", "1 2"]) Vars.zero Vec3.zero Vec3.zero).1 "xyz".toList
      (by decide) (by decide!),
   (no_line_parses cScanf "xyz".toList Vec3.zero ⟨1, 1, 1⟩ LASheader.zero
      (linesOf ["abc", "1 2"]) Vars.zero Vec3.zero Vec3.zero).2 (by decide!)⟩

/-- Counterexample to C27 as stated: under "xyz" the input line "abc" does not
parse, yet the single pass has created the output file and opened the writer
with the header before it stops; and under "xyzi" the line "9 9 9 abc" does
not parse, yet the two-pass run, whose first pass accepts it with the reduced
string "xyz", opens the writer with a header that announces one record. -/
theorem no_line_parses_counterexample :
    accepted cScanf "xyz".toList Vars.zero (linesOf ["abc"]) = [] ∧
    singlePassActions cScanf "xyz".toList Vec3.zero ⟨1, 1, 1⟩ LASheader.zero
        (linesOf ["abc"]) (Main.start Vars.zero Vec3.zero Vec3.zero)
      = [Action.createFile,
         Action.openWriter { LASheader.zero with
           point_data_format := 0, point_data_record_length := 20,
           x_scale_factor := 1, y_scale_factor := 1, z_scale_factor := 1 }] ∧
    accepted cScanf "xyzi".toList Vars.zero (linesOf ["9 9 9 abc"]) = [] ∧
    twoPassActions cScanf "xyzi".toList Vec3.zero ⟨1, 1, 1⟩ (linesOf ["9 9 9 abc"])
        (Main.start Vars.zero Vec3.zero Vec3.zero)
      = some [Action.openWriter
          { point_data_format := 0, point_data_record_length := 20,
            number_of_point_records := 1,
            x_scale_factor := 1, y_scale_factor := 1, z_scale_factor := 1,
            x_offset := 0, y_offset := 0, z_offset := 0,
            min_x := 9, min_y := 9, min_z := 9, max_x := 9, max_y := 9, max_z := 9,
            number_of_points_by_return := [0, 0, 0, 0, 0] },
        Action.closeWriter] := by
  decide!

/-! ## The record-count warning of the two-pass run -/

theorem countDown_fold (sc : Scanf) (g : List Char) (v0 : Vars) :
    ∀ (ls : List (List Char)) (st : Statistics), st.number_of_point_records < 4294967296 →
      ((ls.foldl (fun st l => countDown st (parse sc g l v0).2) st).number_of_point_records : Int)
        = ((st.number_of_point_records : Int) - ls.length) % 4294967296 := by
  intro ls
  induction ls with
  | nil =>
    intro st h
    simp only [List.foldl_nil, List.length_nil]
    omega
  | cons l ls ih =>
    intro st h
    have hc : (countDown st (parse sc g l v0).2).number_of_point_records
        = wrapU32 ((st.number_of_point_records : Int) - 1) := rfl
    have hlt : (countDown st (parse sc g l v0).2).number_of_point_records < 4294967296 := by
      rw [hc]
      unfold wrapU32
      omega
    rw [List.foldl_cons, ih _ hlt, hc]
    unfold wrapU32
    simp only [List.length_cons]
    omega

/-- The two-pass run that finds a line in its first pass: the header holds the
count of the first pass, and the warning is printed exactly when the counts of
the two passes differ modulo `2^32`. -/
theorem twoPass_mismatch (sc : Scanf) (g pl : List Char) (xyz_offset xyz_scale : Vec3)
    (lines : List (List Char)) (v0 : Vars) (mn mx : Vec3)
    (hpl : parseLess g = some pl) (hacc : accepted sc pl v0 lines ≠ []) :
    ∃ t, twoPass sc g xyz_offset xyz_scale lines (Main.start v0 mn mx) = Outcome.done t ∧
      t.header.number_of_point_records = (accepted sc pl v0 lines).length % 4294967296 ∧
      (t.mismatch_warning = true ↔
        (accepted sc pl v0 lines).length % 4294967296
          ≠ (accepted sc g v0 lines).length % 4294967296) := by
  obtain ⟨m1, hm, ⟨c1, _, _, _⟩, _, hu⟩ := (firstPassScan_spec sc pl lines v0 mn mx).2 hacc
  have hU : Untouched g v0 m1.vars := by
    intro f hf hq
    exact hu f (fun hp => hf (targeted_parseLess g pl hpl f hp)) hq
  obtain ⟨_, f2, _⟩ := forEachLine_spec sc g v0 countDown _ _
    (secondPassBody_spec sc g xyz_offset xyz_scale v0) lines m1 hU
  have c1' : m1.number_of_point_records = (accepted sc pl v0 lines).length % 4294967296 := c1
  have hlt : m1.statistics.number_of_point_records < 4294967296 := by
    rw [c1]
    exact Nat.mod_lt _ (by norm_num)
  have hc := countDown_fold sc g v0 (accepted sc g v0 lines) m1.statistics hlt
  rw [← f2] at hc
  have hc' : ((forEachLine (secondPassBody sc g xyz_offset xyz_scale) lines m1
      ).number_of_point_records : Int)
      = ((m1.number_of_point_records : Int) - (accepted sc g v0 lines).length) % 4294967296 := hc
  have e1 : twoPass sc g xyz_offset xyz_scale lines (Main.start v0 mn mx)
      = Outcome.done
        { header := twoPassHeader g xyz_offset xyz_scale m1,
          written := (forEachLine (secondPassBody sc g xyz_offset xyz_scale) lines m1).written,
          mismatch_warning := decide
            ((forEachLine (secondPassBody sc g xyz_offset xyz_scale) lines m1
              ).number_of_point_records ≠ 0) } := by
    simp only [twoPass, hpl, hm]
  refine ⟨_, e1, c1', ?_⟩
  simp only [decide_eq_true_eq]
  rw [c1'] at hc'
  constructor
  · intro h1 h2
    apply h1
    omega
  · intro h1 h2
    apply h1
    omega

/-- C28 (as amended): in a two-pass run that gets beyond its first pass, the
header's record count is the first-pass count (the number of lines the
reduced parse string accepts, modulo `2^32`), whatever the second pass does,
and the record-count warning is printed exactly when the number of lines the
second pass accepts differs from the first-pass number modulo `2^32` (the
counter is decremented once per written record in 32-bit unsigned arithmetic
and tested against zero); with fewer than `2^32` input lines, exactly when the
two numbers differ. -/
theorem record_count_warning (sc : Scanf) (g pl : List Char) (xyz_offset xyz_scale : Vec3)
    (lines : List (List Char)) (v0 : Vars) (mn mx : Vec3)
    (hpl : parseLess g = some pl) (hacc : accepted sc pl v0 lines ≠ []) :
    ∃ t, twoPass sc g xyz_offset xyz_scale lines (Main.start v0 mn mx) = Outcome.done t ∧
      t.header.number_of_point_records = (accepted sc pl v0 lines).length % 4294967296 ∧
      (t.mismatch_warning = true ↔
        (accepted sc pl v0 lines).length % 4294967296
          ≠ (accepted sc g v0 lines).length % 4294967296) ∧
      (lines.length < 4294967296 →
        t.header.number_of_point_records = (accepted sc pl v0 lines).length ∧
        (t.mismatch_warning = true ↔
          (accepted sc pl v0 lines).length ≠ (accepted sc g v0 lines).length)) := by
  obtain ⟨t, h1, h2, h3⟩ := twoPass_mismatch sc g pl xyz_offset xyz_scale lines v0 mn mx hpl hacc
  refine ⟨t, h1, h2, h3, ?_⟩
  intro hlt
  have l1 : (accepted sc pl v0 lines).length ≤ lines.length := List.length_filter_le _ _
  have l2 : (accepted sc g v0 lines).length ≤ lines.length := List.length_filter_le _ _
  rw [h2, h3, Nat.mod_eq_of_lt (by omega), Nat.mod_eq_of_lt (by omega)]
  exact ⟨rfl, Iff.rfl⟩

/-- Witness of C28 (as amended): under "xyzi" the first pass accepts both lines
with the reduced string "xyz", the second pass only the first one; the warning
is printed and the header announces two records. -/
theorem record_count_warning_witness :
    ∃ t, twoPass cScanf "xyzi".toList Vec3.zero ⟨1, 1, 1⟩ (linesOf ["1 1 1 5", "9 9 9 abc"])
        (Main.start Vars.zero Vec3.zero Vec3.zero) = Outcome.done t ∧
      t.header.number_of_point_records
        = (accepted cScanf "xyz".toList Vars.zero
            (linesOf ["1 1 1 5", "9 9 9 abc"])).length % 4294967296 ∧
      (t.mismatch_warning = true ↔
        (accepted cScanf "xyz".toList Vars.zero
            (linesOf ["1 1 1 5", "9 9 9 abc"])).length % 4294967296
          ≠ (accepted cScanf "xyzi".toList Vars.zero
            (linesOf ["1 1 1 5", "9 9 9 abc"])).length % 4294967296) ∧
      ((linesOf ["1 1 1 5", "9 9 9 abc"]).length < 4294967296 →
        t.header.number_of_point_records
          = (accepted cScanf "xyz".toList Vars.zero (linesOf ["1 1 1 5", "9 9 9 abc"])).length ∧
        (t.mismatch_warning = true ↔
          (accepted cScanf "xyz".toList Vars.zero (linesOf ["1 1 1 5", "9 9 9 abc"])).length
            ≠ (accepted cScanf "xyzi".toList Vars.zero
                (linesOf ["1 1 1 5", "9 9 9 abc"])).length)) :=
  record_count_warning cScanf "xyzi".toList "xyz".toList Vec3.zero ⟨1, 1, 1⟩
    (linesOf ["1 1 1 5", "9 9 9 abc"]) Vars.zero Vec3.zero Vec3.zero (by decide) (by decide!)

/-- The run of the witness, evaluated: two records announced, one written,
warning printed. -/
theorem record_count_warning_example :
    (twoPass cScanf "xyzi".toList Vec3.zero ⟨1, 1, 1⟩ (linesOf ["1 1 1 5", "9 9 9 abc"])
        (Main.start Vars.zero Vec3.zero Vec3.zero)).result.map
        (fun t => (t.header.number_of_point_records, t.written.length, t.mismatch_warning))
      = some (2, 1, true) := by
  decide!

/-- Counterexample to C28 as stated: under "xyzi" and an input made of the line
"1 1 1 5" followed by `2^32` lines "9 9 9 abc", the first pass accepts all
`2^32 + 1` lines and the second pass one line, yet no warning is printed: the
32-bit counter of the first pass holds 1. -/
theorem record_count_warning_counterexample :
    (accepted cScanf "xyz".toList Vars.zero
      ("1 1 1 5".toList :: List.replicate 4294967296 "9 9 9 abc".toList)).length
      = 4294967297 ∧
    (accepted cScanf "xyzi".toList Vars.zero
      ("1 1 1 5".toList :: List.replicate 4294967296 "9 9 9 abc".toList)).length = 1 ∧
    ∃ t, twoPass cScanf "xyzi".toList Vec3.zero ⟨1, 1, 1⟩
        ("1 1 1 5".toList :: List.replicate 4294967296 "9 9 9 abc".toList)
        (Main.start Vars.zero Vec3.zero Vec3.zero) = Outcome.done t ∧
      t.mismatch_warning = false ∧ t.header.number_of_point_records = 1 := by
  have a1 : accepted cScanf "xyz".toList Vars.zero
      ("1 1 1 5".toList :: List.replicate 4294967296 "9 9 9 abc".toList)
      = "1 1 1 5".toList :: List.replicate 4294967296 "9 9 9 abc".toList := by
    unfold accepted
    rw [List.filter_cons, if_pos (by decide!),
      @List.filter_replicate_of_pos _ (fun l => (parse cScanf "xyz".toList l Vars.zero).1)
        4294967296 "9 9 9 abc".toList (by decide!)]
  have a2 : accepted cScanf "xyzi".toList Vars.zero
      ("1 1 1 5".toList :: List.replicate 4294967296 "9 9 9 abc".toList)
      = ["1 1 1 5".toList] := by
    unfold accepted
    rw [List.filter_cons, if_pos (by decide!),
      @List.filter_replicate_of_neg _ (fun l => (parse cScanf "xyzi".toList l Vars.zero).1)
        4294967296 "9 9 9 abc".toList (by decide!)]
  have l1 : (accepted cScanf "xyz".toList Vars.zero
      ("1 1 1 5".toList :: List.replicate 4294967296 "9 9 9 abc".toList)).length
      = 4294967297 := by
    rw [a1, List.length_cons, List.length_replicate]
  have l2 : (accepted cScanf "xyzi".toList Vars.zero
      ("1 1 1 5".toList :: List.replicate 4294967296 "9 9 9 abc".toList)).length = 1 := by
    rw [a2]
    rfl
  obtain ⟨t, h1, h2, h3⟩ := twoPass_mismatch cScanf "xyzi".toList "xyz".toList Vec3.zero
    ⟨1, 1, 1⟩ ("1 1 1 5".toList :: List.replicate 4294967296 "9 9 9 abc".toList)
    Vars.zero Vec3.zero Vec3.zero (by decide) (by rw [a1]; exact List.cons_ne_nil _ _)
  refine ⟨l1, l2, t, h1, ?_, ?_⟩
  · rw [l1, l2] at h3
    cases hw : t.mismatch_warning with
    | false => rfl
    | true => exact absurd rfl (h3.1 hw)
  · rw [h2, l1]

/-! ## Bounding box of the single pass against the rule of the records -/

/-- C29, the code at a failing input: on the example of the specification
(parse string "xyzr", scale 0.01, offset 0) the single pass accumulates the
minimum x = -1, and the header patch holds -0.99 for it, while the rule of the
point records (subtract 0.5 for a value not above the offset) gives
`offset + quantize(-1) * scale = -1`: the bounding box is quantized with
`(int)(0.5 + ...)` whatever the side of the offset. -/
theorem single_pass_box_differs_from_record_rule :
    (singlePassScan cScanf "xyzr".toList Vec3.zero ⟨1 / 100, 1 / 100, 1 / 100⟩ exampleLines
      (Main.start Vars.zero Vec3.zero Vec3.zero)).result.map (fun m => m.xyz_min.c0)
      = some (-1) ∧
    (singlePass cScanf "xyzr".toList Vec3.zero ⟨1 / 100, 1 / 100, 1 / 100⟩ exampleLines
      (Main.start Vars.zero Vec3.zero Vec3.zero)).result.map (fun p => p.xyz_min_dequant.c0)
      = some (-99 / 100) ∧
    dequantize (quantize (-1) 0 (1 / 100)) 0 (1 / 100) = -1 ∧
    quantize (-1) 0 (1 / 100) = -100 ∧ quantizeBox (-1) 0 (1 / 100) = -99 ∧
    (singlePass cScanf "xyzr".toList Vec3.zero ⟨1 / 100, 1 / 100, 1 / 100⟩ exampleLines
      (Main.start Vars.zero Vec3.zero Vec3.zero)).result.map
        (fun p => p.written.map (fun w => w.point.x))
      = some [100, 400, -100] := by
  decide!

/-! ## Which conversion reads which attribute -/

theorem parse_single_flag (sc : Scanf) (p : Char) (l : List Char) (s : Vars) :
    (parse sc [p] l s).1 = (parseField sc p l s).isSome := by
  cases h : parseField sc p l s with
  | none =>
    rw [parse_cons_none sc p [] l s h]
    rfl
  | some r =>
    obtain ⟨l1, s1⟩ := r
    rw [parse_cons_some sc p [] l s l1 s1 h]
    rfl

theorem expect_isSome {α : Type} (l : List Char) (scan : List Char → Option α)
    (store : α → Vars) :
    (expect l scan store).isSome = true ↔
      skipWhite l ≠ [] ∧ (scan (skipWhite l)).isSome = true := by
  unfold expect
  by_cases h : skipWhite l = []
  · simp [h]
  · rw [if_neg h]
    cases scan (skipWhite l) with
    | none => simp
    | some v => simp [h]

/-- C30 (as amended): the ten attributes n, r, c, u, p, e, d, R, G, B are
extracted with the integer conversion `%d`: `parse` accepts the token exactly
when `%d` converts it, so a token that does not begin with an optionally
signed decimal integer, such as ".5", makes `parse` return false, and "1e3" is
read as the integer 1.  The intensity `i` and the scan angle `a` are extracted
with the floating-point conversion `%f` and then cast: `parse` accepts ".5"
and stores 0, and it reads "1e3" as 1000 and "1e2" as 100. -/
theorem attribute_conversions (sc : Scanf) (l : List Char) (s : Vars) :
    (∀ c ∈ ['n', 'r', 'c', 'u', 'p', 'e', 'd', 'R', 'G', 'B'],
      ((parse sc [c] l s).1 = true ↔
        skipWhite l ≠ [] ∧ (sc.d (skipWhite l)).isSome = true)) ∧
    (∀ c ∈ ['i', 'a'],
      ((parse sc [c] l s).1 = true ↔
        skipWhite l ≠ [] ∧ (sc.f (skipWhite l)).isSome = true)) ∧
    scanInt ".5".toList = none ∧ scanInt "1e3".toList = some 1 ∧
    scanDouble ".5".toList = some (1 / 2) ∧ scanDouble "1e3".toList = some 1000 ∧
    (∀ c ∈ ['n', 'r', 'c', 'u', 'p', 'e', 'd', 'R', 'G', 'B'],
      (parse cScanf [c] ".5".toList Vars.zero).1 = false ∧
      (parse cScanf [c] "1e3".toList Vars.zero).1 = true ∧
      ∃ f, target c = some f ∧ f.read (parse cScanf [c] "1e3".toList Vars.zero).2 = 1) ∧
    (parse cScanf ['i'] ".5".toList Vars.zero).1 = true ∧
    (parse cScanf ['i'] ".5".toList { Vars.zero with
      point := { Vars.zero.point with intensity := 7 } }).2.point.intensity = 0 ∧
    (parse cScanf ['i'] "1e3".toList Vars.zero).2.point.intensity = 1000 ∧
    (parse cScanf ['a'] ".5".toList Vars.zero).1 = true ∧
    (parse cScanf ['a'] ".5".toList { Vars.zero with
      point := { Vars.zero.point with scan_angle_rank := 7 } }).2.point.scan_angle_rank = 0 ∧
    (parse cScanf ['a'] "1e2".toList Vars.zero).2.point.scan_angle_rank = 100 := by
  have keyd : ∀ (p : Char) (store : Int → Vars),
      parseField sc p l s = expect l sc.d store →
      ((parse sc [p] l s).1 = true ↔
        skipWhite l ≠ [] ∧ (sc.d (skipWhite l)).isSome = true) := by
    intro p store hp
    rw [parse_single_flag, hp]
    exact expect_isSome l sc.d store
  have keyf : ∀ (p : Char) (store : ℚ → Vars),
      parseField sc p l s = expect l sc.f store →
      ((parse sc [p] l s).1 = true ↔
        skipWhite l ≠ [] ∧ (sc.f (skipWhite l)).isSome = true) := by
    intro p store hp
    rw [parse_single_flag, hp]
    exact expect_isSome l sc.f store
  refine ⟨?_, ?_, by decide, by decide, by decide!, by decide!, by decide!, by decide!,
    by decide!, by decide!, by decide!, by decide!, by decide!⟩
  · intro c hc
    simp only [List.mem_cons, List.mem_singleton, List.not_mem_nil, or_false] at hc
    rcases hc with rfl | rfl | rfl | rfl | rfl | rfl | rfl | rfl | rfl | rfl
    all_goals exact keyd _ _ rfl
  · intro c hc
    simp only [List.mem_cons, List.mem_singleton, List.not_mem_nil, or_false] at hc
    rcases hc with rfl | rfl
    all_goals exact keyf _ _ rfl

/-- Counterexample to C30 as stated: under the parse strings "i" and "a" the
token ".5", which does not begin with a decimal integer, is accepted, and the
token "1e3" is stored as the intensity 1000, not 1. -/
theorem attribute_conversions_counterexample :
    (parse cScanf ['i'] ".5".toList Vars.zero).1 = true ∧
    (parse cScanf ['a'] ".5".toList Vars.zero).1 = true ∧
    (parse cScanf ['i'] "1e3".toList Vars.zero).2.point.intensity = 1000 ∧
    (parse cScanf ['i'] "1e3".toList Vars.zero).2.point.intensity ≠ 1 := by
  decide!

/-! ## The histogram index stays in range -/

/-- Each of the four scan bodies keeps the return number of `point` below 8
and the histogram at eight buckets. -/
theorem body_keeps_index_range (sc : Scanf) (g : List Char) (xyz_offset xyz_scale : Vec3)
    (m : Main) (line : List Char) (hr : m.vars.point.return_number < 8)
    (hl : m.number_of_points_by_return.length = 8) :
    ∀ body ∈ [firstPassHead sc g, firstPassRest sc g,
        singlePassHead sc g xyz_offset xyz_scale, singlePassRest sc g xyz_offset xyz_scale],
      (body m line).2.vars.point.return_number < 8 ∧
      (body m line).2.number_of_points_by_return.length = 8 := by
  have hp := parse_return_number sc g line m.vars hr
  intro body hb
  simp only [List.mem_cons, List.mem_singleton, List.not_mem_nil, or_false] at hb
  rcases hb with rfl | rfl | rfl | rfl
  · unfold firstPassHead
    rcases hq : parse sc g line m.vars with ⟨b, v⟩
    rw [hq] at hp
    cases b
    · exact ⟨hp, hl⟩
    · exact ⟨hp, by rw [bump_length]; exact hl⟩
  · unfold firstPassRest
    rcases hq : parse sc g line m.vars with ⟨b, v⟩
    rw [hq] at hp
    cases b
    · exact ⟨hp, hl⟩
    · exact ⟨hp, by rw [bump_length]; exact hl⟩
  · unfold singlePassHead
    rcases hq : parse sc g line m.vars with ⟨b, v⟩
    rw [hq] at hp
    cases b
    · exact ⟨hp, hl⟩
    · exact ⟨hp, by rw [bump_length]; exact hl⟩
  · unfold singlePassRest
    rcases hq : parse sc g line m.vars with ⟨b, v⟩
    rw [hq] at hp
    cases b
    · exact ⟨hp, hl⟩
    · exact ⟨hp, by rw [bump_length]; exact hl⟩

/-- A property of the state of `main` that the loop body keeps holds after
both kinds of loop. -/
theorem loops_keep (P : Main → Prop) (body : Main → List Char → Bool × Main)
    (hb : ∀ m line, P m → P (body m line).2) :
    ∀ (lines : List (List Char)) (m : Main), P m →
      P (forEachLine body lines m) ∧ P (untilFirst body lines m).1 ∧
      ∀ m1, P m1 → P (forEachLine body (untilFirst body lines m).2 m1) := by
  intro lines
  induction lines with
  | nil =>
    intro m hm
    exact ⟨hm, hm, fun m1 h1 => h1⟩
  | cons line rest ih =>
    intro m hm
    have h1 := hb m line hm
    refine ⟨(ih _ h1).1, ?_, ?_⟩
    · unfold untilFirst
      rcases hq : body m line with ⟨b, m2⟩
      rw [hq] at h1
      cases b
      · exact (ih m2 h1).2.1
      · exact h1
    · unfold untilFirst
      rcases hq : body m line with ⟨b, m2⟩
      rw [hq] at h1
      cases b
      · exact (ih m2 h1).2.2
      · intro m1 hm1
        exact (ih m1 hm1).1

/-- C31: the histogram index is always in range.  The return number of
`point` is a three-bit member, so it is below 8 when a scan starts; then for
every parse string and every line the return number that `parse` leaves is
between 0 and 7, each of the four loop bodies of the first pass and of the
single pass increments a bucket that exists and keeps both facts, and they
hold in every state the two scans end in. -/
theorem histogram_index_in_range (sc : Scanf) (g : List Char) (xyz_offset xyz_scale : Vec3)
    (v0 : Vars) (mn mx : Vec3) (hr : v0.point.return_number < 8) :
    (∀ line, (parse sc g line v0).2.point.return_number ≤ 7) ∧
    (∀ (m : Main) (line : List Char), m.vars.point.return_number < 8 →
      m.number_of_points_by_return.length = 8 →
      (parse sc g line m.vars).2.point.return_number < m.number_of_points_by_return.length ∧
      ∀ body ∈ [firstPassHead sc g, firstPassRest sc g,
          singlePassHead sc g xyz_offset xyz_scale, singlePassRest sc g xyz_offset xyz_scale],
        (body m line).2.vars.point.return_number < 8 ∧
        (body m line).2.number_of_points_by_return.length = 8) ∧
    (∀ lines m1, firstPassScan sc g lines (Main.start v0 mn mx) = Outcome.done m1 →
      m1.vars.point.return_number < 8 ∧ m1.number_of_points_by_return.length = 8) ∧
    (∀ lines m1,
      singlePassScan sc g xyz_offset xyz_scale lines (Main.start v0 mn mx) = Outcome.done m1 →
      m1.vars.point.return_number < 8 ∧ m1.number_of_points_by_return.length = 8) := by
  have hstart : (Main.start v0 mn mx).vars.point.return_number < 8 ∧
      (Main.start v0 mn mx).number_of_points_by_return.length = 8 := ⟨hr, rfl⟩
  have keep : ∀ body ∈ [firstPassHead sc g, firstPassRest sc g,
      singlePassHead sc g xyz_offset xyz_scale, singlePassRest sc g xyz_offset xyz_scale],
      ∀ (m : Main) (line : List Char),
        (m.vars.point.return_number < 8 ∧ m.number_of_points_by_return.length = 8) →
        ((body m line).2.vars.point.return_number < 8 ∧
          (body m line).2.number_of_points_by_return.length = 8) :=
    fun body hb m line hm =>
      body_keeps_index_range sc g xyz_offset xyz_scale m line hm.1 hm.2 body hb
  refine ⟨fun line => Nat.lt_succ_iff.1 (parse_return_number sc g line v0 hr), ?_, ?_, ?_⟩
  · intro m line h1 h2
    refine ⟨?_, body_keeps_index_range sc g xyz_offset xyz_scale m line h1 h2⟩
    rw [h2]
    exact parse_return_number sc g line m.vars h1
  · intro lines m1 h
    obtain ⟨_, a, b⟩ := loops_keep
      (fun m => m.vars.point.return_number < 8 ∧ m.number_of_points_by_return.length = 8)
      (firstPassHead sc g) (keep _ (by simp)) lines (Main.start v0 mn mx) hstart
    unfold firstPassScan at h
    rcases hu : untilFirst (firstPassHead sc g) lines (Main.start v0 mn mx) with ⟨m2, rest⟩
    rw [hu] at h a
    simp only at h
    split_ifs at h
    cases h
    exact (loops_keep
      (fun m => m.vars.point.return_number < 8 ∧ m.number_of_points_by_return.length = 8)
      (firstPassRest sc g) (keep _ (by simp)) rest m2 a).1
  · intro lines m1 h
    obtain ⟨_, a, b⟩ := loops_keep
      (fun m => m.vars.point.return_number < 8 ∧ m.number_of_points_by_return.length = 8)
      (singlePassHead sc g xyz_offset xyz_scale) (keep _ (by simp)) lines
      (Main.start v0 mn mx) hstart
    unfold singlePassScan at h
    rcases hu : untilFirst (singlePassHead sc g xyz_offset xyz_scale) lines
      (Main.start v0 mn mx) with ⟨m2, rest⟩
    rw [hu] at h a
    simp only at h
    split_ifs at h
    cases h
    exact (loops_keep
      (fun m => m.vars.point.return_number < 8 ∧ m.number_of_points_by_return.length = 8)
      (singlePassRest sc g xyz_offset xyz_scale) (keep _ (by simp)) rest m2 a).1

/-- Witness of C31: the token "9" is stored as return number 1, and the scan
of the example lines ends with a return number below 8 and eight buckets. -/
theorem histogram_index_in_range_witness :
    (parse cScanf "xyzr".toList "1 2 3 9".toList Vars.zero).2.point.return_number = 1 ∧
    (∀ line, (parse cScanf "xyzr".toList line Vars.zero).2.point.return_number ≤ 7) ∧
    (∀ lines m1,
      singlePassScan cScanf "xyzr".toList Vec3.zero ⟨1, 1, 1⟩ lines
        (Main.start Vars.zero Vec3.zero Vec3.zero) = Outcome.done m1 →
      m1.vars.point.return_number < 8 ∧ m1.number_of_points_by_return.length = 8) :=
  ⟨by decide!,
   (histogram_index_in_range cScanf "xyzr".toList Vec3.zero ⟨1, 1, 1⟩ Vars.zero Vec3.zero
      Vec3.zero (by decide)).1,
   (histogram_index_in_range cScanf "xyzr".toList Vec3.zero ⟨1, 1, 1⟩ Vars.zero Vec3.zero
      Vec3.zero (by decide)).2.2.2⟩

/-! ## What the header patch leaves alone -/

/-- C32: the header patch changes only the bytes it is meant to fill.  On an
output file of at least 227 bytes, every byte at an offset outside
107 ≤ offset < 131 and 179 ≤ offset < 227 is the same after the patch writes
as before them, and the length of the file is unchanged; this holds whatever
the sixteen bytes are that the first `fwrite` takes from behind the record
counter. -/
theorem header_patch_frame (file : List FileByte) (p : Patch) (beyond : List FileByte)
    (hlen : 227 ≤ file.length) (hb : beyond.length = 16) :
    (patchFile file p beyond).length = file.length ∧
    ∀ i, ¬ (107 ≤ i ∧ i < 131) → ¬ (179 ≤ i ∧ i < 227) →
      (patchFile file p beyond)[i]? = file[i]? := by
  have d1 : (bytesOfUInt p.number_of_point_records ++ beyond).length = 20 := by
    rw [List.length_append, hb]
    rfl
  have d2 : (bytesOfUInt (p.number_of_points_by_return.getD 1 0) ++
      bytesOfUInt (p.number_of_points_by_return.getD 2 0) ++
      bytesOfUInt (p.number_of_points_by_return.getD 3 0) ++
      bytesOfUInt (p.number_of_points_by_return.getD 4 0) ++
      bytesOfUInt (p.number_of_points_by_return.getD 5 0)).length = 20 := rfl
  have d3 : (bytesOfDouble p.xyz_max_dequant.c0 ++ (bytesOfDouble p.xyz_min_dequant.c0 ++
      (bytesOfDouble p.xyz_max_dequant.c1 ++ (bytesOfDouble p.xyz_min_dequant.c1 ++
      (bytesOfDouble p.xyz_max_dequant.c2 ++ bytesOfDouble p.xyz_min_dequant.c2))))).length
      = 48 := rfl
  have l1 : (fwriteAt file 107 (bytesOfUInt p.number_of_point_records ++ beyond)).length
      = file.length := by
    rw [length_fwriteAt, d1]
    omega
  have l2 : (fwriteAt (fwriteAt file 107 (bytesOfUInt p.number_of_point_records ++ beyond)) 111
      (bytesOfUInt (p.number_of_points_by_return.getD 1 0) ++
        bytesOfUInt (p.number_of_points_by_return.getD 2 0) ++
        bytesOfUInt (p.number_of_points_by_return.getD 3 0) ++
        bytesOfUInt (p.number_of_points_by_return.getD 4 0) ++
        bytesOfUInt (p.number_of_points_by_return.getD 5 0))).length = file.length := by
    rw [length_fwriteAt, d2, l1]
    omega
  unfold patchFile
  rw [headerPatch_eq]
  constructor
  · rw [length_fwriteAt, d3, l2]
    omega
  · intro i h1 h2
    rw [fwriteAt_getElem?, fwriteAt_getElem?, fwriteAt_getElem?, d1, d2, d3, l1, l2]
    by_cases ha : i < 107
    · rw [if_pos (by omega), if_pos (by omega), if_pos (by omega), if_pos (by omega),
        if_pos ha, if_pos (by omega)]
    · by_cases hc : i < 179
      · rw [if_pos hc, if_pos (by omega), if_neg (by omega), if_neg (by omega),
          if_neg (by omega), if_neg (by omega)]
      · rw [if_neg hc, if_neg (by omega), if_neg (by omega), if_neg (by omega),
          if_neg (by omega), if_neg (by omega)]

/-- Witness of C32: the patch of a file of 300 zero bytes leaves the length at
300 and the bytes at the offsets 106, 131, 178 and 227 at zero. -/
theorem header_patch_frame_witness :
    (patchFile (zeroFile 300)
        { number_of_point_records := 3,
          number_of_points_by_return := [0, 2, 1, 0, 0, 0, 0, 0],
          xyz_min_dequant := ⟨-1, 0, 0⟩, xyz_max_dequant := ⟨4, 5, 6⟩, written := [] }
        (zeroFile 16)).length = (zeroFile 300).length ∧
    ∀ i, ¬ (107 ≤ i ∧ i < 131) → ¬ (179 ≤ i ∧ i < 227) →
      (patchFile (zeroFile 300)
        { number_of_point_records := 3,
          number_of_points_by_return := [0, 2, 1, 0, 0, 0, 0, 0],
          xyz_min_dequant := ⟨-1, 0, 0⟩, xyz_max_dequant := ⟨4, 5, 6⟩, written := [] }
        (zeroFile 16))[i]? = (zeroFile 300)[i]? :=
  header_patch_frame (zeroFile 300)
    { number_of_point_records := 3,
      number_of_points_by_return := [0, 2, 1, 0, 0, 0, 0, 0],
      xyz_min_dequant := ⟨-1, 0, 0⟩, xyz_max_dequant := ⟨4, 5, 6⟩, written := [] }
    (zeroFile 16) (by simp only [zeroFile, List.length_replicate]; norm_num)
    (by simp only [zeroFile, List.length_replicate])

/-! ## The reduced parse string against the full one, line by line -/

/-- The coordinates and the return number are assigned only by symbols that
the reduction keeps. -/
theorem kept_fields (f : Field)
    (hf : f = Field.xyz0 ∨ f = Field.xyz1 ∨ f = Field.xyz2 ∨ f = Field.return_number) :
    ∀ c, target c = some f → lessSymbol c = c := by
  intro c hc
  rcases hf with rfl | rfl | rfl | rfl
  all_goals
    rcases symbol_cases c with
      rfl | rfl | rfl | rfl | rfl | rfl | rfl | rfl | rfl | rfl | rfl | rfl | rfl | rfl | rfl |
      rfl | rfl | hn
    all_goals first
      | rfl
      | exact absurd hc (by decide)
      | (rw [target_unrecognized c hn] at hc; cases hc)

/-- A line the full parse string accepts leaves, in a location that only kept
symbols assign, the value the reduced parse string leaves there. -/
theorem parseLess_field (sc : Scanf) (g pl : List Char) (l : List Char) (s t : Vars)
    (f : Field) (hf : ∀ c, target c = some f → lessSymbol c = c)
    (hg : ∀ c ∈ g, recognized c) (hpl : parseLess g = some pl)
    (hok : (parse sc g l s).1 = true) (hst : f.read s = f.read t) :
    f.read (parse sc pl l t).2 = f.read (parse sc g l s).2 := by
  obtain ⟨k, e, hk⟩ := trimLess_dropped _ _ _ hpl
  have h := parse_reduced sc f hf g k l s t hg
    (fun j hj c hc ht => by
      have hlt : j < g.length := by
        by_contra hge
        rw [List.get?_eq_none.2 (by omega)] at hc
        cases hc
      have hb := hk j hj hlt
      rw [List.get?_eq_getElem?] at hb hc
      rw [List.getElem?_map, hc] at hb
      have e1 : lessSymbol c = 's' := by simpa using hb
      rw [hf c ht] at e1
      rw [e1] at ht
      have hnone : target 's' = none := by decide
      rw [hnone] at ht
      cases ht)
    hok hst
  rw [← e] at h
  exact h

/-- A line the full parse string accepts is accepted by the reduced one. -/
theorem parseLess_accepts (sc : Scanf) (g pl : List Char) (l : List Char) (s t : Vars)
    (hg : ∀ c ∈ g, recognized c) (hpl : parseLess g = some pl)
    (hok : (parse sc g l s).1 = true) : (parse sc pl l t).1 = true := by
  obtain ⟨k, hk⟩ := trimLess_take _ _ _ hpl
  rw [hk]
  exact parse_take sc _ k l t (parse_map_lessSymbol sc g l s t hg hok)

/-- C33: for every parse string that consists of symbols with a branch and
holds at least one of `x`, `y`, `z`, `r`, the reduced parse string of the
first pass is defined, and for every line: when `parse` with the full string
succeeds, `parse` with the reduced string succeeds as well and leaves the same
x, y, z and the same return number (both started from variables that agree on
these); hence every line the second pass accepts is a line the first pass
accepted. -/
theorem reduced_parse_refines (sc : Scanf) (g : List Char)
    (hg : ∀ c ∈ g, recognized c)
    (hx : ∃ c ∈ g, c = 'x' ∨ c = 'y' ∨ c = 'z' ∨ c = 'r') :
    ∃ pl, parseLess g = some pl ∧
      (∀ (l : List Char) (s t : Vars), s.xyz = t.xyz →
        s.point.return_number = t.point.return_number →
        (parse sc g l s).1 = true →
        (parse sc pl l t).1 = true ∧
        (parse sc pl l t).2.xyz = (parse sc g l s).2.xyz ∧
        (parse sc pl l t).2.point.return_number = (parse sc g l s).2.point.return_number) ∧
      (∀ (lines : List (List Char)) (v0 : Vars),
        ∀ l ∈ accepted sc g v0 lines, l ∈ accepted sc pl v0 lines) := by
  obtain ⟨pl, hpl⟩ := parseLess_defined g hx
  refine ⟨pl, hpl, ?_, ?_⟩
  · intro l s t hxyz hrn hok
    have h0 := parseLess_field sc g pl l s t Field.xyz0
      (kept_fields _ (Or.inl rfl)) hg hpl hok (congrArg Vec3.c0 hxyz)
    have h1 := parseLess_field sc g pl l s t Field.xyz1
      (kept_fields _ (Or.inr (Or.inl rfl))) hg hpl hok (congrArg Vec3.c1 hxyz)
    have h2 := parseLess_field sc g pl l s t Field.xyz2
      (kept_fields _ (Or.inr (Or.inr (Or.inl rfl)))) hg hpl hok (congrArg Vec3.c2 hxyz)
    have h3 := parseLess_field sc g pl l s t Field.return_number
      (kept_fields _ (Or.inr (Or.inr (Or.inr rfl)))) hg hpl hok
      (congrArg (fun n : Nat => F64.fin (n : ℚ)) hrn)
    refine ⟨parseLess_accepts sc g pl l s t hg hpl hok, ?_, Nat.cast_injective (F64.fin.inj h3)⟩
    have e0 : (parse sc pl l t).2.xyz.c0 = (parse sc g l s).2.xyz.c0 := h0
    have e1 : (parse sc pl l t).2.xyz.c1 = (parse sc g l s).2.xyz.c1 := h1
    have e2 : (parse sc pl l t).2.xyz.c2 = (parse sc g l s).2.xyz.c2 := h2
    rcases hp : (parse sc pl l t).2.xyz with ⟨a0, a1, a2⟩
    rcases hq : (parse sc g l s).2.xyz with ⟨b0, b1, b2⟩
    rw [hp, hq] at e0 e1 e2
    simp only at e0 e1 e2
    rw [e0, e1, e2]
  · intro lines v0 l hl
    unfold accepted at hl ⊢
    obtain ⟨h1, h2⟩ := List.mem_filter.1 hl
    exact List.mem_filter.2 ⟨h1, parseLess_accepts sc g pl l v0 v0 hg hpl h2⟩

/-- Witness of C33: the parse string "xyzit", whose reduced string is "xyz",
on the line "1 2 3 4 5". -/
theorem reduced_parse_refines_witness :
    (∃ pl, parseLess "xyzit".toList = some pl ∧
      (∀ (l : List Char) (s t : Vars), s.xyz = t.xyz →
        s.point.return_number = t.point.return_number →
        (parse cScanf "xyzit".toList l s).1 = true →
        (parse cScanf pl l t).1 = true ∧
        (parse cScanf pl l t).2.xyz = (parse cScanf "xyzit".toList l s).2.xyz ∧
        (parse cScanf pl l t).2.point.return_number
          = (parse cScanf "xyzit".toList l s).2.point.return_number) ∧
      (∀ (lines : List (List Char)) (v0 : Vars),
        ∀ l ∈ accepted cScanf "xyzit".toList v0 lines, l ∈ accepted cScanf pl v0 lines)) ∧
    parseLess "xyzit".toList = some "xyz".toList ∧
    (parse cScanf "xyzit".toList "1 2 3 4 5".toList Vars.zero).1 = true ∧
    (parse cScanf "xyz".toList "1 2 3 4 5".toList Vars.zero).1 = true ∧
    (parse cScanf "xyz".toList "1 2 3 4 5".toList Vars.zero).2.xyz = ⟨1, 2, 3⟩ ∧
    (parse cScanf "xyzit".toList "1 2 3 4 5".toList Vars.zero).2.xyz = ⟨1, 2, 3⟩ :=
  ⟨reduced_parse_refines cScanf "xyzit".toList (by decide) (by decide),
   by decide, by decide!, by decide!, by decide!, by decide!⟩

/-! ## The two-pass header box and the written points -/

/-- A coordinate for which the cast of the record-writing rule is defined is a
finite number, the scale being positive and the offset finite. -/
theorem finite_of_inIntRange (v offset scale : F64) (hs : scale.IsPositive)
    (ho : offset.IsFinite) (h : (quantizeSum v offset scale).InIntRange) : v ≠ F64.nan := by
  obtain ⟨sc, rfl, hs0⟩ := isPositive_fin hs
  obtain ⟨o, rfl⟩ := isFinite_fin ho
  obtain ⟨s, hsum, -⟩ := inIntRange_fin h
  obtain ⟨x, -, -, hx, -⟩ := quantizeSum_steps v o sc s hs0 hsum
  rw [hx]
  exact fun hc => F64.noConfusion hc

/-- Where the cast is defined the quantizer is monotone, and so is the
quantized value put back on the scale. -/
theorem dequantize_quantize_mono (a b offset scale : F64) (hs : scale.IsPositive)
    (ho : offset.IsFinite)
    (ha : (quantizeSum a offset scale).InIntRange)
    (hb : (quantizeSum b offset scale).InIntRange) (h : a ≤ b) :
    dequantize (quantize a offset scale) offset scale
      ≤ dequantize (quantize b offset scale) offset scale := by
  obtain ⟨sc, rfl, hs0⟩ := isPositive_fin hs
  obtain ⟨o, rfl⟩ := isFinite_fin ho
  exact dequantize_mono _ _ o sc hs0 (quantize_mono a b o sc hs0 ha hb h)

/-- The two-pass run that finds a line in its first pass: the header is built
from the statistics of the lines the reduced string accepts, and one record is
written per line the full string accepts. -/
theorem twoPass_done (sc : Scanf) (g pl : List Char) (xyz_offset xyz_scale : Vec3)
    (lines : List (List Char)) (v0 : Vars) (mn mx : Vec3)
    (hpl : parseLess g = some pl) (hacc : accepted sc pl v0 lines ≠ []) :
    ∃ m1 t, twoPass sc g xyz_offset xyz_scale lines (Main.start v0 mn mx) = Outcome.done t ∧
      t.header = twoPassHeader g xyz_offset xyz_scale m1 ∧
      StatsOf sc pl v0 (accepted sc pl v0 lines) m1.statistics ∧
      t.written = (accepted sc g v0 lines).map (recordOf sc g xyz_offset xyz_scale v0) := by
  obtain ⟨m1, hm, hstats, hw, hu⟩ := (firstPassScan_spec sc pl lines v0 mn mx).2 hacc
  have hU : Untouched g v0 m1.vars := by
    intro f hf hq
    exact hu f (fun hp => hf (targeted_parseLess g pl hpl f hp)) hq
  obtain ⟨_, _, f3⟩ := forEachLine_spec sc g v0 countDown _ _
    (secondPassBody_spec sc g xyz_offset xyz_scale v0) lines m1 hU
  have e1 : twoPass sc g xyz_offset xyz_scale lines (Main.start v0 mn mx)
      = Outcome.done
        { header := twoPassHeader g xyz_offset xyz_scale m1,
          written := (forEachLine (secondPassBody sc g xyz_offset xyz_scale) lines m1).written,
          mismatch_warning := decide
            ((forEachLine (secondPassBody sc g xyz_offset xyz_scale) lines m1
              ).number_of_point_records ≠ 0) } := by
    simp only [twoPass, hpl, hm]
  refine ⟨m1, _, e1, rfl, hstats, ?_⟩
  show (forEachLine (secondPassBody sc g xyz_offset xyz_scale) lines m1).written = _
  rw [f3, hw, List.nil_append, flatMap_single]

/-- C34 (as amended): in a two-pass run with a finite scale > 0 and a finite
offset on every axis, a parse string of symbols with a branch, identical input
in both passes, and coordinates for which the cast of the record-writing rule
is defined (the sum handed to it is in the range of a 32-bit signed integer)
on every line the first pass accepts, the run ends and the header bounding box
encloses every written point: for each written record and each axis,
header min ≤ offset + q*scale ≤ header max, `q` being the quantized coordinate
of the record and `offset + q*scale` and the comparisons being those of
`double` arithmetic. -/
theorem header_box_encloses (sc : Scanf) (g pl : List Char) (xyz_offset xyz_scale : Vec3)
    (lines : List (List Char)) (v0 : Vars) (mn mx : Vec3)
    (hg : ∀ c ∈ g, recognized c) (hpl : parseLess g = some pl)
    (hs : xyz_scale.c0.IsPositive ∧ xyz_scale.c1.IsPositive ∧ xyz_scale.c2.IsPositive)
    (ho : xyz_offset.c0.IsFinite ∧ xyz_offset.c1.IsFinite ∧ xyz_offset.c2.IsFinite)
    (hfit : ∀ l ∈ accepted sc pl v0 lines,
      fitsXYZ (parse sc pl l v0).2.xyz xyz_offset xyz_scale)
    (hacc : accepted sc pl v0 lines ≠ []) :
    ∃ t, twoPass sc g xyz_offset xyz_scale lines (Main.start v0 mn mx) = Outcome.done t ∧
      ∀ w ∈ t.written,
        (t.header.min_x ≤ dequantize w.point.x xyz_offset.c0 xyz_scale.c0 ∧
          dequantize w.point.x xyz_offset.c0 xyz_scale.c0 ≤ t.header.max_x) ∧
        (t.header.min_y ≤ dequantize w.point.y xyz_offset.c1 xyz_scale.c1 ∧
          dequantize w.point.y xyz_offset.c1 xyz_scale.c1 ≤ t.header.max_y) ∧
        (t.header.min_z ≤ dequantize w.point.z xyz_offset.c2 xyz_scale.c2 ∧
          dequantize w.point.z xyz_offset.c2 xyz_scale.c2 ≤ t.header.max_z) := by
  obtain ⟨m1, t, ht, hh, ⟨_, _, _, hbox⟩, hw⟩ :=
    twoPass_done sc g pl xyz_offset xyz_scale lines v0 mn mx hpl hacc
  refine ⟨t, ht, ?_⟩
  intro w hwm
  rw [hw] at hwm
  obtain ⟨l, hl, rfl⟩ := List.mem_map.1 hwm
  have hok : (parse sc g l v0).1 = true := by
    unfold accepted at hl
    exact (List.mem_filter.1 hl).2
  have hlpl : l ∈ accepted sc pl v0 lines := by
    unfold accepted at hl ⊢
    exact List.mem_filter.2 ⟨(List.mem_filter.1 hl).1,
      parseLess_accepts sc g pl l v0 v0 hg hpl hok⟩
  have e0 : (parse sc pl l v0).2.xyz.c0 = (parse sc g l v0).2.xyz.c0 :=
    parseLess_field sc g pl l v0 v0 Field.xyz0 (kept_fields _ (Or.inl rfl)) hg hpl hok rfl
  have e1 : (parse sc pl l v0).2.xyz.c1 = (parse sc g l v0).2.xyz.c1 :=
    parseLess_field sc g pl l v0 v0 Field.xyz1 (kept_fields _ (Or.inr (Or.inl rfl)))
      hg hpl hok rfl
  have e2 : (parse sc pl l v0).2.xyz.c2 = (parse sc g l v0).2.xyz.c2 :=
    parseLess_field sc g pl l v0 v0 Field.xyz2 (kept_fields _ (Or.inr (Or.inr (Or.inl rfl))))
      hg hpl hok rfl
  obtain ⟨fl0, fl1, fl2⟩ := hfit l hlpl
  rw [e0] at fl0
  rw [e1] at fl1
  rw [e2] at fl2
  have n0 : ∀ l ∈ accepted sc pl v0 lines, (parse sc pl l v0).2.xyz.get 0 ≠ F64.nan :=
    fun l hl => finite_of_inIntRange _ _ _ hs.1 ho.1 (hfit l hl).1
  have n1 : ∀ l ∈ accepted sc pl v0 lines, (parse sc pl l v0).2.xyz.get 1 ≠ F64.nan :=
    fun l hl => finite_of_inIntRange _ _ _ hs.2.1 ho.2.1 (hfit l hl).2.1
  have n2 : ∀ l ∈ accepted sc pl v0 lines, (parse sc pl l v0).2.xyz.get 2 ≠ F64.nan :=
    fun l hl => finite_of_inIntRange _ _ _ hs.2.2 ho.2.2 (hfit l hl).2.2
  obtain ⟨⟨mn0, a0, ha0, ea0⟩, ⟨mx0, b0, hb0, eb0⟩⟩ :=
    (fun h => (⟨isMinOf_map _ _ _ h.1, isMaxOf_map _ _ _ h.2⟩ : _ ∧ _)) (hbox 0 n0)
  obtain ⟨⟨mn1, a1, ha1, ea1⟩, ⟨mx1, b1, hb1, eb1⟩⟩ :=
    (fun h => (⟨isMinOf_map _ _ _ h.1, isMaxOf_map _ _ _ h.2⟩ : _ ∧ _)) (hbox 1 n1)
  obtain ⟨⟨mn2, a2, ha2, ea2⟩, ⟨mx2, b2, hb2, eb2⟩⟩ :=
    (fun h => (⟨isMinOf_map _ _ _ h.1, isMaxOf_map _ _ _ h.2⟩ : _ ∧ _)) (hbox 2 n2)
  have fa0 := (hfit a0 ha0).1
  have fb0 := (hfit b0 hb0).1
  have fa1 := (hfit a1 ha1).2.1
  have fb1 := (hfit b1 hb1).2.1
  have fa2 := (hfit a2 ha2).2.2
  have fb2 := (hfit b2 hb2).2.2
  have c0 : m1.xyz_min.c0 = (parse sc pl a0 v0).2.xyz.c0 := ea0
  have d0 : m1.xyz_max.c0 = (parse sc pl b0 v0).2.xyz.c0 := eb0
  have c1 : m1.xyz_min.c1 = (parse sc pl a1 v0).2.xyz.c1 := ea1
  have d1 : m1.xyz_max.c1 = (parse sc pl b1 v0).2.xyz.c1 := eb1
  have c2 : m1.xyz_min.c2 = (parse sc pl a2 v0).2.xyz.c2 := ea2
  have d2 : m1.xyz_max.c2 = (parse sc pl b2 v0).2.xyz.c2 := eb2
  have lo0 : m1.xyz_min.c0 ≤ (parse sc g l v0).2.xyz.c0 := by rw [← e0]; exact mn0 l hlpl
  have hi0 : (parse sc g l v0).2.xyz.c0 ≤ m1.xyz_max.c0 := by rw [← e0]; exact mx0 l hlpl
  have lo1 : m1.xyz_min.c1 ≤ (parse sc g l v0).2.xyz.c1 := by rw [← e1]; exact mn1 l hlpl
  have hi1 : (parse sc g l v0).2.xyz.c1 ≤ m1.xyz_max.c1 := by rw [← e1]; exact mx1 l hlpl
  have lo2 : m1.xyz_min.c2 ≤ (parse sc g l v0).2.xyz.c2 := by rw [← e2]; exact mn2 l hlpl
  have hi2 : (parse sc g l v0).2.xyz.c2 ≤ m1.xyz_max.c2 := by rw [← e2]; exact mx2 l hlpl
  rw [← c0] at fa0
  rw [← d0] at fb0
  rw [← c1] at fa1
  rw [← d1] at fb1
  rw [← c2] at fa2
  rw [← d2] at fb2
  rw [hh]
  exact ⟨⟨dequantize_quantize_mono _ _ _ _ hs.1 ho.1 fa0 fl0 lo0,
      dequantize_quantize_mono _ _ _ _ hs.1 ho.1 fl0 fb0 hi0⟩,
    ⟨dequantize_quantize_mono _ _ _ _ hs.2.1 ho.2.1 fa1 fl1 lo1,
      dequantize_quantize_mono _ _ _ _ hs.2.1 ho.2.1 fl1 fb1 hi1⟩,
    ⟨dequantize_quantize_mono _ _ _ _ hs.2.2 ho.2.2 fa2 fl2 lo2,
      dequantize_quantize_mono _ _ _ _ hs.2.2 ho.2.2 fl2 fb2 hi2⟩⟩

/-- Witness of C34 (as amended): the example of the specification under "xyzr"
with scale 0.01. -/
theorem header_box_encloses_witness :
    ∃ t, twoPass cScanf "xyzr".toList Vec3.zero ⟨1 / 100, 1 / 100, 1 / 100⟩ exampleLines
        (Main.start Vars.zero Vec3.zero Vec3.zero) = Outcome.done t ∧
      ∀ w ∈ t.written,
        (t.header.min_x ≤ dequantize w.point.x Vec3.zero.c0 (1 / 100 : F64) ∧
          dequantize w.point.x Vec3.zero.c0 (1 / 100 : F64) ≤ t.header.max_x) ∧
        (t.header.min_y ≤ dequantize w.point.y Vec3.zero.c1 (1 / 100 : F64) ∧
          dequantize w.point.y Vec3.zero.c1 (1 / 100 : F64) ≤ t.header.max_y) ∧
        (t.header.min_z ≤ dequantize w.point.z Vec3.zero.c2 (1 / 100 : F64) ∧
          dequantize w.point.z Vec3.zero.c2 (1 / 100 : F64) ≤ t.header.max_z) :=
  header_box_encloses cScanf "xyzr".toList "xyzr".toList Vec3.zero
    ⟨1 / 100, 1 / 100, 1 / 100⟩ exampleLines Vars.zero Vec3.zero Vec3.zero
    (by decide) (by decide) (by decide!) (by decide!) (by decide!) (by decide!)

/-- Counterexample to C34 as stated: under "xyz" with scale 1 and offset 0 the
lines "0 0 0" and "3000000000 0 0" give a maximum whose quotient is beyond the
range of `int`; the header holds min x = 0 and max x = -2147483648, and the
first written point (x = 0) lies above that maximum.  Under the scale 0.1 the
lines "0 0 0" and "214748364.74999999 0 0" do the same: the quotient, below
2147483647.5 when computed exactly, is rounded to 2147483647.5, and the sum
with 0.5 is beyond the range of `int`. -/
theorem header_box_counterexample :
    (twoPass cScanf "xyz".toList Vec3.zero ⟨1, 1, 1⟩ (linesOf ["0 0 0", "3000000000 0 0"])
        (Main.start Vars.zero Vec3.zero Vec3.zero)).result.map
      (fun t => (t.header.min_x, t.header.max_x, t.written.map (fun w => w.point.x)))
      = some (0, -2147483648, [0, -2147483648]) ∧
    ¬ (dequantize 0 0 1 ≤ (-2147483648 : F64)) ∧
    (twoPass cScanf "xyz".toList Vec3.zero ⟨1 / 10, 1 / 10, 1 / 10⟩
        (linesOf ["0 0 0", "214748364.74999999 0 0"])
        (Main.start Vars.zero Vec3.zero Vec3.zero)).result.map
      (fun t => (t.header.min_x,
        decide (t.header.max_x < 0), t.written.map (fun w => w.point.x)))
      = some (0, true, [0, -2147483648]) ∧
    ¬ (dequantize 0 0 (1 / 10) ≤ dequantize (-2147483648) 0 (1 / 10)) := by
  refine ⟨by decide!, by decide!, by decide!, by decide!⟩

/-! ## The sign-flip condition -/

/-- C35 (as amended): the sign-flip condition `(a) !=0==! (b)` is the
exclusive or of the comparisons `original > 0` and `dequantized > 0`.  In the
two-pass strategy with offset 0 and a finite scale > 0 the warning is never
issued for a bound `v ≤ 0`; and for a bound `v` that, like the scale, is a
`double`, and for which the cast of the quantizer is defined (the sum handed
to it is in the range of a 32-bit signed integer), it is issued if and only
if `0 < v` and `v/scale ≤ 1/2 - 3*2^-55`, which is the midpoint of the two
`double`s just below `1/2`: up to it the quotient and its sum with `0.5` are
computed to values below 1, above it the sum is rounded to 1 or more. -/
theorem sign_flip_condition (v scale : ℚ) (hs : 0 < scale) :
    (∀ a b : Bool, log_xor a b = xor a b) ∧
    (∀ m : Main, twoPassSignFlips m ⟨0, 0, 0⟩ ⟨F64.fin scale, F64.fin scale, F64.fin scale⟩ =
      [signFlip m.xyz_min.c0
         (dequantize (quantize m.xyz_min.c0 0 (F64.fin scale)) 0 (F64.fin scale)),
       signFlip m.xyz_max.c0
         (dequantize (quantize m.xyz_max.c0 0 (F64.fin scale)) 0 (F64.fin scale)),
       signFlip m.xyz_min.c1
         (dequantize (quantize m.xyz_min.c1 0 (F64.fin scale)) 0 (F64.fin scale)),
       signFlip m.xyz_max.c1
         (dequantize (quantize m.xyz_max.c1 0 (F64.fin scale)) 0 (F64.fin scale)),
       signFlip m.xyz_min.c2
         (dequantize (quantize m.xyz_min.c2 0 (F64.fin scale)) 0 (F64.fin scale)),
       signFlip m.xyz_max.c2
         (dequantize (quantize m.xyz_max.c2 0 (F64.fin scale)) 0 (F64.fin scale))]) ∧
    (v ≤ 0 →
      signFlip (F64.fin v) (dequantize (quantize (F64.fin v) 0 (F64.fin scale)) 0 (F64.fin scale))
        = false) ∧
    ((F64.fin v).IsDouble → (F64.fin scale).IsDouble →
      (quantizeSum (F64.fin v) 0 (F64.fin scale)).InIntRange →
      (signFlip (F64.fin v)
          (dequantize (quantize (F64.fin v) 0 (F64.fin scale)) 0 (F64.fin scale)) = true ↔
        0 < v ∧ v / scale ≤ 1 / 2 - 3 / 2 ^ 55)) := by
  obtain ⟨hneg, hflip, hnone⟩ := signFlip_offset_zero v scale hs
  refine ⟨log_xor_eq_xor, fun m => rfl, hneg, ?_⟩
  intro hd hsd hfit
  constructor
  · intro h
    rcases le_or_lt v 0 with hv | hv
    · rw [hneg hv] at h
      cases h
    · refine ⟨hv, ?_⟩
      by_contra hc
      rw [hnone hd hsd (not_le.1 hc) hfit] at h
      cases h
  · rintro ⟨hv, hq⟩
    exact hflip hd hv hq

/-- Witness of C35 (as amended) at scale 1: the `double` nearest to 0.3 flips,
the bounds 0.5 and -0.3 and the `double` just below 0.5 do not. -/
theorem sign_flip_condition_witness :
    (signFlip (F64.fin (roundBinary64 (3 / 10)))
        (dequantize (quantize (F64.fin (roundBinary64 (3 / 10))) 0 (F64.fin 1)) 0 (F64.fin 1))
          = true ↔
      (0 : ℚ) < roundBinary64 (3 / 10) ∧ roundBinary64 (3 / 10) / 1 ≤ 1 / 2 - 3 / 2 ^ 55) ∧
    signFlip (3 / 10) (dequantize (quantize (3 / 10) 0 1) 0 1) = true ∧
    signFlip (1 / 2) (dequantize (quantize (1 / 2) 0 1) 0 1) = false ∧
    signFlip (-3 / 10) (dequantize (quantize (-3 / 10) 0 1) 0 1) = false ∧
    signFlip (F64.fin (1 / 2 - 1 / 2 ^ 54))
      (dequantize (quantize (F64.fin (1 / 2 - 1 / 2 ^ 54)) 0 1) 0 1) = false :=
  ⟨(sign_flip_condition (roundBinary64 (3 / 10)) 1 (by norm_num)).2.2.2
      (by decide!) (by decide!) (by decide!),
   by decide!, by decide!, by decide!, by decide!⟩

/-- Counterexample to C35 as stated: with scale 1 and offset 0 the bound
3000000000, which is far above scale/2, has a quotient beyond the range of
`int`; it is quantized to -2147483648 and the sign-flip condition holds.  And
the `double` just below 0.5, a bound with `0 < v < scale/2` whose quotient is
in the range of `int`, is quantized to 1 and dequantized to 1.0, so that the
condition does not hold. -/
theorem sign_flip_condition_counterexample :
    quantize 3000000000 0 1 = -2147483648 ∧
    signFlip 3000000000 (dequantize (quantize 3000000000 0 1) 0 1) = true ∧
    ¬ ((0 : ℚ) < 3000000000 ∧ (3000000000 : ℚ) < 1 / 2) ∧
    (F64.fin (1 / 2 - 1 / 2 ^ 54)).IsDouble ∧
    (quantizeSum (F64.fin (1 / 2 - 1 / 2 ^ 54)) 0 1).InIntRange ∧
    ((0 : ℚ) < 1 / 2 - 1 / 2 ^ 54 ∧ (1 / 2 - 1 / 2 ^ 54 : ℚ) < 1 / 2) ∧
    quantize (F64.fin (1 / 2 - 1 / 2 ^ 54)) 0 1 = 1 ∧
    signFlip (F64.fin (1 / 2 - 1 / 2 ^ 54))
      (dequantize (quantize (F64.fin (1 / 2 - 1 / 2 ^ 54)) 0 1) 0 1) = false := by
  refine ⟨by decide!, by decide!, by norm_num, by decide!, by decide!, by norm_num,
    by decide!, by decide!⟩

/-! ## Trimming keeps the number and stays inside the buffer -/

theorem digits_no_point (frac : List Char)
    (hf : ∀ c ∈ frac, ∃ d, d < 10 ∧ c = digitChar d) : '.' ∉ frac := by
  intro h
  obtain ⟨d, hd, e⟩ := hf _ h
  exact (digitChar_facts d hd).2.2.2.2.2.2.2.2 e.symm

/-- The concrete `%f` prints, for a finite value, an optional minus sign, one
or more digits, the decimal point and six digits. -/
theorem cSprintf_shape (v : ℚ) :
    ∃ (neg : Bool) (whole frac : List Char),
      cSprintf (F64.fin v) = (if neg then ['-'] else []) ++ (whole ++ '.' :: frac) ∧
      IsDecimal whole ∧ (∀ c ∈ frac, ∃ d, d < 10 ∧ c = digitChar d) ∧ frac.length = 6 := by
  obtain ⟨m, hm⟩ : ∃ m, m = (roundHalfEven (|v| * 1000000)).toNat := ⟨_, rfl⟩
  have hr : m % 1000000 < 1000000 := Nat.mod_lt _ (by norm_num)
  obtain ⟨_, s2, s3⟩ := sixDigits_spec (m % 1000000) hr
  obtain ⟨p1, _⟩ := printNat_spec (m / 1000000)
  refine ⟨decide (v < 0), printNat (m / 1000000), sixDigits (m % 1000000), ?_, p1, s3, s2⟩
  show fixedSix v = _
  unfold fixedSix
  rw [← hm]
  by_cases h : v < 0
  · simp [h]
  · simp [h]

/-- The string that the single-value `lidardouble2string` leaves denotes the
number of the rendering it was made from. -/
theorem trimming_value_of_shape (sprintf_f : F64 → List Char) (value : F64) (neg : Bool)
    (whole frac : List Char)
    (h : sprintf_f value = (if neg then ['-'] else []) ++ (whole ++ '.' :: frac))
    (hw : IsDecimal whole) (hf : ∀ c ∈ frac, ∃ d, d < 10 ∧ c = digitChar d)
    (hne : frac ≠ []) :
    ∃ text len, lidardouble2string sprintf_f value = some (text, len) ∧
      scanDouble text = scanDouble (sprintf_f value) ∧
      scanDouble (sprintf_f value) = some ((if neg then -1 else 1) *
        ((digitsValue (whole ++ frac) : ℚ) / (10 : ℚ) ^ frac.length)) := by
  have h2 : sprintf_f value = ((if neg then ['-'] else []) ++ whole) ++ '.' :: frac := by
    rw [h, List.append_assoc]
  have e1 := lidardouble2string_canonical sprintf_f value _ frac h2 (digits_no_point frac hf)
  have e2 := canonicalText_value neg whole frac hw hf
  have e3 := scanDouble_signed neg whole frac hw hf
  rw [if_neg hne, ← h] at e3
  exact ⟨_, _, e1, e2.trans e3.symm, e3⟩

/-- C36: trimming does not change the number denoted.  For every rendering of
the form that six-decimal fixed notation has (optional minus sign, one or more
digits, decimal point, one or more digits), the string that the single-value
`lidardouble2string` leaves, read as a decimal number, is the number the
untrimmed rendering denotes. -/
theorem trimming_keeps_value (sprintf_f : F64 → List Char) (value : F64) (neg : Bool)
    (whole frac : List Char)
    (h : sprintf_f value = (if neg then ['-'] else []) ++ (whole ++ '.' :: frac))
    (hw : IsDecimal whole) (hf : ∀ c ∈ frac, ∃ d, d < 10 ∧ c = digitChar d)
    (hne : frac ≠ []) :
    ∃ text len, lidardouble2string sprintf_f value = some (text, len) ∧
      scanDouble text = scanDouble (sprintf_f value) ∧
      scanDouble (sprintf_f value) = some ((if neg then -1 else 1) *
        ((digitsValue (whole ++ frac) : ℚ) / (10 : ℚ) ^ frac.length)) :=
  trimming_value_of_shape sprintf_f value neg whole frac h hw hf hne

/-- Witness of C36: 100.0 is rendered "100.000000" and trimmed to "100", and
0.0000001 is rendered "0.000000" and trimmed to "0". -/
theorem trimming_keeps_value_witness :
    (∃ text len, lidardouble2string cSprintf 100 = some (text, len) ∧
      scanDouble text = scanDouble (cSprintf 100) ∧
      scanDouble (cSprintf 100) = some ((if false then -1 else 1) *
        ((digitsValue (printNat 100 ++ sixDigits 0) : ℚ)
          / (10 : ℚ) ^ (sixDigits 0).length))) ∧
    cSprintf 100 = "100.000000".toList ∧
    lidardouble2string cSprintf 100 = some ("100".toList, 3) ∧
    scanDouble "100".toList = some 100 ∧ scanDouble (cSprintf 100) = some 100 ∧
    cSprintf (1 / 10000000) = "0.000000".toList ∧
    lidardouble2string cSprintf (1 / 10000000) = some ("0".toList, 1) ∧
    scanDouble (cSprintf (1 / 10000000)) = some 0 :=
  ⟨trimming_keeps_value cSprintf 100 false (printNat 100) (sixDigits 0) (by decide!)
      (printNat_spec 100).1 (sixDigits_spec 0 (by decide)).2.2 (by decide),
   by decide!, by decide!, by decide!, by decide!, by decide!, by decide!, by decide!⟩

/-- With the concrete `%f`, for every finite value the trimmed text denotes
the number the untrimmed rendering denotes. -/
theorem cSprintf_trimming_keeps_value (v : ℚ) :
    ∃ text len w, lidardouble2string cSprintf (F64.fin v) = some (text, len) ∧
      scanDouble text = some w ∧ scanDouble (cSprintf (F64.fin v)) = some w := by
  obtain ⟨neg, whole, frac, h, hw, hf, h6⟩ := cSprintf_shape v
  have hne : frac ≠ [] := by
    intro e
    rw [e] at h6
    cases h6
  obtain ⟨text, len, h1, h2, h3⟩ :=
    trimming_value_of_shape cSprintf (F64.fin v) neg whole frac h hw hf hne
  exact ⟨text, len, _, h1, h2.trans h3, h3⟩

/-- The canonical text of a rendering `pre.frac` whose part in front of the
point ends in a digit: it is not empty and ends neither in the point nor, when
a fraction is left, in `0`. -/
theorem canonicalText_end (pre frac : List Char) (hpre : pre ≠ [])
    (hlast : pre.getLast hpre ≠ '.')
    (hf : ∀ c ∈ frac, ∃ d, d < 10 ∧ c = digitChar d) :
    canonicalText pre frac ≠ [] ∧
    (canonicalText pre frac).getLast? ≠ some '.' ∧
    (pre.length < (canonicalText pre frac).length →
      (canonicalText pre frac).getLast? ≠ some '0') := by
  unfold canonicalText
  by_cases ht : withoutTrailingZeros frac = []
  · rw [if_pos ht]
    refine ⟨hpre, ?_, fun h => absurd h (lt_irrefl _)⟩
    rw [List.getLast?_eq_getLast _ hpre]
    intro h
    exact hlast (Option.some.inj h)
  · rw [if_neg ht]
    have hne : pre ++ '.' :: withoutTrailingZeros frac ≠ [] := by simp
    have hl : (pre ++ '.' :: withoutTrailingZeros frac).getLast hne
        = (withoutTrailingZeros frac).getLast ht := by
      rw [List.getLast_append_of_ne_nil (by simp), List.getLast_cons ht]
    have hnp : (withoutTrailingZeros frac).getLast ht ≠ '.' := by
      intro hc
      exact digits_no_point frac hf
        (withoutTrailingZeros_mem frac '.' (hc ▸ List.getLast_mem ht))
    refine ⟨hne, ?_, fun _ => ?_⟩
    · rw [List.getLast?_eq_getLast _ hne, hl]
      intro h
      exact hnp (Option.some.inj h)
    · rw [List.getLast?_eq_getLast _ hne, hl]
      intro h
      exact withoutTrailingZeros_last frac ht (Option.some.inj h)

/-- C37: for every string of the form that six-decimal fixed notation
produces (optional minus sign, one or more digits, decimal point, digits), the
zero-stripping loop of `lidardouble2string` stops at or behind the decimal
point, so it does not read in front of the buffer; the string left is not
empty and ends neither in the decimal point nor in a `0` of the fraction, and
the returned integer is its length.  The same holds for the loops of the
three-value overload, where the string stands behind the text written so far
(`front`). -/
theorem strip_loop_stays_inside (neg : Bool) (whole frac front : List Char)
    (hw : IsDecimal whole) (hf : ∀ c ∈ frac, ∃ d, d < 10 ∧ c = digitChar d) :
    ∃ j len,
      backOverZeros ((if neg then ['-'] else []) ++ (whole ++ '.' :: frac))
        (((if neg then ['-'] else []) ++ (whole ++ '.' :: frac)).length - 1) = some j ∧
      ((if neg then ['-'] else []) ++ whole).length ≤ j ∧
      stripZeros ((if neg then ['-'] else []) ++ (whole ++ '.' :: frac)) = some len ∧
      stripZeros (front ++ ((if neg then ['-'] else []) ++ (whole ++ '.' :: frac)))
        = some (front.length + len) ∧
      (((if neg then ['-'] else []) ++ (whole ++ '.' :: frac)).take len).length = len ∧
      ((if neg then ['-'] else []) ++ (whole ++ '.' :: frac)).take len ≠ [] ∧
      (((if neg then ['-'] else []) ++ (whole ++ '.' :: frac)).take len).getLast? ≠ some '.' ∧
      (((if neg then ['-'] else []) ++ whole).length < len →
        (((if neg then ['-'] else []) ++ (whole ++ '.' :: frac)).take len).getLast?
          ≠ some '0') ∧
      ∀ (sprintf_f : F64 → List Char) (value : F64),
        sprintf_f value = (if neg then ['-'] else []) ++ (whole ++ '.' :: frac) →
        lidardouble2string sprintf_f value
          = some (((if neg then ['-'] else []) ++ (whole ++ '.' :: frac)).take len, len) := by
  obtain ⟨pre, hpre_def⟩ : ∃ pre, pre = (if neg then ['-'] else []) ++ whole := ⟨_, rfl⟩
  obtain ⟨string, hs_def⟩ : ∃ string,
      string = (if neg then ['-'] else []) ++ (whole ++ '.' :: frac) := ⟨_, rfl⟩
  have hs2 : string = pre ++ '.' :: frac := by
    rw [hs_def, hpre_def, List.append_assoc]
  rw [← hs_def, ← hpre_def]
  have hpre : pre ≠ [] := by
    rw [hpre_def]
    intro h
    exact hw.1 (List.append_eq_nil.1 h).2
  have hlast : pre.getLast hpre ≠ '.' := by
    have e : pre.getLast hpre = whole.getLast hw.1 := by
      subst hpre_def
      exact List.getLast_append_of_ne_nil hw.1
    rw [e]
    obtain ⟨d, hd, e2⟩ := hw.2 _ (List.getLast_mem hw.1)
    rw [e2]
    exact (digitChar_facts d hd).2.2.2.2.2.2.2.2
  have e1 := lidardouble2string_canonical (fun _ => string) 0 pre frac hs2
    (digits_no_point frac hf)
  obtain ⟨h1, h2⟩ := (lidardouble2string_some (fun _ => string) 0 _ _).1 e1

  obtain ⟨j, hj, hj0, hjz, hk⟩ := stripZeros_some string _ h1
  obtain ⟨c1, c2, c3⟩ := canonicalText_end pre frac hpre hlast hf
  have hdot : charAt string pre.length = '.' := by
    rw [hs2]
    have := charAt_append_right pre ('.' :: frac) 0
    rw [Nat.add_zero] at this
    rw [this]
    rfl
  have hlen : pre.length < string.length := by
    rw [hs2, List.length_append, List.length_cons]
    omega
  have hge : pre.length ≤ j := by
    by_contra hlt
    have := hjz pre.length (by omega) hlen
    rw [hdot] at this
    exact absurd this (by decide)
  refine ⟨j, (canonicalText pre frac).length, ?_, hge, h1, ?_, ?_, ?_, ?_, ?_, ?_⟩
  · exact backOverZeros_of string (string.length - 1) j (by omega) hj0
      (fun i hi hn => hjz i hi (by omega))
  · exact (stripZeros_append front string _ h1).1
  · rw [← h2]
  · rw [← h2]
    exact c1
  · rw [← h2]
    exact c2
  · rw [← h2]
    exact c3
  · intro sprintf_f value hv
    rw [lidardouble2string_some, hv, ← h2]
    exact ⟨h1, rfl⟩

/-- Witness of C37: the string "-100.250000" is stripped to "-100.25" with the
returned length 7, and "2.000000" to "2". -/
theorem strip_loop_stays_inside_witness :
    (∃ j len,
      backOverZeros ((if true then ['-'] else []) ++ (printNat 100 ++ '.' :: sixDigits 250000))
        (((if true then ['-'] else []) ++ (printNat 100 ++ '.' :: sixDigits 250000)).length - 1)
        = some j ∧
      ((if true then ['-'] else []) ++ printNat 100).length ≤ j ∧
      stripZeros ((if true then ['-'] else []) ++ (printNat 100 ++ '.' :: sixDigits 250000))
        = some len) ∧
    (if true then ['-'] else []) ++ (printNat 100 ++ '.' :: sixDigits 250000)
      = "-100.250000".toList ∧
    backOverZeros "-100.250000".toList 10 = some 6 ∧
    stripZeros "-100.250000".toList = some 7 ∧
    stripZeros "2.000000".toList = some 1 ∧
    stripZeros ("1.5 ".toList ++ "2.000000".toList) = some 5 :=
  ⟨(fun h => match h with
      | ⟨j, len, h1, h2, h3, _⟩ => ⟨j, len, h1, h2, h3⟩)
      (strip_loop_stays_inside true (printNat 100) (sixDigits 250000) []
        (printNat_spec 100).1 (sixDigits_spec 250000 (by decide)).2.2),
   by decide, by decide, by decide, by decide, by decide⟩

end Las2Txt
